import Mathlib

/-!
# libCEED basis kernels: tensor contraction and sum factorisation

A shallow embedding of

* `CeedTensorContract_Opt` and `CeedBasisApply_Opt`
  (`backends/optimized/ceed-opt-basis.c`),
* the reference CUDA kernels `interp`, `grad` and `weight`, the register
  kernel `interp` with its device functions `Contract` and `ContractTranspose`,
  the functions `CeedBasisApply_Cuda` and `CeedBasisApply_Cuda_3dreg`, and
  the kernel handles that `CeedBasisCreateTensorH1_Cuda` sets
  (`backends/cuda/ceed-cuda-basis.c`),
* the restriction kernels `noTrNoTr`, `noTrTr`, `trNoTr` and `trTr`
  (`backends/cuda/ceed-cuda-restriction.c`), and
* the QFunction `NS` (`examples/navier-stokes/ns.h`),

followed by the proofs of the properties claimed of them.

Conventions of the embedding.

* Scalars (`CeedScalar`) are elements of an arbitrary commutative ring `R`, or
  of an arbitrary field `F` where the code divides scalars (`NS`): arithmetic
  is exact.
* A pointer to scalars is a function `Nat → R` giving the value stored at each
  offset from the pointer; `p + off` is `fun i => p (off + i)`.
* Sizes and indices (`CeedInt`) are natural numbers; signed overflow is
  undefined in C and is not modelled. A division `pre /= P` is only meaningful
  for `P > 0`, which the theorems assume where the code divides.
* A `for` loop is a fold of its body over the iteration numbers (`forLoop`).
* A function that returns a status and writes through a pointer returns the
  pair of the status and the final contents of the written buffer.
* A CUDA kernel is run block by block; inside a block, the code between two
  barriers is run thread by thread. The orders of the blocks and of the
  threads are arguments of the embedding.
-/

namespace Ceed

/-! ## Loops and stores -/

/-- The loop `for (i = 0; i < n; i++) s = body i s`. -/
def forLoop {σ : Type} (body : Nat → σ → σ) : Nat → σ → σ
  | 0, s => s
  | n + 1, s => body n (forLoop body n s)

/-- The loop `for (i = 0; i < n; i += step) s = body i s`, which runs
`⌈n / step⌉` times. -/
def forStep {σ : Type} (step n : Nat) (body : Nat → σ → σ) (s : σ) : σ :=
  forLoop (fun i => body (i * step)) ((n + step - 1) / step) s

/-- The assignment `p[k] = x`. -/
def store {R : Type} (p : Nat → R) (k : Nat) (x : R) : Nat → R :=
  fun i => if i = k then x else p i

/-- The accumulation `vk = 0; for (b = 0; b < n; b++) vk += f b`. -/
def accum {R : Type} [CommRing R] (n : Nat) (f : Nat → R) : R :=
  forLoop (fun b vk => vk + f b) n 0

/-! ## Library pieces declared outside the translated files -/

/-- Modelled from the spec: `CeedError` (declared in `ceed-impl.h`, not part of
the translated sources) reports a configuration error to the caller; the call is
rejected with the non-zero error code it is given. -/
def CeedError (ecode : Int) : Int := ecode

/-- Modelled from the spec: `CeedPowInt` (declared in `ceed-impl.h`, not part of
the translated sources) is the integer power, as in the sizes `Q1d^dim`. -/
def CeedPowInt (base power : Nat) : Nat := base ^ power

/-- The C enumeration `CeedTransposeMode`. -/
inductive CeedTransposeMode where
  | CEED_NOTRANSPOSE
  | CEED_TRANSPOSE
  deriving DecidableEq, Repr

/-- The C enumeration `CeedEvalMode`. -/
inductive CeedEvalMode where
  | CEED_EVAL_NONE
  | CEED_EVAL_INTERP
  | CEED_EVAL_GRAD
  | CEED_EVAL_DIV
  | CEED_EVAL_CURL
  | CEED_EVAL_WEIGHT
  deriving DecidableEq, Repr

open CeedTransposeMode CeedEvalMode

/-! ## `CeedTensorContract_Opt` -/

/-- A 256-bit register `__m256d`: four lanes of scalars. -/
abbrev M256d (R : Type) := Nat → R

/-- The unaligned load of the four scalars `p[i], .., p[i+3]`. -/
def _mm256_loadu_pd {R : Type} (p : Nat → R) (i : Nat) : M256d R :=
  fun l => p (i + l)

/-- The unaligned store of the four lanes of `x` to `p[i], .., p[i+3]`. -/
def _mm256_storeu_pd {R : Type} (p : Nat → R) (i : Nat) (x : M256d R) : Nat → R :=
  fun k => if i ≤ k ∧ k < i + 4 then x (k - i) else p k

/-- The register tile `__m256d vv[JJ][CC/4]`. -/
abbrev Tile (R : Type) := Nat → Nat → M256d R

/-- The assignment `vv[jj][cc] = x`. -/
def setTile {R : Type} (vv : Tile R) (jj cc : Nat) (x : M256d R) : Tile R :=
  fun a b => if a = jj ∧ b = cc then x else vv a b

/-- Lines 50-52: the output tile is loaded into registers. -/
def loadTile {R : Type} (JJ CC : Nat) (C J a j c : Nat) (v : Nat → R) (vv : Tile R) : Tile R :=
  forLoop (fun jj vv =>
    forLoop (fun cc vv =>
      setTile vv jj cc (_mm256_loadu_pd v ((a * J + j + jj) * C + c + cc * 4)))
      (CC / 4) vv) JJ vv

/-- Lines 54-61: the reduction over `b`, with the tile kept in registers. -/
def fmaTile {R : Type} [CommRing R] (JJ CC : Nat) (B C a j c : Nat) (tstride0 tstride1 : Nat)
    (t u : Nat → R) (vv : Tile R) : Tile R :=
  forLoop (fun b vv =>
    forLoop (fun jj vv =>
      let tq := t ((j + jj) * tstride0 + b * tstride1)
      forLoop (fun cc vv =>
        setTile vv jj cc
          (fun l => vv jj cc l + tq * _mm256_loadu_pd u ((a * B + b) * C + c + cc * 4) l))
        (CC / 4) vv) JJ vv) B vv

/-- Lines 63-65: the tile is written back. -/
def storeTile {R : Type} (JJ CC : Nat) (C J a j c : Nat) (vv : Tile R) (v : Nat → R) : Nat → R :=
  forLoop (fun jj v =>
    forLoop (fun cc v =>
      _mm256_storeu_pd v ((a * J + j + jj) * C + c + cc * 4) (vv jj cc))
      (CC / 4) v) JJ v

/-- The body of the loop nest of lines 46-69 for one tile `(a, j, c)`. The
registers hold no defined value before they are loaded; they start as zero
here, and every register is loaded before it is used. -/
def tileBody {R : Type} [CommRing R] (JJ CC : Nat) (B C J : Nat) (tstride0 tstride1 : Nat)
    (t u : Nat → R) (a j c : Nat) (v : Nat → R) : Nat → R :=
  let vv0 : Tile R := loadTile JJ CC C J a j c v (fun _ _ _ => 0)
  let vv1 : Tile R := fmaTile JJ CC B C a j c tstride0 tstride1 t u vv0
  storeTile JJ CC C J a j c vv1 v

/-- The function `CeedTensorContract_Opt` (lines 26-71): the returned pair is
the status and the final contents of `v`. -/
def CeedTensorContract_Opt {R : Type} [CommRing R] (A B C J : Nat) (t : Nat → R)
    (tmode : CeedTransposeMode) (Add : Int) (u v : Nat → R) : Int × (Nat → R) :=
  let tstride0 := if tmode = CEED_TRANSPOSE then 1 else B
  let tstride1 := if tmode = CEED_TRANSPOSE then J else 1
  let JJ := 4
  let CC := 8
  if C % CC ≠ 0 then (CeedError 2, v)
  else if J % JJ ≠ 0 then (CeedError 2, v)
  else
    let v0 := if Add = 0 then forLoop (fun q v => store v q 0) (A * J * C) v else v
    let v1 :=
      forLoop (fun a v =>
        forStep JJ J (fun j v =>
          forStep CC C (fun c v =>
            tileBody JJ CC B C J tstride0 tstride1 t u a j c v) v) v) A v0
    (0, v1)

/-! ## `CeedBasisApply_Opt` -/

/-- The fields of `CeedBasis` read by the basis kernels, together with the
backend data `impl->colograd1d` of `CeedBasis_Opt`. -/
structure CeedBasis (R : Type) where
  dim : Nat
  ncomp : Nat
  P1d : Nat
  Q1d : Nat
  interp1d : Nat → R
  grad1d : Nat → R
  qweight1d : Nat → R
  colograd1d : Nat → R

/-- The arrays a contraction of `CeedBasisApply_Opt` can write to: one half of
the local `tmp[2][..]`, the local `interp[..]`, or the caller's `v + off`. -/
inductive OptBuf where
  | tmp (i : Nat)
  | interp
  | v (off : Nat)

/-- The variables of `CeedBasisApply_Opt` that change while it runs. -/
structure OptState (R : Type) where
  ierr : Int
  pre : Nat
  post : Nat
  tmp : Nat → Nat → R
  interp : Nat → R
  v : Nat → R

/-- The contents seen through a destination pointer. -/
def OptState.get {R : Type} (s : OptState R) : OptBuf → Nat → R
  | OptBuf.tmp i => s.tmp i
  | OptBuf.interp => s.interp
  | OptBuf.v off => fun k => s.v (off + k)

/-- The state after the array behind a destination pointer has become `w`. -/
def OptState.set {R : Type} (s : OptState R) (b : OptBuf) (w : Nat → R) : OptState R :=
  match b with
  | OptBuf.tmp i => { s with tmp := fun x => if x = i then w else s.tmp x }
  | OptBuf.interp => { s with interp := w }
  | OptBuf.v off => { s with v := fun k => if k < off then s.v k else w (k - off) }

/-- One iteration of a contraction loop of `CeedBasisApply_Opt`:
`ierr = CeedTensorContract_Opt(ceed, pre, P, post, Q, t, tmode, Add, inp, out);
CeedChk(ierr); pre /= P; post *= Q;`. Once `ierr` is non-zero the function has
returned and nothing further runs. -/
def optStep {R : Type} [CommRing R] (P Q : Nat) (t : Nat → R) (tmode : CeedTransposeMode)
    (Add : Int) (inp : Nat → R) (out : OptBuf) (s : OptState R) : OptState R :=
  if s.ierr ≠ 0 then s
  else
    let r := CeedTensorContract_Opt s.pre P s.post Q t tmode Add inp (s.get out)
    let s1 := s.set out r.2
    if r.1 ≠ 0 then { s1 with ierr := r.1 }
    else { s1 with pre := s1.pre / P, post := s1.post * Q }

/-- The branch `case CEED_EVAL_INTERP` (lines 93-108). -/
def applyInterp_Opt {R : Type} [CommRing R] (basis : CeedBasis R) (nelem : Nat)
    (tmode : CeedTransposeMode) (add : Int) (u : Nat → R) (s : OptState R) : OptState R :=
  let dim := basis.dim
  let P := if tmode = CEED_TRANSPOSE then basis.Q1d else basis.P1d
  let Q := if tmode = CEED_TRANSPOSE then basis.P1d else basis.Q1d
  let s0 := { s with pre := basis.ncomp * CeedPowInt P (dim - 1), post := nelem }
  forLoop (fun d s =>
    optStep P Q basis.interp1d tmode (if add ≠ 0 ∧ d = dim - 1 then 1 else 0)
      (if d = 0 then u else s.tmp (d % 2))
      (if d = dim - 1 then OptBuf.v 0 else OptBuf.tmp ((d + 1) % 2)) s) dim s0

/-- The branch `case CEED_EVAL_GRAD` (lines 109-163). -/
def applyGrad_Opt {R : Type} [CommRing R] (basis : CeedBasis R) (nelem : Nat)
    (tmode : CeedTransposeMode) (add : Int) (u : Nat → R) (s : OptState R) : OptState R :=
  let dim := basis.dim
  let ncomp := basis.ncomp
  let nqpt := CeedPowInt basis.Q1d dim
  let P := if tmode = CEED_TRANSPOSE then basis.Q1d else basis.P1d
  let Q := basis.Q1d
  let s0 := { s with pre := ncomp * CeedPowInt P (dim - 1), post := nelem }
  let s1 :=
    forLoop (fun d s =>
      optStep P Q
        (if tmode = CEED_NOTRANSPOSE then basis.interp1d else basis.colograd1d)
        tmode (if add ≠ 0 ∧ 0 < d then 1 else 0)
        (if tmode = CEED_NOTRANSPOSE then (if d = 0 then u else s.tmp (d % 2))
         else fun i => u (d * nqpt * ncomp * nelem + i))
        (if tmode = CEED_NOTRANSPOSE then
           (if d = dim - 1 then OptBuf.interp else OptBuf.tmp ((d + 1) % 2))
         else OptBuf.interp) s) dim s0
  let P2 := basis.Q1d
  let Q2 := if tmode = CEED_TRANSPOSE then basis.P1d else basis.Q1d
  let s2 := { s1 with pre := ncomp * CeedPowInt P2 (dim - 1), post := nelem }
  forLoop (fun d s =>
    optStep P2 Q2
      (if tmode = CEED_NOTRANSPOSE then basis.colograd1d else basis.interp1d)
      tmode (if add ≠ 0 ∧ d = dim - 1 then 1 else 0)
      (if tmode = CEED_NOTRANSPOSE then s.interp
       else (if d = 0 then s.interp else s.tmp (d % 2)))
      (if tmode = CEED_NOTRANSPOSE then OptBuf.v (d * nqpt * ncomp * nelem)
       else (if d = dim - 1 then OptBuf.v 0 else OptBuf.tmp ((d + 1) % 2))) s) dim s2

/-- The length of the local array `interp` and of each half of the local array
`tmp` of the branch `case CEED_EVAL_GRAD` (lines 119 and 121):
`nelem*ncomp*Q*CeedPowInt(P>Q?P:Q, dim-1)` with `P` and `Q` as lines 114-117
leave them. -/
def gradScratchLen {R : Type} (basis : CeedBasis R) (nelem : Nat) (tmode : CeedTransposeMode) :
    Nat :=
  let P := if tmode = CEED_TRANSPOSE then basis.Q1d else basis.P1d
  let Q := basis.Q1d
  nelem * basis.ncomp * Q * CeedPowInt (if P > Q then P else Q) (basis.dim - 1)

/-- The loop nest of `case CEED_EVAL_WEIGHT` (lines 168-179). -/
def applyWeight_Opt {R : Type} [CommRing R] (basis : CeedBasis R) (nelem : Nat)
    (v : Nat → R) : Nat → R :=
  let dim := basis.dim
  let Q := basis.Q1d
  forLoop (fun d v =>
    let pre := CeedPowInt Q (dim - d - 1)
    let post := CeedPowInt Q d
    forLoop (fun i v =>
      forLoop (fun j v =>
        forLoop (fun k v =>
          let w := basis.qweight1d j * (if d = 0 then 1 else v (((i * Q + j) * post + k) * nelem))
          forLoop (fun e v => store v (((i * Q + j) * post + k) * nelem + e) w) nelem v)
          post v) Q v) pre v) dim v

/-- The function `CeedBasisApply_Opt` (lines 73-189): the returned pair is the
status and the final contents of `v`. The local arrays `tmp` and `interp` are
not initialised by the C code; `stack 0`, `stack 1` are the values found in
`tmp[0]`, `tmp[1]` and `stack 2` those found in `interp`. Local arrays are
buffers without a length here: what the embedding computes is what the C code
computes as long as no contraction writes past the declared length. -/
def CeedBasisApply_Opt {R : Type} [CommRing R] (basis : CeedBasis R) (nelem : Nat)
    (tmode : CeedTransposeMode) (emode : CeedEvalMode) (stack : Nat → Nat → R)
    (u v : Nat → R) : Int × (Nat → R) :=
  let dim := basis.dim
  let ncomp := basis.ncomp
  let add : Int := if tmode = CEED_TRANSPOSE then 1 else 0
  let blksize := 8
  if nelem ≠ 1 ∧ nelem ≠ blksize then (CeedError 1, v)
  else
    let v1 :=
      if tmode = CEED_TRANSPOSE then
        forLoop (fun i v => store v i 0) (nelem * ncomp * CeedPowInt basis.P1d dim) v
      else v
    let s0 : OptState R :=
      { ierr := 0, pre := 0, post := 0, tmp := stack, interp := stack 2, v := v1 }
    match emode with
    | CEED_EVAL_INTERP =>
      let s := applyInterp_Opt basis nelem tmode add u s0
      (s.ierr, s.v)
    | CEED_EVAL_GRAD =>
      let s := applyGrad_Opt basis nelem tmode add u s0
      (s.ierr, s.v)
    | CEED_EVAL_WEIGHT =>
      if tmode = CEED_TRANSPOSE then (CeedError 1, v1)
      else (0, applyWeight_Opt basis nelem v1)
    | CEED_EVAL_DIV => (CeedError 1, v1)
    | CEED_EVAL_CURL => (CeedError 1, v1)
    | CEED_EVAL_NONE => (CeedError 1, v1)

/-! ## The reference CUDA kernels (`basiskernels`) -/

/-- Modelled from the spec: `CeedIntPow`, called when the kernel module is
compiled and not part of the translated sources, is the integer power, as in
the sizes `P1d^dim` and `Q1d^dim`. -/
def CeedIntPow (base power : Nat) : Nat := base ^ power

/-- The compile-time constants of the kernel module. -/
structure KernelDefs where
  Q1D : Nat
  P1D : Nat
  BASIS_BUF_LEN : Nat
  BASIS_DIM : Nat
  BASIS_NCOMP : Nat
  BASIS_ELEMSIZE : Nat
  BASIS_NQPT : Nat

/-- The constants that `CeedBasisCreateTensorH1_Cuda` hands to `compile`
(lines 358-366). -/
def kernelDefs (dim ncomp P1d Q1d : Nat) : KernelDefs :=
  { Q1D := Q1d
    P1D := P1d
    BASIS_BUF_LEN := ncomp * CeedIntPow (if Q1d > P1d then Q1d else P1d) dim
    BASIS_DIM := dim
    BASIS_NCOMP := ncomp
    BASIS_ELEMSIZE := CeedIntPow P1d dim
    BASIS_NQPT := CeedIntPow Q1d dim }

/-- The memory one thread block works on: its `__shared__` array `s_mem` and
the global output array `v`. -/
structure BlockState (R : Type) where
  s_mem : Nat → R
  v : Nat → R

/-- A pointer of a kernel: into `s_mem`, into the read-only global input `u`,
or into the global output `v`. -/
inductive Loc where
  | smem (off : Nat)
  | gin (off : Nat)
  | gout (off : Nat)

/-- The read `p[k]`. -/
def BlockState.load {R : Type} (st : BlockState R) (u : Nat → R) : Loc → Nat → R
  | Loc.smem off, k => st.s_mem (off + k)
  | Loc.gin off, k => u (off + k)
  | Loc.gout off, k => st.v (off + k)

/-- The write `p[k] = x`; the input `u` is `const` and is never written. -/
def BlockState.store {R : Type} (st : BlockState R) : Loc → Nat → R → BlockState R
  | Loc.smem off, k, x => { st with s_mem := Ceed.store st.s_mem (off + k) x }
  | Loc.gin _, _, _ => st
  | Loc.gout off, k, x => { st with v := Ceed.store st.v (off + k) x }

/-- The loop `for (k = i; k < n; k += blockDim) s = body k s` of thread `i`. -/
def strided {σ : Type} (i blockDim n : Nat) (body : Nat → σ → σ) (s : σ) : σ :=
  forLoop (fun t => body (i + t * blockDim)) ((n - i + blockDim - 1) / blockDim) s

/-- The threads of a block run the code between two barriers one after the
other, in the order `order`. -/
def runThreads {σ : Type} (order : List Nat) (code : Nat → σ → σ) (s : σ) : σ :=
  order.foldl (fun s i => code i s) s

/-- The value of `pre` in pass `d`: it starts as `pre0` and `pre /= P` has run
`d + 1` times. -/
def preAt (pre0 P d : Nat) : Nat := forLoop (fun _ pre => pre / P) (d + 1) pre0

/-- The value of `post` in pass `d`: it starts as `1` and `post *= Q` has run
`d` times. -/
def postAt (Q d : Nat) : Nat := forLoop (fun _ post => post * Q) d 1

/-- What thread `i` does in one pass (lines 59-70 of `interp`, 113-127 of
`grad`): every `blockDim`-th output entry `k` is the contraction of `op` with
`inp` along the axis of this pass. -/
def kernelPass {R : Type} [CommRing R] (P Q stride0 stride1 pre post : Nat)
    (op inp out : Loc) (accumulate : Bool) (u : Nat → R) (blockDim i : Nat)
    (st : BlockState R) : BlockState R :=
  let writeLen := pre * post * Q
  strided i blockDim writeLen (fun k st =>
    let c := k % post
    let j := (k / post) % Q
    let a := k / (post * Q)
    let vk := accum P (fun b =>
      st.load u op (j * stride0 + b * stride1) * st.load u inp ((a * P + b) * post + c))
    if accumulate then st.store out k (st.load u out k + vk) else st.store out k vk) st

namespace basiskernels

/-- One thread block of the kernel `interp` (lines 25-75). `sched n` is the
order in which the threads of the block run the code between barrier `n` and
the next one. The last pass of an element and the staging of the next element
of the same block are not separated by a barrier. -/
def interpBlock {R : Type} [CommRing R] (m : KernelDefs) (gridDim blockDim : Nat)
    (sched : Nat → List Nat) (nelem : Nat) (transpose : Int) (interp1d u : Nat → R)
    (blockIdx : Nat) (st : BlockState R) : BlockState R :=
  let s_interp1d := 0
  let s_buf1 := m.Q1D * m.P1D
  let s_buf2 := s_buf1 + m.BASIS_BUF_LEN
  let P := if transpose ≠ 0 then m.Q1D else m.P1D
  let Q := if transpose ≠ 0 then m.P1D else m.Q1D
  let stride0 := if transpose ≠ 0 then 1 else m.P1D
  let stride1 := if transpose ≠ 0 then m.P1D else 1
  let u_stride := m.BASIS_NCOMP * (if transpose ≠ 0 then m.BASIS_NQPT else m.BASIS_ELEMSIZE)
  let v_stride := m.BASIS_NCOMP * (if transpose ≠ 0 then m.BASIS_ELEMSIZE else m.BASIS_NQPT)
  let nIter := (nelem - blockIdx + gridDim - 1) / gridDim
  let stage := fun (elem i : Nat) (st : BlockState R) =>
    strided i blockDim u_stride
      (fun k st => st.store (Loc.smem s_buf1) k (st.load u (Loc.gin (elem * u_stride)) k)) st
  let st0 := runThreads (sched 0) (fun i st =>
    let st1 := strided i blockDim (m.Q1D * m.P1D)
      (fun k st => st.store (Loc.smem s_interp1d) k (interp1d k)) st
    if 0 < nIter then stage blockIdx i st1 else st1) st
  forLoop (fun n st =>
    let elem := blockIdx + n * gridDim
    forLoop (fun d st =>
      let inp := if d % 2 = 1 then Loc.smem s_buf2 else Loc.smem s_buf1
      let out := if d = m.BASIS_DIM - 1 then Loc.gout (elem * v_stride)
        else (if d % 2 = 1 then Loc.smem s_buf1 else Loc.smem s_buf2)
      runThreads (sched (1 + n * m.BASIS_DIM + d)) (fun i st =>
        let st1 := kernelPass P Q stride0 stride1 (preAt u_stride P d) (postAt Q d)
          (Loc.smem s_interp1d) inp out false u blockDim i st
        if d = m.BASIS_DIM - 1 ∧ n + 1 < nIter then stage (elem + gridDim) i st1 else st1) st)
      m.BASIS_DIM st) nIter st0

/-- The kernel `interp` launched on `gridDim` blocks of `blockDim` threads: the
final contents of `v`. Blocks share no memory; they run one after the other in
the order `blockOrder`, block `b` finding `smem0 b` in its shared memory. -/
def interp {R : Type} [CommRing R] (m : KernelDefs) (gridDim blockDim : Nat)
    (blockOrder : List Nat) (sched : Nat → Nat → List Nat) (smem0 : Nat → Nat → R)
    (nelem : Nat) (transpose : Int) (interp1d u v : Nat → R) : Nat → R :=
  blockOrder.foldl (fun v b =>
    (interpBlock m gridDim blockDim (sched b) nelem transpose interp1d u b
      { s_mem := smem0 b, v := v }).v) v

/-- One thread block of the kernel `grad` (lines 77-138). Every pass starts
with a barrier, so each pass is run by all threads before the next starts. -/
def gradBlock {R : Type} [CommRing R] (m : KernelDefs) (gridDim blockDim : Nat)
    (sched : Nat → List Nat) (nelem : Nat) (transpose : Int) (interp1d grad1d u : Nat → R)
    (blockIdx : Nat) (st : BlockState R) : BlockState R :=
  let s_interp1d := 0
  let s_grad1d := s_interp1d + m.Q1D * m.P1D
  let s_buf1 := s_grad1d + m.Q1D * m.P1D
  let s_buf2 := s_buf1 + m.BASIS_BUF_LEN
  let P := if transpose ≠ 0 then m.Q1D else m.P1D
  let Q := if transpose ≠ 0 then m.P1D else m.Q1D
  let stride0 := if transpose ≠ 0 then 1 else m.P1D
  let stride1 := if transpose ≠ 0 then m.P1D else 1
  let u_stride := m.BASIS_NCOMP *
    (if transpose ≠ 0 then m.BASIS_NQPT * m.BASIS_DIM else m.BASIS_ELEMSIZE)
  let v_stride := m.BASIS_NCOMP *
    (if transpose ≠ 0 then m.BASIS_ELEMSIZE else m.BASIS_NQPT * m.BASIS_DIM)
  let nIter := (nelem - blockIdx + gridDim - 1) / gridDim
  let st0 := runThreads (sched 0) (fun i st =>
    strided i blockDim (m.Q1D * m.P1D) (fun k st =>
      let st1 := st.store (Loc.smem s_interp1d) k (interp1d k)
      st1.store (Loc.smem s_grad1d) k (grad1d k)) st) st
  forLoop (fun n st =>
    let elem := blockIdx + n * gridDim
    forLoop (fun dim1 st =>
      let cur_u := elem * u_stride + (if transpose ≠ 0 then dim1 * (m.BASIS_NQPT * m.BASIS_NCOMP) else 0)
      let cur_v := elem * v_stride + (if transpose ≠ 0 then 0 else dim1 * (m.BASIS_NQPT * m.BASIS_NCOMP))
      let pre0 := m.BASIS_NCOMP * (if transpose ≠ 0 then m.BASIS_NQPT else m.BASIS_ELEMSIZE)
      forLoop (fun dim2 st =>
        let op := if dim1 = dim2 then Loc.smem s_grad1d else Loc.smem s_interp1d
        let inp := if dim2 = 0 then Loc.gin cur_u
          else (if dim2 % 2 = 1 then Loc.smem s_buf2 else Loc.smem s_buf1)
        let out := if dim2 = m.BASIS_DIM - 1 then Loc.gout cur_v
          else (if dim2 % 2 = 1 then Loc.smem s_buf1 else Loc.smem s_buf2)
        runThreads (sched (1 + (n * m.BASIS_DIM + dim1) * m.BASIS_DIM + dim2))
          (kernelPass P Q stride0 stride1 (preAt pre0 P dim2) (postAt Q dim2) op inp out
            (decide (transpose ≠ 0 ∧ dim2 = m.BASIS_DIM - 1)) u blockDim) st)
        m.BASIS_DIM st) m.BASIS_DIM st) nIter st0

/-- The kernel `grad` launched on `gridDim` blocks of `blockDim` threads: the
final contents of `v`. -/
def grad {R : Type} [CommRing R] (m : KernelDefs) (gridDim blockDim : Nat)
    (blockOrder : List Nat) (sched : Nat → Nat → List Nat) (smem0 : Nat → Nat → R)
    (nelem : Nat) (transpose : Int) (interp1d grad1d u v : Nat → R) : Nat → R :=
  blockOrder.foldl (fun v b =>
    (gradBlock m gridDim blockDim (sched b) nelem transpose interp1d grad1d u b
      { s_mem := smem0 b, v := v }).v) v

end basiskernels

/-! ## The kernel `weight` and `CeedBasisApply_Cuda` -/

namespace basiskernels

/-- The code of the kernel `weight` (lines 140-154). It uses neither `blockIdx`
nor `threadIdx`: every launched thread runs the whole loop nest. In pass `d`
the variable `pre` has been divided `d + 1` times by `Q1D` and `post` has been
multiplied `d` times by `Q1D`. -/
def weightThread {R : Type} [CommRing R] (m : KernelDefs) (qweight1d v : Nat → R) : Nat → R :=
  forLoop (fun d v =>
    let pre := preAt m.BASIS_NQPT m.Q1D d
    let post := postAt m.Q1D d
    forLoop (fun i v =>
      forLoop (fun j v =>
        forLoop (fun k v =>
          store v ((i * m.Q1D + j) * post + k)
            (qweight1d j * (if d = 0 then 1 else v ((i * m.Q1D + j) * post + k))))
          post v) m.Q1D v) pre v) m.BASIS_DIM v

/-- The kernel `weight` launched on the blocks `blockOrder`, block `b` running
its threads in the order `sched b`: the final contents of `v`. -/
def weight {R : Type} [CommRing R] (m : KernelDefs) (blockOrder : List Nat)
    (sched : Nat → List Nat) (qweight1d v : Nat → R) : Nat → R :=
  blockOrder.foldl (fun v b =>
    runThreads (sched b) (fun _ v => weightThread m qweight1d v) v) v

end basiskernels

/-- Modelled from the spec: the functions that `CeedBasisApply_Cuda` calls and
that are declared outside the translated sources (vector access, `cudaMemset`,
`run_kernel`) are external collaborators that hand back a status; these are the
statuses they return in one call of `CeedBasisApply_Cuda`. A status that is not
zero is a failure, which `CeedChk` propagates at once; a collaborator that
fails is taken to have left `v` as it was. -/
structure CudaCalls where
  CeedBasisGetCeed : Int
  CeedVectorGetArrayRead : Int
  CeedVectorGetArray : Int
  cudaMemset : Int
  run_kernel : Int
  CeedVectorRestoreArrayRead : Int
  CeedVectorRestoreArray : Int

/-- What `CeedBasisApply_Cuda` leaves behind: the returned status, the contents
of the device array of `v`, and whether the read access to `u` and the write
access to `v` are still held (acquired and not restored). -/
structure CudaApplied (R : Type) where
  ierr : Int
  v : Nat → R
  uHeld : Bool
  vHeld : Bool

/-- Modelled from the spec: the kernel handles `interp`, `grad` and `weight` of
the backend data `CeedBasis_Cuda`, as `run_kernel` uses them. `run_kernel`,
`compile` and `get_kernel` are declared outside the translated sources:
`run_kernel(ceed, kernel, gridSize, blockSize, args)` launches the `__global__`
function behind the handle `kernel` on `gridSize` blocks of `blockSize` threads
with the arguments `args`. A handle is given by what such a launch leaves in
the array `d_v`, as a function of `gridSize`, `blockSize` and the arguments of
the kernel (`nelem, transpose, interp1d, u, v` for `interp`,
`nelem, transpose, interp1d, grad1d, u, v` for `grad`, `qweight1d, v` for
`weight`). A handle that is `NULL` is `none`: launching it runs no kernel code
and leaves `d_v` as it was. -/
structure CeedBasis_Cuda (R : Type) where
  interp : Option (Nat → Nat → Nat → Int → (Nat → R) → (Nat → R) → (Nat → R) → Nat → R)
  grad : Option (Nat → Nat → Nat → Int → (Nat → R) → (Nat → R) → (Nat → R) → (Nat → R) →
    Nat → R)
  weight : Option (Nat → Nat → (Nat → R) → (Nat → R) → Nat → R)

/-- The function `CeedBasisApply_Cuda` (lines 231-270). `blocksize` is
`ceed_Cuda->optblocksize`, `vlength` is `v->length`, `data` holds the kernel
handles `data->interp`, `data->grad` and `data->weight` found in the backend
data of the basis. `interp` and `grad` are launched on `nelem` blocks of
`blocksize` threads, `weight` on one block of one thread. Every `CeedChk`
returns the status of a failed call at once. -/
def CeedBasisApply_Cuda {R : Type} [CommRing R] (calls : CudaCalls) (blocksize vlength : Nat)
    (data : CeedBasis_Cuda R) (basis : CeedBasis R) (nelem : Nat) (tmode : CeedTransposeMode)
    (emode : CeedEvalMode) (u v : Nat → R) : CudaApplied R :=
  let transpose : Int := if tmode = CEED_TRANSPOSE then 1 else 0
  if calls.CeedBasisGetCeed ≠ 0 then
    { ierr := calls.CeedBasisGetCeed, v := v, uHeld := false, vHeld := false }
  else if emode ≠ CEED_EVAL_WEIGHT ∧ calls.CeedVectorGetArrayRead ≠ 0 then
    { ierr := calls.CeedVectorGetArrayRead, v := v, uHeld := false, vHeld := false }
  else
    let uHeld : Bool := decide (emode ≠ CEED_EVAL_WEIGHT)
    if calls.CeedVectorGetArray ≠ 0 then
      { ierr := calls.CeedVectorGetArray, v := v, uHeld := uHeld, vHeld := false }
    else if tmode = CEED_TRANSPOSE ∧ calls.cudaMemset ≠ 0 then
      { ierr := calls.cudaMemset, v := v, uHeld := uHeld, vHeld := true }
    else
      let v1 := if tmode = CEED_TRANSPOSE then forLoop (fun i v => store v i 0) vlength v else v
      if (emode = CEED_EVAL_INTERP ∨ emode = CEED_EVAL_GRAD ∨ emode = CEED_EVAL_WEIGHT)
          ∧ calls.run_kernel ≠ 0 then
        { ierr := calls.run_kernel, v := v1, uHeld := uHeld, vHeld := true }
      else
        let v2 :=
          if emode = CEED_EVAL_INTERP then
            match data.interp with
            | some kernel => kernel nelem blocksize nelem transpose basis.interp1d u v1
            | none => v1
          else if emode = CEED_EVAL_GRAD then
            match data.grad with
            | some kernel =>
              kernel nelem blocksize nelem transpose basis.interp1d basis.grad1d u v1
            | none => v1
          else if emode = CEED_EVAL_WEIGHT then
            match data.weight with
            | some kernel => kernel 1 1 basis.qweight1d v1
            | none => v1
          else v1
        if emode ≠ CEED_EVAL_WEIGHT ∧ calls.CeedVectorRestoreArrayRead ≠ 0 then
          { ierr := calls.CeedVectorRestoreArrayRead, v := v2, uHeld := true, vHeld := true }
        else if calls.CeedVectorRestoreArray ≠ 0 then
          { ierr := calls.CeedVectorRestoreArray, v := v2, uHeld := false, vHeld := true }
        else { ierr := 0, v := v2, uHeld := false, vHeld := false }

/-! ## The restriction kernels (`restrictionkernels`) -/

/-- The compile-time constants of the restriction kernel module, which
`CeedElemRestrictionCreate_Cuda` sets to `r->elemsize`, `r->ncomp` and
`r->ndof` (lines 212-215). -/
structure RestrictionDefs where
  RESTRICTION_ELEMSIZE : Nat
  RESTRICTION_NCOMP : Nat
  RESTRICTION_NDOF : Nat

/-- The operation `atomicAdd(v + k, x)`: the entry is read, increased and
written back without another thread coming in between. -/
def atomicAdd {R : Type} [CommRing R] (v : Nat → R) (k : Nat) (x : R) : Nat → R :=
  store v k (v k + x)

/-- The grid-stride loop shared by the four restriction kernels: thread
`threadIdx` of block `blockIdx` runs `body i` for
`i = blockIdx * blockDim + threadIdx`, then `i += blockDim * gridDim` while
`i < esize`. The blocks run in the order `blockOrder` and the threads of block
`b` in the order `sched b`; the kernels have no barrier. -/
def gridStride {σ : Type} (gridDim blockDim : Nat) (blockOrder : List Nat)
    (sched : Nat → List Nat) (esize : Nat) (body : Nat → σ → σ) (s : σ) : σ :=
  blockOrder.foldl (fun s blockIdx =>
    runThreads (sched blockIdx) (fun threadIdx s =>
      strided (blockIdx * blockDim + threadIdx) (blockDim * gridDim) esize body s) s) s

namespace restrictionkernels

/-- The kernel `noTrNoTr` (lines 21-42): the final contents of `v`. The pointer
`indices` is `none` when it is `NULL`. -/
def noTrNoTr {R : Type} (m : RestrictionDefs) (gridDim blockDim : Nat) (blockOrder : List Nat)
    (sched : Nat → List Nat) (nelem : Nat) (indices : Option (Nat → Nat)) (u v : Nat → R) :
    Nat → R :=
  let esize := m.RESTRICTION_ELEMSIZE * m.RESTRICTION_NCOMP * nelem
  match indices with
  | some indices =>
    gridStride gridDim blockDim blockOrder sched esize (fun i v =>
      let e := i / (m.RESTRICTION_NCOMP * m.RESTRICTION_ELEMSIZE)
      let d := (i / m.RESTRICTION_ELEMSIZE) % m.RESTRICTION_NCOMP
      let s := i % m.RESTRICTION_ELEMSIZE
      store v i (u (indices (s + m.RESTRICTION_ELEMSIZE * e) + m.RESTRICTION_NDOF * d))) v
  | none =>
    gridStride gridDim blockDim blockOrder sched esize (fun i v =>
      let e := i / (m.RESTRICTION_NCOMP * m.RESTRICTION_ELEMSIZE)
      let d := (i / m.RESTRICTION_ELEMSIZE) % m.RESTRICTION_NCOMP
      let s := i % m.RESTRICTION_ELEMSIZE
      store v i (u (s + m.RESTRICTION_ELEMSIZE * e + m.RESTRICTION_NDOF * d))) v

/-- The kernel `noTrTr` (lines 44-64). -/
def noTrTr {R : Type} (m : RestrictionDefs) (gridDim blockDim : Nat) (blockOrder : List Nat)
    (sched : Nat → List Nat) (nelem : Nat) (indices : Option (Nat → Nat)) (u v : Nat → R) :
    Nat → R :=
  let esize := m.RESTRICTION_ELEMSIZE * m.RESTRICTION_NCOMP * nelem
  match indices with
  | some indices =>
    gridStride gridDim blockDim blockOrder sched esize (fun i v =>
      let e := i / (m.RESTRICTION_NCOMP * m.RESTRICTION_ELEMSIZE)
      let d := (i / m.RESTRICTION_ELEMSIZE) % m.RESTRICTION_NCOMP
      let s := i % m.RESTRICTION_ELEMSIZE
      store v i (u (m.RESTRICTION_NCOMP * indices (s + m.RESTRICTION_ELEMSIZE * e) + d))) v
  | none =>
    gridStride gridDim blockDim blockOrder sched esize (fun i v =>
      let e := i / (m.RESTRICTION_NCOMP * m.RESTRICTION_ELEMSIZE)
      let d := (i / m.RESTRICTION_ELEMSIZE) % m.RESTRICTION_NCOMP
      let s := i % m.RESTRICTION_ELEMSIZE
      store v i (u (m.RESTRICTION_NCOMP * s + m.RESTRICTION_ELEMSIZE * e + d))) v

/-- The kernel `trNoTr` (lines 66-86). -/
def trNoTr {R : Type} [CommRing R] (m : RestrictionDefs) (gridDim blockDim : Nat)
    (blockOrder : List Nat) (sched : Nat → List Nat) (nelem : Nat)
    (indices : Option (Nat → Nat)) (u v : Nat → R) : Nat → R :=
  let esize := m.RESTRICTION_ELEMSIZE * m.RESTRICTION_NCOMP * nelem
  match indices with
  | some indices =>
    gridStride gridDim blockDim blockOrder sched esize (fun i v =>
      let e := i / (m.RESTRICTION_NCOMP * m.RESTRICTION_ELEMSIZE)
      let d := (i / m.RESTRICTION_ELEMSIZE) % m.RESTRICTION_NCOMP
      let s := i % m.RESTRICTION_ELEMSIZE
      atomicAdd v (indices (s + m.RESTRICTION_ELEMSIZE * e) + m.RESTRICTION_NDOF * d) (u i)) v
  | none =>
    gridStride gridDim blockDim blockOrder sched esize (fun i v =>
      let e := i / (m.RESTRICTION_NCOMP * m.RESTRICTION_ELEMSIZE)
      let d := (i / m.RESTRICTION_ELEMSIZE) % m.RESTRICTION_NCOMP
      let s := i % m.RESTRICTION_ELEMSIZE
      atomicAdd v (s + m.RESTRICTION_ELEMSIZE * e + m.RESTRICTION_NDOF * d) (u i)) v

/-- The kernel `trTr` (lines 88-108). -/
def trTr {R : Type} [CommRing R] (m : RestrictionDefs) (gridDim blockDim : Nat)
    (blockOrder : List Nat) (sched : Nat → List Nat) (nelem : Nat)
    (indices : Option (Nat → Nat)) (u v : Nat → R) : Nat → R :=
  let esize := m.RESTRICTION_ELEMSIZE * m.RESTRICTION_NCOMP * nelem
  match indices with
  | some indices =>
    gridStride gridDim blockDim blockOrder sched esize (fun i v =>
      let e := i / (m.RESTRICTION_NCOMP * m.RESTRICTION_ELEMSIZE)
      let d := (i / m.RESTRICTION_ELEMSIZE) % m.RESTRICTION_NCOMP
      let s := i % m.RESTRICTION_ELEMSIZE
      atomicAdd v (m.RESTRICTION_NCOMP * indices (s + m.RESTRICTION_ELEMSIZE * e) + d) (u i)) v
  | none =>
    gridStride gridDim blockDim blockOrder sched esize (fun i v =>
      let e := i / (m.RESTRICTION_NCOMP * m.RESTRICTION_ELEMSIZE)
      let d := (i / m.RESTRICTION_ELEMSIZE) % m.RESTRICTION_NCOMP
      let s := i % m.RESTRICTION_ELEMSIZE
      atomicAdd v (m.RESTRICTION_NCOMP * s + m.RESTRICTION_ELEMSIZE * e + d) (u i)) v

end restrictionkernels

/-! ## The register kernels (`kernels3dreg`) and `CeedBasisApply_Cuda_3dreg` -/

namespace kernels3dreg

/-- The device function `Contract` (lines 162-178): the final contents of `T`.
`T[a2 + a3*nA2 + b2*nA2*nA3]` receives the sum over `t` of
`B[b2*nB1 + t] * A[a3*nA2*nA1 + a2*nA1 + t]`. -/
def Contract {R : Type} [CommRing R] (A B : Nat → R) (nA1 nA2 nA3 nB1 nB2 : Nat)
    (T : Nat → R) : Nat → R :=
  let T0 := forLoop (fun l T => store T l 0) (nA2 * nA3 * nB2) T
  forLoop (fun a2 T =>
    forLoop (fun a3 T =>
      forLoop (fun b2 T =>
        forLoop (fun t T =>
          store T (a2 + a3 * nA2 + b2 * nA2 * nA3)
            (T (a2 + a3 * nA2 + b2 * nA2 * nA3)
              + B (b2 * nB1 + t) * A (a3 * nA2 * nA1 + a2 * nA1 + t)))
          nB1 T) nB2 T) nA3 T) nA2 T0

/-- The device function `ContractTranspose` (lines 180-196): the final contents
of `T`. -/
def ContractTranspose {R : Type} [CommRing R] (A B : Nat → R) (nA1 nA2 nA3 nB1 nB2 : Nat)
    (T : Nat → R) : Nat → R :=
  let T0 := forLoop (fun l T => store T l 0) (nA2 * nA3 * nB2) T
  forLoop (fun a2 T =>
    forLoop (fun a3 T =>
      forLoop (fun b1 T =>
        forLoop (fun t T =>
          store T (a2 + a3 * nA2 + b1 * nA2 * nA3)
            (T (a2 + a3 * nA2 + b1 * nA2 * nA3)
              + B (t * nB1 + b1) * A (a3 * nA2 * nA1 + a2 * nA1 + t)))
          nB2 T) nB1 T) nA3 T) nA2 T0

/-- The three contractions of one thread of `interp` (lines 213-221): the final
contents of the register array `r_t`, from the loaded `r_V` and whatever `r_t`
held. -/
def contractChain {R : Type} [CommRing R] (m : KernelDefs) (transpose : Int)
    (c_B r_V r_t : Nat → R) : Nat → R :=
  if transpose = 0 then
    let r_t1 := Contract r_V c_B m.P1D m.P1D m.P1D m.P1D m.Q1D r_t
    let r_V1 := Contract r_t1 c_B m.P1D m.P1D m.Q1D m.P1D m.Q1D r_V
    Contract r_V1 c_B m.P1D m.Q1D m.Q1D m.P1D m.Q1D r_t1
  else
    let r_t1 := ContractTranspose r_V c_B m.Q1D m.Q1D m.Q1D m.P1D m.Q1D r_t
    let r_V1 := ContractTranspose r_t1 c_B m.Q1D m.Q1D m.P1D m.P1D m.Q1D r_V
    ContractTranspose r_V1 c_B m.Q1D m.P1D m.P1D m.P1D m.Q1D r_t1

/-- Thread `tid` of block `bid` of the kernel `interp` of the register variant
(lines 198-225). The local arrays `r_V` and `r_t` are not initialised by the
code; `r_V0` and `r_t0` are the values found in them. Local arrays are buffers
without a length here, as in `CeedBasisApply_Opt`. -/
def interpThread {R : Type} [CommRing R] (m : KernelDefs) (nelem : Nat) (transpose : Int)
    (c_B d_U r_V0 r_t0 : Nat → R) (bid tid : Nat) (d_V : Nat → R) : Nat → R :=
  if bid < nelem then
    let r_V := forLoop (fun i r_V =>
      store r_V i (d_U (bid * 32 * m.P1D * m.P1D * m.P1D + 32 * i + tid)))
      (m.P1D * m.P1D * m.P1D) r_V0
    let r_t := contractChain m transpose c_B r_V r_t0
    forLoop (fun i d_V =>
      store d_V (bid * 32 * m.P1D * m.P1D * m.P1D + i * 32 + tid) (r_t i))
      (m.P1D * m.P1D * m.P1D) d_V
  else d_V

/-- The kernel `interp` of the register variant launched on the blocks
`blockOrder`, block `b` running its threads in the order `sched b`: the final
contents of `d_V`. The threads share no memory other than `d_V`, and the kernel
has no barrier. `regs b t 0` and `regs b t 1` are the initial contents of the
local arrays `r_V` and `r_t` of thread `t` of block `b`. -/
def interp {R : Type} [CommRing R] (m : KernelDefs) (blockOrder : List Nat)
    (sched : Nat → List Nat) (regs : Nat → Nat → Nat → Nat → R) (nelem : Nat) (transpose : Int)
    (c_B d_U d_V : Nat → R) : Nat → R :=
  blockOrder.foldl (fun d_V bid =>
    runThreads (sched bid) (fun tid d_V =>
      interpThread m nelem transpose c_B d_U (regs bid tid 0) (regs bid tid 1) bid tid d_V)
      d_V) d_V

end kernels3dreg

/-- The number of blocks of `warpsize = 32` threads that
`CeedBasisApply_Cuda_3dreg` launches (line 286):
`nelem/warpsize + ((nelem/warpsize*warpsize < nelem) ? 1 : 0)`. -/
def gridsize3dreg (nelem : Nat) : Nat :=
  nelem / 32 + (if nelem / 32 * 32 < nelem then 1 else 0)

/-- The function `CeedBasisApply_Cuda_3dreg` (lines 274-318). `data->interp` is
the kernel `interp` of `kernels3dreg`, launched on `gridsize3dreg nelem` blocks
of 32 threads: `blockOrder` is the order in which these blocks run, `sched b`
the order of the 32 threads of block `b`, `regs` the initial contents of their
local arrays.
`initInterp` is the status of the call of `initInterp`, a function declared in
this file and defined outside the translated sources: it is taken to hand back
in `c_B` the matrix `data->d_interp1d`. The branches of `CEED_EVAL_GRAD` and
`CEED_EVAL_WEIGHT` are empty (their statements are commented out). -/
def CeedBasisApply_Cuda_3dreg {R : Type} [CommRing R] (calls : CudaCalls) (initInterp : Int)
    (vlength : Nat) (blockOrder : List Nat) (sched : Nat → List Nat)
    (regs : Nat → Nat → Nat → Nat → R) (basis : CeedBasis R) (nelem : Nat)
    (tmode : CeedTransposeMode) (emode : CeedEvalMode) (u v : Nat → R) : CudaApplied R :=
  let m := kernelDefs basis.dim basis.ncomp basis.P1d basis.Q1d
  let transpose : Int := if tmode = CEED_TRANSPOSE then 1 else 0
  if calls.CeedBasisGetCeed ≠ 0 then
    { ierr := calls.CeedBasisGetCeed, v := v, uHeld := false, vHeld := false }
  else if emode ≠ CEED_EVAL_WEIGHT ∧ calls.CeedVectorGetArrayRead ≠ 0 then
    { ierr := calls.CeedVectorGetArrayRead, v := v, uHeld := false, vHeld := false }
  else
    let uHeld : Bool := decide (emode ≠ CEED_EVAL_WEIGHT)
    if calls.CeedVectorGetArray ≠ 0 then
      { ierr := calls.CeedVectorGetArray, v := v, uHeld := uHeld, vHeld := false }
    else if tmode = CEED_TRANSPOSE ∧ calls.cudaMemset ≠ 0 then
      { ierr := calls.cudaMemset, v := v, uHeld := uHeld, vHeld := true }
    else
      let v1 := if tmode = CEED_TRANSPOSE then forLoop (fun i v => store v i 0) vlength v else v
      if emode = CEED_EVAL_INTERP ∧ initInterp ≠ 0 then
        { ierr := initInterp, v := v1, uHeld := uHeld, vHeld := true }
      else if emode = CEED_EVAL_INTERP ∧ calls.run_kernel ≠ 0 then
        { ierr := calls.run_kernel, v := v1, uHeld := uHeld, vHeld := true }
      else
        let v2 :=
          if emode = CEED_EVAL_INTERP then
            kernels3dreg.interp m blockOrder sched regs nelem transpose basis.interp1d u v1
          else if emode = CEED_EVAL_GRAD then v1
          else if emode = CEED_EVAL_WEIGHT then v1
          else v1
        if emode ≠ CEED_EVAL_WEIGHT ∧ calls.CeedVectorRestoreArrayRead ≠ 0 then
          { ierr := calls.CeedVectorRestoreArrayRead, v := v2, uHeld := true, vHeld := true }
        else if calls.CeedVectorRestoreArray ≠ 0 then
          { ierr := calls.CeedVectorRestoreArray, v := v2, uHeld := false, vHeld := true }
        else { ierr := 0, v := v2, uHeld := false, vHeld := false }

/-- The kernel handles that a call of `CeedBasisCreateTensorH1_Cuda`
(lines 336-380) which returns 0 leaves in the backend data of the basis.
`CeedCalloc`, declared outside the translated sources, hands back a zero-filled
struct, so every handle starts as `NULL`. The module is compiled from the
source `kernels3dreg` with the constants `kernelDefs` (lines 358-366) and
`get_kernel` fetches its kernel `interp` into `data->interp` (line 367); the
calls of `get_kernel` for `grad` and `weight` are commented out (lines 368-369)
and nothing compiles the source `basiskernels`. `blockOrder g` is the order in
which the blocks of a launch on `g` blocks run, `sched n b` the order of the
`n` threads of block `b`, and `regs` the initial contents of the local arrays
of the threads. -/
def CeedBasisCreateTensorH1_Cuda {R : Type} [CommRing R] (blockOrder : Nat → List Nat)
    (sched : Nat → Nat → List Nat) (regs : Nat → Nat → Nat → Nat → R) (basis : CeedBasis R) :
    CeedBasis_Cuda R :=
  { interp := some (fun gridSize blockSize nelem transpose c_B d_U d_V =>
      kernels3dreg.interp (kernelDefs basis.dim basis.ncomp basis.P1d basis.Q1d)
        (blockOrder gridSize) (sched blockSize) regs nelem transpose c_B d_U d_V)
    grad := none
    weight := none }

/-! ## The QFunction `NS` (`examples/navier-stokes/ns.h`) -/

/-- A local array given by its initialiser list, `const CeedScalar a[n] = {..}`:
the value of `a[k]`. -/
def cArray {F : Type} [Field F] (l : List F) (k : Nat) : F := l.getD k 0

/-- The compound assignment `p[k] -= x`. -/
def subAssign {F : Type} [Field F] (p : Nat → F) (k : Nat) (x : F) : Nat → F :=
  fun j => if j = k then p j - x else p j

/-- One iteration of the quadrature point loop of `NS` (lines 112-233): the
arrays `v` and `vg` after the statements of point `i`. The scalars are those
of a field `F`; the inputs `q`, `dq`, `qdata`, `x` are `const` and do not
overlap the outputs. -/
def NS_point {F : Type} [Field F] (context : Nat → F) (Q : Nat) (q dq qdata x : Nat → F)
    (i : Nat) (out : (Nat → F) × (Nat → F)) : (Nat → F) × (Nat → F) :=
  let lambda := context 0
  let mu := context 1
  let Pr := context 2
  let cp := context 3
  let cv := context 4
  let g := context 5
  let gamma := cp / cv
  -- Setup
  let rho := q (i + 0 * Q)
  let u := cArray [q (i + 1 * Q) / rho,
                   q (i + 2 * Q) / rho,
                   q (i + 3 * Q) / rho]
  let E := q (i + 4 * Q)
  let drho := cArray [dq (i + (0 + 5 * 0) * Q),
                      dq (i + (0 + 5 * 1) * Q),
                      dq (i + (0 + 5 * 2) * Q)]
  let du := cArray [(dq (i + (1 + 5 * 0) * Q) - drho 0 * u 0) / rho,
                    (dq (i + (1 + 5 * 1) * Q) - drho 1 * u 0) / rho,
                    (dq (i + (1 + 5 * 2) * Q) - drho 2 * u 0) / rho,
                    (dq (i + (2 + 5 * 0) * Q) - drho 0 * u 1) / rho,
                    (dq (i + (2 + 5 * 1) * Q) - drho 1 * u 1) / rho,
                    (dq (i + (2 + 5 * 2) * Q) - drho 2 * u 1) / rho,
                    (dq (i + (3 + 5 * 0) * Q) - drho 0 * u 2) / rho,
                    (dq (i + (3 + 5 * 1) * Q) - drho 1 * u 2) / rho,
                    (dq (i + (3 + 5 * 2) * Q) - drho 2 * u 2) / rho]
  let dE := cArray [dq (i + (4 + 5 * 0) * Q),
                    dq (i + (4 + 5 * 1) * Q),
                    dq (i + (4 + 5 * 2) * Q)]
  let J := qdata (i + 0 * Q)
  let BJ := cArray [qdata (i + 1 * Q),
                    qdata (i + 2 * Q),
                    qdata (i + 3 * Q),
                    qdata (i + 4 * Q),
                    qdata (i + 5 * Q),
                    qdata (i + 6 * Q),
                    qdata (i + 7 * Q),
                    qdata (i + 8 * Q),
                    qdata (i + 9 * Q)]
  let BBJ := cArray [qdata (i + 10 * Q),
                     qdata (i + 11 * Q),
                     qdata (i + 12 * Q),
                     qdata (i + 13 * Q),
                     qdata (i + 14 * Q),
                     qdata (i + 15 * Q)]
  let gradT := cArray [(dE 0 / rho - E * drho 0 / (rho * rho) - u 0 * du (0 + 3 * 0)) / cv,
                       (dE 1 / rho - E * drho 1 / (rho * rho) - u 1 * du (1 + 3 * 1)) / cv,
                       (dE 2 / rho - E * drho 2 / (rho * rho) - u 2 * du (2 + 3 * 2) - g) / cv]
  let Fu := cArray [mu * (du (0 + 3 * 0) * (2 + lambda)),
                    mu * (du (0 + 3 * 1) + du (1 + 3 * 0)),
                    mu * (du (0 + 3 * 2) + du (2 + 3 * 0)),
                    mu * (du (1 + 3 * 1) * (2 + lambda)),
                    mu * (du (1 + 3 * 2) + du (2 + 3 * 1)),
                    mu * (du (2 + 3 * 2) * (2 + lambda))]
  let Fe := cArray [u 0 * Fu 0 + u 1 * Fu 1 + u 2 * Fu 2 + (mu * cp / Pr) * gradT 0,
                    u 0 * Fu 1 + u 1 * Fu 3 + u 2 * Fu 4 + (mu * cp / Pr) * gradT 1,
                    u 0 * Fu 2 + u 1 * Fu 4 + u 2 * Fu 5 + (mu * cp / Pr) * gradT 2]
  let P := (E - (u 0 * u 0 + u 1 * u 1 + u 2 * u 2) * rho / 2 - rho * g * x (i + Q * 2))
    * (gamma - 1)
  let v := out.1
  let vg := out.2
  -- Density
  let vg := store vg (i + (0 + 5 * 0) * Q) (rho * u 0 * BJ 0 + rho * u 1 * BJ 1 + rho * u 1 * BJ 2)
  let vg := store vg (i + (0 + 5 * 1) * Q) (rho * u 0 * BJ 3 + rho * u 1 * BJ 4 + rho * u 1 * BJ 5)
  let vg := store vg (i + (0 + 5 * 2) * Q) (rho * u 0 * BJ 6 + rho * u 1 * BJ 7 + rho * u 1 * BJ 8)
  -- Momentum
  let vg := store vg (i + (1 + 5 * 0) * Q)
    ((rho * u 0 * u 0 + P) * BJ 0 + rho * u 0 * u 1 * BJ 1 + rho * u 0 * u 2 * BJ 2)
  let vg := store vg (i + (1 + 5 * 1) * Q)
    ((rho * u 0 * u 0 + P) * BJ 3 + rho * u 0 * u 1 * BJ 4 + rho * u 0 * u 2 * BJ 5)
  let vg := store vg (i + (1 + 5 * 2) * Q)
    ((rho * u 0 * u 0 + P) * BJ 6 + rho * u 0 * u 1 * BJ 7 + rho * u 0 * u 2 * BJ 8)
  let vg := store vg (i + (2 + 5 * 0) * Q)
    (rho * u 1 * u 0 * BJ 0 + (rho * u 1 * u 1 + P) * BJ 1 + rho * u 1 * u 2 * BJ 2)
  let vg := store vg (i + (2 + 5 * 1) * Q)
    (rho * u 1 * u 0 * BJ 3 + (rho * u 1 * u 1 + P) * BJ 4 + rho * u 1 * u 2 * BJ 5)
  let vg := store vg (i + (2 + 5 * 2) * Q)
    (rho * u 1 * u 0 * BJ 6 + (rho * u 1 * u 1 + P) * BJ 7 + rho * u 1 * u 2 * BJ 8)
  let vg := store vg (i + (3 + 5 * 0) * Q)
    (rho * u 2 * u 0 * BJ 0 + rho * u 2 * u 1 * BJ 1 + (rho * u 2 * u 2 + P) * BJ 2)
  let vg := store vg (i + (3 + 5 * 1) * Q)
    (rho * u 2 * u 0 * BJ 3 + rho * u 2 * u 1 * BJ 4 + (rho * u 2 * u 2 + P) * BJ 5)
  let vg := store vg (i + (3 + 5 * 2) * Q)
    (rho * u 2 * u 0 * BJ 6 + rho * u 2 * u 1 * BJ 7 + (rho * u 2 * u 2 + P) * BJ 8)
  let vg := subAssign vg (i + (1 + 5 * 0) * Q) (Fu 0 * BBJ 0 + Fu 1 * BBJ 1 + Fu 2 * BBJ 2)
  let vg := subAssign vg (i + (1 + 5 * 1) * Q) (Fu 0 * BBJ 1 + Fu 1 * BBJ 3 + Fu 2 * BBJ 4)
  let vg := subAssign vg (i + (1 + 5 * 2) * Q) (Fu 0 * BBJ 2 + Fu 1 * BBJ 4 + Fu 2 * BBJ 5)
  let vg := subAssign vg (i + (2 + 5 * 0) * Q) (Fu 1 * BBJ 0 + Fu 3 * BBJ 1 + Fu 4 * BBJ 2)
  let vg := subAssign vg (i + (2 + 5 * 1) * Q) (Fu 1 * BBJ 1 + Fu 3 * BBJ 3 + Fu 4 * BBJ 4)
  let vg := subAssign vg (i + (2 + 5 * 2) * Q) (Fu 1 * BBJ 2 + Fu 3 * BBJ 4 + Fu 4 * BBJ 5)
  let vg := subAssign vg (i + (3 + 5 * 0) * Q) (Fu 2 * BBJ 0 + Fu 4 * BBJ 1 + Fu 5 * BBJ 2)
  let vg := subAssign vg (i + (3 + 5 * 1) * Q) (Fu 2 * BBJ 1 + Fu 4 * BBJ 3 + Fu 5 * BBJ 4)
  let vg := subAssign vg (i + (3 + 5 * 2) * Q) (Fu 2 * BBJ 2 + Fu 4 * BBJ 4 + Fu 5 * BBJ 5)
  let v := store v (i + 3 * Q) (-rho * g * J)
  -- Total Energy
  let vg := store vg (i + (4 + 5 * 0) * Q) ((E + P) * (u 0 * BJ 0 + u 1 * BJ 1 + u 2 * BJ 2))
  let vg := store vg (i + (4 + 5 * 1) * Q) ((E + P) * (u 0 * BJ 3 + u 1 * BJ 4 + u 2 * BJ 5))
  let vg := store vg (i + (4 + 5 * 2) * Q) ((E + P) * (u 0 * BJ 6 + u 1 * BJ 7 + u 2 * BJ 8))
  let vg := subAssign vg (i + (4 + 5 * 0) * Q) (Fe 0 * BBJ 0 + Fe 1 * BBJ 1 + Fe 2 * BBJ 2)
  let vg := subAssign vg (i + (4 + 5 * 1) * Q) (Fe 0 * BBJ 1 + Fe 1 * BBJ 3 + Fe 2 * BBJ 4)
  let vg := subAssign vg (i + (4 + 5 * 2) * Q) (Fe 0 * BBJ 2 + Fe 1 * BBJ 4 + Fe 2 * BBJ 5)
  (v, vg)

/-- The QFunction `NS` (lines 95-238): the returned status and the final
contents of the outputs `v = out[0]` and `vg = out[1]`, from the context
`ctx`, the inputs `q = in[0]`, `dq = in[1]`, `qdata = in[2]`, `x = in[3]` and
the initial contents of the outputs. -/
def NS {F : Type} [Field F] (context : Nat → F) (Q : Nat) (q dq qdata x : Nat → F)
    (v vg : Nat → F) : Int × (Nat → F) × (Nat → F) :=
  (0, forLoop (NS_point context Q q dq qdata x) Q (v, vg))

/-! ## Flat indices and tensor-product coefficients -/

/-- The flat index `sum_k q_k * n^k` of a multi-index: axis 0 varies fastest. -/
def multiIdx {n dim : Nat} (q : Fin dim → Fin n) : Nat :=
  ∑ k : Fin dim, (q k : Nat) * n ^ (k : Nat)

/-- The tensor-product coefficient on flat indices: the coefficient of input
entry `p` in output entry `q` after the first `d` axes have been contracted
with the matrices `T k j b`, the product over `k < d` of
`T k (digit k of q) (digit k of p)`. -/
def kron {R : Type} [CommRing R] (T : Nat → Nat → Nat → R) (P Q d : Nat) (q p : Nat) : R :=
  ∏ k in Finset.range d, T k (q / Q ^ k % Q) (p / P ^ k % P)

/-! ## Definitions used in the proofs and concrete inputs -/

/-- The flat index `k` of `v` lies in the `4 x 8` tile `(a, j, c)`. -/
def inTile (C J a j c k : Nat) : Prop :=
  k / C / J = a ∧ j ≤ k / C % J ∧ k / C % J < j + 4 ∧ c ≤ k % C ∧ k % C < c + 8

/-- The contraction sum of the output entry with flat index `k`:
`sum_b t[j*ts0 + b*ts1] * u[(a*B+b)*C+c]` for `k = (a*J+j)*C+c`. -/
def contrSum {R : Type} [CommRing R] (B C J ts0 ts1 : Nat) (t u : Nat → R) (k : Nat) : R :=
  ∑ b in Finset.range B, t (k / C % J * ts0 + b * ts1) * u ((k / C / J * B + b) * C + k % C)

/-- A matrix with entries 1, 2, 3, .. -/
def wT : Nat → Int := fun i => (i : Int) + 1

/-- An input buffer with entries 1, 3, 5, .. -/
def wU : Nat → Int := fun i => 2 * (i : Int) + 1

/-- An output buffer that is not zero before the call. -/
def wV : Nat → Int := fun i => 7 - (i : Int)

/-- A one-dimensional basis with four nodes and four quadrature points whose
`grad1d` is the product of `colograd1d` and `interp1d`. -/
def wBasis : CeedBasis Int :=
  { dim := 1
    ncomp := 1
    P1d := 4
    Q1d := 4
    interp1d := wT
    grad1d := fun i => ∑ r in Finset.range 4, wV (i / 4 * 4 + r) * wT (r * 4 + i % 4)
    qweight1d := fun _ => 1
    colograd1d := wV }

/-- The input of `wBasis` in the element-innermost layout of the SIMD backend. -/
def wUopt : Nat → Int := fun i => wU (i % 8 * 4 + i / 8)

/-- A basis with four nodes and one quadrature point. -/
def cexBasis : CeedBasis Int :=
  { dim := 1
    ncomp := 1
    P1d := 4
    Q1d := 1
    interp1d := fun _ => 1
    grad1d := fun _ => 0
    qweight1d := fun _ => 1
    colograd1d := fun _ => 0 }

/-- The buffer `X` holds the data `u` with its first `d` axes transformed: for the
layout `[N * P^(dim-d), Q^d, E]`, entry `(a, ql, e)` is the sum over `pl < P^d`
of `kron T P Q d ql pl * u[(a*P^d + pl)*E + e]`. -/
def IsStage {R : Type} [CommRing R] (T : Nat → Nat → Nat → R) (N P Q E dim d : Nat)
    (u X : Nat → R) : Prop :=
  ∀ a ql e, a < N * P ^ (dim - d) → ql < Q ^ d → e < E →
    X ((a * Q ^ d + ql) * E + e)
      = ∑ pl in Finset.range (P ^ d), kron T P Q d ql pl * u ((a * P ^ d + pl) * E + e)

/-- The loop of `dim` contractions that transforms one axis after the other,
from the input `inp0` through the halves of `tmp` to the destination
`outLast`, accumulating in the last contraction when `addLast` is not zero. -/
def chainBody {R : Type} [CommRing R] (P Q dim : Nat) (t : Nat → R) (tmode : CeedTransposeMode)
    (addLast : Int) (inp0 : OptState R → Nat → R) (outLast : OptBuf) (d : Nat)
    (s : OptState R) : OptState R :=
  optStep P Q t tmode (if d = dim - 1 then addLast else 0)
    (if d = 0 then inp0 s else s.tmp (d % 2))
    (if d = dim - 1 then outLast else OptBuf.tmp ((d + 1) % 2)) s

/-- The loop invariant of `chainBody` after `d` iterations started in `s0`. -/
def chainInv {R : Type} [CommRing R] (N P Q E dim : Nat) (t : Nat → R)
    (tmode : CeedTransposeMode) (addLast : Int) (inp0 : OptState R → Nat → R)
    (outLast : OptBuf) (s0 : OptState R) (d : Nat) (s : OptState R) : Prop :=
  s.ierr = 0 ∧ s.pre = N * P ^ (dim - 1) / P ^ d ∧ s.post = E * Q ^ d ∧
  (d = 0 → s = s0) ∧
  (d < dim → s.get outLast = s0.get outLast) ∧
  (outLast = OptBuf.interp → s.v = s0.v) ∧
  (outLast = OptBuf.v 0 → s.interp = s0.interp) ∧
  (0 < d → d < dim →
    IsStage (fun _ j b => t (j * (if tmode = CEED_TRANSPOSE then 1 else P)
      + b * (if tmode = CEED_TRANSPOSE then Q else 1))) N P Q E dim d (inp0 s0) (s.tmp (d % 2))) ∧
  (d = dim →
    IsStage (fun _ j b => t (j * (if tmode = CEED_TRANSPOSE then 1 else P)
      + b * (if tmode = CEED_TRANSPOSE then Q else 1))) N P Q E dim dim (inp0 s0)
      (fun k => s.get outLast k - (if addLast ≠ 0 then s0.get outLast k else 0)))

/-- The matrix entry `T[j, b]` a contraction reads from the array `t` of a
`Q1d x P1d` row-major matrix: `t[j * P1d + b]`, or `t[b * P1d + j]` when the
transpose is applied. -/
def matEntry {R : Type} (t : Nat → R) (P1d : Nat) (tr : Bool) (j b : Nat) : R :=
  if tr then t (b * P1d + j) else t (j * P1d + b)

/-- The indices thread `i` visits in `for (k = i; k < n; k += blockDim)`. -/
def stridedList (i blockDim n : Nat) : List Nat :=
  (List.range ((n - i + blockDim - 1) / blockDim)).map (fun t => i + t * blockDim)

/-- The state `s'` differs from `s` at most in the `n` cells behind `out`. -/
def frameRel {R : Type} (out : Loc) (n : Nat) (s s' : BlockState R) : Prop :=
  match out with
  | Loc.smem off => s'.v = s.v ∧ ∀ x, (x < off ∨ off + n ≤ x) → s'.s_mem x = s.s_mem x
  | Loc.gin _ => s' = s
  | Loc.gout off => s'.s_mem = s.s_mem ∧ ∀ x, (x < off ∨ off + n ≤ x) → s'.v x = s.v x

/-- The loop over the `dim` passes of one contraction chain of a kernel. -/
def passLoop {R : Type} [CommRing R] (P Q stride0 stride1 pre0 dim : Nat)
    (opOff : Nat → Nat) (inp0 : Loc) (bufBase BUF voff : Nat) (u : Nat → R) (blockDim : Nat)
    (sched : Nat → List Nat) (n : Nat) (st : BlockState R) : BlockState R :=
  forLoop (fun d st =>
    runThreads (sched d)
      (kernelPass P Q stride0 stride1 (preAt pre0 P d) (postAt Q d) (Loc.smem (opOff d))
        (if d = 0 then inp0 else if d % 2 = 1 then Loc.smem (bufBase + BUF) else Loc.smem bufBase)
        (if d = dim - 1 then Loc.gout voff
          else if d % 2 = 1 then Loc.smem bufBase else Loc.smem (bufBase + BUF))
        false u blockDim) st) n st

/-- The loop invariant of `passLoop` after `d` passes started in `st`. -/
def passInv {R : Type} [CommRing R] (T : Nat → Nat → Nat → R) (N P Q dim : Nat)
    (inp0 : Loc) (bufBase BUF voff : Nat) (u : Nat → R) (st : BlockState R) (d : Nat)
    (s : BlockState R) : Prop :=
  (∀ x, x < bufBase → s.s_mem x = st.s_mem x) ∧
  (d < dim → s.v = st.v) ∧
  (d = 0 → s = st) ∧
  (0 < d → d < dim → IsStage T N P Q 1 dim d (fun i => st.load u inp0 i)
    (fun i => s.s_mem ((if d % 2 = 1 then bufBase + BUF else bufBase) + i))) ∧
  (d = dim → (∀ x, (x < voff ∨ voff + N * Q ^ dim ≤ x) → s.v x = st.v x) ∧
    IsStage T N P Q 1 dim dim (fun i => st.load u inp0 i) (fun i => s.v (voff + i)))

/-- The write `s_mem[x] = y`. -/
def pokeMem {R : Type} (s : BlockState R) (x : Nat) (y : R) : BlockState R :=
  { s with s_mem := store s.s_mem x y }

/-- The matrix used along axis `k` by the chain of derivative axis `d1`. -/
def gradT {R : Type} (interp1d grad1d : Nat → R) (P1d d1 k j c : Nat) : R :=
  if d1 = k then grad1d (j * P1d + c) else interp1d (j * P1d + c)

/-- The chains of the first `n` derivative axes of one element in `grad`. -/
def gradChains {R : Type} [CommRing R] (dim ncomp P1d Q1d blockDim : Nat)
    (sched : Nat → List Nat) (u : Nat → R) (b n : Nat) (st : BlockState R) : BlockState R :=
  forLoop (fun dim1 st =>
    passLoop P1d Q1d P1d 1 (ncomp * P1d ^ dim) dim (fun d => if dim1 = d then Q1d * P1d else 0)
      (Loc.gin (b * (ncomp * P1d ^ dim) + 0)) (Q1d * P1d + Q1d * P1d)
      (ncomp * (if Q1d > P1d then Q1d else P1d) ^ dim)
      (b * (ncomp * (Q1d ^ dim * dim)) + dim1 * (Q1d ^ dim * ncomp)) u blockDim
      (fun d2 => sched (1 + dim1 * dim + d2)) dim st) n st

/-- The second loop of forward GRAD: slice `d` of `v` receives the contraction
of `interp` with `t` along axis `d`. -/
def sliceBody {R : Type} [CommRing R] (Q : Nat) (t : Nat → R) (S : Nat) (d : Nat)
    (s : OptState R) : OptState R :=
  optStep Q Q t CEED_NOTRANSPOSE 0 s.interp (OptBuf.v (d * S)) s

/-- The first loop of transpose GRAD: slice `d` of `u` is contracted with the
transpose of `t` along axis `d` and accumulated into `interp`. -/
def gatherBody {R : Type} [CommRing R] (Q : Nat) (t : Nat → R) (S : Nat) (u : Nat → R)
    (d : Nat) (s : OptState R) : OptState R :=
  optStep Q Q t CEED_TRANSPOSE (if 0 < d then 1 else 0) (fun i => u (d * S + i))
    OptBuf.interp s

/-- The flat index `q` with its digit of axis `d` replaced by `r`. -/
def rep (Q d q r : Nat) : Nat := q / Q ^ (d + 1) * Q ^ (d + 1) + r * Q ^ d + q % Q ^ d

/-- A thread or block order that is not the index order. -/
def wOrder : List Nat := [1, 0]

/-- The body of the loop over the point index into which the three loops over
`i`, `j`, `k` of one WEIGHT pass of `CeedBasisApply_Opt` merge. -/
def weightCell {R : Type} [CommRing R] (qweight1d : Nat → R) (Q post nelem d : Nat) (idx : Nat)
    (v : Nat → R) : Nat → R :=
  let w := qweight1d (idx / post % Q) * (if d = 0 then 1 else v (idx * nelem))
  forLoop (fun e v => store v (idx * nelem + e) w) nelem v

/-- Pass `d` of the WEIGHT loop nest of `CeedBasisApply_Opt`. -/
def weightPass {R : Type} [CommRing R] (basis : CeedBasis R) (nelem : Nat) (d : Nat)
    (v : Nat → R) : Nat → R :=
  let pre := CeedPowInt basis.Q1d (basis.dim - d - 1)
  let post := CeedPowInt basis.Q1d d
  forLoop (fun i v =>
    forLoop (fun j v =>
      forLoop (fun k v =>
        let w := basis.qweight1d j *
          (if d = 0 then 1 else v (((i * basis.Q1d + j) * post + k) * nelem))
        forLoop (fun e v => store v (((i * basis.Q1d + j) * post + k) * nelem + e) w) nelem v)
        post v) basis.Q1d v) pre v

/-- A two-dimensional basis with two quadrature points per axis and the
one-dimensional weights 2 and 3. -/
def w2Basis : CeedBasis Int :=
  { dim := 2
    ncomp := 1
    P1d := 2
    Q1d := 2
    interp1d := wT
    grad1d := wT
    qweight1d := fun j => (j : Int) + 2
    colograd1d := wT }

/-- A two-dimensional basis with the two-point Gauss rule, whose weights are 1
and 1. -/
def gaussBasis : CeedBasis Int :=
  { dim := 2
    ncomp := 1
    P1d := 2
    Q1d := 2
    interp1d := wT
    grad1d := wT
    qweight1d := fun _ => 1
    colograd1d := wT }

/-- Pass `d` of the kernel `weight`. -/
def weightPassCuda {R : Type} [CommRing R] (m : KernelDefs) (qweight1d : Nat → R) (d : Nat)
    (v : Nat → R) : Nat → R :=
  let pre := preAt m.BASIS_NQPT m.Q1D d
  let post := postAt m.Q1D d
  forLoop (fun i v =>
    forLoop (fun j v =>
      forLoop (fun k v =>
        store v ((i * m.Q1D + j) * post + k)
          (qweight1d j * (if d = 0 then 1 else v ((i * m.Q1D + j) * post + k))))
        post v) m.Q1D v) pre v

/-- Every collaborator call of `CeedBasisApply_Cuda` succeeds. -/
def CudaCalls.succeed (calls : CudaCalls) : Prop :=
  calls.CeedBasisGetCeed = 0 ∧ calls.CeedVectorGetArrayRead = 0 ∧
  calls.CeedVectorGetArray = 0 ∧ calls.cudaMemset = 0 ∧ calls.run_kernel = 0 ∧
  calls.CeedVectorRestoreArrayRead = 0 ∧ calls.CeedVectorRestoreArray = 0

/-- The collaborator statuses of a call in which nothing fails. -/
def okCalls : CudaCalls :=
  { CeedBasisGetCeed := 0
    CeedVectorGetArrayRead := 0
    CeedVectorGetArray := 0
    cudaMemset := 0
    run_kernel := 0
    CeedVectorRestoreArrayRead := 0
    CeedVectorRestoreArray := 0 }

/-- The flat indices in the order in which a grid-stride loop processes them:
block after block, thread after thread, each thread its own indices. -/
def gridList (gridDim blockDim : Nat) (blockOrder : List Nat) (sched : Nat → List Nat)
    (esize : Nat) : List Nat :=
  blockOrder.flatMap (fun b =>
    (sched b).flatMap (fun t => stridedList (b * blockDim + t) (blockDim * gridDim) esize))

/-- A restriction with two elements of two nodes, two components and three
global nodes. -/
def wRestr : RestrictionDefs :=
  { RESTRICTION_ELEMSIZE := 2
    RESTRICTION_NCOMP := 2
    RESTRICTION_NDOF := 3 }

/-- The index array of two elements that share the global node 1. -/
def wIndices : Nat → Nat := fun k => if k = 0 then 0 else if k = 3 then 2 else 1

/-- An order of three threads that is not the index order. -/
def wThreads : List Nat := [2, 0, 1]

/-- The address `indices[s + elemsize*e] + ndof*d` that flat index `i` reads
(`noTrNoTr`) or adds to (`trNoTr`) when there is an index array. -/
def addrNoTr (m : RestrictionDefs) (indices : Nat → Nat) (i : Nat) : Nat :=
  indices (i % m.RESTRICTION_ELEMSIZE
      + m.RESTRICTION_ELEMSIZE * (i / (m.RESTRICTION_NCOMP * m.RESTRICTION_ELEMSIZE)))
    + m.RESTRICTION_NDOF * (i / m.RESTRICTION_ELEMSIZE % m.RESTRICTION_NCOMP)

/-- The address `ncomp*indices[s + elemsize*e] + d` that flat index `i` reads
(`noTrTr`) or adds to (`trTr`) when there is an index array. -/
def addrTr (m : RestrictionDefs) (indices : Nat → Nat) (i : Nat) : Nat :=
  m.RESTRICTION_NCOMP * indices (i % m.RESTRICTION_ELEMSIZE
      + m.RESTRICTION_ELEMSIZE * (i / (m.RESTRICTION_NCOMP * m.RESTRICTION_ELEMSIZE)))
    + i / m.RESTRICTION_ELEMSIZE % m.RESTRICTION_NCOMP

/-- The address `s + elemsize*e + ndof*d` of flat index `i` in `noTrNoTr` and
`trNoTr` when `indices` is `NULL`. -/
def nullAddrNoTr (m : RestrictionDefs) (i : Nat) : Nat :=
  i % m.RESTRICTION_ELEMSIZE
    + m.RESTRICTION_ELEMSIZE * (i / (m.RESTRICTION_NCOMP * m.RESTRICTION_ELEMSIZE))
    + m.RESTRICTION_NDOF * (i / m.RESTRICTION_ELEMSIZE % m.RESTRICTION_NCOMP)

/-- The address `ncomp*s + elemsize*e + d` of flat index `i` in `noTrTr` and
`trTr` when `indices` is `NULL`. -/
def nullAddrTr (m : RestrictionDefs) (i : Nat) : Nat :=
  m.RESTRICTION_NCOMP * (i % m.RESTRICTION_ELEMSIZE)
    + m.RESTRICTION_ELEMSIZE * (i / (m.RESTRICTION_NCOMP * m.RESTRICTION_ELEMSIZE))
    + i / m.RESTRICTION_ELEMSIZE % m.RESTRICTION_NCOMP

/-- A restriction with two elements of two nodes, two components and four
global nodes. -/
def wRestrNull : RestrictionDefs :=
  { RESTRICTION_ELEMSIZE := 2
    RESTRICTION_NCOMP := 2
    RESTRICTION_NDOF := 4 }

/-- The `6 x 6` identity matrix, row-major: the interpolation matrix of a basis
whose quadrature points are its nodes. -/
def wIdentity : Nat → Int := fun i => if i / 6 = i % 6 then 1 else 0

/-- The two nodes `-1` and `1`. -/
def wNodes : Nat → ℚ := fun p => 2 * (p : ℚ) - 1

/-- The three evaluation points `0`, `1/2` and `1`. -/
def wPoints : Nat → ℚ := fun q => (q : ℚ) / 2

/-- The matrix of the two Lagrange basis polynomials `(1 - y)/2` and
`(1 + y)/2` of the nodes `wNodes` evaluated at the points `wPoints`, row-major
with two columns. -/
def wLagrange : Nat → ℚ :=
  fun k => if k % 2 = 0 then (1 - wPoints (k / 2)) / 2 else (1 + wPoints (k / 2)) / 2

/-- The values of the polynomial `1 + 2 y` at the nodes `wNodes`. -/
def wNodal : Nat → ℚ := fun p => 1 + 2 * wNodes p

/-- The collaborator statuses of a call in which acquiring the array of `v`
fails with status 3. -/
def failGetArray : CudaCalls :=
  { CeedBasisGetCeed := 0
    CeedVectorGetArrayRead := 0
    CeedVectorGetArray := 3
    cudaMemset := 0
    run_kernel := 0
    CeedVectorRestoreArrayRead := 0
    CeedVectorRestoreArray := 0 }

/-- The collaborator statuses of a call in which the kernel launch fails with
status 4. -/
def failLaunch : CudaCalls :=
  { CeedBasisGetCeed := 0
    CeedVectorGetArrayRead := 0
    CeedVectorGetArray := 0
    cudaMemset := 0
    run_kernel := 4
    CeedVectorRestoreArrayRead := 0
    CeedVectorRestoreArray := 0 }

/-- The state of `applyGrad_Opt` after the first `n` iterations of its first
loop (lines 124-139). -/
def gradFirst {R : Type} [CommRing R] (basis : CeedBasis R) (nelem : Nat)
    (tmode : CeedTransposeMode) (add : Int) (u : Nat → R) (s : OptState R) (n : Nat) :
    OptState R :=
  let dim := basis.dim
  let ncomp := basis.ncomp
  let nqpt := CeedPowInt basis.Q1d dim
  let P := if tmode = CEED_TRANSPOSE then basis.Q1d else basis.P1d
  let Q := basis.Q1d
  let s0 := { s with pre := ncomp * CeedPowInt P (dim - 1), post := nelem }
  forLoop (fun d s =>
    optStep P Q
      (if tmode = CEED_NOTRANSPOSE then basis.interp1d else basis.colograd1d)
      tmode (if add ≠ 0 ∧ 0 < d then 1 else 0)
      (if tmode = CEED_NOTRANSPOSE then (if d = 0 then u else s.tmp (d % 2))
       else fun i => u (d * nqpt * ncomp * nelem + i))
      (if tmode = CEED_NOTRANSPOSE then
         (if d = dim - 1 then OptBuf.interp else OptBuf.tmp ((d + 1) % 2))
       else OptBuf.interp) s) n s0

/-- The state of `applyGrad_Opt` after its first loop and the first `n`
iterations of its second loop (lines 142-162). -/
def gradSecond {R : Type} [CommRing R] (basis : CeedBasis R) (nelem : Nat)
    (tmode : CeedTransposeMode) (add : Int) (u : Nat → R) (s : OptState R) (n : Nat) :
    OptState R :=
  let dim := basis.dim
  let ncomp := basis.ncomp
  let nqpt := CeedPowInt basis.Q1d dim
  let s1 := gradFirst basis nelem tmode add u s dim
  let P2 := basis.Q1d
  let Q2 := if tmode = CEED_TRANSPOSE then basis.P1d else basis.Q1d
  let s2 := { s1 with pre := ncomp * CeedPowInt P2 (dim - 1), post := nelem }
  forLoop (fun d s =>
    optStep P2 Q2
      (if tmode = CEED_NOTRANSPOSE then basis.colograd1d else basis.interp1d)
      tmode (if add ≠ 0 ∧ d = dim - 1 then 1 else 0)
      (if tmode = CEED_NOTRANSPOSE then s.interp
       else (if d = 0 then s.interp else s.tmp (d % 2)))
      (if tmode = CEED_NOTRANSPOSE then OptBuf.v (d * nqpt * ncomp * nelem)
       else (if d = dim - 1 then OptBuf.v 0 else OptBuf.tmp ((d + 1) % 2))) s) n s2

/-- A basis of dimension 2 with `P1d = 8 > Q1d = 4` and a zero interpolation
matrix. -/
def wGradBasis : CeedBasis Int :=
  { dim := 2
    ncomp := 1
    P1d := 8
    Q1d := 4
    interp1d := fun _ => 0
    grad1d := wT
    qweight1d := wT
    colograd1d := wT }

/-- A state whose local arrays hold the values of `wV`. -/
def wGradState : OptState Int :=
  { ierr := 0
    pre := 0
    post := 0
    tmp := fun _ => wV
    interp := wV
    v := wV }

/-- Conserved variables for two quadrature points: `q[j] = j + 1`. -/
def wNSq : Nat → ℚ := fun j => (j : ℚ) + 1

/-- An array of ones. -/
def wNSone : Nat → ℚ := fun _ => 1

/-- The handle of the kernel `weight` of the source `basiskernels`, as
`get_kernel` would hand it back from a module compiled from that source with
the constants `m`: the blocks and the threads of a block run in index order. -/
def basisWeightHandle {R : Type} [CommRing R] (m : KernelDefs) :
    Nat → Nat → (Nat → R) → (Nat → R) → Nat → R :=
  fun gridSize blockSize qweight1d v =>
    basiskernels.weight m (List.range gridSize) (fun _ => List.range blockSize) qweight1d v

/-- The backend data that `CeedBasisCreateTensorH1_Cuda` leaves for `w2Basis`,
blocks and threads running in index order. -/
def w2Data : CeedBasis_Cuda Int :=
  CeedBasisCreateTensorH1_Cuda (fun g => List.range g) (fun n _ => List.range n)
    (fun _ _ _ _ => 0) w2Basis

/-- The backend data that `CeedBasisCreateTensorH1_Cuda` leaves for `wBasis`,
blocks and threads running in index order. -/
def wData : CeedBasis_Cuda Int :=
  CeedBasisCreateTensorH1_Cuda (fun g => List.range g) (fun n _ => List.range n)
    (fun _ _ _ _ => 0) wBasis

/-! ## Theorems -/

/-! ### Loops -/

theorem forLoop_succ {σ : Type} (body : Nat → σ → σ) (n : Nat) (s : σ) :
    forLoop body (n + 1) s = body n (forLoop body n s) := rfl

theorem accum_eq_sum {R : Type} [CommRing R] (n : Nat) (f : Nat → R) :
    accum n f = ∑ b in Finset.range n, f b := by
  unfold accum
  induction n with
  | zero => simp [forLoop]
  | succ n ih => rw [forLoop_succ, ih, Finset.sum_range_succ]

theorem forLoop_store_zero {R : Type} [Zero R] (n : Nat) (v : Nat → R) (k : Nat) :
    forLoop (fun q v => store v q 0) n v k = if k < n then 0 else v k := by
  induction n with
  | zero => simp [forLoop]
  | succ n ih =>
    rw [forLoop_succ]
    simp only [store]
    by_cases h : k = n
    · subst h; simp
    · rw [if_neg h, ih]
      by_cases h2 : k < n
      · rw [if_pos h2, if_pos (by omega)]
      · rw [if_neg h2, if_neg (by omega)]

/-- A loop whose iterations write disjoint sets of entries, each entry being
replaced by a function of its own old value. -/
theorem forLoop_own {R : Type} (body : Nat → (Nat → R) → (Nat → R)) (own : Nat → Nat → Prop)
    (G : Nat → R → R) (n : Nat)
    (hown : ∀ i, i < n → ∀ v k, own i k → body i v k = G k (v k))
    (hframe : ∀ i, i < n → ∀ v k, ¬ own i k → body i v k = v k)
    (hdisj : ∀ i, i < n → ∀ i', i' < n → ∀ k, own i k → own i' k → i = i')
    (v : Nat → R) (k : Nat) :
    ((∃ i, i < n ∧ own i k) → forLoop body n v k = G k (v k)) ∧
    ((∀ i, i < n → ¬ own i k) → forLoop body n v k = v k) := by
  induction n with
  | zero =>
    constructor
    · rintro ⟨i, hi, _⟩; omega
    · intro _; rfl
  | succ n ih =>
    have ih' := ih (fun i hi => hown i (by omega)) (fun i hi => hframe i (by omega))
      (fun i hi i' hi' => hdisj i (by omega) i' (by omega))
    rw [forLoop_succ]
    constructor
    · rintro ⟨i, hi, ho⟩
      by_cases hn : own n k
      · rw [hown n (by omega) _ _ hn, ih'.2]
        intro i' hi' ho'
        have := hdisj i' (by omega) n (by omega) k ho' hn
        omega
      · rw [hframe n (by omega) _ _ hn]
        apply ih'.1
        refine ⟨i, ?_, ho⟩
        rcases Nat.lt_succ_iff_lt_or_eq.mp hi with h | h
        · exact h
        · subst h; exact absurd ho hn
    · intro hno
      rw [hframe n (by omega) _ _ (hno n (by omega))]
      exact ih'.2 (fun i hi => hno i (by omega))

/-! ### One tile of `CeedTensorContract_Opt` -/

theorem coords {C J a y x k : Nat} (hx : x < C) (hy : y < J) (hk : k = (a * J + y) * C + x) :
    k % C = x ∧ k / C % J = y ∧ k / C / J = a := by
  have hC : 0 < C := by omega
  have h1 : k / C = a * J + y := by
    rw [hk, Nat.add_comm, Nat.add_mul_div_right _ _ hC, Nat.div_eq_of_lt hx]; simp
  have h2 : k % C = x := by
    rw [hk, Nat.add_comm, Nat.add_mul_mod_self_right, Nat.mod_eq_of_lt hx]
  refine ⟨h2, ?_, ?_⟩
  · rw [h1, Nat.add_comm, Nat.add_mul_mod_self_right, Nat.mod_eq_of_lt hy]
  · rw [h1, Nat.add_comm, Nat.add_mul_div_right _ _ (by omega), Nat.div_eq_of_lt hy]; simp

theorem coords_inv {C J k : Nat} :
    k = (k / C / J * J + k / C % J) * C + k % C := by
  have h1 := Nat.div_add_mod k C
  have h2 := Nat.div_add_mod (k / C) J
  calc k = C * (k / C) + k % C := h1.symm
    _ = C * (J * (k / C / J) + k / C % J) + k % C := by rw [h2]
    _ = (k / C / J * J + k / C % J) * C + k % C := by ring

theorem loadTile_apply {R : Type} [Zero R] (C J a j c : Nat) (v : Nat → R) (vv : Tile R)
    (jj cc : Nat) (hjj : jj < 4) (hcc : cc < 2) (l : Nat) :
    loadTile 4 8 C J a j c v vv jj cc l = v ((a * J + j + jj) * C + c + cc * 4 + l) := by
  interval_cases jj <;> interval_cases cc <;>
    simp [loadTile, forLoop, setTile, _mm256_loadu_pd]

theorem fmaStep_apply {R : Type} [CommRing R] (B C a j c ts0 ts1 : Nat) (t u : Nat → R)
    (b : Nat) (vv : Tile R) (jj cc : Nat) (hjj : jj < 4) (hcc : cc < 2) (l : Nat) :
    forLoop (fun jj vv =>
      let tq := t ((j + jj) * ts0 + b * ts1)
      forLoop (fun cc vv =>
        setTile vv jj cc
          (fun l => vv jj cc l + tq * _mm256_loadu_pd u ((a * B + b) * C + c + cc * 4) l))
        (8 / 4) vv) 4 vv jj cc l
      = vv jj cc l + t ((j + jj) * ts0 + b * ts1) * u ((a * B + b) * C + c + cc * 4 + l) := by
  interval_cases jj <;> interval_cases cc <;>
    simp [forLoop, setTile, _mm256_loadu_pd]

theorem fmaLoop_apply {R : Type} [CommRing R] (B C a j c ts0 ts1 : Nat) (t u : Nat → R)
    (n : Nat) (vv : Tile R) (jj cc : Nat) (hjj : jj < 4) (hcc : cc < 2) (l : Nat) :
    forLoop (fun b vv =>
      forLoop (fun jj vv =>
        let tq := t ((j + jj) * ts0 + b * ts1)
        forLoop (fun cc vv =>
          setTile vv jj cc
            (fun l => vv jj cc l + tq * _mm256_loadu_pd u ((a * B + b) * C + c + cc * 4) l))
          (8 / 4) vv) 4 vv) n vv jj cc l
      = vv jj cc l + ∑ b in Finset.range n,
          t ((j + jj) * ts0 + b * ts1) * u ((a * B + b) * C + c + cc * 4 + l) := by
  induction n with
  | zero => simp [forLoop]
  | succ n ih =>
    rw [forLoop_succ, fmaStep_apply B C a j c ts0 ts1 t u n _ jj cc hjj hcc l, ih,
      Finset.sum_range_succ, add_assoc]

theorem fmaTile_apply {R : Type} [CommRing R] (B C a j c ts0 ts1 : Nat) (t u : Nat → R)
    (vv : Tile R) (jj cc : Nat) (hjj : jj < 4) (hcc : cc < 2) (l : Nat) :
    fmaTile 4 8 B C a j c ts0 ts1 t u vv jj cc l
      = vv jj cc l + ∑ b in Finset.range B,
          t ((j + jj) * ts0 + b * ts1) * u ((a * B + b) * C + c + cc * 4 + l) :=
  fmaLoop_apply B C a j c ts0 ts1 t u B vv jj cc hjj hcc l

theorem storeTile_at {R : Type} (C J a j c : Nat) (hc : c + 8 ≤ C) (vv : Tile R) (v : Nat → R)
    (jj cc l : Nat) (hjj : jj < 4) (hcc : cc < 2) (hl : l < 4) :
    storeTile 4 8 C J a j c vv v ((a * J + j + jj) * C + c + cc * 4 + l) = vv jj cc l := by
  simp only [storeTile, forLoop, _mm256_storeu_pd, Nat.reduceDiv]
  generalize a * J + j = row
  interval_cases jj <;> interval_cases cc <;>
    simp only [Nat.add_mul, Nat.zero_mul, Nat.one_mul, Nat.add_zero] <;>
    generalize row * C = X <;>
    simp (disch := omega) only [if_pos, if_neg] <;>
    congr 1 <;> omega

theorem storeTile_frame {R : Type} (C J a j c : Nat) (vv : Tile R) (v : Nat → R) (k : Nat)
    (h : ∀ jj, jj < 4 → ∀ cc, cc < 2 →
      ¬ ((a * J + j + jj) * C + c + cc * 4 ≤ k ∧ k < (a * J + j + jj) * C + c + cc * 4 + 4)) :
    storeTile 4 8 C J a j c vv v k = v k := by
  simp only [storeTile, forLoop, _mm256_storeu_pd, Nat.reduceDiv]
  have h00 := h 0 (by omega) 0 (by omega)
  have h01 := h 0 (by omega) 1 (by omega)
  have h10 := h 1 (by omega) 0 (by omega)
  have h11 := h 1 (by omega) 1 (by omega)
  have h20 := h 2 (by omega) 0 (by omega)
  have h21 := h 2 (by omega) 1 (by omega)
  have h30 := h 3 (by omega) 0 (by omega)
  have h31 := h 3 (by omega) 1 (by omega)
  rw [if_neg h31, if_neg h30, if_neg h21, if_neg h20, if_neg h11, if_neg h10, if_neg h01,
    if_neg h00]

theorem tileBody_own {R : Type} [CommRing R] (B C J ts0 ts1 : Nat) (t u : Nat → R)
    (a j c : Nat) (hc : c + 8 ≤ C) (v : Nat → R) (k : Nat)
    (h : inTile C J a j c k) :
    tileBody 4 8 B C J ts0 ts1 t u a j c v k = v k + contrSum B C J ts0 ts1 t u k := by
  obtain ⟨ha, hj1, hj2, hc1, hc2⟩ := h
  have hk : k = (a * J + j + (k / C % J - j)) * C + c + (k % C - c) / 4 * 4 + (k % C - c) % 4 := by
    have h0 := @coords_inv C J k
    have e1 : a * J + j + (k / C % J - j) = k / C / J * J + k / C % J := by rw [ha]; omega
    have e2 : c + (k % C - c) / 4 * 4 + (k % C - c) % 4 = k % C := by omega
    rw [e1, Nat.add_assoc, Nat.add_assoc, ← Nat.add_assoc c, e2]
    exact h0
  have hjj : k / C % J - j < 4 := by omega
  have hcc : (k % C - c) / 4 < 2 := by omega
  have hl : (k % C - c) % 4 < 4 := by omega
  unfold tileBody
  conv_lhs => rw [hk]
  rw [storeTile_at C J a j c hc _ _ _ _ _ hjj hcc hl, fmaTile_apply _ _ _ _ _ _ _ _ _ _ _ _ hjj hcc,
    loadTile_apply _ _ _ _ _ _ _ _ _ hjj hcc, ← hk]
  congr 1
  unfold contrSum
  apply Finset.sum_congr rfl
  intro b _
  have e1 : j + (k / C % J - j) = k / C % J := by omega
  have e2 : c + (k % C - c) / 4 * 4 + (k % C - c) % 4 = k % C := by omega
  rw [e1, ha, Nat.add_assoc, Nat.add_assoc, ← Nat.add_assoc c, e2]

theorem tileBody_frame {R : Type} [CommRing R] (B C J ts0 ts1 : Nat) (t u : Nat → R)
    (a j c : Nat) (hc : c + 8 ≤ C) (hj : j + 4 ≤ J) (v : Nat → R) (k : Nat)
    (h : ¬ inTile C J a j c k) :
    tileBody 4 8 B C J ts0 ts1 t u a j c v k = v k := by
  unfold tileBody
  apply storeTile_frame
  intro jj hjj cc hcc hcov
  apply h
  have hk : k = (a * J + (j + jj)) * C + (c + cc * 4 + (k - ((a * J + j + jj) * C + c + cc * 4))) := by
    rw [← Nat.add_assoc (a * J)]
    omega
  obtain ⟨h1, h2, h3⟩ := coords (C := C) (J := J) (a := a) (y := j + jj)
    (x := c + cc * 4 + (k - ((a * J + j + jj) * C + c + cc * 4))) (by omega) (by omega) hk
  refine ⟨h3, ?_, ?_, ?_, ?_⟩ <;> omega

/-! ### The loop nest of `CeedTensorContract_Opt` -/

theorem cLoop_own {R : Type} [CommRing R] (B C J ts0 ts1 : Nat) (t u : Nat → R)
    (hC : C % 8 = 0) (a j : Nat) (hj : j + 4 ≤ J) (v : Nat → R) (k : Nat) :
    ((∃ ct, ct < C / 8 ∧ inTile C J a j (ct * 8) k) →
      forStep 8 C (fun c v => tileBody 4 8 B C J ts0 ts1 t u a j c v) v k
        = v k + contrSum B C J ts0 ts1 t u k) ∧
    ((∀ ct, ct < C / 8 → ¬ inTile C J a j (ct * 8) k) →
      forStep 8 C (fun c v => tileBody 4 8 B C J ts0 ts1 t u a j c v) v k = v k) := by
  have hn : (C + 8 - 1) / 8 = C / 8 := by omega
  unfold forStep
  rw [hn]
  exact forLoop_own (fun ct v => tileBody 4 8 B C J ts0 ts1 t u a j (ct * 8) v)
    (fun ct k => inTile C J a j (ct * 8) k)
    (fun k x => x + contrSum B C J ts0 ts1 t u k) (C / 8)
    (fun ct hct v k h => tileBody_own B C J ts0 ts1 t u a j (ct * 8) (by omega) v k h)
    (fun ct hct v k h => tileBody_frame B C J ts0 ts1 t u a j (ct * 8) (by omega) hj v k h)
    (fun ct _ ct' _ k h h' => by
      obtain ⟨_, _, _, h1, h2⟩ := h
      obtain ⟨_, _, _, h3, h4⟩ := h'
      omega) v k

theorem jLoop_own {R : Type} [CommRing R] (B C J ts0 ts1 : Nat) (t u : Nat → R)
    (hC : C % 8 = 0) (hJ : J % 4 = 0) (a : Nat) (v : Nat → R) (k : Nat) :
    ((∃ jt, jt < J / 4 ∧ ∃ ct, ct < C / 8 ∧ inTile C J a (jt * 4) (ct * 8) k) →
      forStep 4 J (fun j v =>
        forStep 8 C (fun c v => tileBody 4 8 B C J ts0 ts1 t u a j c v) v) v k
        = v k + contrSum B C J ts0 ts1 t u k) ∧
    ((∀ jt, jt < J / 4 → ¬ ∃ ct, ct < C / 8 ∧ inTile C J a (jt * 4) (ct * 8) k) →
      forStep 4 J (fun j v =>
        forStep 8 C (fun c v => tileBody 4 8 B C J ts0 ts1 t u a j c v) v) v k = v k) := by
  have hn : (J + 4 - 1) / 4 = J / 4 := by omega
  unfold forStep
  rw [hn]
  exact forLoop_own
    (fun jt v => forLoop (fun i => (fun c v => tileBody 4 8 B C J ts0 ts1 t u a (jt * 4) c v) (i * 8))
      ((C + 8 - 1) / 8) v)
    (fun jt k => ∃ ct, ct < C / 8 ∧ inTile C J a (jt * 4) (ct * 8) k)
    (fun k x => x + contrSum B C J ts0 ts1 t u k) (J / 4)
    (fun jt hjt v k h => (cLoop_own B C J ts0 ts1 t u hC a (jt * 4) (by omega) v k).1 h)
    (fun jt hjt v k h => (cLoop_own B C J ts0 ts1 t u hC a (jt * 4) (by omega) v k).2
      (fun ct hct hin => h ⟨ct, hct, hin⟩))
    (fun jt _ jt' _ k h h' => by
      obtain ⟨_, _, _, h1, h2, _⟩ := h
      obtain ⟨_, _, _, h3, h4, _⟩ := h'
      omega) v k

theorem aLoop_own {R : Type} [CommRing R] (A B C J ts0 ts1 : Nat) (t u : Nat → R)
    (hC : C % 8 = 0) (hJ : J % 4 = 0) (v : Nat → R) (k : Nat) :
    ((∃ a, a < A ∧ ∃ jt, jt < J / 4 ∧ ∃ ct, ct < C / 8 ∧ inTile C J a (jt * 4) (ct * 8) k) →
      forLoop (fun a v => forStep 4 J (fun j v =>
        forStep 8 C (fun c v => tileBody 4 8 B C J ts0 ts1 t u a j c v) v) v) A v k
        = v k + contrSum B C J ts0 ts1 t u k) ∧
    ((∀ a, a < A → ¬ ∃ jt, jt < J / 4 ∧ ∃ ct, ct < C / 8 ∧ inTile C J a (jt * 4) (ct * 8) k) →
      forLoop (fun a v => forStep 4 J (fun j v =>
        forStep 8 C (fun c v => tileBody 4 8 B C J ts0 ts1 t u a j c v) v) v) A v k = v k) :=
  forLoop_own _
    (fun a k => ∃ jt, jt < J / 4 ∧ ∃ ct, ct < C / 8 ∧ inTile C J a (jt * 4) (ct * 8) k)
    (fun k x => x + contrSum B C J ts0 ts1 t u k) A
    (fun a _ v k h => (jLoop_own B C J ts0 ts1 t u hC hJ a v k).1 h)
    (fun a _ v k h => (jLoop_own B C J ts0 ts1 t u hC hJ a v k).2
      (fun jt hjt hin => h ⟨jt, hjt, hin⟩))
    (fun a _ a' _ k h h' => by
      obtain ⟨_, _, _, _, h1, _⟩ := h
      obtain ⟨_, _, _, _, h2, _⟩ := h'
      omega) v k

/-- The entry `(a, j, c)` lies in the tile `(a, 4 * (j / 4), 8 * (c / 8))`. -/
theorem inTile_of_coords {A C J a j c : Nat} (hC : C % 8 = 0) (hJ : J % 4 = 0)
    (ha : a < A) (hj : j < J) (hc : c < C) :
    ∃ a', a' < A ∧ ∃ jt, jt < J / 4 ∧ ∃ ct, ct < C / 8 ∧
      inTile C J a' (jt * 4) (ct * 8) ((a * J + j) * C + c) := by
  obtain ⟨h1, h2, h3⟩ := coords (C := C) (J := J) (a := a) (y := j) (x := c) hc hj rfl
  refine ⟨a, ha, j / 4, by omega, c / 8, by omega, h3, ?_, ?_, ?_, ?_⟩ <;> omega

theorem contrSum_coords {R : Type} [CommRing R] (B C J ts0 ts1 : Nat) (t u : Nat → R)
    {a j c : Nat} (hj : j < J) (hc : c < C) :
    contrSum B C J ts0 ts1 t u ((a * J + j) * C + c)
      = ∑ b in Finset.range B, t (j * ts0 + b * ts1) * u ((a * B + b) * C + c) := by
  obtain ⟨h1, h2, h3⟩ := coords (C := C) (J := J) (a := a) (y := j) (x := c) hc hj rfl
  unfold contrSum
  rw [h1, h2, h3]

/-- The status and the written entries of a contraction with tileable sizes. -/
theorem contract_entry {R : Type} [CommRing R] (A B C J : Nat) (t : Nat → R)
    (tmode : CeedTransposeMode) (Add : Int) (u v : Nat → R) (hC : C % 8 = 0) (hJ : J % 4 = 0) :
    (CeedTensorContract_Opt A B C J t tmode Add u v).1 = 0 ∧
    ∀ a j c, a < A → j < J → c < C →
      (CeedTensorContract_Opt A B C J t tmode Add u v).2 ((a * J + j) * C + c)
        = (if Add = 0 then 0 else v ((a * J + j) * C + c)) +
          ∑ b in Finset.range B,
            t (j * (if tmode = CEED_TRANSPOSE then 1 else B)
                + b * (if tmode = CEED_TRANSPOSE then J else 1)) * u ((a * B + b) * C + c) := by
  unfold CeedTensorContract_Opt
  simp only [hC, hJ, ne_eq, not_true_eq_false, if_false]
  refine ⟨trivial, ?_⟩
  intro a j c ha hj hc
  rw [(aLoop_own A B C J _ _ t u hC hJ _ _).1 (inTile_of_coords hC hJ ha hj hc),
    contrSum_coords _ _ _ _ _ _ _ hj hc]
  congr 1
  by_cases hAdd : Add = 0
  · simp only [hAdd, if_true]
    rw [forLoop_store_zero, if_pos]
    calc (a * J + j) * C + c < (a * J + j) * C + C := by omega
      _ = (a * J + j + 1) * C := by ring
      _ ≤ (A * J) * C := by
        apply Nat.mul_le_mul_right
        calc a * J + j + 1 ≤ a * J + J := by omega
          _ = (a + 1) * J := by ring
          _ ≤ A * J := Nat.mul_le_mul_right _ ha
  · simp only [hAdd, if_false]

/-- Outside the `A * J * C` output entries a contraction leaves `v` alone. -/
theorem contract_frame {R : Type} [CommRing R] (A B C J : Nat) (t : Nat → R)
    (tmode : CeedTransposeMode) (Add : Int) (u v : Nat → R) (k : Nat) (hk : A * J * C ≤ k) :
    (CeedTensorContract_Opt A B C J t tmode Add u v).2 k = v k := by
  unfold CeedTensorContract_Opt
  by_cases hC : C % 8 = 0
  swap
  · simp [hC]
  by_cases hJ : J % 4 = 0
  swap
  · simp [hC, hJ]
  simp only [hC, hJ, ne_eq, not_true_eq_false, if_false]
  rw [(aLoop_own A B C J _ _ t u hC hJ _ _).2]
  · by_cases hAdd : Add = 0
    · simp only [hAdd, if_true]
      rw [forLoop_store_zero, if_neg (by omega)]
    · simp only [hAdd, if_false]
  · rintro a ha ⟨jt, hjt, ct, hct, h1, h2, h3, h4, h5⟩
    have hk' := @coords_inv C J k
    have : k < A * J * C := by
      have hCpos : 0 < C := by omega
      have hJpos : 0 < J := by omega
      have hx : k % C < C := Nat.mod_lt _ hCpos
      have hy : k / C % J < J := Nat.mod_lt _ hJpos
      rw [hk', h1]
      calc (a * J + k / C % J) * C + k % C < (a * J + k / C % J) * C + C := by omega
        _ = (a * J + k / C % J + 1) * C := by ring
        _ ≤ (A * J) * C := by
          apply Nat.mul_le_mul_right
          calc a * J + k / C % J + 1 ≤ a * J + J := by omega
            _ = (a + 1) * J := by ring
            _ ≤ A * J := Nat.mul_le_mul_right _ ha
    omega

/-! ### Claims on `CeedTensorContract_Opt` -/

/-- C1: with `C` divisible by 8, `J` divisible by 4 and `Add = 0`,
`CeedTensorContract_Opt` returns 0 and leaves
`v[(a*J+j)*C+c] = sum_b t[j*B+b] * u[(a*B+b)*C+c]` for NOTRANSPOSE and
`sum_b t[b*J+j] * u[(a*B+b)*C+c]` for TRANSPOSE, for all `a < A`, `j < J`,
`c < C`, whatever `v` contained before the call. -/
theorem C1_contract_overwrites {R : Type} [CommRing R] (A B C J : Nat) (t u v : Nat → R)
    (hC : C % 8 = 0) (hJ : J % 4 = 0) :
    (CeedTensorContract_Opt A B C J t CEED_NOTRANSPOSE 0 u v).1 = 0 ∧
    (CeedTensorContract_Opt A B C J t CEED_TRANSPOSE 0 u v).1 = 0 ∧
    ∀ a j c, a < A → j < J → c < C →
      (CeedTensorContract_Opt A B C J t CEED_NOTRANSPOSE 0 u v).2 ((a * J + j) * C + c)
        = ∑ b in Finset.range B, t (j * B + b) * u ((a * B + b) * C + c) ∧
      (CeedTensorContract_Opt A B C J t CEED_TRANSPOSE 0 u v).2 ((a * J + j) * C + c)
        = ∑ b in Finset.range B, t (b * J + j) * u ((a * B + b) * C + c) := by
  obtain ⟨h1, h2⟩ := contract_entry A B C J t CEED_NOTRANSPOSE 0 u v hC hJ
  obtain ⟨h3, h4⟩ := contract_entry A B C J t CEED_TRANSPOSE 0 u v hC hJ
  refine ⟨h1, h3, fun a j c ha hj hc => ⟨?_, ?_⟩⟩
  · rw [h2 a j c ha hj hc]
    simp
  · rw [h4 a j c ha hj hc]
    simp only [if_true, zero_add, Nat.mul_one]
    apply Finset.sum_congr rfl
    intro b _
    rw [Nat.add_comm]

/-- Witness of C1 on a `1 x 2 x 8` input contracted to `1 x 4 x 8`. -/
theorem C1_contract_overwrites_witness :
    (8 % 8 = 0 ∧ 4 % 4 = 0) ∧
    (CeedTensorContract_Opt 1 2 8 4 wT CEED_NOTRANSPOSE 0 wU wV).1 = 0 ∧
    (CeedTensorContract_Opt 1 2 8 4 wT CEED_TRANSPOSE 0 wU wV).1 = 0 ∧
    ∀ a j c, a < 1 → j < 4 → c < 8 →
      (CeedTensorContract_Opt 1 2 8 4 wT CEED_NOTRANSPOSE 0 wU wV).2 ((a * 4 + j) * 8 + c)
        = ∑ b in Finset.range 2, wT (j * 2 + b) * wU ((a * 2 + b) * 8 + c) ∧
      (CeedTensorContract_Opt 1 2 8 4 wT CEED_TRANSPOSE 0 wU wV).2 ((a * 4 + j) * 8 + c)
        = ∑ b in Finset.range 2, wT (b * 4 + j) * wU ((a * 2 + b) * 8 + c) :=
  ⟨by decide, C1_contract_overwrites 1 2 8 4 wT wU wV (by decide) (by decide)⟩

/-- C2: with `C` divisible by 8, `J` divisible by 4 and `Add != 0`,
`CeedTensorContract_Opt` accumulates: the final `v[(a*J+j)*C+c]` is the initial
`v[(a*J+j)*C+c]` plus the contraction sum, in both transpose modes. -/
theorem C2_contract_accumulates {R : Type} [CommRing R] (A B C J : Nat) (t u v : Nat → R)
    (Add : Int) (hAdd : Add ≠ 0) (hC : C % 8 = 0) (hJ : J % 4 = 0) :
    ∀ a j c, a < A → j < J → c < C →
      (CeedTensorContract_Opt A B C J t CEED_NOTRANSPOSE Add u v).2 ((a * J + j) * C + c)
        = v ((a * J + j) * C + c)
          + ∑ b in Finset.range B, t (j * B + b) * u ((a * B + b) * C + c) ∧
      (CeedTensorContract_Opt A B C J t CEED_TRANSPOSE Add u v).2 ((a * J + j) * C + c)
        = v ((a * J + j) * C + c)
          + ∑ b in Finset.range B, t (b * J + j) * u ((a * B + b) * C + c) := by
  obtain ⟨_, h2⟩ := contract_entry A B C J t CEED_NOTRANSPOSE Add u v hC hJ
  obtain ⟨_, h4⟩ := contract_entry A B C J t CEED_TRANSPOSE Add u v hC hJ
  refine fun a j c ha hj hc => ⟨?_, ?_⟩
  · rw [h2 a j c ha hj hc]
    simp [hAdd]
  · rw [h4 a j c ha hj hc]
    simp only [hAdd, if_false, if_true, Nat.mul_one]
    congr 1
    apply Finset.sum_congr rfl
    intro b _
    rw [Nat.add_comm]

/-- Witness of C2 with `Add = 1`. -/
theorem C2_contract_accumulates_witness :
    ((1 : Int) ≠ 0 ∧ 8 % 8 = 0 ∧ 4 % 4 = 0) ∧
    ∀ a j c, a < 1 → j < 4 → c < 8 →
      (CeedTensorContract_Opt 1 2 8 4 wT CEED_NOTRANSPOSE 1 wU wV).2 ((a * 4 + j) * 8 + c)
        = wV ((a * 4 + j) * 8 + c)
          + ∑ b in Finset.range 2, wT (j * 2 + b) * wU ((a * 2 + b) * 8 + c) ∧
      (CeedTensorContract_Opt 1 2 8 4 wT CEED_TRANSPOSE 1 wU wV).2 ((a * 4 + j) * 8 + c)
        = wV ((a * 4 + j) * 8 + c)
          + ∑ b in Finset.range 2, wT (b * 4 + j) * wU ((a * 2 + b) * 8 + c) :=
  ⟨by decide, C2_contract_accumulates 1 2 8 4 wT wU wV 1 (by decide) (by decide) (by decide)⟩

/-- C3: when `C` is not a multiple of 8 or `J` is not a multiple of 4,
`CeedTensorContract_Opt` returns a non-zero status and no entry of `v` is
modified, for every `Add` and transpose mode. -/
theorem C3_contract_rejects_untileable {R : Type} [CommRing R] (A B C J : Nat) (t u v : Nat → R)
    (tmode : CeedTransposeMode) (Add : Int) (h : C % 8 ≠ 0 ∨ J % 4 ≠ 0) :
    (CeedTensorContract_Opt A B C J t tmode Add u v).1 ≠ 0 ∧
    ∀ k, (CeedTensorContract_Opt A B C J t tmode Add u v).2 k = v k := by
  unfold CeedTensorContract_Opt CeedError
  by_cases hC : C % 8 = 0
  · have hJ : J % 4 ≠ 0 := by
      rcases h with h | h
      · exact absurd hC h
      · exact h
    simp [hC, hJ]
  · simp [hC]

/-- Witness of C3 with `J = 6`. -/
theorem C3_contract_rejects_untileable_witness :
    (8 % 8 ≠ 0 ∨ 6 % 4 ≠ 0) ∧
    (CeedTensorContract_Opt 1 2 8 6 wT CEED_NOTRANSPOSE 0 wU wV).1 ≠ 0 ∧
    ∀ k, (CeedTensorContract_Opt 1 2 8 6 wT CEED_NOTRANSPOSE 0 wU wV).2 k = wV k :=
  ⟨by decide, C3_contract_rejects_untileable 1 2 8 6 wT wU wV CEED_NOTRANSPOSE 0 (by decide)⟩

/-! ### Sums over flat indices, digits -/

theorem sum_range_mul {M : Type} [AddCommMonoid M] (m n : Nat) (f : Nat → M) :
    ∑ i in Finset.range (m * n), f i
      = ∑ a in Finset.range m, ∑ b in Finset.range n, f (a * n + b) := by
  induction m with
  | zero => simp
  | succ m ih =>
    rw [Finset.sum_range_succ, ← ih, Nat.succ_mul, Finset.sum_range_add]

theorem sum_multiIdx {M : Type} [AddCommMonoid M] (n dim : Nat) (f : Nat → M) :
    ∑ p : Fin dim → Fin n, f (multiIdx p) = ∑ x in Finset.range (n ^ dim), f x := by
  rw [← Fin.sum_univ_eq_sum_range, ← Equiv.sum_comp (finFunctionFinEquiv (m := n) (n := dim))]
  rfl

theorem multiIdx_lt {n dim : Nat} (q : Fin dim → Fin n) : multiIdx q < n ^ dim :=
  (finFunctionFinEquiv q).isLt

theorem multiIdx_digit {n dim : Nat} (q : Fin dim → Fin n) (k : Fin dim) :
    multiIdx q / n ^ (k : Nat) % n = q k := by
  have h := congrFun (finFunctionFinEquiv.symm_apply_apply q) k
  have h2 := congrArg Fin.val h
  exact h2

theorem digit_low {Q d k j c : Nat} (hk : k < d) (hQ : 0 < Q) :
    (j * Q ^ d + c) / Q ^ k % Q = c / Q ^ k % Q := by
  have hpos : 0 < Q ^ k := Nat.pow_pos hQ
  have e : j * Q ^ d = (j * Q ^ (d - k - 1) * Q) * Q ^ k := by
    have : d = (d - k - 1) + 1 + k := by omega
    conv_lhs => rw [this]
    ring
  rw [e, Nat.add_comm, Nat.add_mul_div_right _ _ hpos, Nat.add_mul_mod_self_right]

theorem digit_top {Q d j c : Nat} (hj : j < Q) (hc : c < Q ^ d) :
    (j * Q ^ d + c) / Q ^ d % Q = j := by
  have hpos : 0 < Q ^ d := Nat.lt_of_le_of_lt (Nat.zero_le _) hc
  rw [Nat.add_comm, Nat.add_mul_div_right _ _ hpos, Nat.div_eq_of_lt hc, Nat.zero_add,
    Nat.mod_eq_of_lt hj]

theorem kron_zero {R : Type} [CommRing R] (T : Nat → Nat → Nat → R) (P Q q p : Nat) :
    kron T P Q 0 q p = 1 := by
  simp [kron]

theorem kron_succ {R : Type} [CommRing R] (T : Nat → Nat → Nat → R) (P Q d : Nat)
    {j c b pl : Nat} (hj : j < Q) (hc : c < Q ^ d) (hb : b < P) (hpl : pl < P ^ d) :
    kron T P Q (d + 1) (j * Q ^ d + c) (b * P ^ d + pl) = T d j b * kron T P Q d c pl := by
  unfold kron
  rw [Finset.prod_range_succ, digit_top hj hc, digit_top hb hpl, mul_comm]
  congr 1
  apply Finset.prod_congr rfl
  intro k hk
  rw [Finset.mem_range] at hk
  rw [digit_low hk (by omega), digit_low hk (by omega)]

theorem kron_multiIdx {R : Type} [CommRing R] (T : Nat → Nat → Nat → R) {P Q dim : Nat}
    (q : Fin dim → Fin Q) (p : Fin dim → Fin P) :
    kron T P Q dim (multiIdx q) (multiIdx p) = ∏ k : Fin dim, T k (q k) (p k) := by
  unfold kron
  rw [← Fin.prod_univ_eq_prod_range (fun k => T k (multiIdx q / Q ^ k % Q) (multiIdx p / P ^ k % P))]
  apply Finset.prod_congr rfl
  intro k _
  rw [multiIdx_digit, multiIdx_digit]

/-! ### Sum factorisation -/

theorem isStage_zero {R : Type} [CommRing R] (T : Nat → Nat → Nat → R) (N P Q E dim : Nat)
    (u X : Nat → R) (h : ∀ k, k < N * P ^ dim * E → X k = u k) :
    IsStage T N P Q E dim 0 u X := by
  intro a ql e ha hql he
  simp only [pow_zero, Nat.lt_one_iff] at hql
  subst hql
  simp only [pow_zero, Finset.range_one, Finset.sum_singleton, kron_zero, one_mul, mul_one,
    add_zero]
  apply h
  simp only [Nat.sub_zero] at ha
  calc a * E + e < a * E + E := by omega
    _ = (a + 1) * E := by ring
    _ ≤ N * P ^ dim * E := Nat.mul_le_mul_right _ ha

theorem isStage_succ {R : Type} [CommRing R] (T : Nat → Nat → Nat → R) (N P Q E dim d C : Nat)
    (u X Y : Nat → R) (hd : d < dim) (hC : C = Q ^ d * E)
    (hX : IsStage T N P Q E dim d u X)
    (hY : ∀ a j c, a < N * P ^ (dim - 1 - d) → j < Q → c < C →
      Y ((a * Q + j) * C + c) = ∑ b in Finset.range P, T d j b * X ((a * P + b) * C + c)) :
    IsStage T N P Q E dim (d + 1) u Y := by
  intro a ql' e ha hql' he
  have hsub : dim - (d + 1) = dim - 1 - d := by omega
  rw [hsub] at ha
  have hQd : 0 < Q ^ d := by
    rcases Nat.eq_zero_or_pos (Q ^ d) with h | h
    · rw [pow_succ, h] at hql'; omega
    · exact h
  have hj : ql' / Q ^ d < Q := by
    apply Nat.div_lt_of_lt_mul
    rw [pow_succ] at hql'
    exact hql'
  have hql : ql' % Q ^ d < Q ^ d := Nat.mod_lt _ hQd
  have hdecomp : ql' = ql' / Q ^ d * Q ^ d + ql' % Q ^ d := by
    rw [Nat.mul_comm]; exact (Nat.div_add_mod _ _).symm
  have hc : ql' % Q ^ d * E + e < C := by
    rw [hC]
    calc ql' % Q ^ d * E + e < ql' % Q ^ d * E + E := by omega
      _ = (ql' % Q ^ d + 1) * E := by ring
      _ ≤ Q ^ d * E := Nat.mul_le_mul_right _ hql
  have hidx : (a * Q ^ (d + 1) + ql') * E + e
      = (a * Q + ql' / Q ^ d) * C + (ql' % Q ^ d * E + e) := by
    conv_lhs => rw [hdecomp]
    rw [hC, pow_succ]; ring
  rw [hidx, hY a _ _ ha hj hc]
  have hPsucc : P ^ (d + 1) = P * P ^ d := by rw [pow_succ, Nat.mul_comm]
  rw [hPsucc, sum_range_mul]
  apply Finset.sum_congr rfl
  intro b hb
  rw [Finset.mem_range] at hb
  have hab : a * P + b < N * P ^ (dim - d) := by
    have : dim - d = (dim - 1 - d) + 1 := by omega
    rw [this, pow_succ, ← Nat.mul_assoc]
    calc a * P + b < a * P + P := by omega
      _ = (a + 1) * P := by ring
      _ ≤ N * P ^ (dim - 1 - d) * P := Nat.mul_le_mul_right _ ha
  have hxi : (a * P + b) * C + (ql' % Q ^ d * E + e)
      = ((a * P + b) * Q ^ d + ql' % Q ^ d) * E + e := by rw [hC]; ring
  rw [hxi, hX _ _ _ hab hql he, Finset.mul_sum]
  apply Finset.sum_congr rfl
  intro pl hpl
  rw [Finset.mem_range] at hpl
  have hk : kron T P Q (d + 1) ql' (b * P ^ d + pl)
      = T d (ql' / Q ^ d) b * kron T P Q d (ql' % Q ^ d) pl := by
    conv_lhs => rw [hdecomp]
    exact kron_succ T P Q d hj hql hb hpl
  rw [hk, mul_assoc]
  congr 3
  ring

/-! ### The contraction chains of `CeedBasisApply_Opt` -/

theorem optStep_ok {R : Type} [CommRing R] (P Q : Nat) (t : Nat → R) (tmode : CeedTransposeMode)
    (Add : Int) (inp : Nat → R) (out : OptBuf) (s : OptState R)
    (h0 : s.ierr = 0) (hC : s.post % 8 = 0) (hQ : Q % 4 = 0) :
    optStep P Q t tmode Add inp out s
      = { s.set out (CeedTensorContract_Opt s.pre P s.post Q t tmode Add inp (s.get out)).2 with
          pre := s.pre / P, post := s.post * Q } := by
  have h1 := (contract_entry s.pre P s.post Q t tmode Add inp (s.get out) hC hQ).1
  unfold optStep
  simp only [h0, h1, ne_eq, not_true_eq_false, if_false]
  cases out <;> rfl

theorem mul_pow_mod8 {E Q d : Nat} (hE : E % 8 = 0) : (E * Q ^ d) % 8 = 0 := by
  rw [Nat.mul_mod, hE]; simp

theorem pre_div {N P dim d : Nat} (hP : 0 < P) (hd : d < dim) :
    N * P ^ (dim - 1) / P ^ d = N * P ^ (dim - 1 - d) := by
  have e : dim - 1 = (dim - 1 - d) + d := by omega
  conv_lhs => rw [e, pow_add, ← Nat.mul_assoc]
  exact Nat.mul_div_cancel _ (Nat.pow_pos hP)

theorem chain_loop {R : Type} [CommRing R] (N P Q E dim : Nat) (t : Nat → R)
    (tmode : CeedTransposeMode) (addLast : Int) (inp0 : OptState R → Nat → R)
    (outLast : OptBuf) (s0 : OptState R)
    (hdim : 0 < dim) (hP : 0 < P) (hE : E % 8 = 0) (hQ : Q % 4 = 0)
    (hout : outLast = OptBuf.v 0 ∨ outLast = OptBuf.interp)
    (h0 : s0.ierr = 0) (hpre : s0.pre = N * P ^ (dim - 1)) (hpost : s0.post = E)
    (d : Nat) (hd : d ≤ dim) :
    chainInv N P Q E dim t tmode addLast inp0 outLast s0 d
      (forLoop (chainBody P Q dim t tmode addLast inp0 outLast) d s0) := by
  induction d with
  | zero =>
    refine ⟨h0, ?_, ?_, fun _ => rfl, fun _ => rfl, fun _ => rfl,
      fun _ => rfl, fun h => absurd h (by omega), fun h => absurd h.symm (by omega)⟩
    · show s0.pre = _
      simp [hpre]
    · show s0.post = _
      simp [hpost]
  | succ d ih =>
    obtain ⟨i0, ipre, ipost, iz, iout, iv, ii, itmp, _⟩ := ih (by omega)
    have hdlt : d < dim := by omega
    rw [forLoop_succ]
    generalize forLoop (chainBody P Q dim t tmode addLast inp0 outLast) d s0 = s at *
    have hC8 : s.post % 8 = 0 := by rw [ipost]; exact mul_pow_mod8 hE
    have hpreA : s.pre = N * P ^ (dim - 1 - d) := by rw [ipre, pre_div hP hdlt]
    -- the input of this pass is stage `d`
    have hX : IsStage (fun _ j b => t (j * (if tmode = CEED_TRANSPOSE then 1 else P)
        + b * (if tmode = CEED_TRANSPOSE then Q else 1))) N P Q E dim d (inp0 s0)
        (if d = 0 then inp0 s else s.tmp (d % 2)) := by
      by_cases hd0 : d = 0
      · subst hd0
        rw [if_pos rfl, iz rfl]
        exact isStage_zero _ _ _ _ _ _ _ _ (fun _ _ => rfl)
      · rw [if_neg hd0]
        exact itmp (by omega) hdlt
    unfold chainBody
    rw [optStep_ok _ _ _ _ _ _ _ _ i0 hC8 hQ]
    have hentry := (contract_entry s.pre P s.post Q t tmode (if d = dim - 1 then addLast else 0)
      (if d = 0 then inp0 s else s.tmp (d % 2))
      (s.get (if d = dim - 1 then outLast else OptBuf.tmp ((d + 1) % 2))) hC8 hQ).2
    have hpre' : s.pre / P = N * P ^ (dim - 1) / P ^ (d + 1) := by
      rw [ipre, Nat.div_div_eq_div_mul, pow_succ]
    have hpost' : s.post * Q = E * Q ^ (d + 1) := by rw [ipost, pow_succ, Nat.mul_assoc]
    have hCeq : s.post = Q ^ d * E := by rw [ipost, Nat.mul_comm]
    by_cases hlast : d = dim - 1
    · -- last pass: into `outLast`
      have hd1 : d + 1 = dim := by omega
      simp only [if_pos hlast] at hentry ⊢
      have hstage : IsStage (fun _ j b => t (j * (if tmode = CEED_TRANSPOSE then 1 else P)
          + b * (if tmode = CEED_TRANSPOSE then Q else 1))) N P Q E dim (d + 1) (inp0 s0)
          (fun k => (CeedTensorContract_Opt s.pre P s.post Q t tmode addLast
              (if d = 0 then inp0 s else s.tmp (d % 2)) (s.get outLast)).2 k
            - (if addLast ≠ 0 then s0.get outLast k else 0)) := by
        apply isStage_succ _ N P Q E dim d s.post _ _ _ hdlt hCeq hX
        intro a j c ha hj hc
        rw [hentry a j c (by rw [hpreA]; exact ha) hj hc, iout hdlt]
        by_cases hadd : addLast = 0
        · simp [hadd]
        · simp [hadd]
      rcases hout with ho | ho
      · subst ho
        refine ⟨i0, hpre', hpost', ?_, ?_, ?_, fun _ => ii rfl, ?_, fun _ => ?_⟩
        · intro h; omega
        · intro h; omega
        · intro h; cases h
        · intro _ h; omega
        rw [hd1] at hstage
        simpa [OptState.get, OptState.set] using hstage
      · subst ho
        refine ⟨i0, hpre', hpost', ?_, ?_, fun _ => iv rfl, ?_, ?_, fun _ => ?_⟩
        · intro h; omega
        · intro h; omega
        · intro h; cases h
        · intro _ h; omega
        rw [hd1] at hstage
        simpa [OptState.get, OptState.set] using hstage
    · -- intermediate pass: into the other half of `tmp`
      have hd1 : d + 1 < dim := by omega
      simp only [if_neg hlast] at hentry ⊢
      have hstage : IsStage (fun _ j b => t (j * (if tmode = CEED_TRANSPOSE then 1 else P)
          + b * (if tmode = CEED_TRANSPOSE then Q else 1))) N P Q E dim (d + 1) (inp0 s0)
          (CeedTensorContract_Opt s.pre P s.post Q t tmode 0
              (if d = 0 then inp0 s else s.tmp (d % 2)) (s.get (OptBuf.tmp ((d + 1) % 2)))).2 := by
        apply isStage_succ _ N P Q E dim d s.post _ _ _ hdlt hCeq hX
        intro a j c ha hj hc
        rw [hentry a j c (by rw [hpreA]; exact ha) hj hc]
        simp
      refine ⟨i0, hpre', hpost', ?_, fun _ => ?_, fun h => iv h,
        fun h => ii h, fun _ _ => ?_, ?_⟩
      · intro h; omega
      rotate_left 2
      · intro h; omega
      · rw [← iout hdlt]
        rcases hout with ho | ho <;> subst ho <;> rfl
      · simpa [OptState.get, OptState.set] using hstage

theorem isStage_congr {R : Type} [CommRing R] {T T' : Nat → Nat → Nat → R} {N P Q E dim d : Nat}
    {u X : Nat → R} (h : ∀ k j b, T k j b = T' k j b) (hs : IsStage T N P Q E dim d u X) :
    IsStage T' N P Q E dim d u X := by
  have e : T = T' := by funext k j b; exact h k j b
  rw [← e]; exact hs

theorem applyInterp_Opt_spec {R : Type} [CommRing R] (basis : CeedBasis R) (E : Nat)
    (tmode : CeedTransposeMode) (u : Nat → R) (s0 : OptState R)
    (hdim : 0 < basis.dim) (hE : E % 8 = 0) (h0 : s0.ierr = 0)
    (hP : 0 < (if tmode = CEED_TRANSPOSE then basis.Q1d else basis.P1d))
    (hQ : (if tmode = CEED_TRANSPOSE then basis.P1d else basis.Q1d) % 4 = 0) :
    (applyInterp_Opt basis E tmode (if tmode = CEED_TRANSPOSE then 1 else 0) u s0).ierr = 0 ∧
    IsStage (fun _ j b => matEntry basis.interp1d basis.P1d (decide (tmode = CEED_TRANSPOSE)) j b)
      basis.ncomp
      (if tmode = CEED_TRANSPOSE then basis.Q1d else basis.P1d)
      (if tmode = CEED_TRANSPOSE then basis.P1d else basis.Q1d) E basis.dim basis.dim u
      (fun k => (applyInterp_Opt basis E tmode (if tmode = CEED_TRANSPOSE then 1 else 0) u s0).v k
        - (if tmode = CEED_TRANSPOSE then s0.v k else 0)) := by
  have hbody : applyInterp_Opt basis E tmode (if tmode = CEED_TRANSPOSE then 1 else 0) u s0
      = forLoop (chainBody (if tmode = CEED_TRANSPOSE then basis.Q1d else basis.P1d)
          (if tmode = CEED_TRANSPOSE then basis.P1d else basis.Q1d) basis.dim basis.interp1d tmode
          (if tmode = CEED_TRANSPOSE then 1 else 0) (fun _ => u) (OptBuf.v 0)) basis.dim
          (OptState.mk s0.ierr (basis.ncomp *
              (if tmode = CEED_TRANSPOSE then basis.Q1d else basis.P1d) ^ (basis.dim - 1))
            E s0.tmp s0.interp s0.v) := by
    unfold applyInterp_Opt CeedPowInt
    dsimp only
    congr 1
    funext d s
    unfold chainBody
    cases tmode <;> simp
  rw [hbody]
  have h := chain_loop basis.ncomp (if tmode = CEED_TRANSPOSE then basis.Q1d else basis.P1d)
    (if tmode = CEED_TRANSPOSE then basis.P1d else basis.Q1d) E basis.dim basis.interp1d tmode
    (if tmode = CEED_TRANSPOSE then 1 else 0) (fun _ => u) (OptBuf.v 0)
    (OptState.mk s0.ierr (basis.ncomp *
        (if tmode = CEED_TRANSPOSE then basis.Q1d else basis.P1d) ^ (basis.dim - 1))
      E s0.tmp s0.interp s0.v)
    hdim hP hE hQ (Or.inl rfl) h0 rfl rfl basis.dim (le_refl _)
  obtain ⟨i0, _, _, _, _, _, _, _, ifin⟩ := h
  refine ⟨i0, ?_⟩
  have hfin := ifin rfl
  cases tmode
  · simp only [OptState.get, Nat.zero_add, if_false, reduceCtorEq, ne_eq, not_true_eq_false] at hfin ⊢
    refine isStage_congr ?_ hfin
    intro k j b
    simp [matEntry]
  · simp only [OptState.get, Nat.zero_add, if_true, ne_eq, one_ne_zero, not_false_eq_true] at hfin ⊢
    refine isStage_congr ?_ hfin
    intro k j b
    simp [matEntry, Nat.add_comm]

/-! ### The threads of a block -/

theorem forLoop_eq_foldl {σ : Type} (body : Nat → σ → σ) (n : Nat) (s : σ) :
    forLoop body n s = (List.range n).foldl (fun s i => body i s) s := by
  induction n with
  | zero => rfl
  | succ n ih => rw [forLoop_succ, ih, List.range_succ, List.foldl_append]; rfl

theorem strided_eq_foldl {σ : Type} (i blockDim n : Nat) (body : Nat → σ → σ) (s : σ) :
    strided i blockDim n body s = (stridedList i blockDim n).foldl (fun s k => body k s) s := by
  unfold strided stridedList
  rw [forLoop_eq_foldl, List.foldl_map]

theorem foldl_congr_mem {σ α : Type} (f g : σ → α → σ) (l : List α)
    (h : ∀ s x, x ∈ l → f s x = g s x) (s : σ) : l.foldl f s = l.foldl g s := by
  induction l generalizing s with
  | nil => rfl
  | cons x l ih =>
    simp only [List.foldl_cons]
    rw [h s x (List.mem_cons_self _ _)]
    exact ih (fun s y hy => h s y (List.mem_cons_of_mem _ hy)) _

theorem runThreads_eq_foldl {σ : Type} (order : List Nat) (L : Nat → List Nat)
    (f : σ → Nat → σ) (s : σ) :
    runThreads order (fun i s => (L i).foldl f s) s = (order.flatMap L).foldl f s := by
  unfold runThreads
  induction order generalizing s with
  | nil => rfl
  | cons i order ih =>
    simp only [List.foldl_cons, List.flatMap_cons, List.foldl_append]
    exact ih _

theorem mem_stridedList {i blockDim n k : Nat} (hbd : 0 < blockDim) :
    k ∈ stridedList i blockDim n ↔ k < n ∧ i ≤ k ∧ (k - i) % blockDim = 0 := by
  unfold stridedList
  simp only [List.mem_map, List.mem_range]
  constructor
  · rintro ⟨t, ht, rfl⟩
    have h1 : (t + 1) * blockDim ≤ n - i + blockDim - 1 :=
      (Nat.le_div_iff_mul_le hbd).mp ht
    have h2 : (t + 1) * blockDim = t * blockDim + blockDim := by ring
    refine ⟨by omega, by omega, ?_⟩
    rw [Nat.add_sub_cancel_left, Nat.mul_mod_left]
  · rintro ⟨hk, hik, hmod⟩
    refine ⟨(k - i) / blockDim, ?_, ?_⟩
    · have h3 : (k - i) / blockDim * blockDim = k - i := Nat.div_mul_cancel (Nat.dvd_of_mod_eq_zero hmod)
      apply (Nat.le_div_iff_mul_le hbd).mpr
      show ((k - i) / blockDim + 1) * blockDim ≤ n - i + blockDim - 1
      have h2 : ((k - i) / blockDim + 1) * blockDim = (k - i) / blockDim * blockDim + blockDim := by
        ring
      omega
    · have h3 : (k - i) / blockDim * blockDim = k - i := Nat.div_mul_cancel (Nat.dvd_of_mod_eq_zero hmod)
      omega

/-- Every entry below `n` is visited by some thread when all threads run. -/
theorem mem_bind_stridedList {order : List Nat} {blockDim n k : Nat} (hbd : 0 < blockDim) :
    k ∈ order.flatMap (fun i => stridedList i blockDim n) ↔
      k < n ∧ ∃ i, i ∈ order ∧ i ≤ k ∧ (k - i) % blockDim = 0 := by
  simp only [List.mem_flatMap, mem_stridedList hbd]
  constructor
  · rintro ⟨i, hi, h1, h2, h3⟩; exact ⟨h1, i, hi, h2, h3⟩
  · rintro ⟨h1, i, hi, h2, h3⟩; exact ⟨i, hi, h1, h2, h3⟩

theorem mem_bind_stridedList_of_lt {order : List Nat} {blockDim n k : Nat} (hbd : 0 < blockDim)
    (horder : ∀ i, i < blockDim → i ∈ order) (hk : k < n) :
    k ∈ order.flatMap (fun i => stridedList i blockDim n) := by
  rw [mem_bind_stridedList hbd]
  refine ⟨hk, k % blockDim, horder _ (Nat.mod_lt _ hbd), Nat.mod_le _ _, ?_⟩
  have := Nat.div_add_mod k blockDim
  have h2 : k - k % blockDim = blockDim * (k / blockDim) := by omega
  rw [h2, Nat.mul_mod_right]

/-- A sequence of writes `cell[k] = F st k` whose values do not depend on the
cells being written: every written cell ends up with the value computed from
the initial state. -/
theorem writes_spec {σ R : Type} (write : Nat → R → σ → σ) (read : σ → Nat → R)
    (Inv : σ → Prop) (F : σ → Nat → R) (n : Nat) (s0 : σ)
    (hwrite : ∀ s k x, k < n → Inv s → Inv (write k x s))
    (hread : ∀ s k k' x, read (write k x s) k' = if k' = k then x else read s k')
    (hF : ∀ s k, k < n → Inv s → F s k = F s0 k)
    (ks : List Nat) (hks : ∀ k, k ∈ ks → k < n) (s : σ) (hs : Inv s) :
    Inv (ks.foldl (fun st k => write k (F st k) st) s) ∧
    ∀ k, (k ∈ ks → read (ks.foldl (fun st k => write k (F st k) st) s) k = F s0 k) ∧
      (k ∉ ks → read (ks.foldl (fun st k => write k (F st k) st) s) k = read s k) := by
  induction ks generalizing s with
  | nil =>
    refine ⟨hs, fun k => ⟨fun h => absurd h (List.not_mem_nil _), fun _ => rfl⟩⟩
  | cons k0 ks ih =>
    have hk0 : k0 < n := hks k0 (List.mem_cons_self _ _)
    have hrel : Inv (write k0 (F s k0) s) := hwrite _ _ _ hk0 hs
    have ih' := ih (fun k hk => hks k (List.mem_cons_of_mem _ hk)) _ hrel
    simp only [List.foldl_cons]
    refine ⟨ih'.1, fun k => ⟨fun hk => ?_, fun hk => ?_⟩⟩
    · by_cases hin : k ∈ ks
      · exact (ih'.2 k).1 hin
      · rw [(ih'.2 k).2 hin, hread]
        have : k = k0 := by
          rcases List.mem_cons.mp hk with h | h
          · exact h
          · exact absurd h hin
        rw [if_pos this, hF _ _ hk0 hs, this]
    · have hin : k ∉ ks := fun h => hk (List.mem_cons_of_mem _ h)
      have hne : k ≠ k0 := fun h => hk (h ▸ List.mem_cons_self _ _)
      rw [(ih'.2 k).2 hin, hread, if_neg hne]

theorem frameRel_refl {R : Type} (out : Loc) (n : Nat) (s : BlockState R) : frameRel out n s s := by
  cases out <;> simp [frameRel]

theorem frameRel_store {R : Type} (out : Loc) (n : Nat) (s s' : BlockState R) (k : Nat) (x : R)
    (hk : k < n) (h : frameRel out n s s') : frameRel out n s (s'.store out k x) := by
  cases out with
  | smem off =>
    obtain ⟨h1, h2⟩ := h
    refine ⟨h1, fun y hy => ?_⟩
    simp only [BlockState.store, store]
    rw [if_neg (by omega)]
    exact h2 y hy
  | gin off => exact h
  | gout off =>
    obtain ⟨h1, h2⟩ := h
    refine ⟨h1, fun y hy => ?_⟩
    simp only [BlockState.store, store]
    rw [if_neg (by omega)]
    exact h2 y hy

theorem load_store {R : Type} (out : Loc) (hout : ∀ off, out ≠ Loc.gin off) (u : Nat → R)
    (s : BlockState R) (k k' : Nat) (x : R) :
    (s.store out k x).load u out k' = if k' = k then x else s.load u out k' := by
  cases out with
  | smem off =>
    simp only [BlockState.store, BlockState.load, store]
    by_cases h : k' = k
    · subst h; simp
    · rw [if_neg h, if_neg (by omega)]
  | gin off => exact absurd rfl (hout off)
  | gout off =>
    simp only [BlockState.store, BlockState.load, store]
    by_cases h : k' = k
    · subst h; simp
    · rw [if_neg h, if_neg (by omega)]

theorem coords3 {pre post Q k : Nat} (hk : k < pre * post * Q) :
    k % post < post ∧ k / post % Q < Q ∧ k / (post * Q) < pre ∧
      k = (k / (post * Q) * Q + k / post % Q) * post + k % post := by
  have hpost : 0 < post := by
    rcases Nat.eq_zero_or_pos post with h | h
    · subst h; simp at hk
    · exact h
  have hQ : 0 < Q := by
    rcases Nat.eq_zero_or_pos Q with h | h
    · subst h; simp at hk
    · exact h
  refine ⟨Nat.mod_lt _ hpost, Nat.mod_lt _ hQ, ?_, ?_⟩
  · apply Nat.div_lt_of_lt_mul
    calc k < pre * post * Q := hk
      _ = post * Q * pre := by ring
  · rw [← Nat.div_div_eq_div_mul]
    exact coords_inv

/-- One pass of a kernel, run by all threads of a block in any order: every
entry `(a, j, c)` of the output holds the contraction of the data found in
`inp` before the pass, and nothing else has changed. -/
theorem pass_spec {R : Type} [CommRing R] (P Q stride0 stride1 pre post : Nat)
    (op inp out : Loc) (u : Nat → R) (blockDim : Nat) (order : List Nat) (st : BlockState R)
    (hbd : 0 < blockDim) (horder : ∀ i, i < blockDim → i ∈ order)
    (hout : ∀ off, out ≠ Loc.gin off)
    (hop : ∀ st', frameRel out (pre * post * Q) st st' → ∀ j b, j < Q → b < P →
      st'.load u op (j * stride0 + b * stride1) = st.load u op (j * stride0 + b * stride1))
    (hinp : ∀ st', frameRel out (pre * post * Q) st st' → ∀ x, x < pre * P * post →
      st'.load u inp x = st.load u inp x) :
    frameRel out (pre * post * Q) st
      (runThreads order (kernelPass P Q stride0 stride1 pre post op inp out false u blockDim) st) ∧
    ∀ a j c, a < pre → j < Q → c < post →
      (runThreads order (kernelPass P Q stride0 stride1 pre post op inp out false u blockDim)
        st).load u out ((a * Q + j) * post + c)
        = ∑ b in Finset.range P,
            st.load u op (j * stride0 + b * stride1) * st.load u inp ((a * P + b) * post + c) := by
  have hrw : runThreads order (kernelPass P Q stride0 stride1 pre post op inp out false u blockDim) st
      = (order.flatMap (fun i => stridedList i blockDim (pre * post * Q))).foldl
          (fun st k => st.store out k (accum P (fun b =>
            st.load u op (k / post % Q * stride0 + b * stride1)
              * st.load u inp ((k / (post * Q) * P + b) * post + k % post)))) st := by
    rw [← runThreads_eq_foldl]
    congr 1
    funext i s
    unfold kernelPass
    rw [strided_eq_foldl]
    simp
  rw [hrw]
  have hF : ∀ s k, k < pre * post * Q → frameRel out (pre * post * Q) st s →
      accum P (fun b => s.load u op (k / post % Q * stride0 + b * stride1)
          * s.load u inp ((k / (post * Q) * P + b) * post + k % post))
        = accum P (fun b => st.load u op (k / post % Q * stride0 + b * stride1)
          * st.load u inp ((k / (post * Q) * P + b) * post + k % post)) := by
    intro s k hk hs
    obtain ⟨hc, hj, ha, _⟩ := coords3 hk
    rw [accum_eq_sum, accum_eq_sum]
    apply Finset.sum_congr rfl
    intro b hb
    rw [Finset.mem_range] at hb
    rw [hop s hs _ _ hj hb, hinp s hs]
    calc (k / (post * Q) * P + b) * post + k % post
        < (k / (post * Q) * P + b) * post + post := by omega
      _ = (k / (post * Q) * P + b + 1) * post := by ring
      _ ≤ (pre * P) * post := by
        apply Nat.mul_le_mul_right
        calc k / (post * Q) * P + b + 1 ≤ k / (post * Q) * P + P := by omega
          _ = (k / (post * Q) + 1) * P := by ring
          _ ≤ pre * P := Nat.mul_le_mul_right _ ha
  have hks : ∀ k, k ∈ order.flatMap (fun i => stridedList i blockDim (pre * post * Q)) →
      k < pre * post * Q := fun k hk => ((mem_bind_stridedList hbd).mp hk).1
  have hW := writes_spec (fun k x (s : BlockState R) => s.store out k x)
    (fun s k => s.load u out k) (frameRel out (pre * post * Q) st)
    (fun s k => accum P (fun b => s.load u op (k / post % Q * stride0 + b * stride1)
          * s.load u inp ((k / (post * Q) * P + b) * post + k % post)))
    (pre * post * Q) st
    (fun s k x hk hs => frameRel_store out _ st s k x hk hs)
    (fun s k k' x => load_store out hout u s k k' x)
    hF _ hks st (frameRel_refl _ _ _)
  refine ⟨hW.1, ?_⟩
  intro a j c ha hj hc
  have hklt : (a * Q + j) * post + c < pre * post * Q := by
    calc (a * Q + j) * post + c < (a * Q + j) * post + post := by omega
      _ = (a * Q + j + 1) * post := by ring
      _ ≤ (pre * Q) * post := by
        apply Nat.mul_le_mul_right
        calc a * Q + j + 1 ≤ a * Q + Q := by omega
          _ = (a + 1) * Q := by ring
          _ ≤ pre * Q := Nat.mul_le_mul_right _ ha
      _ = pre * post * Q := by ring
  have := (hW.2 _).1 (mem_bind_stridedList_of_lt hbd horder hklt)
  simp only at this
  rw [this, accum_eq_sum]
  obtain ⟨h1, h2, h3⟩ := coords (C := post) (J := Q) (a := a) (y := j) (x := c) hc hj rfl
  rw [← Nat.div_div_eq_div_mul, h1, h2, h3]

/-! ### The passes of a kernel -/

theorem preAt_eq (pre0 P d : Nat) : preAt pre0 P d = pre0 / P ^ (d + 1) := by
  unfold preAt
  induction d with
  | zero => simp [forLoop]
  | succ d ih => rw [forLoop_succ, ih, Nat.div_div_eq_div_mul, ← pow_succ]

theorem preAt_pow {N P dim d : Nat} (hP : 0 < P) (hd : d < dim) :
    preAt (N * P ^ dim) P d = N * P ^ (dim - 1 - d) := by
  rw [preAt_eq]
  have e : dim = (dim - 1 - d) + (d + 1) := by omega
  conv_lhs => rw [e, pow_add, ← Nat.mul_assoc]
  exact Nat.mul_div_cancel _ (Nat.pow_pos hP)

theorem postAt_eq (Q d : Nat) : postAt Q d = Q ^ d := by
  unfold postAt
  induction d with
  | zero => simp [forLoop]
  | succ d ih => rw [forLoop_succ, ih, pow_succ]

theorem isStage_one_bound {R : Type} [CommRing R] {T : Nat → Nat → Nat → R} {N P Q dim d : Nat}
    {u X X' : Nat → R} (h : IsStage T N P Q 1 dim d u X)
    (hX : ∀ i, i < N * P ^ (dim - d) * Q ^ d → X' i = X i) : IsStage T N P Q 1 dim d u X' := by
  intro a ql e ha hql he
  rw [hX, h a ql e ha hql he]
  have : e = 0 := by omega
  subst this
  calc (a * Q ^ d + ql) * 1 + 0 = a * Q ^ d + ql := by ring
    _ < a * Q ^ d + Q ^ d := by omega
    _ = (a + 1) * Q ^ d := by ring
    _ ≤ N * P ^ (dim - d) * Q ^ d := Nat.mul_le_mul_right _ ha

theorem passLoop_spec {R : Type} [CommRing R] (T : Nat → Nat → Nat → R)
    (N P Q stride0 stride1 dim : Nat) (opOff : Nat → Nat) (inp0 : Loc)
    (bufBase BUF voff : Nat) (u : Nat → R) (blockDim : Nat) (sched : Nat → List Nat)
    (st : BlockState R)
    (hdim : 0 < dim) (hP : 0 < P) (hbd : 0 < blockDim)
    (hsched : ∀ d i, i < blockDim → i ∈ sched d)
    (hin0 : (∃ uoff, inp0 = Loc.gin uoff) ∨ inp0 = Loc.smem bufBase)
    (hop : ∀ d j b, d < dim → j < Q → b < P →
      opOff d + (j * stride0 + b * stride1) < bufBase ∧
      st.s_mem (opOff d + (j * stride0 + b * stride1)) = T d j b)
    (hbuf : ∀ d, d ≤ dim → N * P ^ (dim - d) * Q ^ d ≤ BUF)
    (d : Nat) (hd : d ≤ dim) :
    passInv T N P Q dim inp0 bufBase BUF voff u st d
      (passLoop P Q stride0 stride1 (N * P ^ dim) dim opOff inp0 bufBase BUF voff u blockDim
        sched d st) := by
  induction d with
  | zero =>
    refine ⟨fun _ _ => rfl, fun _ => rfl, fun _ => rfl, ?_, ?_⟩
    · intro h; omega
    · intro h; omega
  | succ d ih =>
    obtain ⟨i1, i2, i3, i4, _⟩ := ih (by omega)
    have hdlt : d < dim := by omega
    unfold passLoop at *
    rw [forLoop_succ]
    generalize forLoop _ d st = s at *
    rw [preAt_pow hP hdlt, postAt_eq]
    have hn : N * P ^ (dim - 1 - d) * Q ^ d * Q = N * P ^ (dim - (d + 1)) * Q ^ (d + 1) := by
      have : dim - (d + 1) = dim - 1 - d := by omega
      rw [this, pow_succ]; ring
    have hnle : N * P ^ (dim - 1 - d) * Q ^ d * Q ≤ BUF := by
      rw [hn]; exact hbuf (d + 1) (by omega)
    have hinle : N * P ^ (dim - 1 - d) * P * Q ^ d ≤ BUF := by
      have : N * P ^ (dim - 1 - d) * P * Q ^ d = N * P ^ (dim - d) * Q ^ d := by
        have e : dim - d = (dim - 1 - d) + 1 := by omega
        rw [e, pow_succ]; ring
      rw [this]; exact hbuf d (by omega)
    -- the data read by this pass is stage `d`
    have hX : IsStage T N P Q 1 dim d (fun i => st.load u inp0 i)
        (fun i => s.load u (if d = 0 then inp0 else if d % 2 = 1 then Loc.smem (bufBase + BUF)
          else Loc.smem bufBase) i) := by
      by_cases hd0 : d = 0
      · subst hd0
        rw [i3 rfl]
        simp only [if_true]
        exact isStage_zero _ _ _ _ _ _ _ _ (fun _ _ => rfl)
      · have h4 := i4 (by omega) hdlt
        simp only [if_neg hd0]
        by_cases hodd : d % 2 = 1
        · simp only [if_pos hodd] at h4 ⊢
          exact h4
        · simp only [if_neg hodd] at h4 ⊢
          exact h4
    have hout : ∀ off, (if d = dim - 1 then Loc.gout voff
        else if d % 2 = 1 then Loc.smem bufBase else Loc.smem (bufBase + BUF)) ≠ Loc.gin off := by
      intro off
      split_ifs <;> simp
    have hps := pass_spec P Q stride0 stride1 (N * P ^ (dim - 1 - d)) (Q ^ d) (Loc.smem (opOff d))
      (if d = 0 then inp0 else if d % 2 = 1 then Loc.smem (bufBase + BUF) else Loc.smem bufBase)
      (if d = dim - 1 then Loc.gout voff
        else if d % 2 = 1 then Loc.smem bufBase else Loc.smem (bufBase + BUF))
      u blockDim (sched d) s hbd (hsched d) hout
      (by
        intro st' hfr j b hj hb
        have hlt := (hop d j b hdlt hj hb).1
        simp only [BlockState.load]
        split_ifs at hfr with h1 h2
        · rw [hfr.1]
        · exact hfr.2 _ (Or.inl hlt)
        · exact hfr.2 _ (Or.inl (by omega)))
      (by
        intro st' hfr x hx
        by_cases hd0 : d = 0
        · simp only [if_pos hd0]
          rcases hin0 with ⟨uoff, h⟩ | h
          · rw [h]; rfl
          · rw [h]
            simp only [BlockState.load]
            have hodd : ¬ d % 2 = 1 := by omega
            simp only [if_neg hodd] at hfr
            split_ifs at hfr with h1
            · rw [hfr.1]
            · exact hfr.2 _ (Or.inl (by omega))
        · simp only [if_neg hd0]
          by_cases hodd : d % 2 = 1
          · simp only [if_pos hodd] at hfr ⊢
            simp only [BlockState.load]
            split_ifs at hfr with h1
            · rw [hfr.1]
            · exact hfr.2 _ (Or.inr (by omega))
          · simp only [if_neg hodd] at hfr ⊢
            simp only [BlockState.load]
            split_ifs at hfr with h1
            · rw [hfr.1]
            · exact hfr.2 _ (Or.inl (by omega)))
    obtain ⟨hfr, hent⟩ := hps
    generalize runThreads (sched d) _ s = s' at hfr hent ⊢
    have hY : IsStage T N P Q 1 dim (d + 1) (fun i => st.load u inp0 i)
        (fun i => s'.load u (if d = dim - 1 then Loc.gout voff
          else if d % 2 = 1 then Loc.smem bufBase else Loc.smem (bufBase + BUF)) i) := by
      apply isStage_succ T N P Q 1 dim d (Q ^ d) _ _ _ hdlt (by ring) hX
      intro a j c ha hj hc
      rw [hent a j c ha hj hc]
      apply Finset.sum_congr rfl
      intro b hb
      rw [Finset.mem_range] at hb
      have h := hop d j b hdlt hj hb
      congr 1
      simp only [BlockState.load]
      rw [i1 _ h.1, h.2]
    refine ⟨?_, ?_, ?_, ?_, ?_⟩
    · intro x hx
      rw [← i1 x hx]
      split_ifs at hfr with h1 h2
      · rw [hfr.1]
      · exact hfr.2 _ (Or.inl hx)
      · exact hfr.2 _ (Or.inl (by omega))
    · intro hd1
      have hnl : ¬ d = dim - 1 := by omega
      rw [← i2 hdlt]
      simp only [if_neg hnl] at hfr
      split_ifs at hfr with h2
      · exact hfr.1
      · exact hfr.1
    · intro h; omega
    · intro _ hd1
      have hnl : ¬ d = dim - 1 := by omega
      simp only [if_neg hnl] at hY
      by_cases hodd : d % 2 = 1
      · have hodd' : ¬ (d + 1) % 2 = 1 := by omega
        simp only [if_pos hodd] at hY
        simp only [if_neg hodd']
        exact hY
      · have hodd' : (d + 1) % 2 = 1 := by omega
        simp only [if_neg hodd] at hY
        simp only [if_pos hodd']
        exact hY
    · intro hd1
      have hl : d = dim - 1 := by omega
      simp only [if_pos hl] at hY hfr
      have hN : N * P ^ (dim - 1 - d) * Q ^ d * Q = N * Q ^ dim := by
        have e1 : dim - 1 - d = 0 := by omega
        rw [e1, ← hd1, pow_succ]; ring
      rw [hN] at hfr
      refine ⟨fun x hx => ?_, ?_⟩
      · rw [← i2 hdlt]; exact hfr.2 x hx
      · rw [hd1] at hY; exact hY

/-! ### Staging of shared memory -/

/-- Writes of values that depend on the address only. -/
theorem const_writes {R : Type} (val : Nat → R) (xs : List Nat) (s : BlockState R) :
    (xs.foldl (fun s x => pokeMem s x (val x)) s).v = s.v ∧
    ∀ y, (y ∈ xs →
        (xs.foldl (fun s x => pokeMem s x (val x)) s).s_mem y
          = val y) ∧
      (y ∉ xs →
        (xs.foldl (fun s x => pokeMem s x (val x)) s).s_mem y
          = s.s_mem y) := by
  induction xs generalizing s with
  | nil => exact ⟨rfl, fun y => ⟨fun h => absurd h (List.not_mem_nil _), fun _ => rfl⟩⟩
  | cons x xs ih =>
    simp only [List.foldl_cons]
    have ih' := ih (pokeMem s x (val x))
    refine ⟨ih'.1, fun y => ⟨fun hy => ?_, fun hy => ?_⟩⟩
    · by_cases hin : y ∈ xs
      · exact (ih'.2 y).1 hin
      · rw [(ih'.2 y).2 hin]
        have : y = x := by
          rcases List.mem_cons.mp hy with h | h
          · exact h
          · exact absurd h hin
        simp [pokeMem, store, this]
    · have hin : y ∉ xs := fun h => hy (List.mem_cons_of_mem _ h)
      have hne : y ≠ x := fun h => hy (h ▸ List.mem_cons_self _ _)
      rw [(ih'.2 y).2 hin]
      simp [pokeMem, store, hne]

/-- The code of `interp` before the first barrier: the operator and the first
element of the block are staged in shared memory. -/
theorem interp_phase0 {R : Type} [CommRing R] (QP us elem blockDim : Nat) (order : List Nat)
    (interp1d u : Nat → R) (st : BlockState R)
    (hbd : 0 < blockDim) (horder : ∀ i, i < blockDim → i ∈ order) :
    (runThreads order (fun i st =>
        strided i blockDim us
          (fun k st => st.store (Loc.smem QP) k (st.load u (Loc.gin (elem * us)) k))
          (strided i blockDim QP (fun k st => st.store (Loc.smem 0) k (interp1d k)) st)) st).v
      = st.v ∧
    (∀ k, k < QP →
      (runThreads order (fun i st =>
        strided i blockDim us
          (fun k st => st.store (Loc.smem QP) k (st.load u (Loc.gin (elem * us)) k))
          (strided i blockDim QP (fun k st => st.store (Loc.smem 0) k (interp1d k)) st)) st).s_mem k
        = interp1d k) ∧
    (∀ k, k < us →
      (runThreads order (fun i st =>
        strided i blockDim us
          (fun k st => st.store (Loc.smem QP) k (st.load u (Loc.gin (elem * us)) k))
          (strided i blockDim QP (fun k st => st.store (Loc.smem 0) k (interp1d k)) st)) st).s_mem
          (QP + k)
        = u (elem * us + k)) := by
  have hrw : runThreads order (fun i st =>
        strided i blockDim us
          (fun k st => st.store (Loc.smem QP) k (st.load u (Loc.gin (elem * us)) k))
          (strided i blockDim QP (fun k st => st.store (Loc.smem 0) k (interp1d k)) st)) st
      = (order.flatMap (fun i => stridedList i blockDim QP
            ++ (stridedList i blockDim us).map (fun k => QP + k))).foldl
          (fun s x => pokeMem s x (if x < QP then interp1d x else u (elem * us + (x - QP)))) st := by
    rw [← runThreads_eq_foldl]
    congr 1
    funext i s
    rw [strided_eq_foldl, strided_eq_foldl, List.foldl_append, List.foldl_map]
    have e1 : (stridedList i blockDim QP).foldl
          (fun s k => s.store (Loc.smem 0) k (interp1d k)) s
        = (stridedList i blockDim QP).foldl
          (fun s x => pokeMem s x (if x < QP then interp1d x else u (elem * us + (x - QP)))) s := by
      apply foldl_congr_mem
      intro s k hk
      have hk' := ((mem_stridedList hbd).mp hk).1
      simp [BlockState.store, pokeMem, hk']
    rw [e1]
    apply foldl_congr_mem
    intro s k _
    simp [BlockState.store, BlockState.load, pokeMem]
  rw [hrw]
  have hcw := const_writes (fun x => if x < QP then interp1d x else u (elem * us + (x - QP)))
    (order.flatMap (fun i => stridedList i blockDim QP
      ++ (stridedList i blockDim us).map (fun k => QP + k))) st
  refine ⟨hcw.1, fun k hk => ?_, fun k hk => ?_⟩
  · rw [(hcw.2 k).1]
    · simp [hk]
    · rw [List.mem_flatMap]
      refine ⟨k % blockDim, horder _ (Nat.mod_lt _ hbd), List.mem_append_left _ ?_⟩
      rw [mem_stridedList hbd]
      refine ⟨hk, Nat.mod_le _ _, ?_⟩
      have := Nat.div_add_mod k blockDim
      have h2 : k - k % blockDim = blockDim * (k / blockDim) := by omega
      rw [h2, Nat.mul_mod_right]
  · rw [(hcw.2 (QP + k)).1]
    · simp
    · rw [List.mem_flatMap]
      refine ⟨k % blockDim, horder _ (Nat.mod_lt _ hbd), List.mem_append_right _ ?_⟩
      rw [List.mem_map]
      refine ⟨k, ?_, rfl⟩
      rw [mem_stridedList hbd]
      refine ⟨hk, Nat.mod_le _ _, ?_⟩
      have := Nat.div_add_mod k blockDim
      have h2 : k - k % blockDim = blockDim * (k / blockDim) := by omega
      rw [h2, Nat.mul_mod_right]

/-- The code of `interp` before the first barrier when the block has no
element: only the operator is staged. -/
theorem interp_phase0_idle {R : Type} [CommRing R] (QP blockDim : Nat) (order : List Nat)
    (interp1d : Nat → R) (st : BlockState R) :
    (runThreads order (fun i st =>
        strided i blockDim QP (fun k st => st.store (Loc.smem 0) k (interp1d k)) st) st).v
      = st.v := by
  unfold runThreads
  induction order generalizing st with
  | nil => rfl
  | cons i order ih =>
    simp only [List.foldl_cons]
    rw [ih]
    rw [strided_eq_foldl]
    generalize stridedList i blockDim QP = l
    induction l generalizing st with
    | nil => rfl
    | cons k l ihl => simp only [List.foldl_cons]; rw [ihl]; rfl

/-- The code of `grad` before the first barrier: both operators are staged. -/
theorem grad_phase0 {R : Type} [CommRing R] (QP blockDim : Nat) (order : List Nat)
    (interp1d grad1d : Nat → R) (st : BlockState R)
    (hbd : 0 < blockDim) (horder : ∀ i, i < blockDim → i ∈ order) :
    (runThreads order (fun i st =>
        strided i blockDim QP (fun k st =>
          (st.store (Loc.smem 0) k (interp1d k)).store (Loc.smem (0 + QP)) k (grad1d k)) st) st).v
      = st.v ∧
    (∀ k, k < QP →
      (runThreads order (fun i st =>
        strided i blockDim QP (fun k st =>
          (st.store (Loc.smem 0) k (interp1d k)).store (Loc.smem (0 + QP)) k (grad1d k)) st)
        st).s_mem k = interp1d k ∧
      (runThreads order (fun i st =>
        strided i blockDim QP (fun k st =>
          (st.store (Loc.smem 0) k (interp1d k)).store (Loc.smem (0 + QP)) k (grad1d k)) st)
        st).s_mem (QP + k) = grad1d k) := by
  have hrw : runThreads order (fun i st =>
        strided i blockDim QP (fun k st =>
          (st.store (Loc.smem 0) k (interp1d k)).store (Loc.smem (0 + QP)) k (grad1d k)) st) st
      = (order.flatMap (fun i => (stridedList i blockDim QP).flatMap (fun k => [k, QP + k]))).foldl
          (fun s x => pokeMem s x (if x < QP then interp1d x else grad1d (x - QP))) st := by
    rw [← runThreads_eq_foldl]
    congr 1
    funext i s
    rw [strided_eq_foldl]
    rw [← runThreads_eq_foldl]
    unfold runThreads
    apply foldl_congr_mem
    intro s k hk
    have hk' := ((mem_stridedList hbd).mp hk).1
    simp [BlockState.store, pokeMem, hk']
  rw [hrw]
  have hcw := const_writes (fun x => if x < QP then interp1d x else grad1d (x - QP))
    (order.flatMap (fun i => (stridedList i blockDim QP).flatMap (fun k => [k, QP + k]))) st
  refine ⟨hcw.1, fun k hk => ?_⟩
  have hmem : k ∈ stridedList (k % blockDim) blockDim QP := by
    rw [mem_stridedList hbd]
    refine ⟨hk, Nat.mod_le _ _, ?_⟩
    have := Nat.div_add_mod k blockDim
    have h2 : k - k % blockDim = blockDim * (k / blockDim) := by omega
    rw [h2, Nat.mul_mod_right]
  constructor
  · rw [(hcw.2 k).1]
    · simp [hk]
    · rw [List.mem_flatMap]
      refine ⟨k % blockDim, horder _ (Nat.mod_lt _ hbd), ?_⟩
      rw [List.mem_flatMap]
      exact ⟨k, hmem, by simp⟩
  · rw [(hcw.2 (QP + k)).1]
    · simp
    · rw [List.mem_flatMap]
      refine ⟨k % blockDim, horder _ (Nat.mod_lt _ hbd), ?_⟩
      rw [List.mem_flatMap]
      exact ⟨k, hmem, by simp⟩

/-! ### The kernel `interp` -/

theorem pow_mix_le {P Q M dim d : Nat} (hP : P ≤ M) (hQ : Q ≤ M) (hd : d ≤ dim) :
    P ^ (dim - d) * Q ^ d ≤ M ^ dim := by
  have e : dim = (dim - d) + d := by omega
  calc P ^ (dim - d) * Q ^ d ≤ M ^ (dim - d) * M ^ d :=
        Nat.mul_le_mul (Nat.pow_le_pow_left hP _) (Nat.pow_le_pow_left hQ _)
    _ = M ^ dim := by rw [← pow_add, ← e]

theorem isStage_congr_input {R : Type} [CommRing R] {T : Nat → Nat → Nat → R}
    {N P Q E dim : Nat} {u u' X : Nat → R} (h : IsStage T N P Q E dim dim u X)
    (hu : ∀ i, i < N * P ^ dim * E → u i = u' i) : IsStage T N P Q E dim dim u' X := by
  intro a ql e ha hql he
  rw [h a ql e ha hql he]
  apply Finset.sum_congr rfl
  intro pl hpl
  rw [Finset.mem_range] at hpl
  rw [hu]
  simp only [Nat.sub_self, pow_zero, Nat.mul_one] at ha
  calc (a * P ^ dim + pl) * E + e < (a * P ^ dim + pl) * E + E := by omega
    _ = (a * P ^ dim + pl + 1) * E := by ring
    _ ≤ (N * P ^ dim) * E := by
      apply Nat.mul_le_mul_right
      calc a * P ^ dim + pl + 1 ≤ a * P ^ dim + P ^ dim := by omega
        _ = (a + 1) * P ^ dim := by ring
        _ ≤ N * P ^ dim := Nat.mul_le_mul_right _ ha

/-- A block of `interp` that owns one element computes the tensor-product
operator of that element and writes nothing outside the element's range. -/
theorem interpBlock_spec {R : Type} [CommRing R] (dim ncomp P1d Q1d gridDim blockDim : Nat)
    (sched : Nat → List Nat) (nelem : Nat) (transpose : Int) (interp1d u : Nat → R)
    (b : Nat) (st : BlockState R)
    (hdim : 0 < dim) (hP : 0 < (if transpose ≠ 0 then Q1d else P1d)) (hbd : 0 < blockDim)
    (hgrid : nelem ≤ gridDim) (hb : b < nelem)
    (hsched : ∀ n i, i < blockDim → i ∈ sched n) :
    (∀ x, (x < b * (ncomp * (if transpose ≠ 0 then P1d else Q1d) ^ dim) ∨
        b * (ncomp * (if transpose ≠ 0 then P1d else Q1d) ^ dim)
          + ncomp * (if transpose ≠ 0 then P1d else Q1d) ^ dim ≤ x) →
      (basiskernels.interpBlock (kernelDefs dim ncomp P1d Q1d) gridDim blockDim sched nelem
        transpose interp1d u b st).v x = st.v x) ∧
    IsStage (fun _ j c => matEntry interp1d P1d (decide (transpose ≠ 0)) j c) ncomp
      (if transpose ≠ 0 then Q1d else P1d) (if transpose ≠ 0 then P1d else Q1d) 1 dim dim
      (fun i => u (b * (ncomp * (if transpose ≠ 0 then Q1d else P1d) ^ dim) + i))
      (fun i => (basiskernels.interpBlock (kernelDefs dim ncomp P1d Q1d) gridDim blockDim sched
        nelem transpose interp1d u b st).v
          (b * (ncomp * (if transpose ≠ 0 then P1d else Q1d) ^ dim) + i)) := by
  have hnIter : (nelem - b + gridDim - 1) / gridDim = 1 := by
    have h1 : gridDim ≤ nelem - b + gridDim - 1 := by omega
    have h2 : nelem - b + gridDim - 1 < 2 * gridDim := by omega
    have hg : 0 < gridDim := by omega
    have := (Nat.le_div_iff_mul_le hg).mpr (by omega : 1 * gridDim ≤ nelem - b + gridDim - 1)
    have := (Nat.div_lt_iff_lt_mul hg).mpr (by omega : nelem - b + gridDim - 1 < 2 * gridDim)
    omega
  have hrw : basiskernels.interpBlock (kernelDefs dim ncomp P1d Q1d) gridDim blockDim sched nelem
        transpose interp1d u b st
      = passLoop (if transpose ≠ 0 then Q1d else P1d) (if transpose ≠ 0 then P1d else Q1d)
          (if transpose ≠ 0 then 1 else P1d) (if transpose ≠ 0 then P1d else 1)
          (ncomp * (if transpose ≠ 0 then Q1d else P1d) ^ dim) dim (fun _ => 0)
          (Loc.smem (Q1d * P1d)) (Q1d * P1d)
          (ncomp * (if Q1d > P1d then Q1d else P1d) ^ dim)
          (b * (ncomp * (if transpose ≠ 0 then P1d else Q1d) ^ dim)) u blockDim
          (fun d => sched (1 + d)) dim
          (runThreads (sched 0) (fun i st =>
            strided i blockDim (ncomp * (if transpose ≠ 0 then Q1d else P1d) ^ dim)
              (fun k st => st.store (Loc.smem (Q1d * P1d)) k
                (st.load u (Loc.gin (b * (ncomp * (if transpose ≠ 0 then Q1d else P1d) ^ dim))) k))
              (strided i blockDim (Q1d * P1d)
                (fun k st => st.store (Loc.smem 0) k (interp1d k)) st)) st) := by
    unfold basiskernels.interpBlock passLoop kernelDefs CeedIntPow
    simp only [hnIter, forLoop, Nat.zero_mul, Nat.add_zero, Nat.lt_irrefl, and_false, if_false,
      Nat.lt_one_iff, Nat.zero_lt_one, if_true, zero_add]
    by_cases htr : transpose = 0
    · simp only [htr, ne_eq, not_true_eq_false, if_false]
      congr 1
      funext d s
      by_cases hd0 : d = 0
      · subst hd0; simp
      · simp [hd0]
    · simp only [htr, ne_eq, not_false_eq_true, if_true]
      congr 1
      funext d s
      by_cases hd0 : d = 0
      · subst hd0; simp
      · simp [hd0]
  rw [hrw]
  obtain ⟨hv0, hop0, hbuf0⟩ := interp_phase0 (Q1d * P1d)
    (ncomp * (if transpose ≠ 0 then Q1d else P1d) ^ dim) b blockDim (sched 0) interp1d u st hbd
    (hsched 0)
  generalize runThreads (sched 0) _ st = st0 at hv0 hop0 hbuf0 ⊢
  have hspec := passLoop_spec (fun _ j c => matEntry interp1d P1d (decide (transpose ≠ 0)) j c)
    ncomp (if transpose ≠ 0 then Q1d else P1d) (if transpose ≠ 0 then P1d else Q1d)
    (if transpose ≠ 0 then 1 else P1d) (if transpose ≠ 0 then P1d else 1) dim (fun _ => 0)
    (Loc.smem (Q1d * P1d)) (Q1d * P1d) (ncomp * (if Q1d > P1d then Q1d else P1d) ^ dim)
    (b * (ncomp * (if transpose ≠ 0 then P1d else Q1d) ^ dim)) u blockDim
    (fun d => sched (1 + d)) st0 hdim hP hbd (fun d => hsched (1 + d)) (Or.inr rfl)
    (by
      intro d j c _ hj hc
      by_cases htr : transpose = 0
      · simp only [htr, ne_eq, not_true_eq_false, if_false] at hj hc ⊢
        have hlt : j * P1d + c * 1 < Q1d * P1d := by
          calc j * P1d + c * 1 < j * P1d + P1d := by omega
            _ = (j + 1) * P1d := by ring
            _ ≤ Q1d * P1d := Nat.mul_le_mul_right _ hj
        refine ⟨by omega, ?_⟩
        rw [Nat.zero_add, hop0 _ hlt]
        simp [matEntry]
      · simp only [htr, ne_eq, not_false_eq_true, if_true] at hj hc ⊢
        have hlt : j * 1 + c * P1d < Q1d * P1d := by
          calc j * 1 + c * P1d < P1d + c * P1d := by omega
            _ = (c + 1) * P1d := by ring
            _ ≤ Q1d * P1d := Nat.mul_le_mul_right _ hc
        refine ⟨by omega, ?_⟩
        rw [Nat.zero_add, hop0 _ hlt]
        simp [matEntry, Nat.add_comm])
    (by
      intro d hd
      rw [Nat.mul_assoc]
      apply Nat.mul_le_mul_left
      apply pow_mix_le _ _ hd <;> split_ifs <;> omega)
    dim (le_refl _)
  obtain ⟨_, _, _, _, hfin⟩ := hspec
  obtain ⟨hframe, hstage⟩ := hfin rfl
  refine ⟨fun x hx => ?_, ?_⟩
  · rw [hframe x hx, hv0]
  · refine isStage_congr_input hstage ?_
    intro i hi
    simp only [BlockState.load]
    rw [Nat.mul_one] at hi
    exact hbuf0 i hi

/-- A block of `interp` without an element leaves `v` alone. -/
theorem interpBlock_idle {R : Type} [CommRing R] (m : KernelDefs) (gridDim blockDim : Nat)
    (sched : Nat → List Nat) (nelem : Nat) (transpose : Int) (interp1d u : Nat → R)
    (b : Nat) (st : BlockState R) (hg : 0 < gridDim) (hb : nelem ≤ b) :
    (basiskernels.interpBlock m gridDim blockDim sched nelem transpose interp1d u b st).v
      = st.v := by
  have hnIter : (nelem - b + gridDim - 1) / gridDim = 0 := by
    apply Nat.div_eq_of_lt; omega
  unfold basiskernels.interpBlock
  simp only [hnIter, forLoop, Nat.lt_irrefl, if_false]
  exact interp_phase0_idle _ _ _ _ _

theorem isStage_one_flat {R : Type} [CommRing R] {T : Nat → Nat → Nat → R} {N P Q dim : Nat}
    {u X : Nat → R} (h : IsStage T N P Q 1 dim dim u X) (a q : Nat) (ha : a < N)
    (hq : q < Q ^ dim) :
    X (a * Q ^ dim + q) = ∑ p in Finset.range (P ^ dim), kron T P Q dim q p * u (a * P ^ dim + p) := by
  have := h a q 0 (by simpa using ha) hq (by omega)
  simpa using this

/-- The blocks of a launch of `interp`, run in any order with one block per
element, leave in the range of element `e` the tensor-product operator of
that element. -/
theorem interp_grid_spec {R : Type} [CommRing R] (dim ncomp P1d Q1d gridDim blockDim : Nat)
    (sched : Nat → Nat → List Nat) (smem0 : Nat → Nat → R) (nelem : Nat) (transpose : Int)
    (interp1d u : Nat → R)
    (hdim : 0 < dim) (hP : 0 < (if transpose ≠ 0 then Q1d else P1d)) (hbd : 0 < blockDim)
    (hgrid : nelem ≤ gridDim) (hsched : ∀ b n i, i < blockDim → i ∈ sched b n)
    (e : Nat) (he : e < nelem) (blockOrder : List Nat) (v : Nat → R) :
    (e ∈ blockOrder →
      IsStage (fun _ j c => matEntry interp1d P1d (decide (transpose ≠ 0)) j c) ncomp
        (if transpose ≠ 0 then Q1d else P1d) (if transpose ≠ 0 then P1d else Q1d) 1 dim dim
        (fun i => u (e * (ncomp * (if transpose ≠ 0 then Q1d else P1d) ^ dim) + i))
        (fun i => basiskernels.interp (kernelDefs dim ncomp P1d Q1d) gridDim blockDim blockOrder
          sched smem0 nelem transpose interp1d u v
            (e * (ncomp * (if transpose ≠ 0 then P1d else Q1d) ^ dim) + i))) ∧
    (e ∉ blockOrder → ∀ i, i < ncomp * (if transpose ≠ 0 then P1d else Q1d) ^ dim →
      basiskernels.interp (kernelDefs dim ncomp P1d Q1d) gridDim blockDim blockOrder
          sched smem0 nelem transpose interp1d u v
            (e * (ncomp * (if transpose ≠ 0 then P1d else Q1d) ^ dim) + i)
        = v (e * (ncomp * (if transpose ≠ 0 then P1d else Q1d) ^ dim) + i)) := by
  unfold basiskernels.interp
  induction blockOrder generalizing v with
  | nil =>
    exact ⟨fun h => absurd h (List.not_mem_nil _), fun _ _ _ => rfl⟩
  | cons b l ih =>
    simp only [List.foldl_cons]
    have ih' := ih ((basiskernels.interpBlock (kernelDefs dim ncomp P1d Q1d) gridDim blockDim
      (sched b) nelem transpose interp1d u b { s_mem := smem0 b, v := v }).v)
    -- what block `b` does to the range of element `e`
    have hkeep : b ≠ e → ∀ i, i < ncomp * (if transpose ≠ 0 then P1d else Q1d) ^ dim →
        (basiskernels.interpBlock (kernelDefs dim ncomp P1d Q1d) gridDim blockDim
          (sched b) nelem transpose interp1d u b { s_mem := smem0 b, v := v }).v
            (e * (ncomp * (if transpose ≠ 0 then P1d else Q1d) ^ dim) + i)
          = v (e * (ncomp * (if transpose ≠ 0 then P1d else Q1d) ^ dim) + i) := by
      intro hne i hi
      by_cases hb : b < nelem
      · have hs := (interpBlock_spec dim ncomp P1d Q1d gridDim blockDim (sched b) nelem transpose
          interp1d u b { s_mem := smem0 b, v := v } hdim hP hbd hgrid hb (hsched b)).1
        apply hs
        generalize ncomp * (if transpose ≠ 0 then P1d else Q1d) ^ dim = vs at hi ⊢
        rcases Nat.lt_or_gt_of_ne hne with h | h
        · right
          calc b * vs + vs = (b + 1) * vs := by ring
            _ ≤ e * vs := Nat.mul_le_mul_right _ h
            _ ≤ e * vs + i := Nat.le_add_right _ _
        · left
          calc e * vs + i < e * vs + vs := by omega
            _ = (e + 1) * vs := by ring
            _ ≤ b * vs := Nat.mul_le_mul_right _ h
      · rw [interpBlock_idle _ _ _ _ _ _ _ _ _ _ (by omega) (by omega)]
    constructor
    · intro hmem
      by_cases hin : e ∈ l
      · exact ih'.1 hin
      · have hbe : e = b := by
          rcases List.mem_cons.mp hmem with h | h
          · exact h
          · exact absurd h hin
        subst hbe
        have hs := (interpBlock_spec dim ncomp P1d Q1d gridDim blockDim (sched e) nelem transpose
          interp1d u e { s_mem := smem0 e, v := v } hdim hP hbd hgrid he (hsched e)).2
        refine isStage_one_bound hs ?_
        intro i hi
        apply ih'.2 hin
        simpa using hi
    · intro hmem i hi
      have hin : e ∉ l := fun h => hmem (List.mem_cons_of_mem _ h)
      have hne : b ≠ e := fun h => hmem (h ▸ List.mem_cons_self _ _)
      rw [ih'.2 hin i hi, hkeep hne i hi]

/-- The output of a launch of `interp` on flat indices: for every row
`a = e * ncomp + m` and point `q`. -/
theorem interp_flat {R : Type} [CommRing R] (dim ncomp P1d Q1d gridDim blockDim : Nat)
    (blockOrder : List Nat) (sched : Nat → Nat → List Nat) (smem0 : Nat → Nat → R)
    (nelem : Nat) (transpose : Int) (interp1d u v : Nat → R)
    (hdim : 0 < dim) (hP : 0 < (if transpose ≠ 0 then Q1d else P1d)) (hbd : 0 < blockDim)
    (hgrid : nelem ≤ gridDim) (hblocks : ∀ b, b < nelem → b ∈ blockOrder)
    (hsched : ∀ b n i, i < blockDim → i ∈ sched b n)
    (a q : Nat) (ha : a < nelem * ncomp) (hq : q < (if transpose ≠ 0 then P1d else Q1d) ^ dim) :
    basiskernels.interp (kernelDefs dim ncomp P1d Q1d) gridDim blockDim blockOrder sched smem0
        nelem transpose interp1d u v (a * (if transpose ≠ 0 then P1d else Q1d) ^ dim + q)
      = ∑ p in Finset.range ((if transpose ≠ 0 then Q1d else P1d) ^ dim),
          kron (fun _ j c => matEntry interp1d P1d (decide (transpose ≠ 0)) j c)
            (if transpose ≠ 0 then Q1d else P1d) (if transpose ≠ 0 then P1d else Q1d) dim q p
          * u (a * (if transpose ≠ 0 then Q1d else P1d) ^ dim + p) := by
  have hn : 0 < ncomp := by
    rcases Nat.eq_zero_or_pos ncomp with h | h
    · subst h; simp at ha
    · exact h
  have he : a / ncomp < nelem := Nat.div_lt_of_lt_mul (by rw [Nat.mul_comm]; exact ha)
  have hm : a % ncomp < ncomp := Nat.mod_lt _ hn
  have hdec : a = a / ncomp * ncomp + a % ncomp := by
    rw [Nat.mul_comm]; exact (Nat.div_add_mod _ _).symm
  have hs := (interp_grid_spec dim ncomp P1d Q1d gridDim blockDim sched smem0 nelem transpose
    interp1d u hdim hP hbd hgrid hsched (a / ncomp) he blockOrder v).1 (hblocks _ he)
  have hf := isStage_one_flat hs (a % ncomp) q hm hq
  have e1 : ∀ (S x : Nat), a / ncomp * (ncomp * S) + (a % ncomp * S + x) = a * S + x := by
    intro S x
    conv_rhs => rw [hdec]
    ring
  simp only [e1] at hf
  exact hf

/-! ### Claims on the kernel `interp` -/

theorem kron_swap {R : Type} [CommRing R] (T : Nat → Nat → Nat → R) (P Q d q p : Nat) :
    kron (fun k j c => T k c j) Q P d p q = kron T P Q d q p := rfl

theorem sum_flat_multi {R : Type} [CommRing R] (T : Nat → Nat → Nat → R) {P Q dim : Nat}
    (q : Fin dim → Fin Q) (x : Nat → R) :
    ∑ p in Finset.range (P ^ dim), kron T P Q dim (multiIdx q) p * x p
      = ∑ p : Fin dim → Fin P, (∏ k : Fin dim, T k (q k) (p k)) * x (multiIdx p) := by
  rw [← sum_multiIdx P dim (fun p => kron T P Q dim (multiIdx q) p * x p)]
  apply Finset.sum_congr rfl
  intro p _
  rw [kron_multiIdx]

theorem perm_range_mem {l : List Nat} {n : Nat} (h : l.Perm (List.range n)) (i : Nat)
    (hi : i < n) : i ∈ l := h.symm.subset (List.mem_range.mpr hi)

theorem gradChains_spec {R : Type} [CommRing R] (dim ncomp P1d Q1d blockDim : Nat)
    (sched : Nat → List Nat) (interp1d grad1d u : Nat → R) (b : Nat) (st0 : BlockState R)
    (hdim : 0 < dim) (hP : 0 < P1d) (hbd : 0 < blockDim)
    (hsched : ∀ n i, i < blockDim → i ∈ sched n)
    (hops : ∀ k, k < Q1d * P1d →
      st0.s_mem k = interp1d k ∧ st0.s_mem (Q1d * P1d + k) = grad1d k)
    (n : Nat) (hn : n ≤ dim) :
    (∀ x, x < Q1d * P1d + Q1d * P1d →
      (gradChains dim ncomp P1d Q1d blockDim sched u b n st0).s_mem x = st0.s_mem x) ∧
    (∀ x, (x < b * (ncomp * (Q1d ^ dim * dim)) ∨
        b * (ncomp * (Q1d ^ dim * dim)) + n * (Q1d ^ dim * ncomp) ≤ x) →
      (gradChains dim ncomp P1d Q1d blockDim sched u b n st0).v x = st0.v x) ∧
    (∀ d1, d1 < n →
      IsStage (gradT interp1d grad1d P1d d1) ncomp P1d Q1d 1 dim dim
        (fun i => u (b * (ncomp * P1d ^ dim) + i))
        (fun i => (gradChains dim ncomp P1d Q1d blockDim sched u b n st0).v
          (b * (ncomp * (Q1d ^ dim * dim)) + d1 * (Q1d ^ dim * ncomp) + i))) := by
  induction n with
  | zero =>
    refine ⟨fun _ _ => rfl, fun _ _ => rfl, fun d1 h => absurd h (by omega)⟩
  | succ n ih =>
    obtain ⟨j1, j2, j3⟩ := ih (by omega)
    unfold gradChains at *
    rw [forLoop_succ]
    generalize forLoop _ n st0 = s at *
    have hspec := passLoop_spec (gradT interp1d grad1d P1d n) ncomp P1d Q1d P1d 1 dim
      (fun d => if n = d then Q1d * P1d else 0) (Loc.gin (b * (ncomp * P1d ^ dim) + 0))
      (Q1d * P1d + Q1d * P1d) (ncomp * (if Q1d > P1d then Q1d else P1d) ^ dim)
      (b * (ncomp * (Q1d ^ dim * dim)) + n * (Q1d ^ dim * ncomp)) u blockDim
      (fun d2 => sched (1 + n * dim + d2)) s hdim hP hbd (fun d => hsched _)
      (Or.inl ⟨_, rfl⟩)
      (by
        intro d j c _ hj hc
        have hlt : j * P1d + c * 1 < Q1d * P1d := by
          calc j * P1d + c * 1 < j * P1d + P1d := by omega
            _ = (j + 1) * P1d := by ring
            _ ≤ Q1d * P1d := Nat.mul_le_mul_right _ hj
        by_cases hnd : n = d
        · simp only [if_pos hnd]
          refine ⟨by omega, ?_⟩
          rw [j1 _ (by omega), (hops _ hlt).2]
          simp [gradT, hnd]
        · simp only [if_neg hnd]
          refine ⟨by omega, ?_⟩
          rw [j1 _ (by omega), Nat.zero_add, (hops _ hlt).1]
          simp [gradT, hnd])
      (by
        intro d hd
        rw [Nat.mul_assoc]
        apply Nat.mul_le_mul_left
        apply pow_mix_le _ _ hd <;> split_ifs <;> omega)
      dim (le_refl _)
    obtain ⟨k1, _, _, _, kfin⟩ := hspec
    obtain ⟨kframe, kstage⟩ := kfin rfl
    generalize passLoop _ _ _ _ _ _ _ _ _ _ _ _ _ _ _ s = s' at k1 kframe kstage ⊢
    have hslice : Q1d ^ dim * ncomp = ncomp * Q1d ^ dim := Nat.mul_comm _ _
    refine ⟨fun x hx => ?_, fun x hx => ?_, fun d1 hd1 => ?_⟩
    · rw [k1 x hx, j1 x hx]
    · rw [kframe x (by
        rcases hx with h | h
        · left; omega
        · right
          rw [← hslice]
          have : (n + 1) * (Q1d ^ dim * ncomp) = n * (Q1d ^ dim * ncomp) + Q1d ^ dim * ncomp := by
            ring
          omega)]
      apply j2
      rcases hx with h | h
      · left; exact h
      · right
        have : (n + 1) * (Q1d ^ dim * ncomp) = n * (Q1d ^ dim * ncomp) + Q1d ^ dim * ncomp := by
          ring
        omega
    · by_cases hlast : d1 = n
      · subst hlast
        refine isStage_congr_input kstage ?_
        intro i _
        simp [BlockState.load]
      · have hlt : d1 < n := by omega
        refine isStage_one_bound (j3 d1 hlt) ?_
        intro i hi
        simp only [Nat.sub_self, pow_zero, Nat.mul_one] at hi
        apply kframe
        left
        rw [← hslice] at hi
        have : (d1 + 1) * (Q1d ^ dim * ncomp) ≤ n * (Q1d ^ dim * ncomp) :=
          Nat.mul_le_mul_right _ hlt
        have e : (d1 + 1) * (Q1d ^ dim * ncomp) = d1 * (Q1d ^ dim * ncomp) + Q1d ^ dim * ncomp := by
          ring
        omega

/-- A forward block of `grad` that owns one element computes the `dim`
derivative slices of that element and writes nothing outside its range. -/
theorem gradBlock_spec {R : Type} [CommRing R] (dim ncomp P1d Q1d gridDim blockDim : Nat)
    (sched : Nat → List Nat) (nelem : Nat) (interp1d grad1d u : Nat → R)
    (b : Nat) (st : BlockState R)
    (hdim : 0 < dim) (hP : 0 < P1d) (hbd : 0 < blockDim)
    (hgrid : nelem ≤ gridDim) (hb : b < nelem)
    (hsched : ∀ n i, i < blockDim → i ∈ sched n) :
    (∀ x, (x < b * (ncomp * (Q1d ^ dim * dim)) ∨
        b * (ncomp * (Q1d ^ dim * dim)) + ncomp * (Q1d ^ dim * dim) ≤ x) →
      (basiskernels.gradBlock (kernelDefs dim ncomp P1d Q1d) gridDim blockDim sched nelem 0
        interp1d grad1d u b st).v x = st.v x) ∧
    (∀ d1, d1 < dim →
      IsStage (gradT interp1d grad1d P1d d1) ncomp P1d Q1d 1 dim dim
        (fun i => u (b * (ncomp * P1d ^ dim) + i))
        (fun i => (basiskernels.gradBlock (kernelDefs dim ncomp P1d Q1d) gridDim blockDim sched
          nelem 0 interp1d grad1d u b st).v
            (b * (ncomp * (Q1d ^ dim * dim)) + d1 * (Q1d ^ dim * ncomp) + i))) := by
  have hnIter : (nelem - b + gridDim - 1) / gridDim = 1 := by
    have hg : 0 < gridDim := by omega
    have := (Nat.le_div_iff_mul_le hg).mpr (by omega : 1 * gridDim ≤ nelem - b + gridDim - 1)
    have := (Nat.div_lt_iff_lt_mul hg).mpr (by omega : nelem - b + gridDim - 1 < 2 * gridDim)
    omega
  have hrw : basiskernels.gradBlock (kernelDefs dim ncomp P1d Q1d) gridDim blockDim sched nelem 0
        interp1d grad1d u b st
      = gradChains dim ncomp P1d Q1d blockDim sched u b dim
          (runThreads (sched 0) (fun i st =>
            strided i blockDim (Q1d * P1d) (fun k st =>
              (st.store (Loc.smem 0) k (interp1d k)).store (Loc.smem (0 + Q1d * P1d)) k
                (grad1d k)) st) st) := by
    unfold basiskernels.gradBlock gradChains passLoop kernelDefs CeedIntPow
    simp only [hnIter, forLoop, Nat.zero_mul, Nat.add_zero, ne_eq, not_true_eq_false, if_false,
      false_and, decide_False, Nat.zero_add]
    congr 1
    funext dim1 s
    congr 1
    funext d s
    by_cases h : dim1 = d
    · simp [h]
    · simp [h]
  rw [hrw]
  obtain ⟨hv0, hops⟩ := grad_phase0 (Q1d * P1d) blockDim (sched 0) interp1d grad1d st hbd
    (hsched 0)
  generalize runThreads (sched 0) _ st = st0 at hv0 hops ⊢
  obtain ⟨_, h2, h3⟩ := gradChains_spec dim ncomp P1d Q1d blockDim sched interp1d grad1d u b st0
    hdim hP hbd hsched hops dim (le_refl _)
  refine ⟨fun x hx => ?_, h3⟩
  rw [← hv0]
  apply h2
  rcases hx with h | h
  · left; exact h
  · right
    have : ncomp * (Q1d ^ dim * dim) = dim * (Q1d ^ dim * ncomp) := by ring
    omega

/-- A block of `grad` without an element leaves `v` alone. -/
theorem gradBlock_idle {R : Type} [CommRing R] (m : KernelDefs) (gridDim blockDim : Nat)
    (sched : Nat → List Nat) (nelem : Nat) (transpose : Int) (interp1d grad1d u : Nat → R)
    (b : Nat) (st : BlockState R) (hg : 0 < gridDim) (hb : nelem ≤ b) (hbd : 0 < blockDim)
    (hsched : ∀ n i, i < blockDim → i ∈ sched n) :
    (basiskernels.gradBlock m gridDim blockDim sched nelem transpose interp1d grad1d u b st).v
      = st.v := by
  have hnIter : (nelem - b + gridDim - 1) / gridDim = 0 := by
    apply Nat.div_eq_of_lt; omega
  unfold basiskernels.gradBlock
  simp only [hnIter, forLoop]
  exact (grad_phase0 _ blockDim (sched 0) interp1d grad1d st hbd (hsched 0)).1

/-- Blocks that each rewrite the range of their own element, run in any order. -/
theorem grid_generic {R : Type} (block : Nat → (Nat → R) → (Nat → R)) (vs nelem : Nat)
    (Good : Nat → (Nat → R) → Prop)
    (hcongr : ∀ e w w', (∀ i, i < vs → w' i = w i) → Good e w → Good e w')
    (hspec : ∀ b, b < nelem → ∀ v, Good b (fun i => block b v (b * vs + i)) ∧
      ∀ x, (x < b * vs ∨ b * vs + vs ≤ x) → block b v x = v x)
    (hidle : ∀ b, nelem ≤ b → ∀ v, block b v = v)
    (e : Nat) (he : e < nelem) (l : List Nat) (v : Nat → R) :
    (e ∈ l → Good e (fun i => l.foldl (fun v b => block b v) v (e * vs + i))) ∧
    (e ∉ l → ∀ i, i < vs → l.foldl (fun v b => block b v) v (e * vs + i) = v (e * vs + i)) := by
  induction l generalizing v with
  | nil => exact ⟨fun h => absurd h (List.not_mem_nil _), fun _ _ _ => rfl⟩
  | cons b l ih =>
    simp only [List.foldl_cons]
    have ih' := ih (block b v)
    have hkeep : b ≠ e → ∀ i, i < vs → block b v (e * vs + i) = v (e * vs + i) := by
      intro hne i hi
      by_cases hb : b < nelem
      · apply (hspec b hb v).2
        rcases Nat.lt_or_gt_of_ne hne with h | h
        · right
          calc b * vs + vs = (b + 1) * vs := by ring
            _ ≤ e * vs := Nat.mul_le_mul_right _ h
            _ ≤ e * vs + i := Nat.le_add_right _ _
        · left
          calc e * vs + i < e * vs + vs := by omega
            _ = (e + 1) * vs := by ring
            _ ≤ b * vs := Nat.mul_le_mul_right _ h
      · rw [hidle b (by omega)]
    constructor
    · intro hmem
      by_cases hin : e ∈ l
      · exact ih'.1 hin
      · have hbe : e = b := by
          rcases List.mem_cons.mp hmem with h | h
          · exact h
          · exact absurd h hin
        subst hbe
        exact hcongr e _ _ (fun i hi => ih'.2 hin i hi) (hspec e he v).1
    · intro hmem i hi
      have hin : e ∉ l := fun h => hmem (List.mem_cons_of_mem _ h)
      have hne : b ≠ e := fun h => hmem (h ▸ List.mem_cons_self _ _)
      rw [ih'.2 hin i hi, hkeep hne i hi]

/-- The output of a forward launch of `grad` on flat indices. -/
theorem grad_flat {R : Type} [CommRing R] (dim ncomp P1d Q1d gridDim blockDim : Nat)
    (blockOrder : List Nat) (sched : Nat → Nat → List Nat) (smem0 : Nat → Nat → R)
    (nelem : Nat) (interp1d grad1d u v : Nat → R)
    (hdim : 0 < dim) (hP : 0 < P1d) (hbd : 0 < blockDim)
    (hgrid : nelem ≤ gridDim) (hblocks : ∀ b, b < nelem → b ∈ blockOrder)
    (hsched : ∀ b n i, i < blockDim → i ∈ sched b n)
    (e d1 m q : Nat) (he : e < nelem) (hd1 : d1 < dim) (hm : m < ncomp) (hq : q < Q1d ^ dim) :
    basiskernels.grad (kernelDefs dim ncomp P1d Q1d) gridDim blockDim blockOrder sched smem0
        nelem 0 interp1d grad1d u v (((e * dim + d1) * ncomp + m) * Q1d ^ dim + q)
      = ∑ p in Finset.range (P1d ^ dim),
          kron (gradT interp1d grad1d P1d d1) P1d Q1d dim q p
            * u ((e * ncomp + m) * P1d ^ dim + p) := by
  have hg := (grid_generic
    (fun b v => (basiskernels.gradBlock (kernelDefs dim ncomp P1d Q1d) gridDim blockDim (sched b)
      nelem 0 interp1d grad1d u b { s_mem := smem0 b, v := v }).v)
    (ncomp * (Q1d ^ dim * dim)) nelem
    (fun e w => ∀ d1, d1 < dim →
      IsStage (gradT interp1d grad1d P1d d1) ncomp P1d Q1d 1 dim dim
        (fun i => u (e * (ncomp * P1d ^ dim) + i))
        (fun i => w (d1 * (Q1d ^ dim * ncomp) + i)))
    (by
      intro e w w' hw hgood d1 hd1
      refine isStage_one_bound (hgood d1 hd1) ?_
      intro i hi
      simp only [Nat.sub_self, pow_zero, Nat.mul_one] at hi
      apply hw
      have h1 : (d1 + 1) * (Q1d ^ dim * ncomp) ≤ dim * (Q1d ^ dim * ncomp) :=
        Nat.mul_le_mul_right _ hd1
      have e1 : (d1 + 1) * (Q1d ^ dim * ncomp) = d1 * (Q1d ^ dim * ncomp) + ncomp * Q1d ^ dim := by
        ring
      have e2 : ncomp * (Q1d ^ dim * dim) = dim * (Q1d ^ dim * ncomp) := by ring
      omega)
    (by
      intro b hb v
      have hs := gradBlock_spec dim ncomp P1d Q1d gridDim blockDim (sched b) nelem interp1d
        grad1d u b { s_mem := smem0 b, v := v } hdim hP hbd hgrid hb (hsched b)
      refine ⟨fun d1 hd1 => ?_, hs.1⟩
      have := hs.2 d1 hd1
      simpa [Nat.add_assoc] using this)
    (by
      intro b hb v
      exact gradBlock_idle _ _ _ _ _ _ _ _ _ _ _ (by omega) hb hbd (hsched b))
    e he blockOrder v).1 (hblocks e he) d1 hd1
  have hf := isStage_one_flat hg m q hm hq
  have e1 : e * (ncomp * (Q1d ^ dim * dim)) + (d1 * (Q1d ^ dim * ncomp) + (m * Q1d ^ dim + q))
      = ((e * dim + d1) * ncomp + m) * Q1d ^ dim + q := by ring
  have e2 : ∀ p, e * (ncomp * P1d ^ dim) + (m * P1d ^ dim + p) = (e * ncomp + m) * P1d ^ dim + p := by
    intro p; ring
  simp only [e1, e2] at hf
  exact hf

/-- C5: the reference `grad` kernel in forward mode, launched with one block
per element, writes for every element `e`, derivative axis `d < dim`,
component `m` and quadrature multi-index `q`
`v[((e*dim+d)*ncomp+m)*Q1D^dim + sum_k q_k*Q1D^k]` = the sum over the nodal
multi-indices `p` of
`(prod_k M_k[q_k*P1D + p_k]) * u[(e*ncomp+m)*P1D^dim + sum_k p_k*P1D^k]`,
where `M_k` is `grad1d` for `k = d` and `interp1d` otherwise. Proved for every
`dim >= 1`. -/
theorem C5_grad_slices {R : Type} [CommRing R]
    (dim ncomp P1D Q1D nelem gridDim blockDim : Nat)
    (blockOrder : List Nat) (sched : Nat → Nat → List Nat) (smem0 : Nat → Nat → R)
    (interp1d grad1d u v : Nat → R)
    (hdim : 1 ≤ dim) (hP : 1 ≤ P1D) (hgrid : gridDim = nelem) (hbd : 1 ≤ blockDim)
    (hblocks : blockOrder.Perm (List.range gridDim))
    (hsched : ∀ b n, (sched b n).Perm (List.range blockDim))
    (e d m : Nat) (he : e < nelem) (hd : d < dim) (hm : m < ncomp) (q : Fin dim → Fin Q1D) :
    basiskernels.grad (kernelDefs dim ncomp P1D Q1D) gridDim blockDim blockOrder sched smem0
        nelem 0 interp1d grad1d u v (((e * dim + d) * ncomp + m) * Q1D ^ dim + multiIdx q)
      = ∑ p : Fin dim → Fin P1D,
          (∏ k : Fin dim, (if (k : Nat) = d then grad1d else interp1d)
              ((q k : Nat) * P1D + (p k : Nat)))
            * u ((e * ncomp + m) * P1D ^ dim + multiIdx p) := by
  rw [grad_flat dim ncomp P1D Q1D gridDim blockDim blockOrder sched smem0 nelem interp1d grad1d
    u v hdim hP hbd (by omega) (fun b hb => perm_range_mem hblocks b (by omega))
    (fun b n => perm_range_mem (hsched b n)) e d m (multiIdx q) he hd hm (multiIdx_lt q),
    sum_flat_multi _ q (fun p => u ((e * ncomp + m) * P1D ^ dim + p))]
  apply Finset.sum_congr rfl
  intro p _
  congr 1
  apply Finset.prod_congr rfl
  intro k _
  unfold gradT
  by_cases h : (k : Nat) = d
  · simp [h]
  · have h' : ¬ d = (k : Nat) := fun h2 => h h2.symm
    simp [h, h']

/-! ### INTERP of the SIMD backend -/

theorem isStage_flat {R : Type} [CommRing R] {T : Nat → Nat → Nat → R} {N P Q E dim : Nat}
    {u X : Nat → R} (h : IsStage T N P Q E dim dim u X) (m q e : Nat) (hm : m < N)
    (hq : q < Q ^ dim) (he : e < E) :
    X ((m * Q ^ dim + q) * E + e)
      = ∑ p in Finset.range (P ^ dim), kron T P Q dim q p * u ((m * P ^ dim + p) * E + e) :=
  h m q e (by simpa using hm) hq he

theorem flat_index_lt {N S E m q e : Nat} (hm : m < N) (hq : q < S) (he : e < E) :
    (m * S + q) * E + e < E * N * S := by
  calc (m * S + q) * E + e < (m * S + q) * E + E := by omega
    _ = (m * S + q + 1) * E := by ring
    _ ≤ (N * S) * E := by
      apply Nat.mul_le_mul_right
      calc m * S + q + 1 ≤ m * S + S := by omega
        _ = (m + 1) * S := by ring
        _ ≤ N * S := Nat.mul_le_mul_right _ hm
    _ = E * N * S := by ring

/-- Forward INTERP of the SIMD backend on flat indices. -/
theorem opt_interp_forward {R : Type} [CommRing R] (basis : CeedBasis R)
    (stack : Nat → Nat → R) (u v : Nat → R)
    (hdim : 0 < basis.dim) (hP : 0 < basis.P1d) (hQ : basis.Q1d % 4 = 0) :
    (CeedBasisApply_Opt basis 8 CEED_NOTRANSPOSE CEED_EVAL_INTERP stack u v).1 = 0 ∧
    ∀ m q e, m < basis.ncomp → q < basis.Q1d ^ basis.dim → e < 8 →
      (CeedBasisApply_Opt basis 8 CEED_NOTRANSPOSE CEED_EVAL_INTERP stack u v).2
          ((m * basis.Q1d ^ basis.dim + q) * 8 + e)
        = ∑ p in Finset.range (basis.P1d ^ basis.dim),
            kron (fun _ j c => matEntry basis.interp1d basis.P1d false j c) basis.P1d basis.Q1d
              basis.dim q p * u ((m * basis.P1d ^ basis.dim + p) * 8 + e) := by
  have hs := applyInterp_Opt_spec basis 8 CEED_NOTRANSPOSE u
    { ierr := 0, pre := 0, post := 0, tmp := stack, interp := stack 2, v := v }
    hdim (by decide) rfl (by simpa using hP) (by simpa using hQ)
  simp only [reduceCtorEq, if_false, decide_False, sub_zero] at hs
  unfold CeedBasisApply_Opt
  simp only [ne_eq, OfNat.ofNat_ne_one, not_false_eq_true, not_true_eq_false, and_false, if_false,
    reduceCtorEq]
  refine ⟨hs.1, fun m q e hm hq he => ?_⟩
  exact isStage_flat hs.2 m q e hm hq he

/-- Transpose INTERP of the SIMD backend on flat indices: the initial contents
of `v` do not matter. -/
theorem opt_interp_transpose {R : Type} [CommRing R] (basis : CeedBasis R)
    (stack : Nat → Nat → R) (u v : Nat → R)
    (hdim : 0 < basis.dim) (hQ : 0 < basis.Q1d) (hP : basis.P1d % 4 = 0) :
    (CeedBasisApply_Opt basis 8 CEED_TRANSPOSE CEED_EVAL_INTERP stack u v).1 = 0 ∧
    ∀ m p e, m < basis.ncomp → p < basis.P1d ^ basis.dim → e < 8 →
      (CeedBasisApply_Opt basis 8 CEED_TRANSPOSE CEED_EVAL_INTERP stack u v).2
          ((m * basis.P1d ^ basis.dim + p) * 8 + e)
        = ∑ q in Finset.range (basis.Q1d ^ basis.dim),
            kron (fun _ j c => matEntry basis.interp1d basis.P1d false j c) basis.P1d basis.Q1d
              basis.dim q p * u ((m * basis.Q1d ^ basis.dim + q) * 8 + e) := by
  have hs := applyInterp_Opt_spec basis 8 CEED_TRANSPOSE u
    { ierr := 0, pre := 0, post := 0, tmp := stack, interp := stack 2,
      v := forLoop (fun i v => store v i 0) (8 * basis.ncomp * CeedPowInt basis.P1d basis.dim) v }
    hdim (by decide) rfl (by simpa using hQ) (by simpa using hP)
  simp only [if_true, decide_True] at hs
  unfold CeedBasisApply_Opt
  simp only [ne_eq, OfNat.ofNat_ne_one, not_false_eq_true, not_true_eq_false, and_false, if_false,
    if_true]
  refine ⟨hs.1, fun m p e hm hp he => ?_⟩
  have hf := isStage_flat hs.2 m p e hm hp he
  simp only at hf
  rw [forLoop_store_zero, if_pos (by unfold CeedPowInt; exact flat_index_lt hm hp he),
    sub_zero] at hf
  rw [hf]
  apply Finset.sum_congr rfl
  intro q _
  rw [← kron_swap]
  rfl

/-! ### GRAD of the SIMD backend -/

/-- The written entries of a contraction, by flat index. -/
theorem contract_flat {R : Type} [CommRing R] (A B C J : Nat) (t : Nat → R)
    (tmode : CeedTransposeMode) (Add : Int) (u v : Nat → R) (hC : C % 8 = 0) (hJ : J % 4 = 0)
    (k : Nat) (hk : k < A * J * C) :
    (CeedTensorContract_Opt A B C J t tmode Add u v).2 k
      = (if Add = 0 then 0 else v k) +
        contrSum B C J (if tmode = CEED_TRANSPOSE then 1 else B)
          (if tmode = CEED_TRANSPOSE then J else 1) t u k := by
  have hk' : k < A * C * J := by rw [Nat.mul_right_comm]; exact hk
  obtain ⟨hc, hj, ha, hdec⟩ := coords3 hk'
  rw [← Nat.div_div_eq_div_mul] at ha hdec
  have h := (contract_entry A B C J t tmode Add u v hC hJ).2 _ _ _ ha hj hc
  rw [← hdec] at h
  rw [h, ← contrSum_coords B C J _ _ t u hj hc, ← hdec]

theorem slice_size {N Q E dim d : Nat} (hd : d < dim) :
    N * Q ^ (dim - 1 - d) * Q * (E * Q ^ d) = N * Q ^ dim * E := by
  have e : dim = (dim - 1 - d) + 1 + d := by omega
  conv_rhs => rw [e, pow_add, pow_succ]
  ring

theorem slice_loop {R : Type} [CommRing R] (N Q E dim : Nat) (t : Nat → R) (s0 : OptState R)
    (hQ : 0 < Q) (hE : E % 8 = 0) (hQ4 : Q % 4 = 0)
    (h0 : s0.ierr = 0) (hpre : s0.pre = N * Q ^ (dim - 1)) (hpost : s0.post = E)
    (d : Nat) (hd : d ≤ dim) :
    (forLoop (sliceBody Q t (N * Q ^ dim * E)) d s0).ierr = 0 ∧
    (forLoop (sliceBody Q t (N * Q ^ dim * E)) d s0).pre = N * Q ^ (dim - 1) / Q ^ d ∧
    (forLoop (sliceBody Q t (N * Q ^ dim * E)) d s0).post = E * Q ^ d ∧
    (forLoop (sliceBody Q t (N * Q ^ dim * E)) d s0).interp = s0.interp ∧
    ∀ d', d' < d → ∀ k, k < N * Q ^ dim * E →
      (forLoop (sliceBody Q t (N * Q ^ dim * E)) d s0).v (d' * (N * Q ^ dim * E) + k)
        = contrSum Q (E * Q ^ d') Q Q 1 t s0.interp k := by
  induction d with
  | zero =>
    refine ⟨h0, ?_, ?_, rfl, fun d' h => absurd h (by omega)⟩
    · show s0.pre = _
      simp [hpre]
    · show s0.post = _
      simp [hpost]
  | succ d ih =>
    obtain ⟨i0, ipre, ipost, iint, isl⟩ := ih (by omega)
    have hdlt : d < dim := by omega
    rw [forLoop_succ]
    generalize forLoop (sliceBody Q t (N * Q ^ dim * E)) d s0 = s at *
    have hC8 : s.post % 8 = 0 := by rw [ipost]; exact mul_pow_mod8 hE
    have hpreA : s.pre = N * Q ^ (dim - 1 - d) := by rw [ipre, pre_div hQ hdlt]
    unfold sliceBody
    rw [optStep_ok _ _ _ _ _ _ _ _ i0 hC8 hQ4]
    have hflat := contract_flat s.pre Q s.post Q t CEED_NOTRANSPOSE 0 s.interp
      (s.get (OptBuf.v (d * (N * Q ^ dim * E)))) hC8 hQ4
    have hsz : s.pre * Q * s.post = N * Q ^ dim * E := by
      rw [hpreA, ipost]; exact slice_size hdlt
    rw [hsz] at hflat
    refine ⟨i0, ?_, ?_, iint, ?_⟩
    · show s.pre / Q = _
      rw [ipre, Nat.div_div_eq_div_mul, pow_succ]
    · show s.post * Q = _
      rw [ipost, pow_succ, Nat.mul_assoc]
    · intro d' hd' k hk
      simp only [OptState.set]
      by_cases hlast : d' = d
      · subst hlast
        rw [if_neg (by omega), Nat.add_sub_cancel_left, hflat k hk]
        simp [ipost, iint]
      · have hlt : d' < d := by omega
        have h1 : (d' + 1) * (N * Q ^ dim * E) ≤ d * (N * Q ^ dim * E) :=
          Nat.mul_le_mul_right _ hlt
        have e1 : (d' + 1) * (N * Q ^ dim * E) = d' * (N * Q ^ dim * E) + N * Q ^ dim * E := by
          ring
        rw [if_pos (by omega)]
        exact isl d' hlt k hk

theorem gather_loop {R : Type} [CommRing R] (N Q E dim : Nat) (t u : Nat → R) (s0 : OptState R)
    (hQ : 0 < Q) (hE : E % 8 = 0) (hQ4 : Q % 4 = 0)
    (h0 : s0.ierr = 0) (hpre : s0.pre = N * Q ^ (dim - 1)) (hpost : s0.post = E)
    (d : Nat) (hd : d ≤ dim) :
    (forLoop (gatherBody Q t (N * Q ^ dim * E) u) d s0).ierr = 0 ∧
    (forLoop (gatherBody Q t (N * Q ^ dim * E) u) d s0).pre = N * Q ^ (dim - 1) / Q ^ d ∧
    (forLoop (gatherBody Q t (N * Q ^ dim * E) u) d s0).post = E * Q ^ d ∧
    (forLoop (gatherBody Q t (N * Q ^ dim * E) u) d s0).v = s0.v ∧
    (0 < d → ∀ k, k < N * Q ^ dim * E →
      (forLoop (gatherBody Q t (N * Q ^ dim * E) u) d s0).interp k
        = ∑ d' in Finset.range d,
            contrSum Q (E * Q ^ d') Q 1 Q t (fun i => u (d' * (N * Q ^ dim * E) + i)) k) := by
  induction d with
  | zero =>
    refine ⟨h0, ?_, ?_, rfl, fun h => absurd h (by omega)⟩
    · show s0.pre = _
      simp [hpre]
    · show s0.post = _
      simp [hpost]
  | succ d ih =>
    obtain ⟨i0, ipre, ipost, iv, iacc⟩ := ih (by omega)
    have hdlt : d < dim := by omega
    rw [forLoop_succ]
    generalize forLoop (gatherBody Q t (N * Q ^ dim * E) u) d s0 = s at *
    have hC8 : s.post % 8 = 0 := by rw [ipost]; exact mul_pow_mod8 hE
    have hpreA : s.pre = N * Q ^ (dim - 1 - d) := by rw [ipre, pre_div hQ hdlt]
    unfold gatherBody
    rw [optStep_ok _ _ _ _ _ _ _ _ i0 hC8 hQ4]
    have hflat := contract_flat s.pre Q s.post Q t CEED_TRANSPOSE (if 0 < d then 1 else 0)
      (fun i => u (d * (N * Q ^ dim * E) + i)) (s.get OptBuf.interp) hC8 hQ4
    have hsz : s.pre * Q * s.post = N * Q ^ dim * E := by
      rw [hpreA, ipost]; exact slice_size hdlt
    rw [hsz] at hflat
    refine ⟨i0, ?_, ?_, iv, ?_⟩
    · show s.pre / Q = _
      rw [ipre, Nat.div_div_eq_div_mul, pow_succ]
    · show s.post * Q = _
      rw [ipost, pow_succ, Nat.mul_assoc]
    · intro _ k hk
      simp only [OptState.set]
      rw [hflat k hk, Finset.sum_range_succ]
      simp only [if_true, ipost]
      congr 1
      by_cases hd0 : d = 0
      · subst hd0; simp
      · have hpos : 0 < d := by omega
        simp only [hpos, if_true, one_ne_zero, if_false]
        exact iacc hpos k hk

/-- Forward GRAD of the SIMD backend: `interp` receives the interpolation to
the quadrature points, and slice `d` of `v` the contraction of `interp` with
the colocated gradient along axis `d`. -/
theorem applyGrad_Opt_forward {R : Type} [CommRing R] (basis : CeedBasis R) (E : Nat)
    (u : Nat → R) (s0 : OptState R)
    (hdim : 0 < basis.dim) (hE : E % 8 = 0) (h0 : s0.ierr = 0)
    (hP : 0 < basis.P1d) (hQ : 0 < basis.Q1d) (hQ4 : basis.Q1d % 4 = 0) :
    ∃ I : Nat → R,
      IsStage (fun _ j c => matEntry basis.interp1d basis.P1d false j c) basis.ncomp
        basis.P1d basis.Q1d E basis.dim basis.dim u I ∧
      (applyGrad_Opt basis E CEED_NOTRANSPOSE 0 u s0).ierr = 0 ∧
      ∀ d, d < basis.dim → ∀ k, k < basis.ncomp * basis.Q1d ^ basis.dim * E →
        (applyGrad_Opt basis E CEED_NOTRANSPOSE 0 u s0).v
            (d * (basis.ncomp * basis.Q1d ^ basis.dim * E) + k)
          = contrSum basis.Q1d (E * basis.Q1d ^ d) basis.Q1d basis.Q1d 1 basis.colograd1d I k := by
  have hc := chain_loop basis.ncomp basis.P1d basis.Q1d E basis.dim basis.interp1d
    CEED_NOTRANSPOSE 0 (fun _ => u) OptBuf.interp
    (OptState.mk s0.ierr (basis.ncomp * basis.P1d ^ (basis.dim - 1)) E s0.tmp s0.interp s0.v)
    hdim hP hE hQ4 (Or.inr rfl) h0 rfl rfl basis.dim (le_refl _)
  obtain ⟨c0, _, _, _, _, _, _, _, cfin⟩ := hc
  have hrw : applyGrad_Opt basis E CEED_NOTRANSPOSE 0 u s0
      = forLoop (sliceBody basis.Q1d basis.colograd1d (basis.ncomp * basis.Q1d ^ basis.dim * E))
          basis.dim
          (OptState.mk
            (forLoop (chainBody basis.P1d basis.Q1d basis.dim basis.interp1d CEED_NOTRANSPOSE 0
              (fun _ => u) OptBuf.interp) basis.dim
              (OptState.mk s0.ierr (basis.ncomp * basis.P1d ^ (basis.dim - 1)) E s0.tmp s0.interp
                s0.v)).ierr
            (basis.ncomp * basis.Q1d ^ (basis.dim - 1)) E
            (forLoop (chainBody basis.P1d basis.Q1d basis.dim basis.interp1d CEED_NOTRANSPOSE 0
              (fun _ => u) OptBuf.interp) basis.dim
              (OptState.mk s0.ierr (basis.ncomp * basis.P1d ^ (basis.dim - 1)) E s0.tmp s0.interp
                s0.v)).tmp
            (forLoop (chainBody basis.P1d basis.Q1d basis.dim basis.interp1d CEED_NOTRANSPOSE 0
              (fun _ => u) OptBuf.interp) basis.dim
              (OptState.mk s0.ierr (basis.ncomp * basis.P1d ^ (basis.dim - 1)) E s0.tmp s0.interp
                s0.v)).interp
            (forLoop (chainBody basis.P1d basis.Q1d basis.dim basis.interp1d CEED_NOTRANSPOSE 0
              (fun _ => u) OptBuf.interp) basis.dim
              (OptState.mk s0.ierr (basis.ncomp * basis.P1d ^ (basis.dim - 1)) E s0.tmp s0.interp
                s0.v)).v) := by
    unfold applyGrad_Opt CeedPowInt
    dsimp only
    have hb1 : (fun d (s : OptState R) =>
          optStep (if CEED_NOTRANSPOSE = CEED_TRANSPOSE then basis.Q1d else basis.P1d) basis.Q1d
            (if CEED_NOTRANSPOSE = CEED_NOTRANSPOSE then basis.interp1d else basis.colograd1d)
            CEED_NOTRANSPOSE (if (0 : Int) ≠ 0 ∧ 0 < d then 1 else 0)
            (if CEED_NOTRANSPOSE = CEED_NOTRANSPOSE then (if d = 0 then u else s.tmp (d % 2))
              else fun i => u (d * basis.Q1d ^ basis.dim * basis.ncomp * E + i))
            (if CEED_NOTRANSPOSE = CEED_NOTRANSPOSE then
              (if d = basis.dim - 1 then OptBuf.interp else OptBuf.tmp ((d + 1) % 2))
              else OptBuf.interp) s)
        = chainBody basis.P1d basis.Q1d basis.dim basis.interp1d CEED_NOTRANSPOSE 0
            (fun _ => u) OptBuf.interp := by
      funext d s
      unfold chainBody
      simp
    have hb2 : (fun d (s : OptState R) =>
          optStep basis.Q1d (if CEED_NOTRANSPOSE = CEED_TRANSPOSE then basis.P1d else basis.Q1d)
            (if CEED_NOTRANSPOSE = CEED_NOTRANSPOSE then basis.colograd1d else basis.interp1d)
            CEED_NOTRANSPOSE (if (0 : Int) ≠ 0 ∧ d = basis.dim - 1 then 1 else 0)
            (if CEED_NOTRANSPOSE = CEED_NOTRANSPOSE then s.interp
              else (if d = 0 then s.interp else s.tmp (d % 2)))
            (if CEED_NOTRANSPOSE = CEED_NOTRANSPOSE then
              OptBuf.v (d * basis.Q1d ^ basis.dim * basis.ncomp * E)
              else (if d = basis.dim - 1 then OptBuf.v 0 else OptBuf.tmp ((d + 1) % 2))) s)
        = sliceBody basis.Q1d basis.colograd1d (basis.ncomp * basis.Q1d ^ basis.dim * E) := by
      funext d s
      unfold sliceBody
      have e : d * basis.Q1d ^ basis.dim * basis.ncomp * E
          = d * (basis.ncomp * basis.Q1d ^ basis.dim * E) := by ring
      simp [e]
    rw [hb1, hb2]
    simp
  rw [hrw]
  generalize forLoop (chainBody basis.P1d basis.Q1d basis.dim basis.interp1d CEED_NOTRANSPOSE 0
    (fun _ => u) OptBuf.interp) basis.dim
    (OptState.mk s0.ierr (basis.ncomp * basis.P1d ^ (basis.dim - 1)) E s0.tmp s0.interp s0.v)
    = s1 at c0 cfin ⊢
  have hI := cfin rfl
  simp only [OptState.get, ne_eq, not_true_eq_false, if_false, sub_zero, reduceCtorEq] at hI
  obtain ⟨l0, _, _, lint, lsl⟩ := slice_loop basis.ncomp basis.Q1d E basis.dim basis.colograd1d
    (OptState.mk s1.ierr (basis.ncomp * basis.Q1d ^ (basis.dim - 1)) E s1.tmp s1.interp s1.v)
    hQ hE hQ4 c0 rfl rfl basis.dim (le_refl _)
  refine ⟨s1.interp, ?_, l0, fun d hd k hk => lsl d hd k hk⟩
  refine isStage_congr ?_ hI
  intro k j c
  simp [matEntry]

/-- Transpose GRAD of the SIMD backend: `interp` receives the sum over the
axes `d` of the contraction of slice `d` of `u` with the transpose of the
colocated gradient, and `v` is incremented by the transpose interpolation of
`interp`. -/
theorem applyGrad_Opt_transpose {R : Type} [CommRing R] (basis : CeedBasis R) (E : Nat)
    (u : Nat → R) (s0 : OptState R)
    (hdim : 0 < basis.dim) (hE : E % 8 = 0) (h0 : s0.ierr = 0)
    (hQ : 0 < basis.Q1d) (hQ4 : basis.Q1d % 4 = 0) (hP4 : basis.P1d % 4 = 0) :
    ∃ W : Nat → R,
      (∀ k, k < basis.ncomp * basis.Q1d ^ basis.dim * E →
        W k = ∑ d in Finset.range basis.dim,
          contrSum basis.Q1d (E * basis.Q1d ^ d) basis.Q1d 1 basis.Q1d basis.colograd1d
            (fun i => u (d * (basis.ncomp * basis.Q1d ^ basis.dim * E) + i)) k) ∧
      (applyGrad_Opt basis E CEED_TRANSPOSE 1 u s0).ierr = 0 ∧
      IsStage (fun _ j c => matEntry basis.interp1d basis.P1d true j c) basis.ncomp
        basis.Q1d basis.P1d E basis.dim basis.dim W
        (fun k => (applyGrad_Opt basis E CEED_TRANSPOSE 1 u s0).v k - s0.v k) := by
  obtain ⟨g0, _, _, gv, gacc⟩ := gather_loop basis.ncomp basis.Q1d E basis.dim basis.colograd1d u
    (OptState.mk s0.ierr (basis.ncomp * basis.Q1d ^ (basis.dim - 1)) E s0.tmp s0.interp s0.v)
    hQ hE hQ4 h0 rfl rfl basis.dim (le_refl _)
  have hrw : applyGrad_Opt basis E CEED_TRANSPOSE 1 u s0
      = forLoop (chainBody basis.Q1d basis.P1d basis.dim basis.interp1d CEED_TRANSPOSE 1
          (fun s => s.interp) (OptBuf.v 0)) basis.dim
          (OptState.mk
            (forLoop (gatherBody basis.Q1d basis.colograd1d
              (basis.ncomp * basis.Q1d ^ basis.dim * E) u) basis.dim
              (OptState.mk s0.ierr (basis.ncomp * basis.Q1d ^ (basis.dim - 1)) E s0.tmp s0.interp
                s0.v)).ierr
            (basis.ncomp * basis.Q1d ^ (basis.dim - 1)) E
            (forLoop (gatherBody basis.Q1d basis.colograd1d
              (basis.ncomp * basis.Q1d ^ basis.dim * E) u) basis.dim
              (OptState.mk s0.ierr (basis.ncomp * basis.Q1d ^ (basis.dim - 1)) E s0.tmp s0.interp
                s0.v)).tmp
            (forLoop (gatherBody basis.Q1d basis.colograd1d
              (basis.ncomp * basis.Q1d ^ basis.dim * E) u) basis.dim
              (OptState.mk s0.ierr (basis.ncomp * basis.Q1d ^ (basis.dim - 1)) E s0.tmp s0.interp
                s0.v)).interp
            (forLoop (gatherBody basis.Q1d basis.colograd1d
              (basis.ncomp * basis.Q1d ^ basis.dim * E) u) basis.dim
              (OptState.mk s0.ierr (basis.ncomp * basis.Q1d ^ (basis.dim - 1)) E s0.tmp s0.interp
                s0.v)).v) := by
    unfold applyGrad_Opt CeedPowInt
    dsimp only
    have hb1 : (fun d (s : OptState R) =>
          optStep (if CEED_TRANSPOSE = CEED_TRANSPOSE then basis.Q1d else basis.P1d) basis.Q1d
            (if CEED_TRANSPOSE = CEED_NOTRANSPOSE then basis.interp1d else basis.colograd1d)
            CEED_TRANSPOSE (if (1 : Int) ≠ 0 ∧ 0 < d then 1 else 0)
            (if CEED_TRANSPOSE = CEED_NOTRANSPOSE then (if d = 0 then u else s.tmp (d % 2))
              else fun i => u (d * basis.Q1d ^ basis.dim * basis.ncomp * E + i))
            (if CEED_TRANSPOSE = CEED_NOTRANSPOSE then
              (if d = basis.dim - 1 then OptBuf.interp else OptBuf.tmp ((d + 1) % 2))
              else OptBuf.interp) s)
        = gatherBody basis.Q1d basis.colograd1d (basis.ncomp * basis.Q1d ^ basis.dim * E) u := by
      funext d s
      unfold gatherBody
      have e : d * basis.Q1d ^ basis.dim * basis.ncomp * E
          = d * (basis.ncomp * basis.Q1d ^ basis.dim * E) := by ring
      simp [e]
    have hb2 : (fun d (s : OptState R) =>
          optStep basis.Q1d (if CEED_TRANSPOSE = CEED_TRANSPOSE then basis.P1d else basis.Q1d)
            (if CEED_TRANSPOSE = CEED_NOTRANSPOSE then basis.colograd1d else basis.interp1d)
            CEED_TRANSPOSE (if (1 : Int) ≠ 0 ∧ d = basis.dim - 1 then 1 else 0)
            (if CEED_TRANSPOSE = CEED_NOTRANSPOSE then s.interp
              else (if d = 0 then s.interp else s.tmp (d % 2)))
            (if CEED_TRANSPOSE = CEED_NOTRANSPOSE then
              OptBuf.v (d * basis.Q1d ^ basis.dim * basis.ncomp * E)
              else (if d = basis.dim - 1 then OptBuf.v 0 else OptBuf.tmp ((d + 1) % 2))) s)
        = chainBody basis.Q1d basis.P1d basis.dim basis.interp1d CEED_TRANSPOSE 1
            (fun s => s.interp) (OptBuf.v 0) := by
      funext d s
      unfold chainBody
      simp
    rw [hb1, hb2]
    simp
  rw [hrw]
  generalize forLoop (gatherBody basis.Q1d basis.colograd1d
    (basis.ncomp * basis.Q1d ^ basis.dim * E) u) basis.dim
    (OptState.mk s0.ierr (basis.ncomp * basis.Q1d ^ (basis.dim - 1)) E s0.tmp s0.interp s0.v)
    = s1 at g0 gv gacc ⊢
  have hc := chain_loop basis.ncomp basis.Q1d basis.P1d E basis.dim basis.interp1d
    CEED_TRANSPOSE 1 (fun s => s.interp) (OptBuf.v 0)
    (OptState.mk s1.ierr (basis.ncomp * basis.Q1d ^ (basis.dim - 1)) E s1.tmp s1.interp s1.v)
    hdim hQ hE hP4 (Or.inl rfl) g0 rfl rfl basis.dim (le_refl _)
  obtain ⟨c0, _, _, _, _, _, _, _, cfin⟩ := hc
  have hfin := cfin rfl
  simp only [OptState.get, Nat.zero_add, ne_eq, one_ne_zero, not_false_eq_true, if_true] at hfin
  refine ⟨s1.interp, fun k hk => gacc hdim k hk, c0, ?_⟩
  simp only at gv
  have hfin' : IsStage (fun _ j c => matEntry basis.interp1d basis.P1d true j c) basis.ncomp
      basis.Q1d basis.P1d E basis.dim basis.dim _ _ :=
    isStage_congr (by intro k j c; simp [matEntry, Nat.add_comm]) hfin
  intro a ql e ha hql he
  have := hfin' a ql e ha hql he
  simp only at this ⊢
  rw [← this, ← gv]

/-! ### One digit of a flat index replaced -/

theorem split_digit (Q d q : Nat) :
    q = (q / Q ^ (d + 1) * Q + q / Q ^ d % Q) * Q ^ d + q % Q ^ d := by
  have h1 := Nat.div_add_mod q (Q ^ d)
  have h2 := Nat.div_add_mod (q / Q ^ d) Q
  have h3 : q / Q ^ (d + 1) = q / Q ^ d / Q := by rw [pow_succ, Nat.div_div_eq_div_mul]
  rw [h3]
  calc q = Q ^ d * (q / Q ^ d) + q % Q ^ d := h1.symm
    _ = Q ^ d * (Q * (q / Q ^ d / Q) + q / Q ^ d % Q) + q % Q ^ d := by rw [h2]
    _ = (q / Q ^ d / Q * Q + q / Q ^ d % Q) * Q ^ d + q % Q ^ d := by ring

theorem rep_eq (Q d q r : Nat) : rep Q d q r = (q / Q ^ (d + 1) * Q + r) * Q ^ d + q % Q ^ d := by
  unfold rep
  rw [pow_succ]; ring

theorem rep_lt {Q dim d q r : Nat} (hd : d < dim) (hq : q < Q ^ dim) (hr : r < Q) :
    rep Q d q r < Q ^ dim := by
  have hQ : 0 < Q := by omega
  have hQd : 0 < Q ^ d := Nat.pow_pos hQ
  have hhi : q / Q ^ (d + 1) < Q ^ (dim - 1 - d) := by
    apply Nat.div_lt_of_lt_mul
    have e : dim = (d + 1) + (dim - 1 - d) := by omega
    rw [← pow_add, ← e]; exact hq
  have hlo : q % Q ^ d < Q ^ d := Nat.mod_lt _ hQd
  rw [rep_eq]
  have e : Q ^ dim = Q ^ (dim - 1 - d) * Q * Q ^ d := by
    have e' : dim = (dim - 1 - d) + 1 + d := by omega
    conv_lhs => rw [e', pow_add, pow_succ]
  rw [e]
  calc (q / Q ^ (d + 1) * Q + r) * Q ^ d + q % Q ^ d
      < (q / Q ^ (d + 1) * Q + r) * Q ^ d + Q ^ d := by omega
    _ = (q / Q ^ (d + 1) * Q + r + 1) * Q ^ d := by ring
    _ ≤ (Q ^ (dim - 1 - d) * Q) * Q ^ d := by
      apply Nat.mul_le_mul_right
      calc q / Q ^ (d + 1) * Q + r + 1 ≤ q / Q ^ (d + 1) * Q + Q := by omega
        _ = (q / Q ^ (d + 1) + 1) * Q := by ring
        _ ≤ Q ^ (dim - 1 - d) * Q := Nat.mul_le_mul_right _ hhi

theorem rep_digit {Q d q r : Nat} (hr : r < Q) (k : Nat) :
    rep Q d q r / Q ^ k % Q = if k = d then r else q / Q ^ k % Q := by
  have hQ : 0 < Q := by omega
  have hQd : 0 < Q ^ d := Nat.pow_pos hQ
  have hlo : q % Q ^ d < Q ^ d := Nat.mod_lt _ hQd
  rcases Nat.lt_trichotomy k d with h | h | h
  · rw [if_neg (by omega), rep_eq, digit_low h hQ]
    conv_rhs => rw [split_digit Q d q, digit_low h hQ]
  · subst h
    rw [if_pos rfl, rep_eq, Nat.add_comm, Nat.add_mul_div_right _ _ hQd, Nat.div_eq_of_lt hlo,
      Nat.zero_add, Nat.add_comm, Nat.add_mul_mod_self_right, Nat.mod_eq_of_lt hr]
  · rw [if_neg (by omega)]
    have e : k = (d + 1) + (k - d - 1) := by omega
    have hk : Q ^ k = Q ^ (d + 1) * Q ^ (k - d - 1) := by rw [← pow_add, ← e]
    have hhi : ∀ x, x < Q ^ (d + 1) → (q / Q ^ (d + 1) * Q ^ (d + 1) + x) / Q ^ k
        = q / Q ^ (d + 1) / Q ^ (k - d - 1) := by
      intro x hx
      rw [hk, ← Nat.div_div_eq_div_mul, Nat.add_comm,
        Nat.add_mul_div_right _ _ (Nat.pow_pos hQ), Nat.div_eq_of_lt hx, Nat.zero_add]
    have h1 : rep Q d q r / Q ^ k = q / Q ^ (d + 1) / Q ^ (k - d - 1) := by
      unfold rep
      rw [Nat.add_assoc]
      apply hhi
      calc r * Q ^ d + q % Q ^ d < r * Q ^ d + Q ^ d := by omega
        _ = (r + 1) * Q ^ d := by ring
        _ ≤ Q * Q ^ d := Nat.mul_le_mul_right _ hr
        _ = Q ^ (d + 1) := by rw [pow_succ, Nat.mul_comm]
    have h2 : q / Q ^ k = q / Q ^ (d + 1) / Q ^ (k - d - 1) := by
      rw [hk, ← Nat.div_div_eq_div_mul]
    rw [h1, h2]

/-- Coordinates of a flat index of the element-innermost layout around axis `d`. -/
theorem axis_coords {Q E dim d m q e : Nat} (hd : d < dim) (hQ : 0 < Q) (he : e < E) :
    ((m * Q ^ dim + q) * E + e) % (E * Q ^ d) = q % Q ^ d * E + e ∧
    ((m * Q ^ dim + q) * E + e) / (E * Q ^ d) % Q = q / Q ^ d % Q ∧
    ((m * Q ^ dim + q) * E + e) / (E * Q ^ d) / Q = m * Q ^ (dim - 1 - d) + q / Q ^ (d + 1) := by
  have hQd : 0 < Q ^ d := Nat.pow_pos hQ
  have hlo : q % Q ^ d < Q ^ d := Nat.mod_lt _ hQd
  have hx : q % Q ^ d * E + e < E * Q ^ d := by
    calc q % Q ^ d * E + e < q % Q ^ d * E + E := by omega
      _ = (q % Q ^ d + 1) * E := by ring
      _ ≤ Q ^ d * E := Nat.mul_le_mul_right _ hlo
      _ = E * Q ^ d := Nat.mul_comm _ _
  have hy : q / Q ^ d % Q < Q := Nat.mod_lt _ hQ
  apply coords hx hy
  have e1 : Q ^ dim = Q ^ (dim - 1 - d) * Q * Q ^ d := by
    have e' : dim = (dim - 1 - d) + 1 + d := by omega
    conv_lhs => rw [e', pow_add, pow_succ]
  conv_lhs => rw [split_digit Q d q, e1]
  ring

theorem axis_index {Q E dim d m q e r : Nat} (hd : d < dim) :
    ((m * Q ^ (dim - 1 - d) + q / Q ^ (d + 1)) * Q + r) * (E * Q ^ d) + (q % Q ^ d * E + e)
      = (m * Q ^ dim + rep Q d q r) * E + e := by
  have e1 : Q ^ dim = Q ^ (dim - 1 - d) * Q * Q ^ d := by
    have e' : dim = (dim - 1 - d) + 1 + d := by omega
    conv_lhs => rw [e', pow_add, pow_succ]
  rw [rep_eq, e1]
  ring

theorem kron_rep {R : Type} [CommRing R] (T : Nat → Nat → Nat → R) {P Q dim d q r : Nat} (p : Nat)
    (hd : d < dim) (hr : r < Q) :
    kron T P Q dim (rep Q d q r) p
      = T d r (p / P ^ d % P) *
        ∏ k in (Finset.range dim).erase d, T k (q / Q ^ k % Q) (p / P ^ k % P) := by
  unfold kron
  rw [← Finset.mul_prod_erase (Finset.range dim) _ (Finset.mem_range.mpr hd), rep_digit hr,
    if_pos rfl]
  congr 1
  apply Finset.prod_congr rfl
  intro k hk
  rw [rep_digit hr, if_neg (Finset.ne_of_mem_erase hk)]

/-- Applying the colocated gradient along axis `d` after interpolating along
every axis is the chain with `grad1d` on axis `d`, when
`grad1d = colograd1d * interp1d`. -/
theorem colograd_kron {R : Type} [CommRing R] (interp1d grad1d colograd1d : Nat → R)
    {P Q dim d : Nat} (q p : Nat) (hd : d < dim) (hP : 0 < P) (hQ : 0 < Q)
    (hgrad : ∀ j c, j < Q → c < P →
      grad1d (j * P + c) = ∑ r in Finset.range Q, colograd1d (j * Q + r) * interp1d (r * P + c)) :
    ∑ r in Finset.range Q, colograd1d (q / Q ^ d % Q * Q + r * 1)
        * kron (fun _ j c => matEntry interp1d P false j c) P Q dim (rep Q d q r) p
      = kron (gradT interp1d grad1d P d) P Q dim q p := by
  have hrhs : kron (gradT interp1d grad1d P d) P Q dim q p
      = grad1d (q / Q ^ d % Q * P + p / P ^ d % P) *
        ∏ k in (Finset.range dim).erase d, interp1d (q / Q ^ k % Q * P + p / P ^ k % P) := by
    unfold kron
    rw [← Finset.mul_prod_erase (Finset.range dim) _ (Finset.mem_range.mpr hd)]
    congr 1
    · simp [gradT]
    · apply Finset.prod_congr rfl
      intro k hk
      have hne : ¬ d = k := fun h => Finset.ne_of_mem_erase hk h.symm
      simp [gradT, hne]
  rw [hrhs, hgrad _ _ (Nat.mod_lt _ hQ) (Nat.mod_lt _ hP), Finset.sum_mul]
  apply Finset.sum_congr rfl
  intro r hr
  rw [Finset.mem_range] at hr
  rw [kron_rep _ p hd hr]
  simp only [matEntry, Nat.mul_one, Bool.false_eq_true, if_false]
  ring

/-! ### The SIMD backend against the reference kernels -/

/-- C6: for `nelem = 8` and `Q1d` a multiple of 4,
`CeedBasisApply_Opt(NOTRANSPOSE, INTERP)` returns 0 and its output equals the
output of the reference `interp` kernel up to the element-innermost layout: if
`u_opt[(m*P1d^dim + p)*8 + e] = u_ref[(e*ncomp+m)*P1d^dim + p]` for all `e`, `m`,
`p`, then `v_opt[(m*Q1d^dim + q)*8 + e] = v_ref[(e*ncomp+m)*Q1d^dim + q]` for all
`e < 8`, `m < ncomp`, `q < Q1d^dim`. Proved for every `dim >= 1` and `P1d >= 1`. -/
theorem C6_simd_interp_matches_reference {R : Type} [CommRing R] (basis : CeedBasis R)
    (stack : Nat → Nat → R) (u_opt v_opt u_ref v_ref : Nat → R)
    (blockDim : Nat) (blockOrder : List Nat) (sched : Nat → Nat → List Nat)
    (smem0 : Nat → Nat → R)
    (hdim : 1 ≤ basis.dim) (hP : 1 ≤ basis.P1d) (hQ : basis.Q1d % 4 = 0)
    (hbd : 1 ≤ blockDim) (hblocks : blockOrder.Perm (List.range 8))
    (hsched : ∀ b n, (sched b n).Perm (List.range blockDim))
    (hu : ∀ e m p, e < 8 → m < basis.ncomp → p < basis.P1d ^ basis.dim →
      u_opt ((m * basis.P1d ^ basis.dim + p) * 8 + e)
        = u_ref ((e * basis.ncomp + m) * basis.P1d ^ basis.dim + p)) :
    (CeedBasisApply_Opt basis 8 CEED_NOTRANSPOSE CEED_EVAL_INTERP stack u_opt v_opt).1 = 0 ∧
    ∀ e m q, e < 8 → m < basis.ncomp → q < basis.Q1d ^ basis.dim →
      (CeedBasisApply_Opt basis 8 CEED_NOTRANSPOSE CEED_EVAL_INTERP stack u_opt v_opt).2
          ((m * basis.Q1d ^ basis.dim + q) * 8 + e)
        = basiskernels.interp (kernelDefs basis.dim basis.ncomp basis.P1d basis.Q1d) 8 blockDim
            blockOrder sched smem0 8 0 basis.interp1d u_ref v_ref
            ((e * basis.ncomp + m) * basis.Q1d ^ basis.dim + q) := by
  obtain ⟨h1, h2⟩ := opt_interp_forward basis stack u_opt v_opt hdim hP hQ
  refine ⟨h1, fun e m q he hm hq => ?_⟩
  have ha : e * basis.ncomp + m < 8 * basis.ncomp := by
    calc e * basis.ncomp + m < e * basis.ncomp + basis.ncomp := by omega
      _ = (e + 1) * basis.ncomp := by ring
      _ ≤ 8 * basis.ncomp := Nat.mul_le_mul_right _ he
  have hr := interp_flat basis.dim basis.ncomp basis.P1d basis.Q1d 8 blockDim blockOrder sched
    smem0 8 0 basis.interp1d u_ref v_ref hdim (by simpa using hP) hbd (le_refl _)
    (fun b hb => perm_range_mem hblocks b hb)
    (fun b n => perm_range_mem (hsched b n)) (e * basis.ncomp + m) q ha (by simpa using hq)
  simp only [ne_eq, not_true_eq_false, if_false, decide_False] at hr
  rw [h2 m q e hm hq he, hr]
  apply Finset.sum_congr rfl
  intro p hp
  rw [Finset.mem_range] at hp
  rw [hu e m p he hm hp]

/-- C7: when `grad1d = colograd1d * interp1d`, for `nelem = 8` and `Q1d` a
positive multiple of 4, `CeedBasisApply_Opt(NOTRANSPOSE, GRAD)` returns 0 and
`v_opt[((d*ncomp+m)*Q1d^dim + q)*8 + e]` equals the value
`v_ref[((e*dim+d)*ncomp+m)*Q1d^dim + q]` of the reference `grad` kernel computed
from the same nodal data, for every derivative axis `d`, component `m`, point
`q` and element `e`. Proved for every `dim >= 1` and `P1d >= 1`. -/
theorem C7_simd_colocated_grad_matches_reference {R : Type} [CommRing R] (basis : CeedBasis R)
    (stack : Nat → Nat → R) (u_opt v_opt u_ref v_ref : Nat → R)
    (blockDim : Nat) (blockOrder : List Nat) (sched : Nat → Nat → List Nat)
    (smem0 : Nat → Nat → R)
    (hdim : 1 ≤ basis.dim) (hP : 1 ≤ basis.P1d) (hQ : 1 ≤ basis.Q1d)
    (hQ4 : basis.Q1d % 4 = 0)
    (hbd : 1 ≤ blockDim) (hblocks : blockOrder.Perm (List.range 8))
    (hsched : ∀ b n, (sched b n).Perm (List.range blockDim))
    (hgrad : ∀ q p, q < basis.Q1d → p < basis.P1d →
      basis.grad1d (q * basis.P1d + p)
        = ∑ r in Finset.range basis.Q1d,
            basis.colograd1d (q * basis.Q1d + r) * basis.interp1d (r * basis.P1d + p))
    (hu : ∀ e m p, e < 8 → m < basis.ncomp → p < basis.P1d ^ basis.dim →
      u_opt ((m * basis.P1d ^ basis.dim + p) * 8 + e)
        = u_ref ((e * basis.ncomp + m) * basis.P1d ^ basis.dim + p)) :
    (CeedBasisApply_Opt basis 8 CEED_NOTRANSPOSE CEED_EVAL_GRAD stack u_opt v_opt).1 = 0 ∧
    ∀ d m q e, d < basis.dim → m < basis.ncomp → q < basis.Q1d ^ basis.dim → e < 8 →
      (CeedBasisApply_Opt basis 8 CEED_NOTRANSPOSE CEED_EVAL_GRAD stack u_opt v_opt).2
          (((d * basis.ncomp + m) * basis.Q1d ^ basis.dim + q) * 8 + e)
        = basiskernels.grad (kernelDefs basis.dim basis.ncomp basis.P1d basis.Q1d) 8 blockDim
            blockOrder sched smem0 8 0 basis.interp1d basis.grad1d u_ref v_ref
            (((e * basis.dim + d) * basis.ncomp + m) * basis.Q1d ^ basis.dim + q) := by
  obtain ⟨I, hI, herr, hsl⟩ := applyGrad_Opt_forward basis 8 u_opt
    { ierr := 0, pre := 0, post := 0, tmp := stack, interp := stack 2, v := v_opt }
    hdim (by decide) rfl hP hQ hQ4
  have hap : CeedBasisApply_Opt basis 8 CEED_NOTRANSPOSE CEED_EVAL_GRAD stack u_opt v_opt
      = ((applyGrad_Opt basis 8 CEED_NOTRANSPOSE 0 u_opt
          { ierr := 0, pre := 0, post := 0, tmp := stack, interp := stack 2, v := v_opt }).ierr,
         (applyGrad_Opt basis 8 CEED_NOTRANSPOSE 0 u_opt
          { ierr := 0, pre := 0, post := 0, tmp := stack, interp := stack 2, v := v_opt }).v) := by
    unfold CeedBasisApply_Opt
    simp
  rw [hap]
  refine ⟨herr, fun d m q e hd hm hq he => ?_⟩
  have hk : (m * basis.Q1d ^ basis.dim + q) * 8 + e < basis.ncomp * basis.Q1d ^ basis.dim * 8 := by
    have := flat_index_lt (E := 8) hm hq he
    calc (m * basis.Q1d ^ basis.dim + q) * 8 + e < 8 * basis.ncomp * basis.Q1d ^ basis.dim := this
      _ = basis.ncomp * basis.Q1d ^ basis.dim * 8 := by ring
  have hidx : ((d * basis.ncomp + m) * basis.Q1d ^ basis.dim + q) * 8 + e
      = d * (basis.ncomp * basis.Q1d ^ basis.dim * 8)
        + ((m * basis.Q1d ^ basis.dim + q) * 8 + e) := by ring
  show (applyGrad_Opt basis 8 CEED_NOTRANSPOSE 0 u_opt _).v _ = _
  rw [hidx, hsl d hd _ hk]
  obtain ⟨c1, c2, c3⟩ := @axis_coords basis.Q1d 8 basis.dim d m q e hd hQ he
  unfold contrSum
  rw [c1, c2, c3]
  have hr := grad_flat basis.dim basis.ncomp basis.P1d basis.Q1d 8 blockDim blockOrder sched
    smem0 8 basis.interp1d basis.grad1d u_ref v_ref hdim hP hbd (le_refl _)
    (fun b hb => perm_range_mem hblocks b hb)
    (fun b n => perm_range_mem (hsched b n)) e d m q he hd hm hq
  rw [hr]
  calc ∑ r in Finset.range basis.Q1d,
        basis.colograd1d (q / basis.Q1d ^ d % basis.Q1d * basis.Q1d + r * 1)
          * I (((m * basis.Q1d ^ (basis.dim - 1 - d) + q / basis.Q1d ^ (d + 1)) * basis.Q1d + r)
              * (8 * basis.Q1d ^ d) + (q % basis.Q1d ^ d * 8 + e))
      = ∑ r in Finset.range basis.Q1d, ∑ p in Finset.range (basis.P1d ^ basis.dim),
          basis.colograd1d (q / basis.Q1d ^ d % basis.Q1d * basis.Q1d + r * 1)
            * kron (fun _ j c => matEntry basis.interp1d basis.P1d false j c) basis.P1d
                basis.Q1d basis.dim (rep basis.Q1d d q r) p
            * u_opt ((m * basis.P1d ^ basis.dim + p) * 8 + e) := by
        apply Finset.sum_congr rfl
        intro r hr
        rw [Finset.mem_range] at hr
        rw [axis_index hd, isStage_flat hI m _ e hm (rep_lt hd hq hr) he, Finset.mul_sum]
        apply Finset.sum_congr rfl
        intro p _
        ring
    _ = ∑ p in Finset.range (basis.P1d ^ basis.dim), ∑ r in Finset.range basis.Q1d,
          basis.colograd1d (q / basis.Q1d ^ d % basis.Q1d * basis.Q1d + r * 1)
            * kron (fun _ j c => matEntry basis.interp1d basis.P1d false j c) basis.P1d
                basis.Q1d basis.dim (rep basis.Q1d d q r) p
            * u_opt ((m * basis.P1d ^ basis.dim + p) * 8 + e) := Finset.sum_comm
    _ = ∑ p in Finset.range (basis.P1d ^ basis.dim),
          kron (gradT basis.interp1d basis.grad1d basis.P1d d) basis.P1d basis.Q1d basis.dim q p
            * u_ref ((e * basis.ncomp + m) * basis.P1d ^ basis.dim + p) := by
        apply Finset.sum_congr rfl
        intro p hp
        rw [Finset.mem_range] at hp
        rw [← Finset.sum_mul, colograd_kron basis.interp1d basis.grad1d basis.colograd1d q p hd
          hP hQ hgrad, hu e m p he hm hp]

/-! ### Adjointness -/

theorem sum_range_mul3 {M : Type} [AddCommMonoid M] (A J C : Nat) (f : Nat → M) :
    ∑ k in Finset.range (A * J * C), f k
      = ∑ a in Finset.range A, ∑ j in Finset.range J, ∑ c in Finset.range C,
          f ((a * J + j) * C + c) := by
  rw [sum_range_mul (A * J) C, sum_range_mul A J]

/-- One contraction and the contraction with the transposed matrix are adjoint. -/
theorem contr_adjoint {R : Type} [CommRing R] (A B C J : Nat) (t u y : Nat → R) :
    ∑ k in Finset.range (A * J * C), contrSum B C J B 1 t u k * y k
      = ∑ k in Finset.range (A * B * C), u k * contrSum J C B 1 B t y k := by
  rw [sum_range_mul3, sum_range_mul3]
  apply Finset.sum_congr rfl
  intro a _
  have hl : ∀ j, j ∈ Finset.range J → ∀ c, c ∈ Finset.range C →
      contrSum B C J B 1 t u ((a * J + j) * C + c) * y ((a * J + j) * C + c)
        = ∑ b in Finset.range B,
            t (j * B + b) * u ((a * B + b) * C + c) * y ((a * J + j) * C + c) := by
    intro j hj c hc
    rw [Finset.mem_range] at hj hc
    rw [contrSum_coords _ _ _ _ _ _ _ hj hc, Finset.sum_mul]
    simp
  have hr : ∀ b, b ∈ Finset.range B → ∀ c, c ∈ Finset.range C →
      u ((a * B + b) * C + c) * contrSum J C B 1 B t y ((a * B + b) * C + c)
        = ∑ j in Finset.range J,
            t (j * B + b) * u ((a * B + b) * C + c) * y ((a * J + j) * C + c) := by
    intro b hb c hc
    rw [Finset.mem_range] at hb hc
    rw [contrSum_coords _ _ _ _ _ _ _ hb hc, Finset.mul_sum]
    apply Finset.sum_congr rfl
    intro j _
    have e : b * 1 + j * B = j * B + b := by ring
    rw [e]; ring
  calc ∑ j in Finset.range J, ∑ c in Finset.range C,
        contrSum B C J B 1 t u ((a * J + j) * C + c) * y ((a * J + j) * C + c)
      = ∑ j in Finset.range J, ∑ c in Finset.range C, ∑ b in Finset.range B,
          t (j * B + b) * u ((a * B + b) * C + c) * y ((a * J + j) * C + c) :=
        Finset.sum_congr rfl (fun j hj => Finset.sum_congr rfl (fun c hc => hl j hj c hc))
    _ = ∑ j in Finset.range J, ∑ b in Finset.range B, ∑ c in Finset.range C,
          t (j * B + b) * u ((a * B + b) * C + c) * y ((a * J + j) * C + c) :=
        Finset.sum_congr rfl (fun j _ => Finset.sum_comm)
    _ = ∑ b in Finset.range B, ∑ j in Finset.range J, ∑ c in Finset.range C,
          t (j * B + b) * u ((a * B + b) * C + c) * y ((a * J + j) * C + c) := Finset.sum_comm
    _ = ∑ b in Finset.range B, ∑ c in Finset.range C, ∑ j in Finset.range J,
          t (j * B + b) * u ((a * B + b) * C + c) * y ((a * J + j) * C + c) :=
        Finset.sum_congr rfl (fun b _ => Finset.sum_comm)
    _ = ∑ b in Finset.range B, ∑ c in Finset.range C,
          u ((a * B + b) * C + c) * contrSum J C B 1 B t y ((a * B + b) * C + c) :=
        Finset.sum_congr rfl (fun b hb => Finset.sum_congr rfl (fun c hc => (hr b hb c hc).symm))

/-- A tensor-product operator and the operator with the transposed
coefficients are adjoint. -/
theorem kron_adjoint {R : Type} [CommRing R] (K : Nat → Nat → R) (N SP SQ E : Nat)
    (x W I Z : Nat → R)
    (hI : ∀ m q e, m < N → q < SQ → e < E →
      I ((m * SQ + q) * E + e) = ∑ p in Finset.range SP, K q p * x ((m * SP + p) * E + e))
    (hZ : ∀ m p e, m < N → p < SP → e < E →
      Z ((m * SP + p) * E + e) = ∑ q in Finset.range SQ, K q p * W ((m * SQ + q) * E + e)) :
    ∑ k in Finset.range (N * SQ * E), I k * W k = ∑ k in Finset.range (N * SP * E), x k * Z k := by
  rw [sum_range_mul3, sum_range_mul3]
  apply Finset.sum_congr rfl
  intro m hm
  rw [Finset.mem_range] at hm
  calc ∑ q in Finset.range SQ, ∑ e in Finset.range E,
        I ((m * SQ + q) * E + e) * W ((m * SQ + q) * E + e)
      = ∑ q in Finset.range SQ, ∑ e in Finset.range E, ∑ p in Finset.range SP,
          K q p * x ((m * SP + p) * E + e) * W ((m * SQ + q) * E + e) := by
        apply Finset.sum_congr rfl
        intro q hq
        apply Finset.sum_congr rfl
        intro e he
        rw [Finset.mem_range] at hq he
        rw [hI m q e hm hq he, Finset.sum_mul]
    _ = ∑ q in Finset.range SQ, ∑ p in Finset.range SP, ∑ e in Finset.range E,
          K q p * x ((m * SP + p) * E + e) * W ((m * SQ + q) * E + e) :=
        Finset.sum_congr rfl (fun q _ => Finset.sum_comm)
    _ = ∑ p in Finset.range SP, ∑ q in Finset.range SQ, ∑ e in Finset.range E,
          K q p * x ((m * SP + p) * E + e) * W ((m * SQ + q) * E + e) := Finset.sum_comm
    _ = ∑ p in Finset.range SP, ∑ e in Finset.range E, ∑ q in Finset.range SQ,
          K q p * x ((m * SP + p) * E + e) * W ((m * SQ + q) * E + e) :=
        Finset.sum_congr rfl (fun p _ => Finset.sum_comm)
    _ = ∑ p in Finset.range SP, ∑ e in Finset.range E,
          x ((m * SP + p) * E + e) * Z ((m * SP + p) * E + e) := by
        apply Finset.sum_congr rfl
        intro p hp
        apply Finset.sum_congr rfl
        intro e he
        rw [Finset.mem_range] at hp he
        rw [hZ m p e hm hp he, Finset.mul_sum]
        apply Finset.sum_congr rfl
        intro q _
        ring

/-- C9: for `nelem = 8`, `P1d` and `Q1d` positive multiples of 4 with
`P1d <= Q1d`, forward and transpose GRAD of the SIMD backend both return 0 and
are adjoint: `sum_k Apply(NOTRANSPOSE, GRAD, x)[k] * y[k]
= sum_k x[k] * Apply(TRANSPOSE, GRAD, y)[k]`, the sums running over the
`dim*8*ncomp*Q1d^dim` gradient entries and the `8*ncomp*P1d^dim` nodal entries.
The hypothesis `P1d <= Q1d` is what keeps the contractions of the C code inside
its scratch arrays, which have no length in the embedding. Proved for every
`dim >= 1`. -/
theorem C9_simd_grad_adjoint {R : Type} [CommRing R] (basis : CeedBasis R)
    (stack stack' : Nat → Nat → R) (x y v v' : Nat → R)
    (hdim : 1 ≤ basis.dim) (hP : 1 ≤ basis.P1d) (hQ : 1 ≤ basis.Q1d)
    (hP4 : basis.P1d % 4 = 0) (hQ4 : basis.Q1d % 4 = 0) (_hPQ : basis.P1d ≤ basis.Q1d) :
    (CeedBasisApply_Opt basis 8 CEED_NOTRANSPOSE CEED_EVAL_GRAD stack x v).1 = 0 ∧
    (CeedBasisApply_Opt basis 8 CEED_TRANSPOSE CEED_EVAL_GRAD stack' y v').1 = 0 ∧
    ∑ k in Finset.range (basis.dim * 8 * basis.ncomp * basis.Q1d ^ basis.dim),
        (CeedBasisApply_Opt basis 8 CEED_NOTRANSPOSE CEED_EVAL_GRAD stack x v).2 k * y k
      = ∑ k in Finset.range (8 * basis.ncomp * basis.P1d ^ basis.dim),
        x k * (CeedBasisApply_Opt basis 8 CEED_TRANSPOSE CEED_EVAL_GRAD stack' y v').2 k := by
  obtain ⟨I, hI, herr, hsl⟩ := applyGrad_Opt_forward basis 8 x
    { ierr := 0, pre := 0, post := 0, tmp := stack, interp := stack 2, v := v }
    hdim (by decide) rfl hP hQ hQ4
  obtain ⟨W, hW, herr', hT⟩ := applyGrad_Opt_transpose basis 8 y
    { ierr := 0, pre := 0, post := 0, tmp := stack', interp := stack' 2,
      v := forLoop (fun i v => store v i 0)
        (8 * basis.ncomp * CeedPowInt basis.P1d basis.dim) v' }
    hdim (by decide) rfl hQ hQ4 hP4
  have hap : CeedBasisApply_Opt basis 8 CEED_NOTRANSPOSE CEED_EVAL_GRAD stack x v
      = ((applyGrad_Opt basis 8 CEED_NOTRANSPOSE 0 x
          { ierr := 0, pre := 0, post := 0, tmp := stack, interp := stack 2, v := v }).ierr,
         (applyGrad_Opt basis 8 CEED_NOTRANSPOSE 0 x
          { ierr := 0, pre := 0, post := 0, tmp := stack, interp := stack 2, v := v }).v) := by
    unfold CeedBasisApply_Opt
    simp
  have hap' : CeedBasisApply_Opt basis 8 CEED_TRANSPOSE CEED_EVAL_GRAD stack' y v'
      = ((applyGrad_Opt basis 8 CEED_TRANSPOSE 1 y
          { ierr := 0, pre := 0, post := 0, tmp := stack', interp := stack' 2,
            v := forLoop (fun i v => store v i 0)
              (8 * basis.ncomp * CeedPowInt basis.P1d basis.dim) v' }).ierr,
         (applyGrad_Opt basis 8 CEED_TRANSPOSE 1 y
          { ierr := 0, pre := 0, post := 0, tmp := stack', interp := stack' 2,
            v := forLoop (fun i v => store v i 0)
              (8 * basis.ncomp * CeedPowInt basis.P1d basis.dim) v' }).v) := by
    unfold CeedBasisApply_Opt
    simp
  rw [hap, hap']
  refine ⟨herr, herr', ?_⟩
  simp only
  generalize (applyGrad_Opt basis 8 CEED_NOTRANSPOSE 0 x
    { ierr := 0, pre := 0, post := 0, tmp := stack, interp := stack 2, v := v }).v = Fwd at hsl ⊢
  generalize (applyGrad_Opt basis 8 CEED_TRANSPOSE 1 y
    { ierr := 0, pre := 0, post := 0, tmp := stack', interp := stack' 2,
      v := forLoop (fun i v => store v i 0)
        (8 * basis.ncomp * CeedPowInt basis.P1d basis.dim) v' }).v = Tr at hT ⊢
  -- the values of the transpose call
  have hTr : ∀ m p e, m < basis.ncomp → p < basis.P1d ^ basis.dim → e < 8 →
      Tr ((m * basis.P1d ^ basis.dim + p) * 8 + e)
        = ∑ q in Finset.range (basis.Q1d ^ basis.dim),
            kron (fun _ j c => matEntry basis.interp1d basis.P1d false j c) basis.P1d basis.Q1d
              basis.dim q p * W ((m * basis.Q1d ^ basis.dim + q) * 8 + e) := by
    intro m p e hm hp he
    have hf := isStage_flat hT m p e hm hp he
    simp only at hf
    rw [forLoop_store_zero, if_pos (by unfold CeedPowInt; exact flat_index_lt hm hp he),
      sub_zero] at hf
    rw [hf]
    apply Finset.sum_congr rfl
    intro q _
    rw [← kron_swap]
    rfl
  have hS : basis.dim * 8 * basis.ncomp * basis.Q1d ^ basis.dim
      = basis.dim * (basis.ncomp * basis.Q1d ^ basis.dim * 8) := by ring
  have hS' : 8 * basis.ncomp * basis.P1d ^ basis.dim = basis.ncomp * basis.P1d ^ basis.dim * 8 := by
    ring
  rw [hS, hS', sum_range_mul]
  calc ∑ d in Finset.range basis.dim,
        ∑ k in Finset.range (basis.ncomp * basis.Q1d ^ basis.dim * 8),
          Fwd (d * (basis.ncomp * basis.Q1d ^ basis.dim * 8) + k)
            * y (d * (basis.ncomp * basis.Q1d ^ basis.dim * 8) + k)
      = ∑ d in Finset.range basis.dim,
        ∑ k in Finset.range (basis.ncomp * basis.Q1d ^ basis.dim * 8),
          I k * contrSum basis.Q1d (8 * basis.Q1d ^ d) basis.Q1d 1 basis.Q1d basis.colograd1d
            (fun i => y (d * (basis.ncomp * basis.Q1d ^ basis.dim * 8) + i)) k := by
        apply Finset.sum_congr rfl
        intro d hd
        rw [Finset.mem_range] at hd
        have hsz := slice_size (N := basis.ncomp) (Q := basis.Q1d) (E := 8) hd
        have := contr_adjoint (basis.ncomp * basis.Q1d ^ (basis.dim - 1 - d)) basis.Q1d
          (8 * basis.Q1d ^ d) basis.Q1d basis.colograd1d I
          (fun i => y (d * (basis.ncomp * basis.Q1d ^ basis.dim * 8) + i))
        rw [hsz] at this
        rw [← this]
        apply Finset.sum_congr rfl
        intro k hk
        rw [Finset.mem_range] at hk
        rw [hsl d hd k hk]
    _ = ∑ k in Finset.range (basis.ncomp * basis.Q1d ^ basis.dim * 8), I k * W k := by
        rw [Finset.sum_comm]
        apply Finset.sum_congr rfl
        intro k hk
        rw [Finset.mem_range] at hk
        rw [hW k hk, Finset.mul_sum]
    _ = ∑ k in Finset.range (basis.ncomp * basis.P1d ^ basis.dim * 8), x k * Tr k :=
        kron_adjoint (fun q p => kron (fun _ j c => matEntry basis.interp1d basis.P1d false j c)
          basis.P1d basis.Q1d basis.dim q p) basis.ncomp (basis.P1d ^ basis.dim)
          (basis.Q1d ^ basis.dim) 8 x W I Tr
          (fun m q e hm hq he => isStage_flat hI m q e hm hq he) hTr

/-! ### The accumulation contract of transpose mode -/

theorem sum_flat_multi_left {R : Type} [CommRing R] (T : Nat → Nat → Nat → R) {P Q dim : Nat}
    (p : Fin dim → Fin P) (y : Nat → R) :
    ∑ q in Finset.range (Q ^ dim), kron T P Q dim q (multiIdx p) * y q
      = ∑ q : Fin dim → Fin Q, (∏ k : Fin dim, T k (q k) (p k)) * y (multiIdx q) := by
  have h := sum_flat_multi (fun k j c => T k c j) (P := Q) (Q := P) p y
  simp only [kron_swap] at h
  exact h

/-- C10, as the code has it: transpose INTERP of the SIMD backend (`nelem = 8`,
`P1d` a multiple of 4) returns 0 and leaves in every entry
`k = (m*P1d^dim + p)*8 + e` below `8*ncomp*P1d^dim` the value `(B^T u)[k]`, the
sum over the quadrature multi-indices `q` of
`(prod_k interp1d[q_k*P1d + p_k]) * u[(m*Q1d^dim + q)*8 + e]`, whatever `v`
contained before the call: the function zero-fills `v` itself. -/
theorem C10_transpose_interp_overwrites {R : Type} [CommRing R] (basis : CeedBasis R)
    (stack : Nat → Nat → R) (u v : Nat → R)
    (hdim : 1 ≤ basis.dim) (hQ : 1 ≤ basis.Q1d) (hP : basis.P1d % 4 = 0) :
    (CeedBasisApply_Opt basis 8 CEED_TRANSPOSE CEED_EVAL_INTERP stack u v).1 = 0 ∧
    ∀ (m e : Nat) (p : Fin basis.dim → Fin basis.P1d), m < basis.ncomp → e < 8 →
      (CeedBasisApply_Opt basis 8 CEED_TRANSPOSE CEED_EVAL_INTERP stack u v).2
          ((m * basis.P1d ^ basis.dim + multiIdx p) * 8 + e)
        = ∑ q : Fin basis.dim → Fin basis.Q1d,
            (∏ k : Fin basis.dim, basis.interp1d ((q k : Nat) * basis.P1d + (p k : Nat)))
              * u ((m * basis.Q1d ^ basis.dim + multiIdx q) * 8 + e) := by
  obtain ⟨h1, h2⟩ := opt_interp_transpose basis stack u v hdim hQ hP
  refine ⟨h1, fun m e p hm he => ?_⟩
  rw [h2 m (multiIdx p) e hm (multiIdx_lt p) he,
    sum_flat_multi_left _ p (fun q => u ((m * basis.Q1d ^ basis.dim + q) * 8 + e))]
  apply Finset.sum_congr rfl
  intro q _
  simp [matEntry]

/-- Witness of C10 on `cexBasis`. -/
theorem C10_transpose_interp_overwrites_witness :
    (1 ≤ cexBasis.dim ∧ 1 ≤ cexBasis.Q1d ∧ cexBasis.P1d % 4 = 0) ∧
    (CeedBasisApply_Opt cexBasis 8 CEED_TRANSPOSE CEED_EVAL_INTERP (fun _ _ => 0) wU wV).1 = 0 ∧
    ∀ (m e : Nat) (p : Fin cexBasis.dim → Fin cexBasis.P1d), m < cexBasis.ncomp → e < 8 →
      (CeedBasisApply_Opt cexBasis 8 CEED_TRANSPOSE CEED_EVAL_INTERP (fun _ _ => 0) wU wV).2
          ((m * cexBasis.P1d ^ cexBasis.dim + multiIdx p) * 8 + e)
        = ∑ q : Fin cexBasis.dim → Fin cexBasis.Q1d,
            (∏ k : Fin cexBasis.dim, cexBasis.interp1d ((q k : Nat) * cexBasis.P1d + (p k : Nat)))
              * wU ((m * cexBasis.Q1d ^ cexBasis.dim + multiIdx q) * 8 + e) :=
  ⟨by decide, C10_transpose_interp_overwrites cexBasis (fun _ _ => 0) wU wV (by decide)
    (by decide) (by decide)⟩

/-- C10 as stated fails: with `v[0] = 7` before the call and `(B^T u)[0] = 1`,
the call leaves `v[0] = 1`, not `7 + 1`. -/
theorem C10_accumulation_counterexample :
    ¬ ((CeedBasisApply_Opt cexBasis 8 CEED_TRANSPOSE CEED_EVAL_INTERP (fun _ _ => 0) wU wV).2 0
        = wV 0 + ∑ q in Finset.range 1, cexBasis.interp1d (q * 4 + 0) * wU (q * 8 + 0)) := by
  decide

/-! ### Witnesses of the claims on the kernels and the SIMD backend -/

/-- The order `wOrder` is an order of two threads. -/
theorem wOrder_perm : wOrder.Perm (List.range 2) := by decide

/-- The reverse order is an order of eight blocks. -/
theorem wBlocks_perm : (List.range 8).reverse.Perm (List.range 8) := List.reverse_perm _

/-- The matrix `grad1d` of `wBasis` is `colograd1d * interp1d`. -/
theorem wBasis_grad (q p : Nat) (_hq : q < wBasis.Q1d) (hp : p < wBasis.P1d) :
    wBasis.grad1d (q * wBasis.P1d + p)
      = ∑ r in Finset.range wBasis.Q1d,
          wBasis.colograd1d (q * wBasis.Q1d + r) * wBasis.interp1d (r * wBasis.P1d + p) := by
  have hp' : p < 4 := hp
  have h1 : (q * 4 + p) / 4 = q := by omega
  have h2 : (q * 4 + p) % 4 = p := by omega
  show ∑ r in Finset.range 4, wV ((q * 4 + p) / 4 * 4 + r) * wT (r * 4 + (q * 4 + p) % 4)
    = ∑ r in Finset.range 4, wV (q * 4 + r) * wT (r * 4 + p)
  rw [h1, h2]

/-- The buffer `wUopt` is `wU` in the element-innermost layout. -/
theorem wLayout (e m p : Nat) (he : e < 8) (hm : m < wBasis.ncomp)
    (_hp : p < wBasis.P1d ^ wBasis.dim) :
    wUopt ((m * wBasis.P1d ^ wBasis.dim + p) * 8 + e)
      = wU ((e * wBasis.ncomp + m) * wBasis.P1d ^ wBasis.dim + p) := by
  have hm' : m = 0 := by
    have : m < 1 := hm
    omega
  subst hm'
  show wU (((0 * 4 ^ 1 + p) * 8 + e) % 8 * 4 + ((0 * 4 ^ 1 + p) * 8 + e) / 8)
    = wU ((e * 1 + 0) * 4 ^ 1 + p)
  congr 1
  omega

/-- Witness of C5: two elements, `P1D = 2`, `Q1D = 3`, derivative axis 0. -/
theorem C5_witness :
    (1 ≤ 1 ∧ 1 ≤ 2 ∧ 2 = 2 ∧ 1 ≤ 2 ∧ wOrder.Perm (List.range 2) ∧
      (∀ _b _n : Nat, wOrder.Perm (List.range 2)) ∧ 1 < 2 ∧ 0 < 1 ∧ 0 < 1) ∧
    basiskernels.grad (kernelDefs 1 1 2 3) 2 2 wOrder (fun _ _ => wOrder) (fun _ _ => 0)
        2 0 wT wV wU wV (((1 * 1 + 0) * 1 + 0) * 3 ^ 1 + multiIdx (fun _ : Fin 1 => (2 : Fin 3)))
      = ∑ p : Fin 1 → Fin 2,
          (∏ k : Fin 1, (if (k : Nat) = 0 then wV else wT)
              (((fun _ : Fin 1 => (2 : Fin 3)) k : Nat) * 2 + (p k : Nat)))
            * wU ((1 * 1 + 0) * 2 ^ 1 + multiIdx p) :=
  ⟨⟨by decide, by decide, rfl, by decide, wOrder_perm, fun _ _ => wOrder_perm, by decide,
      by decide, by decide⟩,
    C5_grad_slices 1 1 2 3 2 2 2 wOrder (fun _ _ => wOrder) (fun _ _ => 0)
      wT wV wU wV (by decide) (by decide) rfl (by decide) wOrder_perm (fun _ _ => wOrder_perm)
      1 0 0 (by decide) (by decide) (by decide) (fun _ => 2)⟩

/-- Witness of C6 on `wBasis`, eight elements. -/
theorem C6_witness :
    (1 ≤ wBasis.dim ∧ 1 ≤ wBasis.P1d ∧ wBasis.Q1d % 4 = 0 ∧ 1 ≤ 2 ∧
      (List.range 8).reverse.Perm (List.range 8) ∧
      (∀ _b _n : Nat, wOrder.Perm (List.range 2)) ∧
      (∀ e m p, e < 8 → m < wBasis.ncomp → p < wBasis.P1d ^ wBasis.dim →
        wUopt ((m * wBasis.P1d ^ wBasis.dim + p) * 8 + e)
          = wU ((e * wBasis.ncomp + m) * wBasis.P1d ^ wBasis.dim + p))) ∧
    (CeedBasisApply_Opt wBasis 8 CEED_NOTRANSPOSE CEED_EVAL_INTERP (fun _ _ => 0) wUopt wV).1 = 0 ∧
    ∀ e m q, e < 8 → m < wBasis.ncomp → q < wBasis.Q1d ^ wBasis.dim →
      (CeedBasisApply_Opt wBasis 8 CEED_NOTRANSPOSE CEED_EVAL_INTERP (fun _ _ => 0) wUopt wV).2
          ((m * wBasis.Q1d ^ wBasis.dim + q) * 8 + e)
        = basiskernels.interp (kernelDefs wBasis.dim wBasis.ncomp wBasis.P1d wBasis.Q1d) 8 2
            (List.range 8).reverse (fun _ _ => wOrder) (fun _ _ => 0) 8 0 wBasis.interp1d wU wV
            ((e * wBasis.ncomp + m) * wBasis.Q1d ^ wBasis.dim + q) :=
  ⟨⟨by decide, by decide, by decide, by decide, wBlocks_perm, fun _ _ => wOrder_perm, wLayout⟩,
    C6_simd_interp_matches_reference wBasis (fun _ _ => 0) wUopt wV wU wV 2
      (List.range 8).reverse (fun _ _ => wOrder) (fun _ _ => 0) (by decide) (by decide)
      (by decide) (by decide) wBlocks_perm (fun _ _ => wOrder_perm) wLayout⟩

/-- Witness of C7 on `wBasis`, whose `grad1d` is `colograd1d * interp1d`. -/
theorem C7_witness :
    (1 ≤ wBasis.dim ∧ 1 ≤ wBasis.P1d ∧ 1 ≤ wBasis.Q1d ∧ wBasis.Q1d % 4 = 0 ∧ 1 ≤ 2 ∧
      (List.range 8).reverse.Perm (List.range 8) ∧
      (∀ _b _n : Nat, wOrder.Perm (List.range 2)) ∧
      (∀ q p, q < wBasis.Q1d → p < wBasis.P1d →
        wBasis.grad1d (q * wBasis.P1d + p)
          = ∑ r in Finset.range wBasis.Q1d,
              wBasis.colograd1d (q * wBasis.Q1d + r) * wBasis.interp1d (r * wBasis.P1d + p)) ∧
      (∀ e m p, e < 8 → m < wBasis.ncomp → p < wBasis.P1d ^ wBasis.dim →
        wUopt ((m * wBasis.P1d ^ wBasis.dim + p) * 8 + e)
          = wU ((e * wBasis.ncomp + m) * wBasis.P1d ^ wBasis.dim + p))) ∧
    (CeedBasisApply_Opt wBasis 8 CEED_NOTRANSPOSE CEED_EVAL_GRAD (fun _ _ => 0) wUopt wV).1 = 0 ∧
    ∀ d m q e, d < wBasis.dim → m < wBasis.ncomp → q < wBasis.Q1d ^ wBasis.dim → e < 8 →
      (CeedBasisApply_Opt wBasis 8 CEED_NOTRANSPOSE CEED_EVAL_GRAD (fun _ _ => 0) wUopt wV).2
          (((d * wBasis.ncomp + m) * wBasis.Q1d ^ wBasis.dim + q) * 8 + e)
        = basiskernels.grad (kernelDefs wBasis.dim wBasis.ncomp wBasis.P1d wBasis.Q1d) 8 2
            (List.range 8).reverse (fun _ _ => wOrder) (fun _ _ => 0) 8 0 wBasis.interp1d
            wBasis.grad1d wU wV
            (((e * wBasis.dim + d) * wBasis.ncomp + m) * wBasis.Q1d ^ wBasis.dim + q) :=
  ⟨⟨by decide, by decide, by decide, by decide, by decide, wBlocks_perm,
      fun _ _ => wOrder_perm, wBasis_grad, wLayout⟩,
    C7_simd_colocated_grad_matches_reference wBasis (fun _ _ => 0) wUopt wV wU wV 2
      (List.range 8).reverse (fun _ _ => wOrder) (fun _ _ => 0) (by decide) (by decide)
      (by decide) (by decide) (by decide) wBlocks_perm (fun _ _ => wOrder_perm) wBasis_grad
      wLayout⟩

/-- Witness of C9 on `wBasis` (`P1d = Q1d = 4`). -/
theorem C9_witness :
    (1 ≤ wBasis.dim ∧ 1 ≤ wBasis.P1d ∧ 1 ≤ wBasis.Q1d ∧ wBasis.P1d % 4 = 0 ∧
      wBasis.Q1d % 4 = 0 ∧ wBasis.P1d ≤ wBasis.Q1d) ∧
    (CeedBasisApply_Opt wBasis 8 CEED_NOTRANSPOSE CEED_EVAL_GRAD (fun _ _ => 0) wU wV).1 = 0 ∧
    (CeedBasisApply_Opt wBasis 8 CEED_TRANSPOSE CEED_EVAL_GRAD (fun _ _ => 1) wV wU).1 = 0 ∧
    ∑ k in Finset.range (wBasis.dim * 8 * wBasis.ncomp * wBasis.Q1d ^ wBasis.dim),
        (CeedBasisApply_Opt wBasis 8 CEED_NOTRANSPOSE CEED_EVAL_GRAD (fun _ _ => 0) wU wV).2 k
          * wV k
      = ∑ k in Finset.range (8 * wBasis.ncomp * wBasis.P1d ^ wBasis.dim),
        wU k * (CeedBasisApply_Opt wBasis 8 CEED_TRANSPOSE CEED_EVAL_GRAD (fun _ _ => 1) wV wU).2 k :=
  ⟨by decide, C9_simd_grad_adjoint wBasis (fun _ _ => 0) (fun _ _ => 1) wU wV wV wU
    (by decide) (by decide) (by decide) (by decide) (by decide) (by decide)⟩

/-! ### Merged loops -/

theorem forLoop_congr {σ : Type} {f g : Nat → σ → σ} (n : Nat)
    (h : ∀ i, i < n → ∀ s, f i s = g i s) (s : σ) : forLoop f n s = forLoop g n s := by
  induction n with
  | zero => rfl
  | succ n ih =>
    rw [forLoop_succ, forLoop_succ, ih (fun i hi => h i (by omega)), h n (by omega)]

theorem forLoop_add {σ : Type} (f : Nat → σ → σ) (a b : Nat) (s : σ) :
    forLoop f (a + b) s = forLoop (fun j => f (a + j)) b (forLoop f a s) := by
  induction b with
  | zero => rfl
  | succ b ih => rw [← Nat.add_assoc, forLoop_succ, ih, forLoop_succ]

/-- Two nested loops whose body depends on `i * m + j` only are one loop. -/
theorem forLoop_nest {σ : Type} (f : Nat → σ → σ) (n m : Nat) (s : σ) :
    forLoop (fun i s => forLoop (fun j s => f (i * m + j) s) m s) n s = forLoop f (n * m) s := by
  induction n with
  | zero => simp [forLoop]
  | succ n ih => rw [forLoop_succ, ih, Nat.succ_mul, forLoop_add]

/-- The loop `for (e = 0; e < n; e++) v[base + e] = w`. -/
theorem forLoop_store_block {R : Type} (base n : Nat) (w : R) (v : Nat → R) (p : Nat) :
    forLoop (fun e v => store v (base + e) w) n v p
      = if base ≤ p ∧ p < base + n then w else v p := by
  induction n with
  | zero =>
    have : ¬ (base ≤ p ∧ p < base + 0) := by omega
    rw [if_neg this]; rfl
  | succ n ih =>
    rw [forLoop_succ]
    simp only [store]
    by_cases h : p = base + n
    · rw [if_pos h, if_pos (by omega)]
    · rw [if_neg h, ih]
      by_cases h2 : base ≤ p ∧ p < base + n
      · rw [if_pos h2, if_pos (by omega)]
      · rw [if_neg h2, if_neg (by omega)]

/-! ### The WEIGHT loop nest of the SIMD backend -/

theorem applyWeight_Opt_eq {R : Type} [CommRing R] (basis : CeedBasis R) (nelem : Nat)
    (v : Nat → R) :
    applyWeight_Opt basis nelem v = forLoop (weightPass basis nelem) basis.dim v := rfl

theorem weightPass_flat {R : Type} [CommRing R] (basis : CeedBasis R) (nelem d : Nat)
    (hd : d < basis.dim) (v : Nat → R) :
    weightPass basis nelem d v
      = forLoop (weightCell basis.qweight1d basis.Q1d (basis.Q1d ^ d) nelem d)
          (basis.Q1d ^ basis.dim) v := by
  have hN : basis.Q1d ^ basis.dim
      = basis.Q1d ^ (basis.dim - d - 1) * (basis.Q1d * basis.Q1d ^ d) := by
    have e : basis.dim = (basis.dim - d - 1) + (1 + d) := by omega
    conv_lhs => rw [e, pow_add, pow_add, pow_one]
  rw [hN, ← forLoop_nest]
  unfold weightPass CeedPowInt
  dsimp only
  apply forLoop_congr
  intro i _ s
  rw [← forLoop_nest]
  apply forLoop_congr
  intro j hj s
  apply forLoop_congr
  intro k hk s
  have hidx : i * (basis.Q1d * basis.Q1d ^ d) + (j * basis.Q1d ^ d + k)
      = (i * basis.Q1d + j) * basis.Q1d ^ d + k := by ring
  have hdig : ((i * basis.Q1d + j) * basis.Q1d ^ d + k) / basis.Q1d ^ d % basis.Q1d = j := by
    have hpos : 0 < basis.Q1d ^ d := Nat.lt_of_le_of_lt (Nat.zero_le _) hk
    rw [Nat.add_comm, Nat.add_mul_div_right _ _ hpos, Nat.div_eq_of_lt hk, Nat.zero_add,
      Nat.add_comm, Nat.add_mul_mod_self_right, Nat.mod_eq_of_lt hj]
  unfold weightCell
  rw [hidx, hdig]

theorem block_mem_iff {nelem idx n e p : Nat} (he : e < nelem) (hp : p = idx * nelem + e) :
    (n * nelem ≤ p ∧ p < n * nelem + nelem) ↔ idx = n := by
  subst hp
  constructor
  · rintro ⟨h1, h2⟩
    by_contra hne
    rcases Nat.lt_or_gt_of_ne hne with h | h
    · have := Nat.mul_le_mul_right nelem (Nat.succ_le_of_lt h)
      rw [Nat.succ_mul] at this
      omega
    · have := Nat.mul_le_mul_right nelem (Nat.succ_le_of_lt h)
      rw [Nat.succ_mul] at this
      omega
  · intro h; subst h; omega

theorem weightCell_apply {R : Type} [CommRing R] (qw : Nat → R) (Q post nelem d idx : Nat)
    (v : Nat → R) (p : Nat) :
    weightCell qw Q post nelem d idx v p
      = if idx * nelem ≤ p ∧ p < idx * nelem + nelem then
          qw (idx / post % Q) * (if d = 0 then 1 else v (idx * nelem))
        else v p := by
  unfold weightCell
  rw [forLoop_store_block]

theorem weightCell_loop {R : Type} [CommRing R] (qw : Nat → R) (Q post nelem d : Nat)
    (n : Nat) (v : Nat → R) (idx e : Nat) (he : e < nelem) :
    forLoop (weightCell qw Q post nelem d) n v (idx * nelem + e)
      = if idx < n then qw (idx / post % Q) * (if d = 0 then 1 else v (idx * nelem))
        else v (idx * nelem + e) := by
  induction n generalizing idx e with
  | zero => simp [forLoop]
  | succ n ih =>
    rw [forLoop_succ, weightCell_apply]
    by_cases h : idx = n
    · subst h
      rw [if_pos ((block_mem_iff he rfl).mpr rfl), if_pos (Nat.lt_succ_self _)]
      have h0 := ih idx 0 (by omega)
      rw [Nat.add_zero, if_neg (Nat.lt_irrefl _)] at h0
      rw [h0]
    · rw [if_neg (fun hc => h ((block_mem_iff he rfl).mp hc)), ih idx e he]
      by_cases h2 : idx < n
      · rw [if_pos h2, if_pos (show idx < n + 1 by omega)]
      · rw [if_neg h2, if_neg (show ¬ idx < n + 1 by omega)]

theorem applyWeight_Opt_passes {R : Type} [CommRing R] (basis : CeedBasis R) (nelem : Nat)
    (v : Nat → R) (d : Nat) (hd : d ≤ basis.dim) (hd0 : 0 < d) (idx e : Nat)
    (hidx : idx < basis.Q1d ^ basis.dim) (he : e < nelem) :
    forLoop (weightPass basis nelem) d v (idx * nelem + e)
      = ∏ k in Finset.range d, basis.qweight1d (idx / basis.Q1d ^ k % basis.Q1d) := by
  induction d generalizing e with
  | zero => omega
  | succ d ih =>
    rw [forLoop_succ, weightPass_flat basis nelem d (by omega), weightCell_loop _ _ _ _ _ _ _ _ _ he,
      if_pos hidx, Finset.prod_range_succ, mul_comm]
    congr 1
    by_cases h0 : d = 0
    · subst h0; simp
    · rw [if_neg h0]
      have := ih (by omega) (by omega) 0 (by omega)
      rw [Nat.add_zero] at this
      exact this

theorem applyWeight_Opt_spec {R : Type} [CommRing R] (basis : CeedBasis R) (nelem : Nat)
    (v : Nat → R) (hdim : 1 ≤ basis.dim) (idx e : Nat)
    (hidx : idx < basis.Q1d ^ basis.dim) (he : e < nelem) :
    applyWeight_Opt basis nelem v (idx * nelem + e)
      = ∏ k in Finset.range basis.dim, basis.qweight1d (idx / basis.Q1d ^ k % basis.Q1d) := by
  rw [applyWeight_Opt_eq]
  exact applyWeight_Opt_passes basis nelem v basis.dim (Nat.le_refl _) hdim idx e hidx he

/-- The sum over the point indices of the tensor-product weight is the power of
the sum of the one-dimensional weights. -/
theorem sum_weight_prod {R : Type} [CommRing R] (qw : Nat → R) (Q dim : Nat) :
    ∑ idx in Finset.range (Q ^ dim), ∏ k in Finset.range dim, qw (idx / Q ^ k % Q)
      = (∑ j in Finset.range Q, qw j) ^ dim := by
  induction dim with
  | zero => simp
  | succ d ih =>
    rw [pow_succ, Nat.mul_comm, sum_range_mul, pow_succ, ← ih, mul_comm, Finset.sum_mul]
    apply Finset.sum_congr rfl
    intro j hj
    rw [Finset.mem_range] at hj
    rw [Finset.mul_sum]
    apply Finset.sum_congr rfl
    intro c hc
    rw [Finset.mem_range] at hc
    have hQ : 0 < Q := by omega
    rw [Finset.prod_range_succ, digit_top hj hc, mul_comm]
    congr 1
    apply Finset.prod_congr rfl
    intro k hk
    rw [Finset.mem_range] at hk
    rw [digit_low hk hQ]

/-! ### Error paths of `CeedBasisApply_Opt` -/

theorem contract_status_iff {R : Type} [CommRing R] (A B C J : Nat) (t : Nat → R)
    (tmode : CeedTransposeMode) (Add : Int) (u v : Nat → R) :
    (CeedTensorContract_Opt A B C J t tmode Add u v).1 = 0 ↔ C % 8 = 0 ∧ J % 4 = 0 := by
  unfold CeedTensorContract_Opt CeedError
  by_cases hC : C % 8 = 0
  · by_cases hJ : J % 4 = 0
    · simp [hC, hJ]
    · simp [hC, hJ]
  · simp [hC]

theorem contract_fail_v {R : Type} [CommRing R] (A B C J : Nat) (t : Nat → R)
    (tmode : CeedTransposeMode) (Add : Int) (u v : Nat → R)
    (h : (CeedTensorContract_Opt A B C J t tmode Add u v).1 ≠ 0) :
    (CeedTensorContract_Opt A B C J t tmode Add u v).2 = v := by
  have h1 : ¬ (C % 8 = 0 ∧ J % 4 = 0) := fun hc => h ((contract_status_iff A B C J t tmode Add u v).mpr hc)
  unfold CeedTensorContract_Opt CeedError
  by_cases hC : C % 8 = 0
  · have hJ : ¬ J % 4 = 0 := fun hJ => h1 ⟨hC, hJ⟩
    simp [hC, hJ]
  · simp [hC]

theorem set_get_v {R : Type} (s : OptState R) (out : OptBuf) : (s.set out (s.get out)).v = s.v := by
  cases out with
  | tmp i => rfl
  | interp => rfl
  | v off =>
    funext k
    show (if k < off then s.v k else s.v (off + (k - off))) = s.v k
    by_cases h : k < off
    · rw [if_pos h]
    · rw [if_neg h]
      congr 1
      omega

theorem set_ierr {R : Type} (s : OptState R) (out : OptBuf) (w : Nat → R) :
    (s.set out w).ierr = s.ierr := by
  cases out <;> rfl

theorem set_post {R : Type} (s : OptState R) (out : OptBuf) (w : Nat → R) :
    (s.set out w).post = s.post := by
  cases out <;> rfl

/-- A contraction step that ends with an error status has not changed `v`. -/
theorem optStep_err_v {R : Type} [CommRing R] (P Q : Nat) (t : Nat → R)
    (tmode : CeedTransposeMode) (Add : Int) (inp : Nat → R) (out : OptBuf) (s : OptState R)
    (h : (optStep P Q t tmode Add inp out s).ierr ≠ 0) :
    (optStep P Q t tmode Add inp out s).v = s.v := by
  unfold optStep at h ⊢
  by_cases h0 : s.ierr ≠ 0
  · rw [if_pos h0]
  · rw [if_neg h0] at h ⊢
    dsimp only at h ⊢
    by_cases h1 : (CeedTensorContract_Opt s.pre P s.post Q t tmode Add inp (s.get out)).1 ≠ 0
    · rw [if_pos h1]
      show (s.set out _).v = s.v
      rw [contract_fail_v _ _ _ _ _ _ _ _ _ h1, set_get_v]
    · rw [if_neg h1] at h
      exfalso
      apply h
      show (s.set out _).ierr = 0
      rw [set_ierr]
      exact not_not.mp h0

/-- A contraction step whose destination is a local array does not change `v`. -/
theorem optStep_local_v {R : Type} [CommRing R] (P Q : Nat) (t : Nat → R)
    (tmode : CeedTransposeMode) (Add : Int) (inp : Nat → R) (out : OptBuf) (s : OptState R)
    (hout : ∀ off, out ≠ OptBuf.v off) :
    (optStep P Q t tmode Add inp out s).v = s.v := by
  unfold optStep
  by_cases h0 : s.ierr ≠ 0
  · rw [if_pos h0]
  · rw [if_neg h0]
    dsimp only
    have hset : ∀ w, (s.set out w).v = s.v := by
      intro w
      cases out with
      | tmp i => rfl
      | interp => rfl
      | v off => exact absurd rfl (hout off)
    by_cases h1 : (CeedTensorContract_Opt s.pre P s.post Q t tmode Add inp (s.get out)).1 ≠ 0
    · rw [if_pos h1]; exact hset _
    · rw [if_neg h1]; exact hset _

/-- A step entered with an error status does nothing. -/
theorem optStep_skip {R : Type} [CommRing R] (P Q : Nat) (t : Nat → R)
    (tmode : CeedTransposeMode) (Add : Int) (inp : Nat → R) (out : OptBuf) (s : OptState R)
    (h : s.ierr ≠ 0) : optStep P Q t tmode Add inp out s = s := by
  unfold optStep
  rw [if_pos h]

/-- The status of a contraction step entered without error. -/
theorem optStep_status {R : Type} [CommRing R] (P Q : Nat) (t : Nat → R)
    (tmode : CeedTransposeMode) (Add : Int) (inp : Nat → R) (out : OptBuf) (s : OptState R)
    (h0 : s.ierr = 0) :
    ((optStep P Q t tmode Add inp out s).ierr = 0 ↔ s.post % 8 = 0 ∧ Q % 4 = 0) ∧
    ((optStep P Q t tmode Add inp out s).ierr = 0 →
      (optStep P Q t tmode Add inp out s).post = s.post * Q) ∧
    ((optStep P Q t tmode Add inp out s).ierr ≠ 0 →
      (optStep P Q t tmode Add inp out s).ierr = 2) := by
  have hst := contract_status_iff s.pre P s.post Q t tmode Add inp (s.get out)
  unfold optStep
  rw [if_neg (not_not.mpr h0)]
  dsimp only
  by_cases h1 : (CeedTensorContract_Opt s.pre P s.post Q t tmode Add inp (s.get out)).1 ≠ 0
  · rw [if_pos h1]
    refine ⟨⟨fun h => absurd h h1, fun h => absurd (hst.mpr h) h1⟩, fun h => absurd h h1, ?_⟩
    intro _
    show (CeedTensorContract_Opt s.pre P s.post Q t tmode Add inp (s.get out)).1 = 2
    have h2 : ¬ (s.post % 8 = 0 ∧ Q % 4 = 0) := fun hc => h1 (hst.mpr hc)
    unfold CeedTensorContract_Opt CeedError
    by_cases hC : s.post % 8 = 0
    · have hJ : ¬ Q % 4 = 0 := fun hJ => h2 ⟨hC, hJ⟩
      simp [hC, hJ]
    · simp [hC]
  · rw [if_neg h1]
    have h1' := not_not.mp h1
    refine ⟨⟨fun _ => hst.mp h1', fun _ => ?_⟩, fun _ => ?_, fun h => ?_⟩
    · show (s.set out _).ierr = 0
      rw [set_ierr]; exact h0
    · show (s.set out _).post * Q = s.post * Q
      rw [set_post]
    · exfalso; apply h
      show (s.set out _).ierr = 0
      rw [set_ierr]; exact h0

/-- A loop of steps that write `v` in the last iteration only: as long as the
last iteration has not run, and whenever the status is an error, `v` is as it
was. -/
theorem loop_err_v_last {R : Type} (body : Nat → OptState R → OptState R) (dim : Nat)
    (herr : ∀ d s, (body d s).ierr ≠ 0 → (body d s).v = s.v)
    (hloc : ∀ d s, d + 1 < dim → (body d s).v = s.v)
    (s0 : OptState R) (n : Nat) (hn : n ≤ dim) :
    (n < dim → (forLoop body n s0).v = s0.v) ∧
    ((forLoop body n s0).ierr ≠ 0 → (forLoop body n s0).v = s0.v) := by
  induction n with
  | zero => exact ⟨fun _ => rfl, fun _ => rfl⟩
  | succ n ih =>
    have ih' := (ih (by omega)).1 (by omega)
    rw [forLoop_succ]
    constructor
    · intro h
      rw [hloc n _ h, ih']
    · intro h
      rw [herr n _ h, ih']

/-- A loop of steps none of which writes `v`. -/
theorem loop_local_v {R : Type} (body : Nat → OptState R → OptState R)
    (hloc : ∀ d s, (body d s).v = s.v) (s0 : OptState R) (n : Nat) :
    (forLoop body n s0).v = s0.v := by
  induction n with
  | zero => rfl
  | succ n ih => rw [forLoop_succ, hloc, ih]

/-- The loop of forward GRAD that writes one slice of `v` per iteration: the
first contraction decides whether all of them are accepted, so an error status
means that no slice has been written. -/
theorem loop_slices_err_v {R : Type} [CommRing R] (Q : Nat) (t : Nat → Nat → R)
    (tmode : CeedTransposeMode) (Add : Nat → Int) (inp : Nat → OptState R → Nat → R)
    (out : Nat → OptBuf) (s0 : OptState R) (n : Nat) :
    ((forLoop (fun d s => optStep Q Q (t d) tmode (Add d) (inp d s) (out d) s) n s0).ierr ≠ 0 →
      (forLoop (fun d s => optStep Q Q (t d) tmode (Add d) (inp d s) (out d) s) n s0).v = s0.v) ∧
    (n = 0 → (forLoop (fun d s => optStep Q Q (t d) tmode (Add d) (inp d s) (out d) s) n s0).v
      = s0.v) ∧
    ((forLoop (fun d s => optStep Q Q (t d) tmode (Add d) (inp d s) (out d) s) n s0).ierr = 0 →
      0 < n → Q % 4 = 0 ∧
      (forLoop (fun d s => optStep Q Q (t d) tmode (Add d) (inp d s) (out d) s) n s0).post % 8
        = 0) := by
  induction n with
  | zero => exact ⟨fun _ => rfl, fun _ => rfl, fun _ h => absurd h (Nat.lt_irrefl 0)⟩
  | succ n ih =>
    rw [forLoop_succ]
    generalize forLoop (fun d s => optStep Q Q (t d) tmode (Add d) (inp d s) (out d) s) n s0 = s
      at ih ⊢
    by_cases h0 : s.ierr = 0
    · have hst := optStep_status Q Q (t n) tmode (Add n) (inp n s) (out n) s h0
      refine ⟨fun h => ?_, fun h => absurd h (Nat.succ_ne_zero n), fun h _ => ?_⟩
      · rw [optStep_err_v _ _ _ _ _ _ _ _ h]
        rcases Nat.eq_zero_or_pos n with hn | hn
        · exact ih.2.1 hn
        · exfalso
          have := ih.2.2 h0 hn
          exact h (hst.1.mpr ⟨this.2, this.1⟩)
      · have hok := hst.1.mp h
        rw [hst.2.1 h]
        refine ⟨hok.2, ?_⟩
        rw [Nat.mul_mod, hok.1]; simp
    · rw [optStep_skip _ _ _ _ _ _ _ _ h0]
      exact ⟨fun _ => ih.1 h0, fun h => absurd h (Nat.succ_ne_zero n), fun h => absurd h h0⟩

theorem applyInterp_Opt_err_v {R : Type} [CommRing R] (basis : CeedBasis R) (nelem : Nat)
    (tmode : CeedTransposeMode) (add : Int) (u : Nat → R) (s : OptState R)
    (h : (applyInterp_Opt basis nelem tmode add u s).ierr ≠ 0) :
    (applyInterp_Opt basis nelem tmode add u s).v = s.v := by
  unfold applyInterp_Opt at h ⊢
  dsimp only at h ⊢
  refine (loop_err_v_last _ basis.dim (fun d s => optStep_err_v _ _ _ _ _ _ _ _) ?_ _ basis.dim
    (Nat.le_refl _)).2 h
  intro d s hd
  apply optStep_local_v
  intro off
  rw [if_neg (by omega)]
  exact fun hc => OptBuf.noConfusion hc

theorem applyGrad_Opt_err_v {R : Type} [CommRing R] (basis : CeedBasis R) (nelem : Nat)
    (tmode : CeedTransposeMode) (add : Int) (u : Nat → R) (s : OptState R)
    (h : (applyGrad_Opt basis nelem tmode add u s).ierr ≠ 0) :
    (applyGrad_Opt basis nelem tmode add u s).v = s.v := by
  unfold applyGrad_Opt at h ⊢
  dsimp only at h ⊢
  cases tmode with
  | CEED_NOTRANSPOSE =>
    simp only [if_true, if_false, reduceCtorEq] at h ⊢
    rw [(loop_slices_err_v basis.Q1d (fun _ => basis.colograd1d) CEED_NOTRANSPOSE _
      (fun _ s => s.interp) _ _ basis.dim).1 h]
    show OptState.v (forLoop _ basis.dim _) = s.v
    rw [loop_local_v]
    intro d s
    apply optStep_local_v
    intro off
    by_cases hd : d = basis.dim - 1
    · rw [if_pos hd]; exact fun hc => OptBuf.noConfusion hc
    · rw [if_neg hd]; exact fun hc => OptBuf.noConfusion hc
  | CEED_TRANSPOSE =>
    simp only [if_true, if_false, reduceCtorEq] at h ⊢
    rw [(loop_err_v_last _ basis.dim (fun d s => optStep_err_v _ _ _ _ _ _ _ _) ?_ _ basis.dim
      (Nat.le_refl _)).2 h]
    · show OptState.v (forLoop _ basis.dim _) = s.v
      rw [loop_local_v]
      intro d s
      apply optStep_local_v
      intro off
      exact fun hc => OptBuf.noConfusion hc
    · intro d s hd
      apply optStep_local_v
      intro off
      rw [if_neg (by omega)]
      exact fun hc => OptBuf.noConfusion hc

/-! ### WEIGHT of the SIMD backend -/

/-- C11: for `nelem` 1 or 8 and forward mode, `CeedBasisApply_Opt` with
`CEED_EVAL_WEIGHT` returns 0 and, for every point index `idx < Q1d^dim` and
every element `e < nelem`, `v[idx*nelem + e]` is the product over `k < dim` of
`qweight1d[(idx / Q1d^k) mod Q1d]`; these entries are the same whatever `u`, the
previous `v` and the scratch arrays contain. Proved for every `dim >= 1` (for
`Q1d = 0` there is no point index). -/
theorem C11_simd_weight {R : Type} [CommRing R] (basis : CeedBasis R) (nelem : Nat)
    (stack stack' : Nat → Nat → R) (u u' v v' : Nat → R)
    (hnelem : nelem = 1 ∨ nelem = 8) (hdim : 1 ≤ basis.dim) :
    (CeedBasisApply_Opt basis nelem CEED_NOTRANSPOSE CEED_EVAL_WEIGHT stack u v).1 = 0 ∧
    ∀ idx e, idx < basis.Q1d ^ basis.dim → e < nelem →
      (CeedBasisApply_Opt basis nelem CEED_NOTRANSPOSE CEED_EVAL_WEIGHT stack u v).2
          (idx * nelem + e)
        = ∏ k in Finset.range basis.dim, basis.qweight1d (idx / basis.Q1d ^ k % basis.Q1d) ∧
      (CeedBasisApply_Opt basis nelem CEED_NOTRANSPOSE CEED_EVAL_WEIGHT stack' u' v').2
          (idx * nelem + e)
        = (CeedBasisApply_Opt basis nelem CEED_NOTRANSPOSE CEED_EVAL_WEIGHT stack u v).2
          (idx * nelem + e) := by
  have hn : ¬ (nelem ≠ 1 ∧ nelem ≠ 8) := by omega
  have key : ∀ (st : Nat → Nat → R) (a b : Nat → R),
      CeedBasisApply_Opt basis nelem CEED_NOTRANSPOSE CEED_EVAL_WEIGHT st a b
        = (0, applyWeight_Opt basis nelem b) := by
    intro st a b
    unfold CeedBasisApply_Opt
    simp [hn]
  rw [key, key]
  refine ⟨rfl, fun idx e hidx he => ?_⟩
  show applyWeight_Opt basis nelem v (idx * nelem + e) = _ ∧
    applyWeight_Opt basis nelem v' (idx * nelem + e) = applyWeight_Opt basis nelem v (idx * nelem + e)
  rw [applyWeight_Opt_spec basis nelem v hdim idx e hidx he,
    applyWeight_Opt_spec basis nelem v' hdim idx e hidx he]
  exact ⟨rfl, rfl⟩

/-- Witness of C11 on `w2Basis` with eight elements. -/
theorem C11_simd_weight_witness :
    ((8 = 1 ∨ 8 = 8) ∧ 1 ≤ w2Basis.dim) ∧
    (CeedBasisApply_Opt w2Basis 8 CEED_NOTRANSPOSE CEED_EVAL_WEIGHT (fun _ _ => 0) wU wV).1 = 0 ∧
    ∀ idx e, idx < w2Basis.Q1d ^ w2Basis.dim → e < 8 →
      (CeedBasisApply_Opt w2Basis 8 CEED_NOTRANSPOSE CEED_EVAL_WEIGHT (fun _ _ => 0) wU wV).2
          (idx * 8 + e)
        = ∏ k in Finset.range w2Basis.dim,
            w2Basis.qweight1d (idx / w2Basis.Q1d ^ k % w2Basis.Q1d) ∧
      (CeedBasisApply_Opt w2Basis 8 CEED_NOTRANSPOSE CEED_EVAL_WEIGHT (fun _ _ => 1) wV wU).2
          (idx * 8 + e)
        = (CeedBasisApply_Opt w2Basis 8 CEED_NOTRANSPOSE CEED_EVAL_WEIGHT (fun _ _ => 0) wU wV).2
          (idx * 8 + e) :=
  ⟨by decide, C11_simd_weight w2Basis 8 (fun _ _ => 0) (fun _ _ => 1) wU wV wV wU (by decide)
    (by decide)⟩

/-- C12: after `CeedBasisApply_Opt` with `CEED_EVAL_WEIGHT` in forward mode
(`nelem` 1 or 8, `dim >= 1`), for every element `e` the sum over all
`idx < Q1d^dim` of `v[idx*nelem + e]` is `(sum_j qweight1d[j])^dim`, hence
`2^dim` when the one-dimensional weights sum to 2. -/
theorem C12_simd_weight_sum {R : Type} [CommRing R] (basis : CeedBasis R) (nelem : Nat)
    (stack : Nat → Nat → R) (u v : Nat → R) (e : Nat)
    (hnelem : nelem = 1 ∨ nelem = 8) (hdim : 1 ≤ basis.dim) (he : e < nelem) :
    ∑ idx in Finset.range (basis.Q1d ^ basis.dim),
        (CeedBasisApply_Opt basis nelem CEED_NOTRANSPOSE CEED_EVAL_WEIGHT stack u v).2
          (idx * nelem + e)
      = (∑ j in Finset.range basis.Q1d, basis.qweight1d j) ^ basis.dim ∧
    (∑ j in Finset.range basis.Q1d, basis.qweight1d j = 2 →
      ∑ idx in Finset.range (basis.Q1d ^ basis.dim),
          (CeedBasisApply_Opt basis nelem CEED_NOTRANSPOSE CEED_EVAL_WEIGHT stack u v).2
            (idx * nelem + e)
        = 2 ^ basis.dim) := by
  have hn : ¬ (nelem ≠ 1 ∧ nelem ≠ 8) := by omega
  have key : CeedBasisApply_Opt basis nelem CEED_NOTRANSPOSE CEED_EVAL_WEIGHT stack u v
      = (0, applyWeight_Opt basis nelem v) := by
    unfold CeedBasisApply_Opt
    simp [hn]
  have hsum : ∑ idx in Finset.range (basis.Q1d ^ basis.dim),
        (CeedBasisApply_Opt basis nelem CEED_NOTRANSPOSE CEED_EVAL_WEIGHT stack u v).2
          (idx * nelem + e)
      = (∑ j in Finset.range basis.Q1d, basis.qweight1d j) ^ basis.dim := by
    rw [key, ← sum_weight_prod]
    apply Finset.sum_congr rfl
    intro idx hidx
    rw [Finset.mem_range] at hidx
    exact applyWeight_Opt_spec basis nelem v hdim idx e hidx he
  refine ⟨hsum, fun h2 => ?_⟩
  rw [hsum, h2]

/-- Witness of C12 on `gaussBasis`, whose weights sum to 2, with one element. -/
theorem C12_simd_weight_sum_witness :
    ((1 = 1 ∨ 1 = 8) ∧ 1 ≤ gaussBasis.dim ∧ 0 < 1 ∧
      ∑ j in Finset.range gaussBasis.Q1d, gaussBasis.qweight1d j = 2) ∧
    ∑ idx in Finset.range (gaussBasis.Q1d ^ gaussBasis.dim),
        (CeedBasisApply_Opt gaussBasis 1 CEED_NOTRANSPOSE CEED_EVAL_WEIGHT (fun _ _ => 0) wU wV).2
          (idx * 1 + 0)
      = (∑ j in Finset.range gaussBasis.Q1d, gaussBasis.qweight1d j) ^ gaussBasis.dim ∧
    (∑ j in Finset.range gaussBasis.Q1d, gaussBasis.qweight1d j = 2 →
      ∑ idx in Finset.range (gaussBasis.Q1d ^ gaussBasis.dim),
          (CeedBasisApply_Opt gaussBasis 1 CEED_NOTRANSPOSE CEED_EVAL_WEIGHT (fun _ _ => 0) wU
            wV).2 (idx * 1 + 0)
        = 2 ^ gaussBasis.dim) :=
  ⟨by decide, C12_simd_weight_sum gaussBasis 1 (fun _ _ => 0) wU wV 0 (by decide) (by decide)
    (by decide)⟩

/-! ### Rejected calls of the SIMD backend -/

/-- C14: for `nelem` 1 or 8 and any basis, `CeedBasisApply_Opt` with
`CEED_EVAL_WEIGHT` and `CEED_TRANSPOSE` returns a non-zero status. -/
theorem C14_simd_weight_transpose_fails {R : Type} [CommRing R] (basis : CeedBasis R)
    (nelem : Nat) (stack : Nat → Nat → R) (u v : Nat → R) (hnelem : nelem = 1 ∨ nelem = 8) :
    (CeedBasisApply_Opt basis nelem CEED_TRANSPOSE CEED_EVAL_WEIGHT stack u v).1 ≠ 0 := by
  have hn : ¬ (nelem ≠ 1 ∧ nelem ≠ 8) := by omega
  unfold CeedBasisApply_Opt CeedError
  simp [hn]

/-- Witness of C14 on `wBasis` with one element. -/
theorem C14_simd_weight_transpose_fails_witness :
    (1 = 1 ∨ 1 = 8) ∧
    (CeedBasisApply_Opt wBasis 1 CEED_TRANSPOSE CEED_EVAL_WEIGHT (fun _ _ => 0) wU wV).1 ≠ 0 :=
  ⟨by decide, C14_simd_weight_transpose_fails wBasis 1 (fun _ _ => 0) wU wV (by decide)⟩

/-- C16: for every `nelem` other than 1 and 8, every transpose mode and every
evaluation mode, `CeedBasisApply_Opt` returns a non-zero status, hands `v` back
as it was, and its result is the same for every input `u`. -/
theorem C16_simd_rejects_batch_size {R : Type} [CommRing R] (basis : CeedBasis R) (nelem : Nat)
    (tmode : CeedTransposeMode) (emode : CeedEvalMode) (stack : Nat → Nat → R)
    (u u' v : Nat → R) (h1 : nelem ≠ 1) (h8 : nelem ≠ 8) :
    (CeedBasisApply_Opt basis nelem tmode emode stack u v).1 ≠ 0 ∧
    (CeedBasisApply_Opt basis nelem tmode emode stack u v).2 = v ∧
    CeedBasisApply_Opt basis nelem tmode emode stack u' v
      = CeedBasisApply_Opt basis nelem tmode emode stack u v := by
  have key : ∀ a : Nat → R, CeedBasisApply_Opt basis nelem tmode emode stack a v
      = (CeedError 1, v) := by
    intro a
    unfold CeedBasisApply_Opt
    rw [if_pos ⟨h1, h8⟩]
  rw [key, key]
  refine ⟨?_, rfl, rfl⟩
  show (1 : Int) ≠ 0
  decide

/-- Witness of C16 on `wBasis` with two elements. -/
theorem C16_simd_rejects_batch_size_witness :
    (2 ≠ 1 ∧ 2 ≠ 8) ∧
    (CeedBasisApply_Opt wBasis 2 CEED_NOTRANSPOSE CEED_EVAL_INTERP (fun _ _ => 0) wU wV).1 ≠ 0 ∧
    (CeedBasisApply_Opt wBasis 2 CEED_NOTRANSPOSE CEED_EVAL_INTERP (fun _ _ => 0) wU wV).2 = wV ∧
    CeedBasisApply_Opt wBasis 2 CEED_NOTRANSPOSE CEED_EVAL_INTERP (fun _ _ => 0) wV wV
      = CeedBasisApply_Opt wBasis 2 CEED_NOTRANSPOSE CEED_EVAL_INTERP (fun _ _ => 0) wU wV :=
  ⟨by decide, C16_simd_rejects_batch_size wBasis 2 CEED_NOTRANSPOSE CEED_EVAL_INTERP
    (fun _ _ => 0) wU wV wV (by decide) (by decide)⟩

/-- A loop of contraction steps entered with an error status does nothing. -/
theorem loop_skip {R : Type} (body : Nat → OptState R → OptState R)
    (hskip : ∀ d s, s.ierr ≠ 0 → body d s = s) (s : OptState R) (h : s.ierr ≠ 0) (n : Nat) :
    forLoop body n s = s := by
  induction n with
  | zero => rfl
  | succ n ih => rw [forLoop_succ, ih, hskip n s h]

/-- A loop whose first step ends with an error status stops there. -/
theorem loop_first_fails {R : Type} (body : Nat → OptState R → OptState R)
    (hskip : ∀ d s, s.ierr ≠ 0 → body d s = s) (s : OptState R) (n : Nat) (hn : 1 ≤ n)
    (h : (body 0 s).ierr ≠ 0) : forLoop body n s = body 0 s := by
  have e : n = 1 + (n - 1) := by omega
  rw [e, forLoop_add]
  exact loop_skip _ (fun d s hs => hskip _ s hs) _ h _

/-- A step entered without error whose `C = post` is 1 ends with status 2. -/
theorem optStep_post_one {R : Type} [CommRing R] (P Q : Nat) (t : Nat → R)
    (tmode : CeedTransposeMode) (Add : Int) (inp : Nat → R) (out : OptBuf) (s : OptState R)
    (h0 : s.ierr = 0) (hpost : s.post = 1) :
    (optStep P Q t tmode Add inp out s).ierr = 2 := by
  have hst := optStep_status P Q t tmode Add inp out s h0
  apply hst.2.2
  intro hc
  have := (hst.1.mp hc).1
  rw [hpost] at this
  exact absurd this (by decide)

/-- With one element the first contraction of INTERP has `C = post = 1`, which
is not a multiple of 8: the branch ends with status 2. -/
theorem applyInterp_Opt_single {R : Type} [CommRing R] (basis : CeedBasis R)
    (tmode : CeedTransposeMode) (add : Int) (u : Nat → R) (s : OptState R)
    (h0 : s.ierr = 0) (hdim : 1 ≤ basis.dim) :
    (applyInterp_Opt basis 1 tmode add u s).ierr = 2 := by
  unfold applyInterp_Opt
  dsimp only
  have h2 := fun (P Q : Nat) (Add : Int) (inp : Nat → R) (out : OptBuf) (pre : Nat) =>
    optStep_post_one P Q basis.interp1d tmode Add inp out { s with pre := pre, post := 1 } h0 rfl
  rw [loop_first_fails _ (fun d s hs => optStep_skip _ _ _ _ _ _ _ _ hs) _ _ hdim]
  · exact h2 _ _ _ _ _ _
  · rw [h2]; decide

/-- C17, as the code has it: with one element, forward INTERP of
`CeedBasisApply_Opt` is rejected. For every basis with `dim >= 1` (so also when
`Q1d` is a multiple of 4) the first contraction is called with
`C = post = nelem = 1`, which is not a multiple of 8, and the call returns the
status 2 of `CeedTensorContract_Opt` with `v` as it was. -/
theorem C17_single_element_interp_rejected {R : Type} [CommRing R] (basis : CeedBasis R)
    (stack : Nat → Nat → R) (u v : Nat → R) (hdim : 1 ≤ basis.dim) :
    (CeedBasisApply_Opt basis 1 CEED_NOTRANSPOSE CEED_EVAL_INTERP stack u v).1 = 2 ∧
    (CeedBasisApply_Opt basis 1 CEED_NOTRANSPOSE CEED_EVAL_INTERP stack u v).2 = v := by
  have key : CeedBasisApply_Opt basis 1 CEED_NOTRANSPOSE CEED_EVAL_INTERP stack u v
      = ((applyInterp_Opt basis 1 CEED_NOTRANSPOSE 0 u
            { ierr := 0, pre := 0, post := 0, tmp := stack, interp := stack 2, v := v }).ierr,
         (applyInterp_Opt basis 1 CEED_NOTRANSPOSE 0 u
            { ierr := 0, pre := 0, post := 0, tmp := stack, interp := stack 2, v := v }).v) := by
    unfold CeedBasisApply_Opt
    simp
  rw [key]
  have h2 := applyInterp_Opt_single basis CEED_NOTRANSPOSE 0 u
    { ierr := 0, pre := 0, post := 0, tmp := stack, interp := stack 2, v := v } rfl hdim
  refine ⟨h2, ?_⟩
  exact applyInterp_Opt_err_v basis 1 CEED_NOTRANSPOSE 0 u _ (by rw [h2]; decide)

/-- Witness of C17 on `wBasis` (`dim = 1`, `P1d = Q1d = 4`). -/
theorem C17_single_element_interp_rejected_witness :
    1 ≤ wBasis.dim ∧
    (CeedBasisApply_Opt wBasis 1 CEED_NOTRANSPOSE CEED_EVAL_INTERP (fun _ _ => 0) wU wV).1 = 2 ∧
    (CeedBasisApply_Opt wBasis 1 CEED_NOTRANSPOSE CEED_EVAL_INTERP (fun _ _ => 0) wU wV).2 = wV :=
  ⟨by decide, C17_single_element_interp_rejected wBasis (fun _ _ => 0) wU wV (by decide)⟩

/-- C17 as stated fails: on `wBasis` (`dim = 1`, `P1d = Q1d = 4`) with one
element the call does not return 0, and `v[0]` is not the interpolated value
`sum_p interp1d[0*4 + p] * u[0*4 + p]` (it is the old `v[0] = 7`). -/
theorem C17_single_element_counterexample :
    (CeedBasisApply_Opt wBasis 1 CEED_NOTRANSPOSE CEED_EVAL_INTERP (fun _ _ => 0) wU wV).1 ≠ 0 ∧
    (CeedBasisApply_Opt wBasis 1 CEED_NOTRANSPOSE CEED_EVAL_INTERP (fun _ _ => 0) wU wV).2 0
      ≠ ∑ p in Finset.range 4, wBasis.interp1d (0 * 4 + p) * wU (0 * 4 + p) := by
  decide

/-! ### The output of a failed call -/

/-- C18, as the code has it: when `CeedBasisApply_Opt` returns a non-zero status (any
`nelem`, transpose mode, evaluation mode and basis), `v` is left exactly as it
was if the mode is `CEED_NOTRANSPOSE` or `nelem` is neither 1 nor 8; in
`CEED_TRANSPOSE` mode with `nelem` 1 or 8 the first `nelem*ncomp*P1d^dim` entries
of `v` have been set to zero and every other entry is as it was. -/
theorem C18_failed_call_output {R : Type} [CommRing R] (basis : CeedBasis R) (nelem : Nat)
    (tmode : CeedTransposeMode) (emode : CeedEvalMode) (stack : Nat → Nat → R) (u v : Nat → R)
    (hfail : (CeedBasisApply_Opt basis nelem tmode emode stack u v).1 ≠ 0) (k : Nat) :
    (CeedBasisApply_Opt basis nelem tmode emode stack u v).2 k
      = if tmode = CEED_TRANSPOSE ∧ (nelem = 1 ∨ nelem = 8) ∧
            k < nelem * basis.ncomp * basis.P1d ^ basis.dim then 0
        else v k := by
  by_cases hn : nelem ≠ 1 ∧ nelem ≠ 8
  · have key : CeedBasisApply_Opt basis nelem tmode emode stack u v = (CeedError 1, v) := by
      unfold CeedBasisApply_Opt
      rw [if_pos hn]
    rw [key, if_neg (by omega)]
  · have hv1 : (if tmode = CEED_TRANSPOSE then
          forLoop (fun i v => store v i 0) (nelem * basis.ncomp * CeedPowInt basis.P1d basis.dim) v
        else v) k
        = if tmode = CEED_TRANSPOSE ∧ (nelem = 1 ∨ nelem = 8) ∧
            k < nelem * basis.ncomp * basis.P1d ^ basis.dim then 0
          else v k := by
      have hn' : nelem = 1 ∨ nelem = 8 := by omega
      cases tmode with
      | CEED_NOTRANSPOSE => simp
      | CEED_TRANSPOSE =>
        rw [if_pos rfl, forLoop_store_zero]
        unfold CeedPowInt
        simp [hn']
    rw [← hv1]
    unfold CeedBasisApply_Opt at hfail ⊢
    rw [if_neg hn] at hfail ⊢
    dsimp only at hfail ⊢
    cases emode with
    | CEED_EVAL_INTERP =>
      dsimp only at hfail ⊢
      rw [applyInterp_Opt_err_v _ _ _ _ _ _ hfail]
    | CEED_EVAL_GRAD =>
      dsimp only at hfail ⊢
      rw [applyGrad_Opt_err_v _ _ _ _ _ _ hfail]
    | CEED_EVAL_WEIGHT =>
      dsimp only at hfail ⊢
      by_cases ht : tmode = CEED_TRANSPOSE
      · rw [if_pos ht]
      · rw [if_neg ht] at hfail
        exact absurd rfl hfail
    | CEED_EVAL_DIV => rfl
    | CEED_EVAL_CURL => rfl
    | CEED_EVAL_NONE => rfl

/-- Witness of C18 on `wBasis`: a transpose call with `CEED_EVAL_DIV` and eight
elements fails after the zero-fill. -/
theorem C18_failed_call_output_witness :
    (CeedBasisApply_Opt wBasis 8 CEED_TRANSPOSE CEED_EVAL_DIV (fun _ _ => 0) wU wV).1 ≠ 0 ∧
    (CeedBasisApply_Opt wBasis 8 CEED_TRANSPOSE CEED_EVAL_DIV (fun _ _ => 0) wU wV).2 3
      = if CEED_TRANSPOSE = CEED_TRANSPOSE ∧ (8 = 1 ∨ 8 = 8) ∧
            3 < 8 * wBasis.ncomp * wBasis.P1d ^ wBasis.dim then 0
        else wV 3 :=
  ⟨by decide, C18_failed_call_output wBasis 8 CEED_TRANSPOSE CEED_EVAL_DIV (fun _ _ => 0) wU wV
    (by decide) 3⟩

/-- C18 as stated fails: with one element, `CEED_TRANSPOSE` and
`CEED_EVAL_WEIGHT` the call returns a non-zero status, and `v[0]`, which was 7
before the call, is 0 after it. -/
theorem C18_failed_call_counterexample :
    (CeedBasisApply_Opt cexBasis 1 CEED_TRANSPOSE CEED_EVAL_WEIGHT (fun _ _ => 0) wU wV).1 ≠ 0 ∧
    (CeedBasisApply_Opt cexBasis 1 CEED_TRANSPOSE CEED_EVAL_WEIGHT (fun _ _ => 0) wU wV).2 0
      ≠ wV 0 := by
  decide

/-! ### The kernel `weight` and `CeedBasisApply_Cuda` -/

theorem okCalls_succeed : okCalls.succeed := by
  unfold CudaCalls.succeed okCalls
  simp

theorem weightThread_eq {R : Type} [CommRing R] (m : KernelDefs) (qw v : Nat → R) :
    basiskernels.weightThread m qw v = forLoop (weightPassCuda m qw) m.BASIS_DIM v := rfl

/-- The single-block, single-thread launch of `weight` runs its code once. -/
theorem weight_single {R : Type} [CommRing R] (m : KernelDefs) (qw v : Nat → R) :
    basiskernels.weight m [0] (fun _ => [0]) qw v = basiskernels.weightThread m qw v := rfl

theorem weightPassCuda_flat {R : Type} [CommRing R] (m : KernelDefs) (qw : Nat → R) (d : Nat)
    (hNQ : m.BASIS_NQPT = m.Q1D ^ m.BASIS_DIM) (hQ : 0 < m.Q1D) (hd : d < m.BASIS_DIM)
    (v : Nat → R) :
    weightPassCuda m qw d v
      = forLoop (fun idx v => store v idx
          (qw (idx / m.Q1D ^ d % m.Q1D) * (if d = 0 then 1 else v idx))) (m.Q1D ^ m.BASIS_DIM) v := by
  have hpre : preAt m.BASIS_NQPT m.Q1D d = m.Q1D ^ (m.BASIS_DIM - 1 - d) := by
    have := @preAt_pow 1 m.Q1D m.BASIS_DIM d hQ hd
    rw [Nat.one_mul, Nat.one_mul] at this
    rw [hNQ, this]
  have hN : m.Q1D ^ m.BASIS_DIM
      = m.Q1D ^ (m.BASIS_DIM - 1 - d) * (m.Q1D * m.Q1D ^ d) := by
    have e : m.BASIS_DIM = (m.BASIS_DIM - 1 - d) + (1 + d) := by omega
    conv_lhs => rw [e, pow_add, pow_add, pow_one]
  unfold weightPassCuda
  rw [hpre, postAt_eq]
  dsimp only
  rw [hN, ← forLoop_nest]
  apply forLoop_congr
  intro i _ s
  rw [← forLoop_nest]
  apply forLoop_congr
  intro j hj s
  apply forLoop_congr
  intro k hk s
  have hidx : i * (m.Q1D * m.Q1D ^ d) + (j * m.Q1D ^ d + k)
      = (i * m.Q1D + j) * m.Q1D ^ d + k := by ring
  have hdig : ((i * m.Q1D + j) * m.Q1D ^ d + k) / m.Q1D ^ d % m.Q1D = j := by
    have hpos : 0 < m.Q1D ^ d := Nat.lt_of_le_of_lt (Nat.zero_le _) hk
    rw [Nat.add_comm, Nat.add_mul_div_right _ _ hpos, Nat.div_eq_of_lt hk, Nat.zero_add,
      Nat.add_comm, Nat.add_mul_mod_self_right, Nat.mod_eq_of_lt hj]
  rw [hidx, hdig]

/-- One pass of `weight`: every entry below `Q1D^dim` is multiplied by (in the
first pass: set to) the weight of its digit `d`; the other entries stay. -/
theorem weightPassCuda_spec {R : Type} [CommRing R] (m : KernelDefs) (qw : Nat → R) (d : Nat)
    (hNQ : m.BASIS_NQPT = m.Q1D ^ m.BASIS_DIM) (hQ : 0 < m.Q1D) (hd : d < m.BASIS_DIM)
    (v : Nat → R) (k : Nat) :
    weightPassCuda m qw d v k
      = if k < m.Q1D ^ m.BASIS_DIM then
          qw (k / m.Q1D ^ d % m.Q1D) * (if d = 0 then 1 else v k)
        else v k := by
  rw [weightPassCuda_flat m qw d hNQ hQ hd]
  have h := forLoop_own
    (fun idx v => store v idx (qw (idx / m.Q1D ^ d % m.Q1D) * (if d = 0 then 1 else v idx)))
    (fun i k => k = i)
    (fun k x => qw (k / m.Q1D ^ d % m.Q1D) * (if d = 0 then 1 else x))
    (m.Q1D ^ m.BASIS_DIM)
    (by intro i _ v k hk; subst hk; simp [store])
    (by intro i _ v k hk; simp only [store]; rw [if_neg hk])
    (by intro i _ i' _ k h1 h2; rw [← h1, ← h2])
    v k
  by_cases hk : k < m.Q1D ^ m.BASIS_DIM
  · rw [if_pos hk]
    exact h.1 ⟨k, hk, rfl⟩
  · rw [if_neg hk]
    apply h.2
    intro i hi hik
    subst hik
    exact hk hi

theorem weightThread_passes {R : Type} [CommRing R] (m : KernelDefs) (qw : Nat → R)
    (hNQ : m.BASIS_NQPT = m.Q1D ^ m.BASIS_DIM) (hQ : 0 < m.Q1D) (v : Nat → R) (d : Nat)
    (hd : d ≤ m.BASIS_DIM) (k : Nat) :
    (k < m.Q1D ^ m.BASIS_DIM → 0 < d →
      forLoop (weightPassCuda m qw) d v k = ∏ a in Finset.range d, qw (k / m.Q1D ^ a % m.Q1D)) ∧
    (m.Q1D ^ m.BASIS_DIM ≤ k → forLoop (weightPassCuda m qw) d v k = v k) := by
  induction d with
  | zero => exact ⟨fun _ h => absurd h (Nat.lt_irrefl 0), fun _ => rfl⟩
  | succ d ih =>
    have ih' := ih (by omega)
    rw [forLoop_succ, weightPassCuda_spec m qw d hNQ hQ (by omega)]
    constructor
    · intro hk _
      rw [if_pos hk, Finset.prod_range_succ, mul_comm]
      congr 1
      by_cases h0 : d = 0
      · subst h0; simp
      · rw [if_neg h0]
        exact ih'.1 hk (by omega)
    · intro hk
      rw [if_neg (by omega)]
      exact ih'.2 hk

/-- The kernel `weight` as `CeedBasisApply_Cuda` launches it. -/
theorem weight_spec {R : Type} [CommRing R] (dim ncomp P1d Q1d : Nat) (qw v : Nat → R)
    (hdim : 1 ≤ dim) (hQ : 1 ≤ Q1d) (k : Nat) :
    basiskernels.weight (kernelDefs dim ncomp P1d Q1d) [0] (fun _ => [0]) qw v k
      = if k < Q1d ^ dim then ∏ a in Finset.range dim, qw (k / Q1d ^ a % Q1d) else v k := by
  rw [weight_single, weightThread_eq]
  have h := weightThread_passes (kernelDefs dim ncomp P1d Q1d) qw rfl hQ v dim (Nat.le_refl _) k
  by_cases hk : k < Q1d ^ dim
  · rw [if_pos hk]; exact h.1 hk hdim
  · rw [if_neg hk]; exact h.2 (Nat.le_of_not_lt hk)

/-- What `CeedBasisApply_Cuda` returns when no collaborator call fails. -/
theorem CeedBasisApply_Cuda_ok {R : Type} [CommRing R] (calls : CudaCalls)
    (blocksize vlength : Nat) (data : CeedBasis_Cuda R) (basis : CeedBasis R) (nelem : Nat)
    (tmode : CeedTransposeMode) (emode : CeedEvalMode) (u v : Nat → R)
    (hcalls : calls.succeed) :
    (CeedBasisApply_Cuda calls blocksize vlength data basis nelem tmode emode u v).ierr = 0 := by
  obtain ⟨h1, h2, h3, h4, h5, h6, h7⟩ := hcalls
  unfold CeedBasisApply_Cuda
  simp [h1, h2, h3, h4, h5, h6, h7]

/-- The array `v` after a forward WEIGHT call in which no collaborator call
fails: the launch of `data->weight` on one block of one thread. -/
theorem CeedBasisApply_Cuda_weight_v {R : Type} [CommRing R] (calls : CudaCalls)
    (blocksize vlength : Nat) (data : CeedBasis_Cuda R) (basis : CeedBasis R) (nelem : Nat)
    (u v : Nat → R) (hcalls : calls.succeed) :
    (CeedBasisApply_Cuda calls blocksize vlength data basis nelem
      CEED_NOTRANSPOSE CEED_EVAL_WEIGHT u v).v
      = (match data.weight with
          | some kernel => kernel 1 1 basis.qweight1d v
          | none => v) := by
  obtain ⟨h1, h2, h3, h4, h5, h6, h7⟩ := hcalls
  unfold CeedBasisApply_Cuda
  simp [h1, h2, h3, h4, h5, h6, h7]

/-- With a `NULL` handle in `data->weight` a forward WEIGHT call leaves `v` as
it was, whatever the collaborators return. -/
theorem CeedBasisApply_Cuda_weight_null {R : Type} [CommRing R] (calls : CudaCalls)
    (blocksize vlength : Nat) (data : CeedBasis_Cuda R) (basis : CeedBasis R) (nelem : Nat)
    (u v : Nat → R) (hnull : data.weight = none) :
    (CeedBasisApply_Cuda calls blocksize vlength data basis nelem
      CEED_NOTRANSPOSE CEED_EVAL_WEIGHT u v).v = v := by
  unfold CeedBasisApply_Cuda
  simp only [hnull]
  split_ifs <;> first | rfl | contradiction

/-! ### The grid-stride loop of the restriction kernels -/

theorem gridStride_eq_foldl {σ : Type} (gridDim blockDim : Nat) (blockOrder : List Nat)
    (sched : Nat → List Nat) (esize : Nat) (body : Nat → σ → σ) (s : σ) :
    gridStride gridDim blockDim blockOrder sched esize body s
      = (gridList gridDim blockDim blockOrder sched esize).foldl (fun s i => body i s) s := by
  unfold gridStride gridList
  have h1 : ∀ b (s : σ),
      runThreads (sched b) (fun threadIdx s =>
        strided (b * blockDim + threadIdx) (blockDim * gridDim) esize body s) s
      = ((sched b).flatMap (fun t => stridedList (b * blockDim + t) (blockDim * gridDim) esize)).foldl
          (fun s i => body i s) s := by
    intro b s
    rw [← runThreads_eq_foldl]
    congr 1
    funext t s
    rw [strided_eq_foldl]
  have h2 := runThreads_eq_foldl blockOrder
    (fun b => (sched b).flatMap (fun t => stridedList (b * blockDim + t) (blockDim * gridDim) esize))
    (fun (s : σ) i => body i s) s
  rw [← h2]
  unfold runThreads
  congr 1
  funext s b
  exact h1 b s

theorem stridedList_nodup (i step n : Nat) (hstep : 0 < step) :
    (stridedList i step n).Nodup := by
  unfold stridedList
  apply List.Nodup.map
  · intro a b hab
    have hab' : i + a * step = i + b * step := hab
    have : a * step = b * step := by omega
    exact Nat.eq_of_mul_eq_mul_right hstep this
  · exact List.nodup_range _

/-- An index processed by the thread that starts at `i < step` is congruent to
`i` modulo the stride. -/
theorem stridedList_mod {i step n k : Nat} (_hstep : 0 < step) (hi : i < step)
    (hk : k ∈ stridedList i step n) : k % step = i := by
  unfold stridedList at hk
  rw [List.mem_map] at hk
  obtain ⟨t, _, rfl⟩ := hk
  rw [Nat.add_mul_mod_self_right, Nat.mod_eq_of_lt hi]

theorem mem_stridedList_mod {step n k : Nat} (hstep : 0 < step) (hk : k < n) :
    k ∈ stridedList (k % step) step n := by
  rw [mem_stridedList hstep]
  refine ⟨hk, Nat.mod_le _ _, ?_⟩
  have h := Nat.mod_add_div k step
  have : k - k % step = step * (k / step) := by omega
  rw [this, Nat.mul_mod_right]

theorem thread_start_lt {gridDim blockDim b t : Nat} (hb : b < gridDim) (ht : t < blockDim) :
    b * blockDim + t < blockDim * gridDim := by
  have := Nat.mul_le_mul_right blockDim (Nat.succ_le_of_lt hb)
  rw [Nat.succ_mul, Nat.mul_comm gridDim blockDim] at this
  omega

theorem mem_gridList {gridDim blockDim : Nat} {blockOrder : List Nat} {sched : Nat → List Nat}
    {esize : Nat} (hgd : 0 < gridDim) (hbd : 0 < blockDim)
    (hblocks : blockOrder.Perm (List.range gridDim))
    (hsched : ∀ b, (sched b).Perm (List.range blockDim)) (k : Nat) :
    k ∈ gridList gridDim blockDim blockOrder sched esize ↔ k < esize := by
  have hstep : 0 < blockDim * gridDim := Nat.mul_pos hbd hgd
  unfold gridList
  simp only [List.mem_flatMap]
  constructor
  · rintro ⟨b, _, t, _, hk⟩
    exact ((mem_stridedList hstep).mp hk).1
  · intro hk
    have hlt : k % (blockDim * gridDim) < blockDim * gridDim := Nat.mod_lt _ hstep
    refine ⟨k % (blockDim * gridDim) / blockDim, ?_, k % (blockDim * gridDim) % blockDim, ?_, ?_⟩
    · apply perm_range_mem hblocks
      exact Nat.div_lt_of_lt_mul hlt
    · apply perm_range_mem (hsched _)
      exact Nat.mod_lt _ hbd
    · rw [Nat.div_add_mod']
      exact mem_stridedList_mod hstep hk

theorem gridList_nodup {gridDim blockDim : Nat} {blockOrder : List Nat} {sched : Nat → List Nat}
    {esize : Nat} (hgd : 0 < gridDim) (hbd : 0 < blockDim)
    (hblocks : blockOrder.Perm (List.range gridDim))
    (hsched : ∀ b, (sched b).Perm (List.range blockDim)) :
    (gridList gridDim blockDim blockOrder sched esize).Nodup := by
  have hstep : 0 < blockDim * gridDim := Nat.mul_pos hbd hgd
  have hbmem : ∀ b, b ∈ blockOrder → b < gridDim := fun b hb =>
    List.mem_range.mp (hblocks.subset hb)
  have htmem : ∀ b t, t ∈ sched b → t < blockDim := fun b t ht =>
    List.mem_range.mp ((hsched b).subset ht)
  unfold gridList
  rw [List.nodup_flatMap]
  constructor
  · intro b hb
    rw [List.nodup_flatMap]
    constructor
    · intro t _
      exact stridedList_nodup _ _ _ hstep
    · apply List.Nodup.pairwise_of_forall_ne ((hsched b).nodup_iff.mpr (List.nodup_range _))
      intro t ht t' ht' hne
      rw [Function.onFun, List.disjoint_left]
      intro k hk hk'
      have h1 := stridedList_mod hstep (thread_start_lt (hbmem b hb) (htmem b t ht)) hk
      have h2 := stridedList_mod hstep (thread_start_lt (hbmem b hb) (htmem b t' ht')) hk'
      apply hne
      omega
  · apply List.Nodup.pairwise_of_forall_ne (hblocks.nodup_iff.mpr (List.nodup_range _))
    intro b hb b' hb' hne
    rw [Function.onFun, List.disjoint_left]
    intro k hk hk'
    rw [List.mem_flatMap] at hk hk'
    obtain ⟨t, ht, hk⟩ := hk
    obtain ⟨t', ht', hk'⟩ := hk'
    have h1 := stridedList_mod hstep (thread_start_lt (hbmem b hb) (htmem b t ht)) hk
    have h2 := stridedList_mod hstep (thread_start_lt (hbmem b' hb') (htmem b' t' ht')) hk'
    have hlt := htmem b t ht
    have hlt' := htmem b' t' ht'
    apply hne
    have e : b * blockDim + t = b' * blockDim + t' := by omega
    have e1 : (b * blockDim + t) / blockDim = b := by
      rw [Nat.add_comm, Nat.add_mul_div_right _ _ hbd, Nat.div_eq_of_lt hlt, Nat.zero_add]
    have e2 : (b' * blockDim + t') / blockDim = b' := by
      rw [Nat.add_comm, Nat.add_mul_div_right _ _ hbd, Nat.div_eq_of_lt hlt', Nat.zero_add]
    rw [← e1, ← e2, e]

/-- Every flat index below `esize` is processed exactly once. -/
theorem gridList_perm {gridDim blockDim : Nat} {blockOrder : List Nat} {sched : Nat → List Nat}
    {esize : Nat} (hgd : 0 < gridDim) (hbd : 0 < blockDim)
    (hblocks : blockOrder.Perm (List.range gridDim))
    (hsched : ∀ b, (sched b).Perm (List.range blockDim)) :
    (gridList gridDim blockDim blockOrder sched esize).Perm (List.range esize) := by
  rw [List.perm_ext_iff_of_nodup (gridList_nodup hgd hbd hblocks hsched) (List.nodup_range _)]
  intro k
  rw [mem_gridList hgd hbd hblocks hsched, List.mem_range]

/-! ### Sequences of stores and atomic additions -/

/-- A sequence of assignments `v[i] = F i`. -/
theorem foldl_store {R : Type} (F : Nat → R) (l : List Nat) (v : Nat → R) (k : Nat) :
    l.foldl (fun v i => store v i (F i)) v k = if k ∈ l then F k else v k := by
  induction l generalizing v with
  | nil => simp
  | cons i l ih =>
    rw [List.foldl_cons, ih]
    by_cases hk : k ∈ l
    · rw [if_pos hk, if_pos (List.mem_cons_of_mem _ hk)]
    · rw [if_neg hk]
      simp only [store]
      by_cases hki : k = i
      · rw [if_pos hki, if_pos (by rw [hki]; exact List.mem_cons_self _ _), hki]
      · rw [if_neg hki, if_neg]
        intro hc
        rcases List.mem_cons.mp hc with h | h
        · exact hki h
        · exact hk h

/-- A sequence of atomic additions `v[tgt i] += u[i]`. -/
theorem foldl_atomicAdd {R : Type} [CommRing R] (tgt : Nat → Nat) (u : Nat → R) (l : List Nat)
    (v : Nat → R) (g : Nat) :
    l.foldl (fun v i => atomicAdd v (tgt i) (u i)) v g
      = v g + (l.map (fun i => if tgt i = g then u i else 0)).sum := by
  induction l generalizing v with
  | nil => simp
  | cons i l ih =>
    rw [List.foldl_cons, ih, List.map_cons, List.sum_cons, ← add_assoc]
    congr 1
    unfold atomicAdd store
    by_cases h : tgt i = g
    · rw [if_pos h.symm, if_pos h, h]
    · rw [if_neg (fun hc => h hc.symm), if_neg h, add_zero]

theorem sum_map_range {M : Type} [AddCommMonoid M] (f : Nat → M) (n : Nat) :
    ((List.range n).map f).sum = ∑ i in Finset.range n, f i := by
  induction n with
  | zero => simp
  | succ n ih =>
    rw [List.range_succ, List.map_append, List.sum_append, ih, Finset.sum_range_succ]
    simp

/-- A grid-stride loop of assignments `v[i] = F i`. -/
theorem gridStride_store {R : Type} (gridDim blockDim : Nat) (blockOrder : List Nat)
    (sched : Nat → List Nat) (esize : Nat) (F : Nat → R) (v : Nat → R)
    (hgd : 0 < gridDim) (hbd : 0 < blockDim)
    (hblocks : blockOrder.Perm (List.range gridDim))
    (hsched : ∀ b, (sched b).Perm (List.range blockDim)) (k : Nat) :
    gridStride gridDim blockDim blockOrder sched esize (fun i v => store v i (F i)) v k
      = if k < esize then F k else v k := by
  rw [gridStride_eq_foldl, foldl_store]
  by_cases hk : k < esize
  · rw [if_pos hk, if_pos ((mem_gridList hgd hbd hblocks hsched k).mpr hk)]
  · rw [if_neg hk, if_neg (fun hc => hk ((mem_gridList hgd hbd hblocks hsched k).mp hc))]

/-- A grid-stride loop of atomic additions `v[tgt i] += u[i]`. -/
theorem gridStride_atomicAdd {R : Type} [CommRing R] (gridDim blockDim : Nat)
    (blockOrder : List Nat) (sched : Nat → List Nat) (esize : Nat) (tgt : Nat → Nat)
    (u v : Nat → R) (hgd : 0 < gridDim) (hbd : 0 < blockDim)
    (hblocks : blockOrder.Perm (List.range gridDim))
    (hsched : ∀ b, (sched b).Perm (List.range blockDim)) (g : Nat) :
    gridStride gridDim blockDim blockOrder sched esize
        (fun i v => atomicAdd v (tgt i) (u i)) v g
      = v g + ∑ i in (Finset.range esize).filter (fun i => tgt i = g), u i := by
  rw [gridStride_eq_foldl, foldl_atomicAdd,
    ((gridList_perm hgd hbd hblocks hsched).map _).sum_eq, sum_map_range, Finset.sum_filter]

/-! ### Claims on `CeedBasisApply_Cuda` -/

/-- C13: on the CUDA backend the weights are not broadcast across elements.
`CeedBasisCreateTensorH1_Cuda` leaves the handle `data->weight` `NULL` (the
module is compiled from `kernels3dreg` and the `get_kernel` call for `weight` is
commented out), and with the backend data it leaves, `CeedBasisApply_Cuda` with
`CEED_NOTRANSPOSE` and `CEED_EVAL_WEIGHT` leaves every entry of `v` as it was,
for any `nelem` and whatever the collaborators return. With the kernel `weight`
of `basiskernels` behind `data->weight` (`dim >= 1`, `Q1d >= 1`, any `nelem`, no
collaborator call failing) the call returns 0 after launching `weight` on one
block of one thread: the first `Q1D^dim` entries of `v` (element 0) receive the
products of the one-dimensional weights, and every entry from `Q1D^dim` on, so
every element `e >= 1`, keeps the value it had. -/
theorem C13_cuda_weight_not_broadcast {R : Type} [CommRing R] (calls : CudaCalls)
    (blocksize vlength : Nat) (blockOrder : Nat → List Nat) (sched : Nat → Nat → List Nat)
    (regs : Nat → Nat → Nat → Nat → R) (data : CeedBasis_Cuda R) (basis : CeedBasis R)
    (nelem : Nat) (u v : Nat → R) :
    (CeedBasisCreateTensorH1_Cuda blockOrder sched regs basis).weight = none ∧
    (CeedBasisApply_Cuda calls blocksize vlength
      (CeedBasisCreateTensorH1_Cuda blockOrder sched regs basis) basis nelem
      CEED_NOTRANSPOSE CEED_EVAL_WEIGHT u v).v = v ∧
    (data.weight
        = some (basisWeightHandle (kernelDefs basis.dim basis.ncomp basis.P1d basis.Q1d)) →
      calls.succeed → 1 ≤ basis.dim → 1 ≤ basis.Q1d →
      (CeedBasisApply_Cuda calls blocksize vlength data basis nelem
        CEED_NOTRANSPOSE CEED_EVAL_WEIGHT u v).ierr = 0 ∧
      (∀ idx, idx < basis.Q1d ^ basis.dim →
        (CeedBasisApply_Cuda calls blocksize vlength data basis nelem
          CEED_NOTRANSPOSE CEED_EVAL_WEIGHT u v).v idx
          = ∏ k in Finset.range basis.dim, basis.qweight1d (idx / basis.Q1d ^ k % basis.Q1d)) ∧
      (∀ k, basis.Q1d ^ basis.dim ≤ k →
        (CeedBasisApply_Cuda calls blocksize vlength data basis nelem
          CEED_NOTRANSPOSE CEED_EVAL_WEIGHT u v).v k = v k)) := by
  refine ⟨rfl, CeedBasisApply_Cuda_weight_null _ _ _ _ _ _ _ _ rfl, ?_⟩
  intro hdata hcalls hdim hQ
  have hv : (CeedBasisApply_Cuda calls blocksize vlength data basis nelem
      CEED_NOTRANSPOSE CEED_EVAL_WEIGHT u v).v
      = basiskernels.weight (kernelDefs basis.dim basis.ncomp basis.P1d basis.Q1d) [0]
          (fun _ => [0]) basis.qweight1d v := by
    rw [CeedBasisApply_Cuda_weight_v _ _ _ _ _ _ _ _ hcalls, hdata]
    rfl
  refine ⟨CeedBasisApply_Cuda_ok _ _ _ _ _ _ _ _ _ _ hcalls, ?_, ?_⟩
  · intro idx hidx
    rw [hv, weight_spec _ _ _ _ _ _ hdim hQ, if_pos hidx]
  · intro k hk
    rw [hv, weight_spec _ _ _ _ _ _ hdim hQ, if_neg (by omega)]

/-- Witness of C13 on `w2Basis` with two elements and `v[i] = 7 - i` before the
call. With the backend data that `CeedBasisCreateTensorH1_Cuda` leaves, the
first weight of element 0, `v[0]`, is still `7` and not `2 * 2`. With the kernel
`weight` of `basiskernels` behind the handle, the call returns 0 and the first
weight of element 1, `v[1 * 2^2 + 0]`, is still the old `v[4] = 3` and not
`2 * 2`. -/
theorem C13_cuda_weight_not_broadcast_witness :
    w2Data.weight = none ∧
    (CeedBasisApply_Cuda okCalls 1 0 w2Data w2Basis 2 CEED_NOTRANSPOSE CEED_EVAL_WEIGHT
      wU wV).v 0 = wV 0 ∧
    (CeedBasisApply_Cuda okCalls 1 0
      (CeedBasis_Cuda.mk none none
        (some (basisWeightHandle (kernelDefs w2Basis.dim w2Basis.ncomp w2Basis.P1d w2Basis.Q1d))))
      w2Basis 2 CEED_NOTRANSPOSE CEED_EVAL_WEIGHT wU wV).ierr = 0 ∧
    (CeedBasisApply_Cuda okCalls 1 0
      (CeedBasis_Cuda.mk none none
        (some (basisWeightHandle (kernelDefs w2Basis.dim w2Basis.ncomp w2Basis.P1d w2Basis.Q1d))))
      w2Basis 2 CEED_NOTRANSPOSE CEED_EVAL_WEIGHT wU wV).v (1 * w2Basis.Q1d ^ w2Basis.dim + 0)
      = wV 4 ∧
    wV 0 ≠ ∏ k in Finset.range w2Basis.dim,
      w2Basis.qweight1d (0 / w2Basis.Q1d ^ k % w2Basis.Q1d) ∧
    wV 4 ≠ ∏ k in Finset.range w2Basis.dim,
      w2Basis.qweight1d (0 / w2Basis.Q1d ^ k % w2Basis.Q1d) :=
  ⟨(C13_cuda_weight_not_broadcast okCalls 1 0 (fun g => List.range g)
      (fun n _ => List.range n) (fun _ _ _ _ => 0) w2Data w2Basis 2 wU wV).1,
    congrFun (C13_cuda_weight_not_broadcast okCalls 1 0 (fun g => List.range g)
      (fun n _ => List.range n) (fun _ _ _ _ => 0) w2Data w2Basis 2 wU wV).2.1 0,
    ((C13_cuda_weight_not_broadcast okCalls 1 0 (fun g => List.range g)
      (fun n _ => List.range n) (fun _ _ _ _ => 0)
      (CeedBasis_Cuda.mk none none
        (some (basisWeightHandle (kernelDefs w2Basis.dim w2Basis.ncomp w2Basis.P1d w2Basis.Q1d))))
      w2Basis 2 wU wV).2.2 rfl okCalls_succeed (by decide) (by decide)).1,
    ((C13_cuda_weight_not_broadcast okCalls 1 0 (fun g => List.range g)
      (fun n _ => List.range n) (fun _ _ _ _ => 0)
      (CeedBasis_Cuda.mk none none
        (some (basisWeightHandle (kernelDefs w2Basis.dim w2Basis.ncomp w2Basis.P1d w2Basis.Q1d))))
      w2Basis 2 wU wV).2.2 rfl okCalls_succeed (by decide) (by decide)).2.2 4 (by decide),
    by decide, by decide⟩

/-- C15: `CeedBasisApply_Cuda` does not report unsupported modes. When no
collaborator call fails it returns 0 for `CEED_EVAL_DIV`, `CEED_EVAL_CURL` and
`CEED_EVAL_NONE` in either transpose mode, and for `CEED_EVAL_WEIGHT` with
`CEED_TRANSPOSE`: the chain of `if`/`else if` on `emode` has no final `else`
and the WEIGHT branch does not look at `tmode`. -/
theorem C15_cuda_apply_accepts_unsupported_modes {R : Type} [CommRing R] (calls : CudaCalls)
    (blocksize vlength : Nat) (data : CeedBasis_Cuda R) (basis : CeedBasis R) (nelem : Nat)
    (tmode : CeedTransposeMode) (emode : CeedEvalMode) (u v : Nat → R) (hcalls : calls.succeed)
    (_hmode : emode = CEED_EVAL_DIV ∨ emode = CEED_EVAL_CURL ∨ emode = CEED_EVAL_NONE ∨
      (emode = CEED_EVAL_WEIGHT ∧ tmode = CEED_TRANSPOSE)) :
    (CeedBasisApply_Cuda calls blocksize vlength data basis nelem tmode emode u v).ierr = 0 :=
  CeedBasisApply_Cuda_ok _ _ _ _ _ _ _ _ _ _ hcalls

/-- Witness of C15 on `wBasis`: `CEED_EVAL_DIV` is accepted with status 0. -/
theorem C15_cuda_apply_accepts_unsupported_modes_witness :
    (okCalls.succeed ∧
      (CEED_EVAL_DIV = CEED_EVAL_DIV ∨ CEED_EVAL_DIV = CEED_EVAL_CURL ∨
        CEED_EVAL_DIV = CEED_EVAL_NONE ∨
        (CEED_EVAL_DIV = CEED_EVAL_WEIGHT ∧ CEED_NOTRANSPOSE = CEED_TRANSPOSE))) ∧
    (CeedBasisApply_Cuda okCalls 2 4 wData wBasis 1
      CEED_NOTRANSPOSE CEED_EVAL_DIV wU wV).ierr = 0 :=
  ⟨⟨okCalls_succeed, Or.inl rfl⟩,
    C15_cuda_apply_accepts_unsupported_modes okCalls 2 4 wData wBasis 1 CEED_NOTRANSPOSE
      CEED_EVAL_DIV wU wV okCalls_succeed (Or.inl rfl)⟩

/-! ### Claims on the restriction kernels -/

/-- C19: forward restriction with an index array. For any positive grid and
block sizes, the blocks and the threads of each block running in any order, and
every flat index `i < nelem*elemsize*ncomp`, with `e = i / (ncomp*elemsize)`,
`d = (i / elemsize) mod ncomp` and `s = i mod elemsize`, the kernel `noTrNoTr`
leaves `v[i] = u[indices[s + elemsize*e] + ndof*d]` and the kernel `noTrTr`
leaves `v[i] = u[ncomp*indices[s + elemsize*e] + d]`. The input `u` is `const`:
the kernels write `v` only. -/
theorem C19_gather {R : Type} (m : RestrictionDefs) (gridDim blockDim : Nat)
    (blockOrder : List Nat) (sched : Nat → List Nat) (nelem : Nat) (indices : Nat → Nat)
    (u v : Nat → R) (hgd : 0 < gridDim) (hbd : 0 < blockDim)
    (hblocks : blockOrder.Perm (List.range gridDim))
    (hsched : ∀ b, (sched b).Perm (List.range blockDim)) (i : Nat)
    (hi : i < nelem * m.RESTRICTION_ELEMSIZE * m.RESTRICTION_NCOMP) :
    restrictionkernels.noTrNoTr m gridDim blockDim blockOrder sched nelem (some indices) u v i
      = u (indices (i % m.RESTRICTION_ELEMSIZE
            + m.RESTRICTION_ELEMSIZE * (i / (m.RESTRICTION_NCOMP * m.RESTRICTION_ELEMSIZE)))
          + m.RESTRICTION_NDOF * (i / m.RESTRICTION_ELEMSIZE % m.RESTRICTION_NCOMP)) ∧
    restrictionkernels.noTrTr m gridDim blockDim blockOrder sched nelem (some indices) u v i
      = u (m.RESTRICTION_NCOMP * indices (i % m.RESTRICTION_ELEMSIZE
            + m.RESTRICTION_ELEMSIZE * (i / (m.RESTRICTION_NCOMP * m.RESTRICTION_ELEMSIZE)))
          + i / m.RESTRICTION_ELEMSIZE % m.RESTRICTION_NCOMP) := by
  have hi' : i < m.RESTRICTION_ELEMSIZE * m.RESTRICTION_NCOMP * nelem := by
    have e : m.RESTRICTION_ELEMSIZE * m.RESTRICTION_NCOMP * nelem
        = nelem * m.RESTRICTION_ELEMSIZE * m.RESTRICTION_NCOMP := by ring
    rw [e]; exact hi
  constructor
  · unfold restrictionkernels.noTrNoTr
    dsimp only
    rw [gridStride_store gridDim blockDim blockOrder sched _ _ v hgd hbd hblocks hsched,
      if_pos hi']
  · unfold restrictionkernels.noTrTr
    dsimp only
    rw [gridStride_store gridDim blockDim blockOrder sched _ _ v hgd hbd hblocks hsched,
      if_pos hi']

/-- The order `wThreads` is an order of three threads. -/
theorem wThreads_perm : wThreads.Perm (List.range 3) := by decide

/-- Witness of C19 on `wRestr` and `wIndices`: two blocks of three threads, the
blocks and the threads in an order that is not the index order. -/
theorem C19_gather_witness :
    (0 < 2 ∧ 0 < 3 ∧ wOrder.Perm (List.range 2) ∧ (∀ _b : Nat, wThreads.Perm (List.range 3)) ∧
      5 < 2 * wRestr.RESTRICTION_ELEMSIZE * wRestr.RESTRICTION_NCOMP) ∧
    restrictionkernels.noTrNoTr wRestr 2 3 wOrder (fun _ => wThreads) 2 (some wIndices) wU wV 5
      = wU (wIndices (5 % wRestr.RESTRICTION_ELEMSIZE
            + wRestr.RESTRICTION_ELEMSIZE
              * (5 / (wRestr.RESTRICTION_NCOMP * wRestr.RESTRICTION_ELEMSIZE)))
          + wRestr.RESTRICTION_NDOF * (5 / wRestr.RESTRICTION_ELEMSIZE % wRestr.RESTRICTION_NCOMP)) ∧
    restrictionkernels.noTrTr wRestr 2 3 wOrder (fun _ => wThreads) 2 (some wIndices) wU wV 5
      = wU (wRestr.RESTRICTION_NCOMP * wIndices (5 % wRestr.RESTRICTION_ELEMSIZE
            + wRestr.RESTRICTION_ELEMSIZE
              * (5 / (wRestr.RESTRICTION_NCOMP * wRestr.RESTRICTION_ELEMSIZE)))
          + 5 / wRestr.RESTRICTION_ELEMSIZE % wRestr.RESTRICTION_NCOMP) :=
  ⟨⟨by decide, by decide, wOrder_perm, fun _ => wThreads_perm, by decide⟩,
    C19_gather wRestr 2 3 wOrder (fun _ => wThreads) 2 wIndices wU wV (by decide) (by decide)
      wOrder_perm (fun _ => wThreads_perm) 5 (by decide)⟩

/-- C20: transpose restriction with an index array accumulates. For any
positive grid and block sizes and any order of the blocks and of the threads of
each block, after `trNoTr` every entry `g` of `v` is its initial value plus the
sum of `u[i]` over the flat indices `i < nelem*elemsize*ncomp` whose target
address `indices[s + elemsize*e] + ndof*d` is `g`; after `trTr` the same holds
with the target address `ncomp*indices[s + elemsize*e] + d`. An entry that is
the target of no flat index keeps its value. The result is the same for every
order in which the flat indices are processed: the right-hand sides do not
mention the order, and the atomic additions `v[tgt i] += u[i]` done one after
the other in any order `ks` of the flat indices give the same entry. -/
theorem C20_scatter_add {R : Type} [CommRing R] (m : RestrictionDefs) (gridDim blockDim : Nat)
    (blockOrder : List Nat) (sched : Nat → List Nat) (nelem : Nat) (indices : Nat → Nat)
    (u v : Nat → R) (hgd : 0 < gridDim) (hbd : 0 < blockDim)
    (hblocks : blockOrder.Perm (List.range gridDim))
    (hsched : ∀ b, (sched b).Perm (List.range blockDim)) (g : Nat) :
    (restrictionkernels.trNoTr m gridDim blockDim blockOrder sched nelem (some indices) u v g
      = v g + ∑ i in (Finset.range (nelem * m.RESTRICTION_ELEMSIZE * m.RESTRICTION_NCOMP)).filter
          (fun i => indices (i % m.RESTRICTION_ELEMSIZE
              + m.RESTRICTION_ELEMSIZE * (i / (m.RESTRICTION_NCOMP * m.RESTRICTION_ELEMSIZE)))
            + m.RESTRICTION_NDOF * (i / m.RESTRICTION_ELEMSIZE % m.RESTRICTION_NCOMP) = g), u i) ∧
    (restrictionkernels.trTr m gridDim blockDim blockOrder sched nelem (some indices) u v g
      = v g + ∑ i in (Finset.range (nelem * m.RESTRICTION_ELEMSIZE * m.RESTRICTION_NCOMP)).filter
          (fun i => m.RESTRICTION_NCOMP * indices (i % m.RESTRICTION_ELEMSIZE
              + m.RESTRICTION_ELEMSIZE * (i / (m.RESTRICTION_NCOMP * m.RESTRICTION_ELEMSIZE)))
            + i / m.RESTRICTION_ELEMSIZE % m.RESTRICTION_NCOMP = g), u i) ∧
    ((∀ i, i < nelem * m.RESTRICTION_ELEMSIZE * m.RESTRICTION_NCOMP →
        indices (i % m.RESTRICTION_ELEMSIZE
            + m.RESTRICTION_ELEMSIZE * (i / (m.RESTRICTION_NCOMP * m.RESTRICTION_ELEMSIZE)))
          + m.RESTRICTION_NDOF * (i / m.RESTRICTION_ELEMSIZE % m.RESTRICTION_NCOMP) ≠ g) →
      restrictionkernels.trNoTr m gridDim blockDim blockOrder sched nelem (some indices) u v g
        = v g) ∧
    ((∀ i, i < nelem * m.RESTRICTION_ELEMSIZE * m.RESTRICTION_NCOMP →
        m.RESTRICTION_NCOMP * indices (i % m.RESTRICTION_ELEMSIZE
            + m.RESTRICTION_ELEMSIZE * (i / (m.RESTRICTION_NCOMP * m.RESTRICTION_ELEMSIZE)))
          + i / m.RESTRICTION_ELEMSIZE % m.RESTRICTION_NCOMP ≠ g) →
      restrictionkernels.trTr m gridDim blockDim blockOrder sched nelem (some indices) u v g
        = v g) ∧
    (∀ (tgt : Nat → Nat) (ks : List Nat),
      ks.Perm (List.range (nelem * m.RESTRICTION_ELEMSIZE * m.RESTRICTION_NCOMP)) →
      ks.foldl (fun v i => atomicAdd v (tgt i) (u i)) v g
        = v g + ∑ i in (Finset.range
            (nelem * m.RESTRICTION_ELEMSIZE * m.RESTRICTION_NCOMP)).filter
          (fun i => tgt i = g), u i) := by
  have e : m.RESTRICTION_ELEMSIZE * m.RESTRICTION_NCOMP * nelem
      = nelem * m.RESTRICTION_ELEMSIZE * m.RESTRICTION_NCOMP := by ring
  have h1 : restrictionkernels.trNoTr m gridDim blockDim blockOrder sched nelem (some indices)
      u v g
      = v g + ∑ i in (Finset.range (nelem * m.RESTRICTION_ELEMSIZE * m.RESTRICTION_NCOMP)).filter
          (fun i => indices (i % m.RESTRICTION_ELEMSIZE
              + m.RESTRICTION_ELEMSIZE * (i / (m.RESTRICTION_NCOMP * m.RESTRICTION_ELEMSIZE)))
            + m.RESTRICTION_NDOF * (i / m.RESTRICTION_ELEMSIZE % m.RESTRICTION_NCOMP) = g),
          u i := by
    unfold restrictionkernels.trNoTr
    dsimp only
    rw [gridStride_atomicAdd gridDim blockDim blockOrder sched _ _ u v hgd hbd hblocks hsched, e]
  have h2 : restrictionkernels.trTr m gridDim blockDim blockOrder sched nelem (some indices)
      u v g
      = v g + ∑ i in (Finset.range (nelem * m.RESTRICTION_ELEMSIZE * m.RESTRICTION_NCOMP)).filter
          (fun i => m.RESTRICTION_NCOMP * indices (i % m.RESTRICTION_ELEMSIZE
              + m.RESTRICTION_ELEMSIZE * (i / (m.RESTRICTION_NCOMP * m.RESTRICTION_ELEMSIZE)))
            + i / m.RESTRICTION_ELEMSIZE % m.RESTRICTION_NCOMP = g), u i := by
    unfold restrictionkernels.trTr
    dsimp only
    rw [gridStride_atomicAdd gridDim blockDim blockOrder sched _ _ u v hgd hbd hblocks hsched, e]
  refine ⟨h1, h2, fun hno => ?_, fun hno => ?_, fun tgt ks hks => ?_⟩
  · rw [h1, Finset.filter_eq_empty_iff.mpr, Finset.sum_empty, add_zero]
    intro i hi
    exact hno i (Finset.mem_range.mp hi)
  · rw [h2, Finset.filter_eq_empty_iff.mpr, Finset.sum_empty, add_zero]
    intro i hi
    exact hno i (Finset.mem_range.mp hi)
  · rw [foldl_atomicAdd, (hks.map _).sum_eq, sum_map_range, Finset.sum_filter]

/-- Witness of C20 on `wRestr` and `wIndices`, whose global node 1 is shared by
the two elements: entry 1 receives two contributions. -/
theorem C20_scatter_add_witness :
    (0 < 2 ∧ 0 < 3 ∧ wOrder.Perm (List.range 2) ∧ (∀ _b : Nat, wThreads.Perm (List.range 3))) ∧
    (restrictionkernels.trNoTr wRestr 2 3 wOrder (fun _ => wThreads) 2 (some wIndices) wU wV 1
      = wV 1 + ∑ i in (Finset.range
            (2 * wRestr.RESTRICTION_ELEMSIZE * wRestr.RESTRICTION_NCOMP)).filter
          (fun i => wIndices (i % wRestr.RESTRICTION_ELEMSIZE
              + wRestr.RESTRICTION_ELEMSIZE
                * (i / (wRestr.RESTRICTION_NCOMP * wRestr.RESTRICTION_ELEMSIZE)))
            + wRestr.RESTRICTION_NDOF
                * (i / wRestr.RESTRICTION_ELEMSIZE % wRestr.RESTRICTION_NCOMP) = 1), wU i) ∧
    (restrictionkernels.trTr wRestr 2 3 wOrder (fun _ => wThreads) 2 (some wIndices) wU wV 1
      = wV 1 + ∑ i in (Finset.range
            (2 * wRestr.RESTRICTION_ELEMSIZE * wRestr.RESTRICTION_NCOMP)).filter
          (fun i => wRestr.RESTRICTION_NCOMP * wIndices (i % wRestr.RESTRICTION_ELEMSIZE
              + wRestr.RESTRICTION_ELEMSIZE
                * (i / (wRestr.RESTRICTION_NCOMP * wRestr.RESTRICTION_ELEMSIZE)))
            + i / wRestr.RESTRICTION_ELEMSIZE % wRestr.RESTRICTION_NCOMP = 1), wU i) :=
  ⟨⟨by decide, by decide, wOrder_perm, fun _ => wThreads_perm⟩,
    (C20_scatter_add wRestr 2 3 wOrder (fun _ => wThreads) 2 wIndices wU wV (by decide)
      (by decide) wOrder_perm (fun _ => wThreads_perm) 1).1,
    (C20_scatter_add wRestr 2 3 wOrder (fun _ => wThreads) 2 wIndices wU wV (by decide)
      (by decide) wOrder_perm (fun _ => wThreads_perm) 1).2.1⟩

/-! ### The four restriction kernels on flat indices -/

theorem esize_comm (m : RestrictionDefs) (nelem : Nat) :
    m.RESTRICTION_ELEMSIZE * m.RESTRICTION_NCOMP * nelem
      = nelem * m.RESTRICTION_ELEMSIZE * m.RESTRICTION_NCOMP := by ring

theorem noTrNoTr_spec {R : Type} (m : RestrictionDefs) (gridDim blockDim : Nat)
    (blockOrder : List Nat) (sched : Nat → List Nat) (nelem : Nat) (indices : Option (Nat → Nat))
    (u v : Nat → R) (hgd : 0 < gridDim) (hbd : 0 < blockDim)
    (hblocks : blockOrder.Perm (List.range gridDim))
    (hsched : ∀ b, (sched b).Perm (List.range blockDim)) (i : Nat) :
    restrictionkernels.noTrNoTr m gridDim blockDim blockOrder sched nelem indices u v i
      = if i < nelem * m.RESTRICTION_ELEMSIZE * m.RESTRICTION_NCOMP then
          (match indices with
            | some ind => u (addrNoTr m ind i)
            | none => u (nullAddrNoTr m i))
        else v i := by
  unfold restrictionkernels.noTrNoTr
  cases indices with
  | some ind =>
    dsimp only
    rw [gridStride_store gridDim blockDim blockOrder sched _ _ v hgd hbd hblocks hsched, esize_comm]
    rfl
  | none =>
    dsimp only
    rw [gridStride_store gridDim blockDim blockOrder sched _ _ v hgd hbd hblocks hsched, esize_comm]
    rfl

theorem noTrTr_spec {R : Type} (m : RestrictionDefs) (gridDim blockDim : Nat)
    (blockOrder : List Nat) (sched : Nat → List Nat) (nelem : Nat) (indices : Option (Nat → Nat))
    (u v : Nat → R) (hgd : 0 < gridDim) (hbd : 0 < blockDim)
    (hblocks : blockOrder.Perm (List.range gridDim))
    (hsched : ∀ b, (sched b).Perm (List.range blockDim)) (i : Nat) :
    restrictionkernels.noTrTr m gridDim blockDim blockOrder sched nelem indices u v i
      = if i < nelem * m.RESTRICTION_ELEMSIZE * m.RESTRICTION_NCOMP then
          (match indices with
            | some ind => u (addrTr m ind i)
            | none => u (nullAddrTr m i))
        else v i := by
  unfold restrictionkernels.noTrTr
  cases indices with
  | some ind =>
    dsimp only
    rw [gridStride_store gridDim blockDim blockOrder sched _ _ v hgd hbd hblocks hsched, esize_comm]
    rfl
  | none =>
    dsimp only
    rw [gridStride_store gridDim blockDim blockOrder sched _ _ v hgd hbd hblocks hsched, esize_comm]
    rfl

theorem trNoTr_spec {R : Type} [CommRing R] (m : RestrictionDefs) (gridDim blockDim : Nat)
    (blockOrder : List Nat) (sched : Nat → List Nat) (nelem : Nat) (indices : Option (Nat → Nat))
    (u v : Nat → R) (hgd : 0 < gridDim) (hbd : 0 < blockDim)
    (hblocks : blockOrder.Perm (List.range gridDim))
    (hsched : ∀ b, (sched b).Perm (List.range blockDim)) (g : Nat) :
    restrictionkernels.trNoTr m gridDim blockDim blockOrder sched nelem indices u v g
      = v g + ∑ i in (Finset.range (nelem * m.RESTRICTION_ELEMSIZE * m.RESTRICTION_NCOMP)).filter
          (fun i => (match indices with
            | some ind => addrNoTr m ind i
            | none => nullAddrNoTr m i) = g), u i := by
  unfold restrictionkernels.trNoTr
  cases indices with
  | some ind =>
    dsimp only
    rw [gridStride_atomicAdd gridDim blockDim blockOrder sched _ _ u v hgd hbd hblocks hsched,
      esize_comm]
    rfl
  | none =>
    dsimp only
    rw [gridStride_atomicAdd gridDim blockDim blockOrder sched _ _ u v hgd hbd hblocks hsched,
      esize_comm]
    rfl

theorem trTr_spec {R : Type} [CommRing R] (m : RestrictionDefs) (gridDim blockDim : Nat)
    (blockOrder : List Nat) (sched : Nat → List Nat) (nelem : Nat) (indices : Option (Nat → Nat))
    (u v : Nat → R) (hgd : 0 < gridDim) (hbd : 0 < blockDim)
    (hblocks : blockOrder.Perm (List.range gridDim))
    (hsched : ∀ b, (sched b).Perm (List.range blockDim)) (g : Nat) :
    restrictionkernels.trTr m gridDim blockDim blockOrder sched nelem indices u v g
      = v g + ∑ i in (Finset.range (nelem * m.RESTRICTION_ELEMSIZE * m.RESTRICTION_NCOMP)).filter
          (fun i => (match indices with
            | some ind => addrTr m ind i
            | none => nullAddrTr m i) = g), u i := by
  unfold restrictionkernels.trTr
  cases indices with
  | some ind =>
    dsimp only
    rw [gridStride_atomicAdd gridDim blockDim blockOrder sched _ _ u v hgd hbd hblocks hsched,
      esize_comm]
    rfl
  | none =>
    dsimp only
    rw [gridStride_atomicAdd gridDim blockDim blockOrder sched _ _ u v hgd hbd hblocks hsched,
      esize_comm]
    rfl

/-- The triple `(e, d, s)` derived from a flat index below
`nelem*elemsize*ncomp`. -/
theorem flat_triple {nelem ES NC i : Nat} (hi : i < nelem * ES * NC) :
    0 < ES ∧ 0 < NC ∧ i / (NC * ES) < nelem ∧ i / ES % NC < NC ∧ i % ES < ES ∧
    i / (NC * ES) = i / ES / NC ∧
    i % ES + ES * (i / (NC * ES)) < nelem * ES := by
  have hES : 0 < ES := by
    rcases Nat.eq_zero_or_pos ES with h | h
    · subst h; simp at hi
    · exact h
  have hNC : 0 < NC := by
    rcases Nat.eq_zero_or_pos NC with h | h
    · subst h; simp at hi
    · exact h
  have he : i / (NC * ES) < nelem := by
    apply Nat.div_lt_of_lt_mul
    have : NC * ES * nelem = nelem * ES * NC := by ring
    rw [this]; exact hi
  have hs : i % ES < ES := Nat.mod_lt _ hES
  have hdiv : i / (NC * ES) = i / ES / NC := by
    rw [Nat.div_div_eq_div_mul, Nat.mul_comm]
  refine ⟨hES, hNC, he, Nat.mod_lt _ hNC, hs, hdiv, ?_⟩
  have h1 : ES * (i / (NC * ES) + 1) ≤ ES * nelem := Nat.mul_le_mul_left _ he
  rw [Nat.mul_add, Nat.mul_one, Nat.mul_comm ES nelem] at h1
  omega

theorem addrNoTr_lt {m : RestrictionDefs} {nelem : Nat} {ind : Nat → Nat} {i : Nat}
    (hind : ∀ k, k < nelem * m.RESTRICTION_ELEMSIZE → ind k < m.RESTRICTION_NDOF)
    (hi : i < nelem * m.RESTRICTION_ELEMSIZE * m.RESTRICTION_NCOMP) :
    addrNoTr m ind i < m.RESTRICTION_NDOF * m.RESTRICTION_NCOMP := by
  obtain ⟨_, _, _, hd, _, _, hpos⟩ := flat_triple hi
  have h1 := hind _ hpos
  have h2 : m.RESTRICTION_NDOF * (i / m.RESTRICTION_ELEMSIZE % m.RESTRICTION_NCOMP + 1)
      ≤ m.RESTRICTION_NDOF * m.RESTRICTION_NCOMP := Nat.mul_le_mul_left _ hd
  rw [Nat.mul_add, Nat.mul_one] at h2
  unfold addrNoTr
  omega

theorem addrTr_lt {m : RestrictionDefs} {nelem : Nat} {ind : Nat → Nat} {i : Nat}
    (hind : ∀ k, k < nelem * m.RESTRICTION_ELEMSIZE → ind k < m.RESTRICTION_NDOF)
    (hi : i < nelem * m.RESTRICTION_ELEMSIZE * m.RESTRICTION_NCOMP) :
    addrTr m ind i < m.RESTRICTION_NDOF * m.RESTRICTION_NCOMP := by
  obtain ⟨_, _, _, hd, _, _, hpos⟩ := flat_triple hi
  have h1 := hind _ hpos
  have h2 : m.RESTRICTION_NCOMP * (ind (i % m.RESTRICTION_ELEMSIZE
      + m.RESTRICTION_ELEMSIZE * (i / (m.RESTRICTION_NCOMP * m.RESTRICTION_ELEMSIZE))) + 1)
      ≤ m.RESTRICTION_NCOMP * m.RESTRICTION_NDOF := Nat.mul_le_mul_left _ h1
  rw [Nat.mul_add, Nat.mul_one, Nat.mul_comm m.RESTRICTION_NCOMP m.RESTRICTION_NDOF] at h2
  unfold addrTr
  omega

/-- Gathering along `tgt` is adjoint to scattering along `tgt` when every
target lies below `N`. -/
theorem gather_scatter_adjoint {R : Type} [CommRing R] (n N : Nat) (tgt : Nat → Nat)
    (a b : Nat → R) (htgt : ∀ i, i < n → tgt i < N) :
    ∑ i in Finset.range n, a (tgt i) * b i
      = ∑ g in Finset.range N,
          a g * (0 + ∑ i in (Finset.range n).filter (fun i => tgt i = g), b i) := by
  have h1 : ∀ g, a g * (0 + ∑ i in (Finset.range n).filter (fun i => tgt i = g), b i)
      = ∑ i in Finset.range n, (if tgt i = g then a g * b i else 0) := by
    intro g
    rw [zero_add, Finset.sum_filter, Finset.mul_sum]
    apply Finset.sum_congr rfl
    intro i _
    by_cases h : tgt i = g
    · rw [if_pos h, if_pos h]
    · rw [if_neg h, if_neg h, mul_zero]
  simp only [h1]
  rw [Finset.sum_comm]
  apply Finset.sum_congr rfl
  intro i hi
  rw [Finset.sum_eq_single (tgt i)]
  · rw [if_pos rfl]
  · intro g _ hg
    rw [if_neg (fun hc => hg hc.symm)]
  · intro hno
    exact absurd (Finset.mem_range.mpr (htgt i (Finset.mem_range.mp hi))) hno

/-! ### Claims on gather and scatter -/

/-- C21: gather and scatter are adjoint. For an index array with all entries
below `ndof`, every global vector `a` and every local vector `b`, in both
layouts, `sum_i Gather(a)[i] * b[i] = sum_g a[g] * Scatter(b)[g]`, the sums
running over `i < nelem*elemsize*ncomp` and `g < ndof*ncomp`: `Gather` is
`noTrNoTr` (resp. `noTrTr`) into any buffer `v0`, `Scatter` is `trNoTr` (resp.
`trTr`) into a zero-initialised buffer, each launched with any positive grid and
block sizes and any order of blocks and threads. -/
theorem C21_gather_scatter_adjoint {R : Type} [CommRing R] (m : RestrictionDefs)
    (gridDim blockDim gridDim' blockDim' : Nat) (blockOrder blockOrder' : List Nat)
    (sched sched' : Nat → List Nat) (nelem : Nat) (indices : Nat → Nat) (a b v0 : Nat → R)
    (hgd : 0 < gridDim) (hbd : 0 < blockDim) (hgd' : 0 < gridDim') (hbd' : 0 < blockDim')
    (hblocks : blockOrder.Perm (List.range gridDim))
    (hsched : ∀ k, (sched k).Perm (List.range blockDim))
    (hblocks' : blockOrder'.Perm (List.range gridDim'))
    (hsched' : ∀ k, (sched' k).Perm (List.range blockDim'))
    (hind : ∀ k, k < nelem * m.RESTRICTION_ELEMSIZE → indices k < m.RESTRICTION_NDOF) :
    (∑ i in Finset.range (nelem * m.RESTRICTION_ELEMSIZE * m.RESTRICTION_NCOMP),
        restrictionkernels.noTrNoTr m gridDim blockDim blockOrder sched nelem (some indices)
          a v0 i * b i
      = ∑ g in Finset.range (m.RESTRICTION_NDOF * m.RESTRICTION_NCOMP),
        a g * restrictionkernels.trNoTr m gridDim' blockDim' blockOrder' sched' nelem
          (some indices) b (fun _ => 0) g) ∧
    (∑ i in Finset.range (nelem * m.RESTRICTION_ELEMSIZE * m.RESTRICTION_NCOMP),
        restrictionkernels.noTrTr m gridDim blockDim blockOrder sched nelem (some indices)
          a v0 i * b i
      = ∑ g in Finset.range (m.RESTRICTION_NDOF * m.RESTRICTION_NCOMP),
        a g * restrictionkernels.trTr m gridDim' blockDim' blockOrder' sched' nelem
          (some indices) b (fun _ => 0) g) := by
  constructor
  · have hl : ∀ i, i ∈ Finset.range (nelem * m.RESTRICTION_ELEMSIZE * m.RESTRICTION_NCOMP) →
        restrictionkernels.noTrNoTr m gridDim blockDim blockOrder sched nelem (some indices)
          a v0 i * b i = a (addrNoTr m indices i) * b i := by
      intro i hi
      rw [noTrNoTr_spec m gridDim blockDim blockOrder sched nelem _ a v0 hgd hbd hblocks hsched,
        if_pos (Finset.mem_range.mp hi)]
    rw [Finset.sum_congr rfl hl,
      gather_scatter_adjoint _ (m.RESTRICTION_NDOF * m.RESTRICTION_NCOMP) _ a b
        (fun i hi => addrNoTr_lt hind hi)]
    apply Finset.sum_congr rfl
    intro g _
    rw [trNoTr_spec m gridDim' blockDim' blockOrder' sched' nelem _ b _ hgd' hbd' hblocks'
      hsched']
  · have hl : ∀ i, i ∈ Finset.range (nelem * m.RESTRICTION_ELEMSIZE * m.RESTRICTION_NCOMP) →
        restrictionkernels.noTrTr m gridDim blockDim blockOrder sched nelem (some indices)
          a v0 i * b i = a (addrTr m indices i) * b i := by
      intro i hi
      rw [noTrTr_spec m gridDim blockDim blockOrder sched nelem _ a v0 hgd hbd hblocks hsched,
        if_pos (Finset.mem_range.mp hi)]
    rw [Finset.sum_congr rfl hl,
      gather_scatter_adjoint _ (m.RESTRICTION_NDOF * m.RESTRICTION_NCOMP) _ a b
        (fun i hi => addrTr_lt hind hi)]
    apply Finset.sum_congr rfl
    intro g _
    rw [trTr_spec m gridDim' blockDim' blockOrder' sched' nelem _ b _ hgd' hbd' hblocks'
      hsched']

theorem wIndices_lt (k : Nat) (_hk : k < 2 * wRestr.RESTRICTION_ELEMSIZE) :
    wIndices k < wRestr.RESTRICTION_NDOF := by
  unfold wIndices
  show (if k = 0 then 0 else if k = 3 then 2 else 1) < 3
  split_ifs <;> omega

/-- Witness of C21 on `wRestr` and `wIndices`: the gather runs on two blocks of
three threads, the scatter on three blocks of two threads. -/
theorem C21_gather_scatter_adjoint_witness :
    (0 < 2 ∧ 0 < 3 ∧ wOrder.Perm (List.range 2) ∧ (∀ _k : Nat, wThreads.Perm (List.range 3)) ∧
      wThreads.Perm (List.range 3) ∧ (∀ _k : Nat, wOrder.Perm (List.range 2)) ∧
      ∀ k, k < 2 * wRestr.RESTRICTION_ELEMSIZE → wIndices k < wRestr.RESTRICTION_NDOF) ∧
    (∑ i in Finset.range (2 * wRestr.RESTRICTION_ELEMSIZE * wRestr.RESTRICTION_NCOMP),
        restrictionkernels.noTrNoTr wRestr 2 3 wOrder (fun _ => wThreads) 2 (some wIndices)
          wU wV i * wT i
      = ∑ g in Finset.range (wRestr.RESTRICTION_NDOF * wRestr.RESTRICTION_NCOMP),
        wU g * restrictionkernels.trNoTr wRestr 3 2 wThreads (fun _ => wOrder) 2
          (some wIndices) wT (fun _ => 0) g) ∧
    (∑ i in Finset.range (2 * wRestr.RESTRICTION_ELEMSIZE * wRestr.RESTRICTION_NCOMP),
        restrictionkernels.noTrTr wRestr 2 3 wOrder (fun _ => wThreads) 2 (some wIndices)
          wU wV i * wT i
      = ∑ g in Finset.range (wRestr.RESTRICTION_NDOF * wRestr.RESTRICTION_NCOMP),
        wU g * restrictionkernels.trTr wRestr 3 2 wThreads (fun _ => wOrder) 2
          (some wIndices) wT (fun _ => 0) g) :=
  ⟨⟨by decide, by decide, wOrder_perm, fun _ => wThreads_perm, wThreads_perm,
      fun _ => wOrder_perm, wIndices_lt⟩,
    C21_gather_scatter_adjoint wRestr 2 3 3 2 wOrder wThreads (fun _ => wThreads)
      (fun _ => wOrder) 2 wIndices wU wT wV (by decide) (by decide) (by decide) (by decide)
      wOrder_perm (fun _ => wThreads_perm) wThreads_perm (fun _ => wOrder_perm) wIndices_lt⟩

/-- C22: with `indices = NULL`, `noTrNoTr` leaves
`v[i] = u[s + elemsize*e + ndof*d]` for every `i < nelem*elemsize*ncomp`, with
`e = i / (ncomp*elemsize)`, `d = (i / elemsize) mod ncomp`, `s = i mod elemsize`;
for `ncomp = 1` this is `v[i] = u[i]`. Any positive grid and block sizes, any
order of blocks and threads. -/
theorem C22_null_index_gather {R : Type} (m : RestrictionDefs) (gridDim blockDim : Nat)
    (blockOrder : List Nat) (sched : Nat → List Nat) (nelem : Nat) (u v : Nat → R)
    (hgd : 0 < gridDim) (hbd : 0 < blockDim)
    (hblocks : blockOrder.Perm (List.range gridDim))
    (hsched : ∀ b, (sched b).Perm (List.range blockDim)) (i : Nat)
    (hi : i < nelem * m.RESTRICTION_ELEMSIZE * m.RESTRICTION_NCOMP) :
    restrictionkernels.noTrNoTr m gridDim blockDim blockOrder sched nelem none u v i
      = u (i % m.RESTRICTION_ELEMSIZE
          + m.RESTRICTION_ELEMSIZE * (i / (m.RESTRICTION_NCOMP * m.RESTRICTION_ELEMSIZE))
          + m.RESTRICTION_NDOF * (i / m.RESTRICTION_ELEMSIZE % m.RESTRICTION_NCOMP)) ∧
    (m.RESTRICTION_NCOMP = 1 →
      restrictionkernels.noTrNoTr m gridDim blockDim blockOrder sched nelem none u v i = u i) := by
  have h := noTrNoTr_spec m gridDim blockDim blockOrder sched nelem none u v hgd hbd hblocks
    hsched i
  rw [if_pos hi] at h
  refine ⟨h, fun h1 => ?_⟩
  rw [h]
  show u (nullAddrNoTr m i) = u i
  congr 1
  unfold nullAddrNoTr
  rw [h1, Nat.one_mul, Nat.mod_one, Nat.mul_zero, Nat.add_zero]
  exact Nat.mod_add_div i _

/-- Witness of C22 on `wRestrNull`, two blocks of three threads. -/
theorem C22_null_index_gather_witness :
    (0 < 2 ∧ 0 < 3 ∧ wOrder.Perm (List.range 2) ∧ (∀ _b : Nat, wThreads.Perm (List.range 3)) ∧
      5 < 2 * wRestrNull.RESTRICTION_ELEMSIZE * wRestrNull.RESTRICTION_NCOMP) ∧
    restrictionkernels.noTrNoTr wRestrNull 2 3 wOrder (fun _ => wThreads) 2 none wU wV 5
      = wU (5 % wRestrNull.RESTRICTION_ELEMSIZE
          + wRestrNull.RESTRICTION_ELEMSIZE
            * (5 / (wRestrNull.RESTRICTION_NCOMP * wRestrNull.RESTRICTION_ELEMSIZE))
          + wRestrNull.RESTRICTION_NDOF
            * (5 / wRestrNull.RESTRICTION_ELEMSIZE % wRestrNull.RESTRICTION_NCOMP)) ∧
    (wRestrNull.RESTRICTION_NCOMP = 1 →
      restrictionkernels.noTrNoTr wRestrNull 2 3 wOrder (fun _ => wThreads) 2 none wU wV 5
        = wU 5) :=
  ⟨⟨by decide, by decide, wOrder_perm, fun _ => wThreads_perm, by decide⟩,
    C22_null_index_gather wRestrNull 2 3 wOrder (fun _ => wThreads) 2 wU wV (by decide)
      (by decide) wOrder_perm (fun _ => wThreads_perm) 5 (by decide)⟩

/-! ### The restriction kernels without an index array -/

theorem addrNoTr_identity {m : RestrictionDefs} {nelem : Nat} {ind : Nat → Nat} {i : Nat}
    (hid : ∀ k, k < nelem * m.RESTRICTION_ELEMSIZE → ind k = k)
    (hi : i < nelem * m.RESTRICTION_ELEMSIZE * m.RESTRICTION_NCOMP) :
    addrNoTr m ind i = nullAddrNoTr m i := by
  obtain ⟨_, _, _, _, _, _, hpos⟩ := flat_triple hi
  unfold addrNoTr nullAddrNoTr
  rw [hid _ hpos]

theorem addrTr_identity {m : RestrictionDefs} {nelem : Nat} {ind : Nat → Nat} {i : Nat}
    (hid : ∀ k, k < nelem * m.RESTRICTION_ELEMSIZE → ind k = k)
    (hi : i < nelem * m.RESTRICTION_ELEMSIZE * m.RESTRICTION_NCOMP) :
    addrTr m ind i
      = m.RESTRICTION_NCOMP * (i % m.RESTRICTION_ELEMSIZE
          + m.RESTRICTION_ELEMSIZE * (i / (m.RESTRICTION_NCOMP * m.RESTRICTION_ELEMSIZE)))
        + i / m.RESTRICTION_ELEMSIZE % m.RESTRICTION_NCOMP := by
  obtain ⟨_, _, _, _, _, _, hpos⟩ := flat_triple hi
  unfold addrTr
  rw [hid _ hpos]

/-- C23: an absent index array and the identity index array. Let `indices[k] = k`
for `k < nelem*elemsize`. In the component-major layout the kernels `noTrNoTr`
and `trNoTr` leave the same `v` with `indices = NULL` as with this array. In the
interleaved layout they do not have to: for `i < nelem*elemsize*ncomp`, `noTrTr`
reads `u[ncomp*s + elemsize*e + d]` with `NULL` and `u[ncomp*(s + elemsize*e) + d]`
with the identity array, and `trTr` adds `u[i]` to the entry at these two
addresses respectively. -/
theorem C23_null_indices_vs_identity {R : Type} [CommRing R] (m : RestrictionDefs)
    (gridDim blockDim : Nat) (blockOrder : List Nat) (sched : Nat → List Nat) (nelem : Nat)
    (indices : Nat → Nat) (u v : Nat → R) (hgd : 0 < gridDim) (hbd : 0 < blockDim)
    (hblocks : blockOrder.Perm (List.range gridDim))
    (hsched : ∀ b, (sched b).Perm (List.range blockDim))
    (hid : ∀ k, k < nelem * m.RESTRICTION_ELEMSIZE → indices k = k) :
    (∀ i, restrictionkernels.noTrNoTr m gridDim blockDim blockOrder sched nelem none u v i
        = restrictionkernels.noTrNoTr m gridDim blockDim blockOrder sched nelem (some indices)
            u v i) ∧
    (∀ g, restrictionkernels.trNoTr m gridDim blockDim blockOrder sched nelem none u v g
        = restrictionkernels.trNoTr m gridDim blockDim blockOrder sched nelem (some indices)
            u v g) ∧
    (∀ i, i < nelem * m.RESTRICTION_ELEMSIZE * m.RESTRICTION_NCOMP →
      restrictionkernels.noTrTr m gridDim blockDim blockOrder sched nelem none u v i
        = u (m.RESTRICTION_NCOMP * (i % m.RESTRICTION_ELEMSIZE)
            + m.RESTRICTION_ELEMSIZE * (i / (m.RESTRICTION_NCOMP * m.RESTRICTION_ELEMSIZE))
            + i / m.RESTRICTION_ELEMSIZE % m.RESTRICTION_NCOMP) ∧
      restrictionkernels.noTrTr m gridDim blockDim blockOrder sched nelem (some indices) u v i
        = u (m.RESTRICTION_NCOMP * (i % m.RESTRICTION_ELEMSIZE
              + m.RESTRICTION_ELEMSIZE * (i / (m.RESTRICTION_NCOMP * m.RESTRICTION_ELEMSIZE)))
            + i / m.RESTRICTION_ELEMSIZE % m.RESTRICTION_NCOMP)) ∧
    (∀ g, restrictionkernels.trTr m gridDim blockDim blockOrder sched nelem none u v g
        = v g + ∑ i in (Finset.range
              (nelem * m.RESTRICTION_ELEMSIZE * m.RESTRICTION_NCOMP)).filter
            (fun i => m.RESTRICTION_NCOMP * (i % m.RESTRICTION_ELEMSIZE)
              + m.RESTRICTION_ELEMSIZE * (i / (m.RESTRICTION_NCOMP * m.RESTRICTION_ELEMSIZE))
              + i / m.RESTRICTION_ELEMSIZE % m.RESTRICTION_NCOMP = g), u i ∧
      restrictionkernels.trTr m gridDim blockDim blockOrder sched nelem (some indices) u v g
        = v g + ∑ i in (Finset.range
              (nelem * m.RESTRICTION_ELEMSIZE * m.RESTRICTION_NCOMP)).filter
            (fun i => m.RESTRICTION_NCOMP * (i % m.RESTRICTION_ELEMSIZE
                + m.RESTRICTION_ELEMSIZE * (i / (m.RESTRICTION_NCOMP * m.RESTRICTION_ELEMSIZE)))
              + i / m.RESTRICTION_ELEMSIZE % m.RESTRICTION_NCOMP = g), u i) := by
  refine ⟨fun i => ?_, fun g => ?_, fun i hi => ⟨?_, ?_⟩, fun g => ⟨?_, ?_⟩⟩
  · rw [noTrNoTr_spec m gridDim blockDim blockOrder sched nelem none u v hgd hbd hblocks hsched,
      noTrNoTr_spec m gridDim blockDim blockOrder sched nelem (some indices) u v hgd hbd hblocks
        hsched]
    by_cases hi : i < nelem * m.RESTRICTION_ELEMSIZE * m.RESTRICTION_NCOMP
    · rw [if_pos hi, if_pos hi]
      show u (nullAddrNoTr m i) = u (addrNoTr m indices i)
      rw [addrNoTr_identity hid hi]
    · rw [if_neg hi, if_neg hi]
  · rw [trNoTr_spec m gridDim blockDim blockOrder sched nelem none u v hgd hbd hblocks hsched,
      trNoTr_spec m gridDim blockDim blockOrder sched nelem (some indices) u v hgd hbd hblocks
        hsched]
    congr 1
    apply Finset.sum_congr _ (fun _ _ => rfl)
    apply Finset.filter_congr
    intro i hi
    show nullAddrNoTr m i = g ↔ addrNoTr m indices i = g
    rw [addrNoTr_identity hid (Finset.mem_range.mp hi)]
  · rw [noTrTr_spec m gridDim blockDim blockOrder sched nelem none u v hgd hbd hblocks hsched,
      if_pos hi]
    rfl
  · rw [noTrTr_spec m gridDim blockDim blockOrder sched nelem (some indices) u v hgd hbd hblocks
      hsched, if_pos hi]
    show u (addrTr m indices i) = _
    rw [addrTr_identity hid hi]
  · rw [trTr_spec m gridDim blockDim blockOrder sched nelem none u v hgd hbd hblocks hsched]
    rfl
  · rw [trTr_spec m gridDim blockDim blockOrder sched nelem (some indices) u v hgd hbd hblocks
      hsched]
    congr 1
    apply Finset.sum_congr _ (fun _ _ => rfl)
    apply Finset.filter_congr
    intro i hi
    show addrTr m indices i = g ↔ _
    rw [addrTr_identity hid (Finset.mem_range.mp hi)]

/-- Witness of C23 on `wRestrNull` (two elements of two nodes, two components):
flat index 4 is node 0, component 0 of element 1. With `indices = NULL` the
kernel `noTrTr` reads `u[2]`, with the identity index array it reads `u[4]`, and
`trTr` leaves different sums in `v[2]`. -/
theorem C23_null_indices_vs_identity_witness :
    (0 < 2 ∧ 0 < 3 ∧ wOrder.Perm (List.range 2) ∧ (∀ _b : Nat, wThreads.Perm (List.range 3)) ∧
      (∀ k, k < 2 * wRestrNull.RESTRICTION_ELEMSIZE → (fun j : Nat => j) k = k)) ∧
    restrictionkernels.noTrTr wRestrNull 2 3 wOrder (fun _ => wThreads) 2 none wU wV 4 = wU 2 ∧
    restrictionkernels.noTrTr wRestrNull 2 3 wOrder (fun _ => wThreads) 2 (some (fun j => j))
      wU wV 4 = wU 4 ∧
    wU 2 ≠ wU 4 ∧
    restrictionkernels.trTr wRestrNull 2 3 wOrder (fun _ => wThreads) 2 none wU wV 2
      ≠ restrictionkernels.trTr wRestrNull 2 3 wOrder (fun _ => wThreads) 2 (some (fun j => j))
          wU wV 2 :=
  ⟨⟨by decide, by decide, wOrder_perm, fun _ => wThreads_perm, fun _ _ => rfl⟩,
    ((C23_null_indices_vs_identity wRestrNull 2 3 wOrder (fun _ => wThreads) 2 (fun j => j)
      wU wV (by decide) (by decide) wOrder_perm (fun _ => wThreads_perm)
      (fun _ _ => rfl)).2.2.1 4 (by decide)).1,
    ((C23_null_indices_vs_identity wRestrNull 2 3 wOrder (fun _ => wThreads) 2 (fun j => j)
      wU wV (by decide) (by decide) wOrder_perm (fun _ => wThreads_perm)
      (fun _ _ => rfl)).2.2.1 4 (by decide)).2,
    by decide, by decide⟩

/-- Without an index array the component-major address determines the flat
index, as long as the elements fit below `ndof`. -/
theorem nullAddrNoTr_inj {m : RestrictionDefs} {nelem i j : Nat}
    (hndof : nelem * m.RESTRICTION_ELEMSIZE ≤ m.RESTRICTION_NDOF)
    (hi : i < nelem * m.RESTRICTION_ELEMSIZE * m.RESTRICTION_NCOMP)
    (hj : j < nelem * m.RESTRICTION_ELEMSIZE * m.RESTRICTION_NCOMP)
    (h : nullAddrNoTr m i = nullAddrNoTr m j) : i = j := by
  obtain ⟨hES, hNC, _, _, hsi, hei, hpi⟩ := flat_triple hi
  obtain ⟨_, _, _, _, hsj, hej, hpj⟩ := flat_triple hj
  unfold nullAddrNoTr at h
  rw [hei] at h hpi
  rw [hej] at h hpj
  generalize m.RESTRICTION_ELEMSIZE = ES at *
  generalize m.RESTRICTION_NCOMP = NC at *
  generalize m.RESTRICTION_NDOF = N at *
  have hAi : i % ES + ES * (i / ES / NC) < N := Nat.lt_of_lt_of_le hpi hndof
  have hAj : j % ES + ES * (j / ES / NC) < N := Nat.lt_of_lt_of_le hpj hndof
  have hN : 0 < N := by omega
  have hmod := congrArg (fun x => x % N) h
  simp only [Nat.add_mul_mod_self_left] at hmod
  rw [Nat.mod_eq_of_lt hAi, Nat.mod_eq_of_lt hAj] at hmod
  have hd : i / ES % NC = j / ES % NC := by
    have : N * (i / ES % NC) = N * (j / ES % NC) := by omega
    exact Nat.eq_of_mul_eq_mul_left hN this
  have hs : i % ES = j % ES := by
    have := congrArg (fun x => x % ES) hmod
    simp only [Nat.add_mul_mod_self_left] at this
    rw [Nat.mod_eq_of_lt hsi, Nat.mod_eq_of_lt hsj] at this
    exact this
  have he : i / ES / NC = j / ES / NC := by
    have : ES * (i / ES / NC) = ES * (j / ES / NC) := by omega
    exact Nat.eq_of_mul_eq_mul_left hES this
  have hq : i / ES = j / ES := by
    have h1 := Nat.mod_add_div (i / ES) NC
    have h2 := Nat.mod_add_div (j / ES) NC
    rw [hd, he] at h1
    omega
  have h1 := Nat.mod_add_div i ES
  have h2 := Nat.mod_add_div j ES
  rw [hs, hq] at h1
  omega

/-- C24: addresses without an index array. With `indices = NULL` and
`ndof >= nelem*elemsize`, in the component-major layout the address
`s + elemsize*e + ndof*d` that `noTrNoTr` reads and `trNoTr` adds to determines
the flat index `i < nelem*elemsize*ncomp`: no two flat indices touch the same
entry. In the interleaved layout `noTrTr` reads, and `trTr` adds to, the address
`ncomp*s + elemsize*e + d`, for which this is not proved. -/
theorem C24_null_indices_addresses {R : Type} [CommRing R] (m : RestrictionDefs)
    (gridDim blockDim : Nat) (blockOrder : List Nat) (sched : Nat → List Nat) (nelem : Nat)
    (u v : Nat → R) (hgd : 0 < gridDim) (hbd : 0 < blockDim)
    (hblocks : blockOrder.Perm (List.range gridDim))
    (hsched : ∀ b, (sched b).Perm (List.range blockDim))
    (hndof : nelem * m.RESTRICTION_ELEMSIZE ≤ m.RESTRICTION_NDOF) :
    (∀ i j, i < nelem * m.RESTRICTION_ELEMSIZE * m.RESTRICTION_NCOMP →
      j < nelem * m.RESTRICTION_ELEMSIZE * m.RESTRICTION_NCOMP →
      nullAddrNoTr m i = nullAddrNoTr m j → i = j) ∧
    (∀ i, i < nelem * m.RESTRICTION_ELEMSIZE * m.RESTRICTION_NCOMP →
      restrictionkernels.noTrNoTr m gridDim blockDim blockOrder sched nelem none u v i
        = u (nullAddrNoTr m i) ∧
      restrictionkernels.noTrTr m gridDim blockDim blockOrder sched nelem none u v i
        = u (nullAddrTr m i)) ∧
    (∀ g, restrictionkernels.trNoTr m gridDim blockDim blockOrder sched nelem none u v g
        = v g + ∑ i in (Finset.range
              (nelem * m.RESTRICTION_ELEMSIZE * m.RESTRICTION_NCOMP)).filter
            (fun i => nullAddrNoTr m i = g), u i ∧
      restrictionkernels.trTr m gridDim blockDim blockOrder sched nelem none u v g
        = v g + ∑ i in (Finset.range
              (nelem * m.RESTRICTION_ELEMSIZE * m.RESTRICTION_NCOMP)).filter
            (fun i => nullAddrTr m i = g), u i) := by
  refine ⟨fun i j hi hj h => nullAddrNoTr_inj hndof hi hj h, fun i hi => ⟨?_, ?_⟩,
    fun g => ⟨?_, ?_⟩⟩
  · rw [noTrNoTr_spec m gridDim blockDim blockOrder sched nelem none u v hgd hbd hblocks hsched,
      if_pos hi]
  · rw [noTrTr_spec m gridDim blockDim blockOrder sched nelem none u v hgd hbd hblocks hsched,
      if_pos hi]
  · rw [trNoTr_spec m gridDim blockDim blockOrder sched nelem none u v hgd hbd hblocks hsched]
  · rw [trTr_spec m gridDim blockDim blockOrder sched nelem none u v hgd hbd hblocks hsched]

/-- Witness of C24 on `wRestrNull` (`ndof = 4 = nelem*elemsize`): in the
interleaved layout the flat indices 1 (element 0, node 1) and 4 (element 1,
node 0) have the same address 2, and `trTr` adds both `u[1]` and `u[4]` to
`v[2]`. -/
theorem C24_null_indices_addresses_witness :
    (0 < 2 ∧ 0 < 3 ∧ wOrder.Perm (List.range 2) ∧ (∀ _b : Nat, wThreads.Perm (List.range 3)) ∧
      2 * wRestrNull.RESTRICTION_ELEMSIZE ≤ wRestrNull.RESTRICTION_NDOF) ∧
    (∀ i j, i < 2 * wRestrNull.RESTRICTION_ELEMSIZE * wRestrNull.RESTRICTION_NCOMP →
      j < 2 * wRestrNull.RESTRICTION_ELEMSIZE * wRestrNull.RESTRICTION_NCOMP →
      nullAddrNoTr wRestrNull i = nullAddrNoTr wRestrNull j → i = j) ∧
    nullAddrTr wRestrNull 1 = 2 ∧ nullAddrTr wRestrNull 4 = 2 ∧
    restrictionkernels.noTrTr wRestrNull 2 3 wOrder (fun _ => wThreads) 2 none wU wV 1 = wU 2 ∧
    restrictionkernels.noTrTr wRestrNull 2 3 wOrder (fun _ => wThreads) 2 none wU wV 4 = wU 2 ∧
    restrictionkernels.trTr wRestrNull 2 3 wOrder (fun _ => wThreads) 2 none wU wV 2
      = wV 2 + wU 1 + wU 4 :=
  ⟨⟨by decide, by decide, wOrder_perm, fun _ => wThreads_perm, by decide⟩,
    (C24_null_indices_addresses wRestrNull 2 3 wOrder (fun _ => wThreads) 2 wU wV (by decide)
      (by decide) wOrder_perm (fun _ => wThreads_perm) (by decide)).1,
    by decide, by decide, by decide, by decide, by decide⟩

/-! ### The kernel `interp` with special matrices -/

theorem multiIdx_surj {n dim q : Nat} (hq : q < n ^ dim) :
    ∃ q' : Fin dim → Fin n, multiIdx q' = q :=
  ⟨finFunctionFinEquiv.symm ⟨q, hq⟩,
    congrArg Fin.val (finFunctionFinEquiv.apply_symm_apply ⟨q, hq⟩)⟩

/-- The tensor product of identity matrices is the identity. -/
theorem kron_identity_sum {R : Type} [CommRing R] (T : Nat → Nat → Nat → R) (n dim : Nat)
    (hT : ∀ k j c, j < n → c < n → T k j c = if j = c then 1 else 0) (x : Nat → R) (q : Nat)
    (hq : q < n ^ dim) :
    ∑ p in Finset.range (n ^ dim), kron T n n dim q p * x p = x q := by
  obtain ⟨q', rfl⟩ := multiIdx_surj hq
  rw [sum_flat_multi T q' x, Finset.sum_eq_single q']
  · have : ∏ k : Fin dim, T k (q' k) (q' k) = 1 := by
      apply Finset.prod_eq_one
      intro k _
      rw [hT _ _ _ (q' k).isLt (q' k).isLt, if_pos rfl]
    rw [this, one_mul]
  · intro p _ hp
    have hex : ∃ k, q' k ≠ p k := by
      by_contra hall
      apply hp
      funext k
      by_contra hk
      exact hall ⟨k, fun h => hk h.symm⟩
    obtain ⟨k, hk⟩ := hex
    have hz : T k (q' k) (p k) = 0 := by
      rw [hT _ _ _ (q' k).isLt (p k).isLt, if_neg]
      intro hc
      exact hk (Fin.ext hc)
    rw [Finset.prod_eq_zero (Finset.mem_univ k) hz, zero_mul]
  · intro h
    exact absurd (Finset.mem_univ q') h

/-- With the identity matrix the kernel `interp` copies its input, in both
directions. -/
theorem interp_identity {R : Type} [CommRing R] (dim ncomp n nelem blockDim : Nat)
    (blockOrder : List Nat) (sched : Nat → Nat → List Nat) (smem0 : Nat → Nat → R)
    (transpose : Int) (interp1d u v : Nat → R)
    (hdim : 1 ≤ dim) (hn : 1 ≤ n) (hbd : 1 ≤ blockDim)
    (hblocks : blockOrder.Perm (List.range nelem))
    (hsched : ∀ b k, (sched b k).Perm (List.range blockDim))
    (hid : ∀ j c, j < n → c < n → interp1d (j * n + c) = if j = c then 1 else 0)
    (k : Nat) (hk : k < nelem * ncomp * n ^ dim) :
    basiskernels.interp (kernelDefs dim ncomp n n) nelem blockDim blockOrder sched smem0 nelem
      transpose interp1d u v k = u k := by
  have hpos : 0 < n ^ dim := Nat.pow_pos hn
  have ha : k / n ^ dim < nelem * ncomp := Nat.div_lt_of_lt_mul (by rw [Nat.mul_comm]; exact hk)
  have hq : k % n ^ dim < n ^ dim := Nat.mod_lt _ hpos
  have hdec : k / n ^ dim * n ^ dim + k % n ^ dim = k := by
    rw [Nat.mul_comm]; exact Nat.div_add_mod _ _
  have h := interp_flat dim ncomp n n nelem blockDim blockOrder sched smem0 nelem transpose
    interp1d u v hdim (by simpa using hn) hbd (Nat.le_refl _)
    (fun b hb => perm_range_mem hblocks b hb)
    (fun b i => perm_range_mem (hsched b i)) (k / n ^ dim) (k % n ^ dim) ha (by simpa using hq)
  simp only [ite_self] at h
  rw [hdec] at h
  rw [h]
  have hs := kron_identity_sum
    (fun _ j c => matEntry interp1d n (decide (transpose ≠ 0)) j c) n dim
    (by
      intro _ j c hj hc
      show matEntry interp1d n (decide (transpose ≠ 0)) j c = _
      unfold matEntry
      by_cases ht : transpose ≠ 0
      · rw [decide_eq_true ht, if_pos rfl, hid c j hc hj]
        by_cases hjc : j = c
        · rw [if_pos hjc, if_pos hjc.symm]
        · rw [if_neg hjc, if_neg (fun h => hjc h.symm)]
      · rw [decide_eq_false ht, if_neg Bool.false_ne_true]
        exact hid j c hj hc)
    (fun p => u (k / n ^ dim * n ^ dim + p)) (k % n ^ dim) hq
  rw [hs]
  show u (k / n ^ dim * n ^ dim + k % n ^ dim) = u k
  rw [hdec]

/-- C25: the collocated round trip. When `P1D = Q1D = n` and `interp1d` is the
`n x n` identity matrix, the reference kernel `interp`, launched on one block per
element, copies the first `nelem*ncomp*n^dim` entries of its input in forward
and in transpose mode, so the transpose kernel applied to the output of the
forward kernel gives back the nodal buffer `x` exactly. Proved for every
`dim >= 1`, `n >= 1`, `ncomp`, `nelem`, any block sizes and any order of blocks
and threads. -/
theorem C25_collocated_round_trip {R : Type} [CommRing R] (dim ncomp n nelem : Nat)
    (blockDim blockDim' : Nat) (blockOrder blockOrder' : List Nat)
    (sched sched' : Nat → Nat → List Nat) (smem0 smem0' : Nat → Nat → R)
    (interp1d x v0 v1 : Nat → R)
    (hdim : 1 ≤ dim) (hn : 1 ≤ n) (hbd : 1 ≤ blockDim) (hbd' : 1 ≤ blockDim')
    (hblocks : blockOrder.Perm (List.range nelem))
    (hsched : ∀ b k, (sched b k).Perm (List.range blockDim))
    (hblocks' : blockOrder'.Perm (List.range nelem))
    (hsched' : ∀ b k, (sched' b k).Perm (List.range blockDim'))
    (hid : ∀ j c, j < n → c < n → interp1d (j * n + c) = if j = c then 1 else 0)
    (k : Nat) (hk : k < nelem * ncomp * n ^ dim) :
    basiskernels.interp (kernelDefs dim ncomp n n) nelem blockDim blockOrder sched smem0 nelem 0
      interp1d x v0 k = x k ∧
    basiskernels.interp (kernelDefs dim ncomp n n) nelem blockDim' blockOrder' sched' smem0'
      nelem 1 interp1d x v1 k = x k ∧
    basiskernels.interp (kernelDefs dim ncomp n n) nelem blockDim' blockOrder' sched' smem0'
      nelem 1 interp1d
      (basiskernels.interp (kernelDefs dim ncomp n n) nelem blockDim blockOrder sched smem0
        nelem 0 interp1d x v0) v1 k = x k := by
  have h0 := interp_identity dim ncomp n nelem blockDim blockOrder sched smem0 0 interp1d x v0
    hdim hn hbd hblocks hsched hid k hk
  refine ⟨h0, ?_, ?_⟩
  · exact interp_identity dim ncomp n nelem blockDim' blockOrder' sched' smem0' 1 interp1d x v1
      hdim hn hbd' hblocks' hsched' hid k hk
  · rw [interp_identity dim ncomp n nelem blockDim' blockOrder' sched' smem0' 1 interp1d _ v1
      hdim hn hbd' hblocks' hsched' hid k hk]
    exact h0

theorem wIdentity_spec (j c : Nat) (_hj : j < 6) (hc : c < 6) :
    wIdentity (j * 6 + c) = if j = c then 1 else 0 := by
  unfold wIdentity
  have h1 : (j * 6 + c) / 6 = j := by omega
  have h2 : (j * 6 + c) % 6 = c := by omega
  rw [h1, h2]

theorem wBlock_perm : [0].Perm (List.range 1) := by decide

/-- Witness of C25 in the case of the test: `dim = 1`, `n = 6`, one element. -/
theorem C25_collocated_round_trip_witness :
    (1 ≤ 1 ∧ 1 ≤ 6 ∧ 1 ≤ 2 ∧ [0].Perm (List.range 1) ∧
      (∀ _b _k : Nat, wOrder.Perm (List.range 2)) ∧
      (∀ j c, j < 6 → c < 6 → wIdentity (j * 6 + c) = if j = c then 1 else 0) ∧
      3 < 1 * 1 * 6 ^ 1) ∧
    basiskernels.interp (kernelDefs 1 1 6 6) 1 2 [0] (fun _ _ => wOrder) (fun _ _ => 0) 1 0
      wIdentity wU wV 3 = wU 3 ∧
    basiskernels.interp (kernelDefs 1 1 6 6) 1 2 [0] (fun _ _ => wOrder) (fun _ _ => 0) 1 1
      wIdentity wU wV 3 = wU 3 ∧
    basiskernels.interp (kernelDefs 1 1 6 6) 1 2 [0] (fun _ _ => wOrder) (fun _ _ => 0) 1 1
      wIdentity
      (basiskernels.interp (kernelDefs 1 1 6 6) 1 2 [0] (fun _ _ => wOrder) (fun _ _ => 0) 1 0
        wIdentity wU wV) wV 3 = wU 3 :=
  ⟨⟨by decide, by decide, by decide, wBlock_perm, fun _ _ => wOrder_perm, wIdentity_spec,
      by decide⟩,
    C25_collocated_round_trip 1 1 6 1 2 2 [0] [0] (fun _ _ => wOrder) (fun _ _ => wOrder)
      (fun _ _ => 0) (fun _ _ => 0) wIdentity wU wV wV (by decide) (by decide) (by decide)
      (by decide) wBlock_perm (fun _ _ => wOrder_perm) wBlock_perm (fun _ _ => wOrder_perm)
      wIdentity_spec 3 (by decide)⟩

/-- Forward `interp` in one dimension with one component and one element:
`v[q]` is row `q` of the matrix applied to `u`. -/
theorem interp_1d {R : Type} [CommRing R] (P1d Q1d blockDim : Nat)
    (blockOrder : List Nat) (sched : Nat → Nat → List Nat) (smem0 : Nat → Nat → R)
    (interp1d u v : Nat → R) (hP : 1 ≤ P1d) (hbd : 1 ≤ blockDim)
    (hblocks : blockOrder.Perm (List.range 1))
    (hsched : ∀ b k, (sched b k).Perm (List.range blockDim)) (q : Nat) (hq : q < Q1d) :
    basiskernels.interp (kernelDefs 1 1 P1d Q1d) 1 blockDim blockOrder sched smem0 1 0
      interp1d u v q = ∑ p in Finset.range P1d, interp1d (q * P1d + p) * u p := by
  have h := interp_flat 1 1 P1d Q1d 1 blockDim blockOrder sched smem0 1 0 interp1d u v
    (by decide) (by simpa using hP) hbd (Nat.le_refl _)
    (fun b hb => perm_range_mem hblocks b hb)
    (fun b i => perm_range_mem (hsched b i)) 0 q (by decide) (by simpa using hq)
  simp only [ne_eq, not_true_eq_false, if_false, decide_False, pow_one, Nat.zero_mul,
    Nat.zero_add] at h
  rw [h]
  apply Finset.sum_congr rfl
  intro p hp
  rw [Finset.mem_range] at hp
  congr 1
  unfold kron matEntry
  simp [Nat.mod_eq_of_lt hq, Nat.mod_eq_of_lt hp]

/-- C26: polynomial exactness in one dimension. Let `x_0, .., x_{P1d-1}` be
distinct nodes of a field, `y_0, .., y_{Q1d-1}` any points, and let
`interp1d[q*P1d + p]` be the value at `y_q` of the Lagrange basis polynomial of
node `p`. For every polynomial `f` of degree at most `P1d - 1`, the reference
kernel `interp` in forward mode with `dim = 1`, one component and one element,
applied to the nodal values `u[p] = f(x_p)`, leaves `v[q] = f(y_q)` for every
`q < Q1d`. -/
theorem C26_polynomial_exactness {F : Type} [Field F] (P1d Q1d blockDim : Nat)
    (blockOrder : List Nat) (sched : Nat → Nat → List Nat) (smem0 : Nat → Nat → F)
    (interp1d u v : Nat → F) (x y : Nat → F) (f : Polynomial F)
    (hP : 1 ≤ P1d) (hbd : 1 ≤ blockDim) (hblocks : blockOrder.Perm (List.range 1))
    (hsched : ∀ b k, (sched b k).Perm (List.range blockDim))
    (hx : ∀ p p', p < P1d → p' < P1d → x p = x p' → p = p')
    (hB : ∀ q p, q < Q1d → p < P1d →
      interp1d (q * P1d + p) = Polynomial.eval (y q) (Lagrange.basis (Finset.range P1d) x p))
    (hf : f.natDegree ≤ P1d - 1)
    (hu : ∀ p, p < P1d → u p = Polynomial.eval (x p) f)
    (q : Nat) (hq : q < Q1d) :
    basiskernels.interp (kernelDefs 1 1 P1d Q1d) 1 blockDim blockOrder sched smem0 1 0
      interp1d u v q = Polynomial.eval (y q) f := by
  rw [interp_1d P1d Q1d blockDim blockOrder sched smem0 interp1d u v hP hbd hblocks hsched q hq]
  have hinj : Set.InjOn x (Finset.range P1d : Set Nat) := by
    intro p hp p' hp' h
    exact hx p p' (Finset.mem_range.mp hp) (Finset.mem_range.mp hp') h
  have hdeg : f.degree < (Finset.range P1d).card := by
    rw [Finset.card_range]
    apply lt_of_le_of_lt Polynomial.degree_le_natDegree
    exact_mod_cast (by omega : f.natDegree < P1d)
  have hfe := Lagrange.eq_interpolate hinj hdeg
  conv_rhs => rw [hfe]
  rw [Lagrange.interpolate_apply, Polynomial.eval_finset_sum]
  apply Finset.sum_congr rfl
  intro p hp
  rw [Finset.mem_range] at hp
  rw [Polynomial.eval_mul, Polynomial.eval_C, hB q p hq hp, hu p hp, mul_comm]

theorem wNodes_inj (p p' : Nat) (_hp : p < 2) (_hp' : p' < 2) (h : wNodes p = wNodes p') :
    p = p' := by
  unfold wNodes at h
  have : (p : ℚ) = (p' : ℚ) := by linarith
  exact_mod_cast this

theorem wLagrange_spec (q p : Nat) (_hq : q < 3) (hp : p < 2) :
    wLagrange (q * 2 + p)
      = Polynomial.eval (wPoints q) (Lagrange.basis (Finset.range 2) wNodes p) := by
  have hr : Finset.range 2 = {0, 1} := by decide
  have h1 : (q * 2 + p) / 2 = q := by omega
  have h2 : (q * 2 + p) % 2 = p := by omega
  unfold wLagrange
  rw [h1, h2, hr]
  rcases Nat.lt_succ_iff_lt_or_eq.mp hp with h | h
  · have hp0 : p = 0 := by omega
    subst hp0
    rw [if_pos rfl, Lagrange.basis_pair_left (by decide)]
    unfold Lagrange.basisDivisor wNodes
    simp
    ring
  · subst h
    rw [if_neg (by decide), Lagrange.basis_pair_right (by decide)]
    unfold Lagrange.basisDivisor wNodes
    simp
    ring

theorem wNodal_spec (p : Nat) (_hp : p < 2) :
    wNodal p = Polynomial.eval (wNodes p) (Polynomial.C 2 * Polynomial.X + Polynomial.C 1) := by
  unfold wNodal
  simp
  ring

/-- Witness of C26: two nodes `-1, 1`, three points `0, 1/2, 1` and the
polynomial `2 X + 1`. -/
theorem C26_polynomial_exactness_witness :
    (1 ≤ 2 ∧ 1 ≤ 2 ∧ [0].Perm (List.range 1) ∧ (∀ _b _k : Nat, wOrder.Perm (List.range 2)) ∧
      (∀ p p', p < 2 → p' < 2 → wNodes p = wNodes p' → p = p') ∧
      (∀ q p, q < 3 → p < 2 →
        wLagrange (q * 2 + p)
          = Polynomial.eval (wPoints q) (Lagrange.basis (Finset.range 2) wNodes p)) ∧
      (Polynomial.C 2 * Polynomial.X + Polynomial.C 1 : Polynomial ℚ).natDegree ≤ 2 - 1 ∧
      (∀ p, p < 2 →
        wNodal p
          = Polynomial.eval (wNodes p) (Polynomial.C 2 * Polynomial.X + Polynomial.C 1)) ∧
      1 < 3) ∧
    basiskernels.interp (kernelDefs 1 1 2 3) 1 2 [0] (fun _ _ => wOrder) (fun _ _ => 0) 1 0
      wLagrange wNodal (fun _ => 0) 1
      = Polynomial.eval (wPoints 1) (Polynomial.C 2 * Polynomial.X + Polynomial.C 1) :=
  ⟨⟨by decide, by decide, wBlock_perm, fun _ _ => wOrder_perm, wNodes_inj, wLagrange_spec,
      Polynomial.natDegree_linear_le, wNodal_spec, by decide⟩,
    C26_polynomial_exactness 2 3 2 [0] (fun _ _ => wOrder) (fun _ _ => 0) wLagrange wNodal
      (fun _ => 0) wNodes wPoints (Polynomial.C 2 * Polynomial.X + Polynomial.C 1)
      (by decide) (by decide) wBlock_perm (fun _ _ => wOrder_perm) wNodes_inj wLagrange_spec
      Polynomial.natDegree_linear_le wNodal_spec 1 (by decide)⟩

/-! ### The device functions `Contract` and `ContractTranspose` -/

/-- A loop whose iterations each add an increment to every entry. -/
theorem forLoop_additive {R : Type} [AddCommMonoid R] (body : Nat → (Nat → R) → (Nat → R))
    (δ : Nat → Nat → R) (n : Nat) (h : ∀ i, i < n → ∀ v g, body i v g = v g + δ i g)
    (v : Nat → R) (g : Nat) :
    forLoop body n v g = v g + ∑ i in Finset.range n, δ i g := by
  induction n with
  | zero => simp [forLoop]
  | succ n ih =>
    rw [forLoop_succ, h n (Nat.lt_succ_self n), ih (fun i hi => h i (by omega)),
      Finset.sum_range_succ, add_assoc]

theorem idx3_inj {n2 n3 a2 a3 b2 a2' a3' b2' : Nat} (h2 : a2 < n2) (h2' : a2' < n2)
    (h3 : a3 < n3) (h3' : a3' < n3)
    (h : a2 + a3 * n2 + b2 * n2 * n3 = a2' + a3' * n2 + b2' * n2 * n3) :
    a2 = a2' ∧ a3 = a3' ∧ b2 = b2' := by
  have e1 : a2 + a3 * n2 + b2 * n2 * n3 = a2 + n2 * (a3 + n3 * b2) := by ring
  have e2 : a2' + a3' * n2 + b2' * n2 * n3 = a2' + n2 * (a3' + n3 * b2') := by ring
  rw [e1, e2] at h
  have hm := congrArg (fun x => x % n2) h
  simp only [Nat.add_mul_mod_self_left] at hm
  rw [Nat.mod_eq_of_lt h2, Nat.mod_eq_of_lt h2'] at hm
  subst hm
  have hq : a3 + n3 * b2 = a3' + n3 * b2' := by
    have : n2 * (a3 + n3 * b2) = n2 * (a3' + n3 * b2') := by omega
    exact Nat.eq_of_mul_eq_mul_left (by omega) this
  have hm3 := congrArg (fun x => x % n3) hq
  simp only [Nat.add_mul_mod_self_left] at hm3
  rw [Nat.mod_eq_of_lt h3, Nat.mod_eq_of_lt h3'] at hm3
  subst hm3
  have : n3 * b2 = n3 * b2' := by omega
  exact ⟨rfl, rfl, Nat.eq_of_mul_eq_mul_left (by omega) this⟩

theorem idx3_lt {n2 n3 n4 a2 a3 b2 : Nat} (h2 : a2 < n2) (h3 : a3 < n3) (h4 : b2 < n4) :
    a2 + a3 * n2 + b2 * n2 * n3 < n2 * n3 * n4 := by
  have e1 : a2 + a3 * n2 + b2 * n2 * n3 = a2 + n2 * (a3 + n3 * b2) := by ring
  have e2 : n2 * n3 * n4 = n2 * (n3 * n4) := by ring
  rw [e1, e2]
  have h5 : a3 + n3 * b2 < n3 * n4 := by
    have := Nat.mul_le_mul_left n3 (Nat.succ_le_of_lt h4)
    rw [Nat.mul_succ] at this
    omega
  have := Nat.mul_le_mul_left n2 (Nat.succ_le_of_lt h5)
  rw [Nat.mul_succ] at this
  omega

/-- A triple sum of terms that vanish off one index triple. -/
theorem sum3_single {R : Type} [AddCommMonoid R] (n2 n3 n4 : Nat) (idx : Nat → Nat → Nat → Nat)
    (F : Nat → Nat → Nat → R) (g : Nat) (a2 a3 b2 : Nat) (h2 : a2 < n2) (h3 : a3 < n3)
    (h4 : b2 < n4) (hg : g = idx a2 a3 b2)
    (hinj : ∀ x y z, x < n2 → y < n3 → z < n4 → g = idx x y z → x = a2 ∧ y = a3 ∧ z = b2) :
    ∑ x in Finset.range n2, ∑ y in Finset.range n3, ∑ z in Finset.range n4,
        (if g = idx x y z then F x y z else 0) = F a2 a3 b2 := by
  rw [Finset.sum_eq_single a2, Finset.sum_eq_single a3, Finset.sum_eq_single b2]
  · rw [if_pos hg]
  · intro z hz hne
    rw [if_neg]
    intro hc
    exact hne (hinj a2 a3 z h2 h3 (Finset.mem_range.mp hz) hc).2.2
  · intro h; exact absurd (Finset.mem_range.mpr h4) h
  · intro y hy hne
    apply Finset.sum_eq_zero
    intro z hz
    rw [if_neg]
    intro hc
    exact hne (hinj a2 y z h2 (Finset.mem_range.mp hy) (Finset.mem_range.mp hz) hc).2.1
  · intro h; exact absurd (Finset.mem_range.mpr h3) h
  · intro x hx hne
    apply Finset.sum_eq_zero
    intro y hy
    apply Finset.sum_eq_zero
    intro z hz
    rw [if_neg]
    intro hc
    exact hne (hinj x y z (Finset.mem_range.mp hx) (Finset.mem_range.mp hy)
      (Finset.mem_range.mp hz) hc).1
  · intro h; exact absurd (Finset.mem_range.mpr h2) h

/-- The loop nest shared by `Contract` and `ContractTranspose`: the zero-fill,
then for every `(a2, a3, b)` the accumulation over `t` into
`T[a2 + a3*nA2 + b*nA2*nA3]`. -/
theorem contract_nest {R : Type} [CommRing R] (f : Nat → Nat → Nat → Nat → R)
    (nA2 nA3 nB nT nZ : Nat) (T : Nat → R) (a2 a3 b : Nat)
    (h2 : a2 < nA2) (h3 : a3 < nA3) (hb : b < nB)
    (hZ : a2 + a3 * nA2 + b * nA2 * nA3 < nZ) :
    forLoop (fun a2 T =>
      forLoop (fun a3 T =>
        forLoop (fun b T =>
          forLoop (fun t T =>
            store T (a2 + a3 * nA2 + b * nA2 * nA3)
              (T (a2 + a3 * nA2 + b * nA2 * nA3) + f a2 a3 b t))
            nT T) nB T) nA3 T) nA2
        (forLoop (fun l T => store T l 0) nZ T)
        (a2 + a3 * nA2 + b * nA2 * nA3)
      = ∑ t in Finset.range nT, f a2 a3 b t := by
  have h4 : ∀ (x y z : Nat) (T : Nat → R) (g : Nat),
      forLoop (fun t T =>
        store T (x + y * nA2 + z * nA2 * nA3) (T (x + y * nA2 + z * nA2 * nA3) + f x y z t))
        nT T g
      = T g + ∑ t in Finset.range nT,
          (if g = x + y * nA2 + z * nA2 * nA3 then f x y z t else 0) := by
    intro x y z T g
    apply forLoop_additive
    intro t _ v g
    simp only [store]
    by_cases hg : g = x + y * nA2 + z * nA2 * nA3
    · rw [if_pos hg, if_pos hg, hg]
    · rw [if_neg hg, if_neg hg, add_zero]
  have h3' : ∀ (x y : Nat) (T : Nat → R) (g : Nat),
      forLoop (fun b T =>
        forLoop (fun t T =>
          store T (x + y * nA2 + b * nA2 * nA3) (T (x + y * nA2 + b * nA2 * nA3) + f x y b t))
          nT T) nB T g
      = T g + ∑ z in Finset.range nB, ∑ t in Finset.range nT,
          (if g = x + y * nA2 + z * nA2 * nA3 then f x y z t else 0) := by
    intro x y T g
    apply forLoop_additive
    intro z _ v g
    exact h4 x y z v g
  have h2' : ∀ (x : Nat) (T : Nat → R) (g : Nat),
      forLoop (fun a3 T =>
        forLoop (fun b T =>
          forLoop (fun t T =>
            store T (x + a3 * nA2 + b * nA2 * nA3)
              (T (x + a3 * nA2 + b * nA2 * nA3) + f x a3 b t))
            nT T) nB T) nA3 T g
      = T g + ∑ y in Finset.range nA3, ∑ z in Finset.range nB, ∑ t in Finset.range nT,
          (if g = x + y * nA2 + z * nA2 * nA3 then f x y z t else 0) := by
    intro x T g
    apply forLoop_additive
    intro y _ v g
    exact h3' x y v g
  rw [forLoop_additive _
    (fun x g => ∑ y in Finset.range nA3, ∑ z in Finset.range nB, ∑ t in Finset.range nT,
      (if g = x + y * nA2 + z * nA2 * nA3 then f x y z t else 0)) nA2
    (fun x _ v g => h2' x v g),
    forLoop_store_zero, if_pos hZ, zero_add]
  have hpull : ∀ x y z,
      ∑ t in Finset.range nT,
        (if a2 + a3 * nA2 + b * nA2 * nA3 = x + y * nA2 + z * nA2 * nA3 then f x y z t else 0)
      = if a2 + a3 * nA2 + b * nA2 * nA3 = x + y * nA2 + z * nA2 * nA3 then
          ∑ t in Finset.range nT, f x y z t else 0 := by
    intro x y z
    by_cases hc : a2 + a3 * nA2 + b * nA2 * nA3 = x + y * nA2 + z * nA2 * nA3
    · simp only [if_pos hc]
    · simp only [if_neg hc, Finset.sum_const_zero]
  simp only [hpull]
  exact sum3_single nA2 nA3 nB (fun x y z => x + y * nA2 + z * nA2 * nA3)
    (fun x y z => ∑ t in Finset.range nT, f x y z t) _ a2 a3 b h2 h3 hb rfl
    (fun x y z hx hy _ hc =>
      let h := idx3_inj hx h2 hy h3 hc.symm
      ⟨h.1, h.2.1, h.2.2⟩)

theorem Contract_spec {R : Type} [CommRing R] (A B : Nat → R) (nA1 nA2 nA3 nB1 nB2 : Nat)
    (T : Nat → R) (a2 a3 b2 : Nat) (h2 : a2 < nA2) (h3 : a3 < nA3) (hb : b2 < nB2) :
    kernels3dreg.Contract A B nA1 nA2 nA3 nB1 nB2 T (a2 + a3 * nA2 + b2 * nA2 * nA3)
      = ∑ t in Finset.range nB1, B (b2 * nB1 + t) * A (a3 * nA2 * nA1 + a2 * nA1 + t) :=
  contract_nest (fun a2 a3 b2 t => B (b2 * nB1 + t) * A (a3 * nA2 * nA1 + a2 * nA1 + t))
    nA2 nA3 nB2 nB1 (nA2 * nA3 * nB2) T a2 a3 b2 h2 h3 hb (idx3_lt h2 h3 hb)

/-- The zero-fill of `ContractTranspose` covers `nA2*nA3*nB2` entries, its
output `nA2*nA3*nB1` entries: the output is the contraction when
`nB1 <= nB2`. -/
theorem ContractTranspose_spec {R : Type} [CommRing R] (A B : Nat → R)
    (nA1 nA2 nA3 nB1 nB2 : Nat) (T : Nat → R) (a2 a3 b1 : Nat) (h2 : a2 < nA2) (h3 : a3 < nA3)
    (hb : b1 < nB1) (hle : nB1 ≤ nB2) :
    kernels3dreg.ContractTranspose A B nA1 nA2 nA3 nB1 nB2 T (a2 + a3 * nA2 + b1 * nA2 * nA3)
      = ∑ t in Finset.range nB2, B (t * nB1 + b1) * A (a3 * nA2 * nA1 + a2 * nA1 + t) :=
  contract_nest (fun a2 a3 b1 t => B (t * nB1 + b1) * A (a3 * nA2 * nA1 + a2 * nA1 + t))
    nA2 nA3 nB1 nB2 (nA2 * nA3 * nB2) T a2 a3 b1 h2 h3 hb
    (Nat.lt_of_lt_of_le (idx3_lt h2 h3 hb) (Nat.mul_le_mul_left _ hle))

theorem sum3_reverse {M : Type} [AddCommMonoid M] (l m n : Nat) (f : Nat → Nat → Nat → M) :
    ∑ a in Finset.range l, ∑ b in Finset.range m, ∑ c in Finset.range n, f a b c
      = ∑ c in Finset.range n, ∑ b in Finset.range m, ∑ a in Finset.range l, f a b c := by
  rw [Finset.sum_comm]
  have h : ∀ b, ∑ a in Finset.range l, ∑ c in Finset.range n, f a b c
      = ∑ c in Finset.range n, ∑ a in Finset.range l, f a b c := fun b => Finset.sum_comm
  simp only [h]
  rw [Finset.sum_comm]

/-- The three chained calls of `Contract` in forward mode. -/
theorem contractChain_forward {R : Type} [CommRing R] (m : KernelDefs) (c_B r_V r_t : Nat → R)
    (q0 q1 q2 : Nat) (h0 : q0 < m.Q1D) (h1 : q1 < m.Q1D) (h2 : q2 < m.Q1D) :
    kernels3dreg.contractChain m 0 c_B r_V r_t (q0 + m.Q1D * q1 + m.Q1D ^ 2 * q2)
      = ∑ p0 in Finset.range m.P1D, ∑ p1 in Finset.range m.P1D, ∑ p2 in Finset.range m.P1D,
          c_B (q0 * m.P1D + p0) * c_B (q1 * m.P1D + p1) * c_B (q2 * m.P1D + p2)
            * r_V (p0 + m.P1D * p1 + m.P1D ^ 2 * p2) := by
  unfold kernels3dreg.contractChain
  rw [if_pos rfl]
  generalize m.P1D = P at *
  generalize m.Q1D = Q at *
  have e3 : q0 + Q * q1 + Q ^ 2 * q2 = q0 + q1 * Q + q2 * Q * Q := by ring
  rw [e3, Contract_spec _ _ _ _ _ _ _ _ _ _ _ h0 h1 h2]
  have s2 : ∀ t, t < P →
      kernels3dreg.Contract (kernels3dreg.Contract r_V c_B P P P P Q r_t) c_B P P Q P Q r_V
        (q1 * Q * P + q0 * P + t)
      = ∑ t' in Finset.range P, c_B (q1 * P + t')
          * kernels3dreg.Contract r_V c_B P P P P Q r_t (q0 * P * P + t * P + t') := by
    intro t ht
    have e2 : q1 * Q * P + q0 * P + t = t + q0 * P + q1 * P * Q := by ring
    rw [e2, Contract_spec _ _ _ _ _ _ _ _ _ _ _ ht h0 h1]
  have s1 : ∀ t t', t < P → t' < P →
      kernels3dreg.Contract r_V c_B P P P P Q r_t (q0 * P * P + t * P + t')
      = ∑ t'' in Finset.range P, c_B (q0 * P + t'') * r_V (t * P * P + t' * P + t'') := by
    intro t t' ht ht'
    have e1 : q0 * P * P + t * P + t' = t' + t * P + q0 * P * P := by ring
    rw [e1, Contract_spec _ _ _ _ _ _ _ _ _ _ _ ht' ht h0]
  have step : ∑ t in Finset.range P, c_B (q2 * P + t)
        * kernels3dreg.Contract (kernels3dreg.Contract r_V c_B P P P P Q r_t) c_B P P Q P Q r_V
            (q1 * Q * P + q0 * P + t)
      = ∑ p2 in Finset.range P, ∑ p1 in Finset.range P, ∑ p0 in Finset.range P,
          c_B (q0 * P + p0) * c_B (q1 * P + p1) * c_B (q2 * P + p2)
            * r_V (p0 + P * p1 + P ^ 2 * p2) := by
    apply Finset.sum_congr rfl
    intro t ht
    rw [Finset.mem_range] at ht
    rw [s2 t ht, Finset.mul_sum]
    apply Finset.sum_congr rfl
    intro t' ht'
    rw [Finset.mem_range] at ht'
    rw [s1 t t' ht ht', Finset.mul_sum, Finset.mul_sum]
    apply Finset.sum_congr rfl
    intro t'' _
    have e : t * P * P + t' * P + t'' = t'' + P * t' + P ^ 2 * t := by ring
    rw [e]
    ring
  rw [step, sum3_reverse]

/-- The three chained calls of `ContractTranspose` in transpose mode, when
`P1D <= Q1D`. -/
theorem contractChain_transpose {R : Type} [CommRing R] (m : KernelDefs) (transpose : Int)
    (c_B r_V r_t : Nat → R) (ht : transpose ≠ 0) (hPQ : m.P1D ≤ m.Q1D)
    (p0 p1 p2 : Nat) (h0 : p0 < m.P1D) (h1 : p1 < m.P1D) (h2 : p2 < m.P1D) :
    kernels3dreg.contractChain m transpose c_B r_V r_t (p0 + m.P1D * p1 + m.P1D ^ 2 * p2)
      = ∑ q0 in Finset.range m.Q1D, ∑ q1 in Finset.range m.Q1D, ∑ q2 in Finset.range m.Q1D,
          c_B (q0 * m.P1D + p0) * c_B (q1 * m.P1D + p1) * c_B (q2 * m.P1D + p2)
            * r_V (q0 + m.Q1D * q1 + m.Q1D ^ 2 * q2) := by
  unfold kernels3dreg.contractChain
  rw [if_neg ht]
  generalize m.P1D = P at *
  generalize m.Q1D = Q at *
  have e3 : p0 + P * p1 + P ^ 2 * p2 = p0 + p1 * P + p2 * P * P := by ring
  rw [e3, ContractTranspose_spec _ _ _ _ _ _ _ _ _ _ _ h0 h1 h2 hPQ]
  have s2 : ∀ t, t < Q →
      kernels3dreg.ContractTranspose (kernels3dreg.ContractTranspose r_V c_B Q Q Q P Q r_t) c_B
        Q Q P P Q r_V (p1 * P * Q + p0 * Q + t)
      = ∑ t' in Finset.range Q, c_B (t' * P + p1)
          * kernels3dreg.ContractTranspose r_V c_B Q Q Q P Q r_t (p0 * Q * Q + t * Q + t') := by
    intro t ht
    have e2 : p1 * P * Q + p0 * Q + t = t + p0 * Q + p1 * Q * P := by ring
    rw [e2, ContractTranspose_spec _ _ _ _ _ _ _ _ _ _ _ ht h0 h1 hPQ]
  have s1 : ∀ t t', t < Q → t' < Q →
      kernels3dreg.ContractTranspose r_V c_B Q Q Q P Q r_t (p0 * Q * Q + t * Q + t')
      = ∑ t'' in Finset.range Q, c_B (t'' * P + p0) * r_V (t * Q * Q + t' * Q + t'') := by
    intro t t' ht ht'
    have e1 : p0 * Q * Q + t * Q + t' = t' + t * Q + p0 * Q * Q := by ring
    rw [e1, ContractTranspose_spec _ _ _ _ _ _ _ _ _ _ _ ht' ht h0 hPQ]
  have step : ∑ t in Finset.range Q, c_B (t * P + p2)
        * kernels3dreg.ContractTranspose (kernels3dreg.ContractTranspose r_V c_B Q Q Q P Q r_t)
            c_B Q Q P P Q r_V (p1 * P * Q + p0 * Q + t)
      = ∑ q2 in Finset.range Q, ∑ q1 in Finset.range Q, ∑ q0 in Finset.range Q,
          c_B (q0 * P + p0) * c_B (q1 * P + p1) * c_B (q2 * P + p2)
            * r_V (q0 + Q * q1 + Q ^ 2 * q2) := by
    apply Finset.sum_congr rfl
    intro t ht
    rw [Finset.mem_range] at ht
    rw [s2 t ht, Finset.mul_sum]
    apply Finset.sum_congr rfl
    intro t' ht'
    rw [Finset.mem_range] at ht'
    rw [s1 t t' ht ht', Finset.mul_sum, Finset.mul_sum]
    apply Finset.sum_congr rfl
    intro t'' _
    have e : t * Q * Q + t' * Q + t'' = t'' + Q * t' + Q ^ 2 * t := by ring
    rw [e]
    ring
  rw [step, sum3_reverse]

/-! ### Claims on `CeedBasisApply_Cuda_3dreg` and on the accesses of `CeedBasisApply_Cuda` -/

/-- C27: `CeedBasisApply_Cuda_3dreg` does not refuse the modes it does not
implement. When no collaborator call fails and `emode` is `CEED_EVAL_GRAD` or
`CEED_EVAL_WEIGHT`, it returns 0 without launching a kernel: `v` is as it was
(in transpose mode: as the `cudaMemset` left it). -/
theorem C27_register_apply_accepts_grad_weight {R : Type} [CommRing R] (calls : CudaCalls)
    (initInterp : Int) (vlength : Nat) (blockOrder : List Nat) (sched : Nat → List Nat)
    (regs : Nat → Nat → Nat → Nat → R) (basis : CeedBasis R) (nelem : Nat)
    (tmode : CeedTransposeMode) (emode : CeedEvalMode) (u v : Nat → R)
    (hcalls : calls.succeed) (hmode : emode = CEED_EVAL_GRAD ∨ emode = CEED_EVAL_WEIGHT) :
    (CeedBasisApply_Cuda_3dreg calls initInterp vlength blockOrder sched regs basis nelem tmode
      emode u v).ierr = 0 ∧
    (CeedBasisApply_Cuda_3dreg calls initInterp vlength blockOrder sched regs basis nelem tmode
      emode u v).v
      = (if tmode = CEED_TRANSPOSE then forLoop (fun i v => store v i 0) vlength v else v) := by
  obtain ⟨h1, h2, h3, h4, h5, h6, h7⟩ := hcalls
  unfold CeedBasisApply_Cuda_3dreg
  rcases hmode with h | h
  · subst h
    simp [h1, h2, h3, h4, h5, h6, h7]
  · subst h
    simp [h1, h2, h3, h4, h5, h6, h7]

/-- Witness of C27 on `wBasis`: `CEED_EVAL_GRAD` in forward mode returns 0 and
leaves `v` as it was. -/
theorem C27_register_apply_accepts_grad_weight_witness :
    (okCalls.succeed ∧ (CEED_EVAL_GRAD = CEED_EVAL_GRAD ∨ CEED_EVAL_GRAD = CEED_EVAL_WEIGHT)) ∧
    (CeedBasisApply_Cuda_3dreg okCalls 0 8 [0] (fun _ => List.range 32) (fun _ _ _ _ => 0)
      wBasis 1 CEED_NOTRANSPOSE CEED_EVAL_GRAD wU wV).ierr = 0 ∧
    (CeedBasisApply_Cuda_3dreg okCalls 0 8 [0] (fun _ => List.range 32) (fun _ _ _ _ => 0)
      wBasis 1 CEED_NOTRANSPOSE CEED_EVAL_GRAD wU wV).v
      = (if CEED_NOTRANSPOSE = CEED_TRANSPOSE then forLoop (fun i v => store v i 0) 8 wV
          else wV) :=
  ⟨⟨okCalls_succeed, Or.inl rfl⟩,
    C27_register_apply_accepts_grad_weight okCalls 0 8 [0] (fun _ => List.range 32)
      (fun _ _ _ _ => 0) wBasis 1 CEED_NOTRANSPOSE CEED_EVAL_GRAD wU wV okCalls_succeed
      (Or.inl rfl)⟩

/-- C28, as the code has it: the accesses held when `CeedBasisApply_Cuda`
returns, whatever kernel handles the backend data holds. Let
`CeedBasisGetCeed` and the acquisition of `u` succeed. When no later call fails
the function returns 0 with both accesses restored. When acquiring `v` fails,
the function returns that status at once and the read access to `u`, acquired
for every mode but `CEED_EVAL_WEIGHT`, is still held. When the `cudaMemset` of
transpose mode or the kernel launch fails, the function returns that status at
once and the write access to `v` is still held, together with the read access
to `u` if it was acquired. -/
theorem C28_cuda_apply_held_accesses {R : Type} [CommRing R] (calls : CudaCalls)
    (blocksize vlength : Nat) (data : CeedBasis_Cuda R) (basis : CeedBasis R) (nelem : Nat)
    (tmode : CeedTransposeMode) (emode : CeedEvalMode) (u v : Nat → R)
    (hceed : calls.CeedBasisGetCeed = 0) (hread : calls.CeedVectorGetArrayRead = 0) :
    (calls.succeed →
      (CeedBasisApply_Cuda calls blocksize vlength data basis nelem tmode emode u v).ierr = 0 ∧
      (CeedBasisApply_Cuda calls blocksize vlength data basis nelem tmode emode u v).uHeld = false ∧
      (CeedBasisApply_Cuda calls blocksize vlength data basis nelem tmode emode u v).vHeld = false) ∧
    (calls.CeedVectorGetArray ≠ 0 →
      (CeedBasisApply_Cuda calls blocksize vlength data basis nelem tmode emode u v).ierr = calls.CeedVectorGetArray ∧
      (CeedBasisApply_Cuda calls blocksize vlength data basis nelem tmode emode u v).uHeld = decide (emode ≠ CEED_EVAL_WEIGHT) ∧
      (CeedBasisApply_Cuda calls blocksize vlength data basis nelem tmode emode u v).vHeld = false) ∧
    (calls.CeedVectorGetArray = 0 → tmode = CEED_TRANSPOSE → calls.cudaMemset ≠ 0 →
      (CeedBasisApply_Cuda calls blocksize vlength data basis nelem tmode emode u v).ierr = calls.cudaMemset ∧
      (CeedBasisApply_Cuda calls blocksize vlength data basis nelem tmode emode u v).uHeld = decide (emode ≠ CEED_EVAL_WEIGHT) ∧
      (CeedBasisApply_Cuda calls blocksize vlength data basis nelem tmode emode u v).vHeld = true) ∧
    (calls.CeedVectorGetArray = 0 → (tmode = CEED_TRANSPOSE → calls.cudaMemset = 0) →
      (emode = CEED_EVAL_INTERP ∨ emode = CEED_EVAL_GRAD ∨ emode = CEED_EVAL_WEIGHT) →
      calls.run_kernel ≠ 0 →
      (CeedBasisApply_Cuda calls blocksize vlength data basis nelem tmode emode u v).ierr = calls.run_kernel ∧
      (CeedBasisApply_Cuda calls blocksize vlength data basis nelem tmode emode u v).uHeld = decide (emode ≠ CEED_EVAL_WEIGHT) ∧
      (CeedBasisApply_Cuda calls blocksize vlength data basis nelem tmode emode u v).vHeld = true) := by
  refine ⟨?_, ?_, ?_, ?_⟩
  · rintro ⟨h1, h2, h3, h4, h5, h6, h7⟩
    unfold CeedBasisApply_Cuda
    simp [h1, h2, h3, h4, h5, h6, h7]
  · intro h3
    unfold CeedBasisApply_Cuda
    simp [hceed, hread, h3]
  · intro h3 ht h4
    unfold CeedBasisApply_Cuda
    simp [hceed, hread, h3, ht, h4]
  · intro h3 h4 hmode h5
    unfold CeedBasisApply_Cuda
    by_cases ht : tmode = CEED_TRANSPOSE
    · simp [hceed, hread, h3, ht, h4 ht, hmode, h5]
    · simp [hceed, hread, h3, ht, hmode, h5]

/-- Witness of C28 on `wBasis` with `CEED_EVAL_INTERP`: when acquiring `v` fails
(`failGetArray`) the call returns status 3 holding the read access to `u`; when
the launch fails (`failLaunch`) it returns status 4 holding both accesses. -/
theorem C28_cuda_apply_held_accesses_witness :
    (failGetArray.CeedBasisGetCeed = 0 ∧ failGetArray.CeedVectorGetArrayRead = 0 ∧
      failLaunch.CeedBasisGetCeed = 0 ∧ failLaunch.CeedVectorGetArrayRead = 0) ∧
    ((CeedBasisApply_Cuda failGetArray 2 4 wData wBasis 1 CEED_NOTRANSPOSE CEED_EVAL_INTERP
        wU wV).ierr = 3 ∧
      (CeedBasisApply_Cuda failGetArray 2 4 wData wBasis 1 CEED_NOTRANSPOSE CEED_EVAL_INTERP
        wU wV).uHeld = true ∧
      (CeedBasisApply_Cuda failGetArray 2 4 wData wBasis 1 CEED_NOTRANSPOSE CEED_EVAL_INTERP
        wU wV).vHeld = false) ∧
    ((CeedBasisApply_Cuda failLaunch 2 4 wData wBasis 1 CEED_NOTRANSPOSE CEED_EVAL_INTERP
        wU wV).ierr = 4 ∧
      (CeedBasisApply_Cuda failLaunch 2 4 wData wBasis 1 CEED_NOTRANSPOSE CEED_EVAL_INTERP
        wU wV).uHeld = true ∧
      (CeedBasisApply_Cuda failLaunch 2 4 wData wBasis 1 CEED_NOTRANSPOSE CEED_EVAL_INTERP
        wU wV).vHeld = true) :=
  ⟨⟨rfl, rfl, rfl, rfl⟩,
    (C28_cuda_apply_held_accesses failGetArray 2 4 wData wBasis 1 CEED_NOTRANSPOSE
      CEED_EVAL_INTERP wU wV rfl rfl).2.1 (by decide),
    (C28_cuda_apply_held_accesses failLaunch 2 4 wData wBasis 1 CEED_NOTRANSPOSE
      CEED_EVAL_INTERP wU wV rfl rfl).2.2.2 rfl
      (fun h => absurd h (by decide)) (Or.inl rfl) (by decide)⟩

/-- C28 as stated fails: in a transpose GRAD call whose kernel launch fails with
status 4, `CeedBasisApply_Cuda` returns 4 with the read access to `u` and the
write access to `v` acquired and not restored. -/
theorem C28_scoped_access_counterexample :
    (CeedBasisApply_Cuda failLaunch 2 4 wData wBasis 1 CEED_TRANSPOSE CEED_EVAL_GRAD
      wU wV).ierr = 4 ∧
    (CeedBasisApply_Cuda failLaunch 2 4 wData wBasis 1 CEED_TRANSPOSE CEED_EVAL_GRAD
      wU wV).uHeld = true ∧
    (CeedBasisApply_Cuda failLaunch 2 4 wData wBasis 1 CEED_TRANSPOSE CEED_EVAL_GRAD
      wU wV).vHeld = true := by
  decide

/-! ### The kernel `interp` of the register variant -/

/-- A loop of stores `v[addr i] = val i` at distinct addresses. -/
theorem forLoop_store_at {R : Type} (addr : Nat → Nat) (val : Nat → R) (n : Nat)
    (hinj : ∀ i j, i < n → j < n → addr i = addr j → i = j) (v : Nat → R) :
    (∀ j, j < n → forLoop (fun i v => store v (addr i) (val i)) n v (addr j) = val j) ∧
    (∀ k, (∀ i, i < n → k ≠ addr i) →
      forLoop (fun i v => store v (addr i) (val i)) n v k = v k) := by
  induction n with
  | zero => exact ⟨fun j hj => absurd hj (Nat.not_lt_zero j), fun _ _ => rfl⟩
  | succ n ih =>
    have ih' := ih (fun i j hi hj => hinj i j (by omega) (by omega))
    constructor
    · intro j hj
      rw [forLoop_succ]
      simp only [store]
      by_cases h : addr j = addr n
      · rw [if_pos h, hinj j n hj (Nat.lt_succ_self n) h]
      · rw [if_neg h]
        apply ih'.1
        rcases Nat.lt_succ_iff_lt_or_eq.mp hj with h' | h'
        · exact h'
        · subst h'; exact absurd rfl h
    · intro k hk
      rw [forLoop_succ]
      simp only [store]
      rw [if_neg (hk n (Nat.lt_succ_self n))]
      exact ih'.2 k (fun i hi => hk i (by omega))

theorem cube_eq (P : Nat) : P * P * P = P ^ 3 := by ring

theorem digits3_lt {P p0 p1 p2 : Nat} (h0 : p0 < P) (h1 : p1 < P) (h2 : p2 < P) :
    p0 + P * p1 + P ^ 2 * p2 < P ^ 3 := by
  have h := @idx3_lt P P P p0 p1 p2 h0 h1 h2
  have e1 : p0 + p1 * P + p2 * P * P = p0 + P * p1 + P ^ 2 * p2 := by ring
  have e2 : P * P * P = P ^ 3 := by ring
  rw [e1, e2] at h
  exact h

/-- What one thread of the register kernel `interp` does in forward mode. -/
theorem interpThread_forward {R : Type} [CommRing R] (m : KernelDefs) (nelem : Nat)
    (c_B d_U r_V0 r_t0 d_V : Nat → R) (bid tid : Nat) (hbid : bid < nelem) :
    (∀ q0 q1 q2, q0 < m.Q1D → q1 < m.Q1D → q2 < m.Q1D →
      q0 + m.Q1D * q1 + m.Q1D ^ 2 * q2 < m.P1D ^ 3 →
      kernels3dreg.interpThread m nelem 0 c_B d_U r_V0 r_t0 bid tid d_V
          (bid * 32 * m.P1D ^ 3 + 32 * (q0 + m.Q1D * q1 + m.Q1D ^ 2 * q2) + tid)
        = ∑ p0 in Finset.range m.P1D, ∑ p1 in Finset.range m.P1D, ∑ p2 in Finset.range m.P1D,
            c_B (q0 * m.P1D + p0) * c_B (q1 * m.P1D + p1) * c_B (q2 * m.P1D + p2)
              * d_U (bid * 32 * m.P1D ^ 3 + 32 * (p0 + m.P1D * p1 + m.P1D ^ 2 * p2) + tid)) ∧
    (∀ k, (∀ i, i < m.P1D ^ 3 → k ≠ bid * 32 * m.P1D ^ 3 + 32 * i + tid) →
      kernels3dreg.interpThread m nelem 0 c_B d_U r_V0 r_t0 bid tid d_V k = d_V k) := by
  have hbase : bid * 32 * m.P1D * m.P1D * m.P1D = bid * 32 * m.P1D ^ 3 := by ring
  have hinj : ∀ i j, i < m.P1D * m.P1D * m.P1D → j < m.P1D * m.P1D * m.P1D →
      bid * 32 * m.P1D * m.P1D * m.P1D + i * 32 + tid
        = bid * 32 * m.P1D * m.P1D * m.P1D + j * 32 + tid → i = j := by
    intro i j _ _ h
    omega
  have hload := forLoop_store_at (fun i => i)
    (fun i => d_U (bid * 32 * m.P1D * m.P1D * m.P1D + 32 * i + tid)) (m.P1D * m.P1D * m.P1D)
    (fun i j _ _ h => h) r_V0
  unfold kernels3dreg.interpThread
  rw [if_pos hbid]
  have hstore := forLoop_store_at
    (fun i => bid * 32 * m.P1D * m.P1D * m.P1D + i * 32 + tid)
    (fun i => kernels3dreg.contractChain m 0 c_B
      (forLoop (fun i r_V =>
        store r_V i (d_U (bid * 32 * m.P1D * m.P1D * m.P1D + 32 * i + tid)))
        (m.P1D * m.P1D * m.P1D) r_V0) r_t0 i)
    (m.P1D * m.P1D * m.P1D) hinj d_V
  constructor
  · intro q0 q1 q2 h0 h1 h2 hq
    have e : bid * 32 * m.P1D ^ 3 + 32 * (q0 + m.Q1D * q1 + m.Q1D ^ 2 * q2) + tid
        = bid * 32 * m.P1D * m.P1D * m.P1D + (q0 + m.Q1D * q1 + m.Q1D ^ 2 * q2) * 32 + tid := by
      ring
    rw [e]
    have h := hstore.1 (q0 + m.Q1D * q1 + m.Q1D ^ 2 * q2) (by rw [cube_eq]; exact hq)
    rw [h, contractChain_forward m c_B _ r_t0 q0 q1 q2 h0 h1 h2]
    apply Finset.sum_congr rfl
    intro p0 hp0
    apply Finset.sum_congr rfl
    intro p1 hp1
    apply Finset.sum_congr rfl
    intro p2 hp2
    rw [Finset.mem_range] at hp0 hp1 hp2
    have hl := hload.1 (p0 + m.P1D * p1 + m.P1D ^ 2 * p2)
      (by rw [cube_eq]; exact digits3_lt hp0 hp1 hp2)
    rw [hl, hbase]
  · intro k hk
    apply hstore.2
    intro i hi
    have := hk i (by rw [← cube_eq]; exact hi)
    intro hc
    apply this
    rw [hc]
    ring

/-- C29: what a thread of the register kernel `interp` writes in forward mode.
Thread `tid` of block `bid < nelem` stores `r_t[i]` at
`d_V[bid*32*P1D^3 + 32*i + tid]` for `i < P1D^3` only: for `q0, q1, q2 < Q1D`
with `q = q0 + Q1D*q1 + Q1D^2*q2 < P1D^3` this entry is the tensor-product sum
over `p0, p1, p2 < P1D` of
`c_B[q0*P1D+p0] * c_B[q1*P1D+p1] * c_B[q2*P1D+p2] * d_U[bid*32*P1D^3 + 32*p + tid]`
with `p = p0 + P1D*p1 + P1D^2*p2`, and every entry of `d_V` that is not
`bid*32*P1D^3 + 32*i + tid` for some `i < P1D^3` is left as it was. The offsets
and the number of stored values use `P1D^3`, which is the claimed `Q1D^3` when
`P1D = Q1D`. -/
theorem C29_register_interp_thread {R : Type} [CommRing R] (dim ncomp P1D Q1D nelem : Nat)
    (c_B d_U r_V0 r_t0 d_V : Nat → R) (bid tid : Nat) (hbid : bid < nelem) :
    (∀ q0 q1 q2, q0 < Q1D → q1 < Q1D → q2 < Q1D → q0 + Q1D * q1 + Q1D ^ 2 * q2 < P1D ^ 3 →
      kernels3dreg.interpThread (kernelDefs dim ncomp P1D Q1D) nelem 0 c_B d_U r_V0 r_t0 bid tid
          d_V (bid * 32 * P1D ^ 3 + 32 * (q0 + Q1D * q1 + Q1D ^ 2 * q2) + tid)
        = ∑ p0 in Finset.range P1D, ∑ p1 in Finset.range P1D, ∑ p2 in Finset.range P1D,
            c_B (q0 * P1D + p0) * c_B (q1 * P1D + p1) * c_B (q2 * P1D + p2)
              * d_U (bid * 32 * P1D ^ 3 + 32 * (p0 + P1D * p1 + P1D ^ 2 * p2) + tid)) ∧
    (∀ k, (∀ i, i < P1D ^ 3 → k ≠ bid * 32 * P1D ^ 3 + 32 * i + tid) →
      kernels3dreg.interpThread (kernelDefs dim ncomp P1D Q1D) nelem 0 c_B d_U r_V0 r_t0 bid tid
        d_V k = d_V k) :=
  interpThread_forward (kernelDefs dim ncomp P1D Q1D) nelem c_B d_U r_V0 r_t0 d_V bid tid hbid

/-- Witness of C29 with `P1D = 1`, `Q1D = 2` and one element: thread 0 of block
0 leaves `d_V[32]` as it was, and after the whole launch (one block of 32
threads) the second output value of element 0, `d_V[0*32*2^3 + 32*1 + 0]`, is
still the old `d_V[32]` and not the interpolated value
`c_B[1] * c_B[0] * c_B[0] * d_U[0]`. -/
theorem C29_register_interp_thread_witness :
    0 < 1 ∧
    kernels3dreg.interpThread (kernelDefs 3 1 1 2) 1 0 wT wU (fun _ => 0) (fun _ => 0) 0 0 wV 32
      = wV 32 ∧
    kernels3dreg.interp (kernelDefs 3 1 1 2) [0] (fun _ => List.range 32) (fun _ _ _ _ => 0) 1 0
      wT wU wV (0 * 32 * 2 ^ 3 + 32 * 1 + 0) = wV 32 ∧
    wV 32 ≠ wT (1 * 1 + 0) * wT (0 * 1 + 0) * wT (0 * 1 + 0) * wU (0 * 32 * 1 ^ 3 + 32 * 0 + 0) :=
  ⟨by decide,
    (C29_register_interp_thread 3 1 1 2 1 wT wU (fun _ => 0) (fun _ => 0) wV 0 0
      (by decide)).2 32 (by intro i hi; omega),
    by decide, by decide⟩

/-- C30: the chained calls of `Contract` and of `ContractTranspose`. For all
`P`, `Q`, any `B` and any contents of the two arrays, after
`Contract(r_V,B,P,P,P,P,Q,r_t); Contract(r_t,B,P,P,Q,P,Q,r_V);
Contract(r_V,B,P,Q,Q,P,Q,r_t)` the array `r_t` holds at `q0 + Q*q1 + Q^2*q2`
(`q0, q1, q2 < Q`) the sum over `p0, p1, p2 < P` of
`B[q0*P+p0]*B[q1*P+p1]*B[q2*P+p2] * r_V[p0 + P*p1 + P^2*p2]`. When `P <= Q`, after
`ContractTranspose(r_V,B,Q,Q,Q,P,Q,r_t); ContractTranspose(r_t,B,Q,Q,P,P,Q,r_V);
ContractTranspose(r_V,B,Q,P,P,P,Q,r_t)` the array `r_t` holds at
`p0 + P*p1 + P^2*p2` (`p0, p1, p2 < P`) the sum over `q0, q1, q2 < Q` of
`B[q0*P+p0]*B[q1*P+p1]*B[q2*P+p2] * r_V[q0 + Q*q1 + Q^2*q2]`. `ContractTranspose`
zero-fills `nA2*nA3*nB2` entries of an output of `nA2*nA3*nB1` entries, which
covers the output only when `P <= Q`. -/
theorem C30_contract_chains {R : Type} [CommRing R] (P Q : Nat) (B r_V r_t : Nat → R)
    (a0 a1 a2 : Nat) :
    (a0 < Q → a1 < Q → a2 < Q →
      kernels3dreg.Contract
          (kernels3dreg.Contract (kernels3dreg.Contract r_V B P P P P Q r_t) B P P Q P Q r_V)
          B P Q Q P Q (kernels3dreg.Contract r_V B P P P P Q r_t) (a0 + Q * a1 + Q ^ 2 * a2)
        = ∑ p0 in Finset.range P, ∑ p1 in Finset.range P, ∑ p2 in Finset.range P,
            B (a0 * P + p0) * B (a1 * P + p1) * B (a2 * P + p2)
              * r_V (p0 + P * p1 + P ^ 2 * p2)) ∧
    (P ≤ Q → a0 < P → a1 < P → a2 < P →
      kernels3dreg.ContractTranspose
          (kernels3dreg.ContractTranspose (kernels3dreg.ContractTranspose r_V B Q Q Q P Q r_t)
            B Q Q P P Q r_V)
          B Q P P P Q (kernels3dreg.ContractTranspose r_V B Q Q Q P Q r_t)
          (a0 + P * a1 + P ^ 2 * a2)
        = ∑ q0 in Finset.range Q, ∑ q1 in Finset.range Q, ∑ q2 in Finset.range Q,
            B (q0 * P + a0) * B (q1 * P + a1) * B (q2 * P + a2)
              * r_V (q0 + Q * q1 + Q ^ 2 * q2)) := by
  constructor
  · intro h0 h1 h2
    have h := contractChain_forward (kernelDefs 3 1 P Q) B r_V r_t a0 a1 a2 h0 h1 h2
    unfold kernels3dreg.contractChain at h
    rw [if_pos rfl] at h
    exact h
  · intro hPQ h0 h1 h2
    have h := contractChain_transpose (kernelDefs 3 1 P Q) 1 B r_V r_t (by decide) hPQ a0 a1 a2
      h0 h1 h2
    unfold kernels3dreg.contractChain at h
    rw [if_neg (by decide)] at h
    exact h

/-- Witness of C30 with `P = 2`, `Q = 1`. The chain of `Contract` gives the
tensor product at index 0. The chain of `ContractTranspose` does not give the
adjoint at index `1 + 2*0 + 4*0`: the first call zero-fills one entry of `r_t`
and accumulates into two, so the 5 found in `r_t[1]` stays in the result. -/
theorem C30_contract_chains_witness :
    kernels3dreg.Contract
        (kernels3dreg.Contract (kernels3dreg.Contract wU wT 2 2 2 2 1 (fun _ => 5)) wT 2 2 1 2 1
          wU)
        wT 2 1 1 2 1 (kernels3dreg.Contract wU wT 2 2 2 2 1 (fun _ => 5)) (0 + 1 * 0 + 1 ^ 2 * 0)
      = ∑ p0 in Finset.range 2, ∑ p1 in Finset.range 2, ∑ p2 in Finset.range 2,
          wT (0 * 2 + p0) * wT (0 * 2 + p1) * wT (0 * 2 + p2) * wU (p0 + 2 * p1 + 2 ^ 2 * p2) ∧
    kernels3dreg.ContractTranspose
        (kernels3dreg.ContractTranspose
          (kernels3dreg.ContractTranspose wU wT 1 1 1 2 1 (fun _ => 5)) wT 1 1 2 2 1 wU)
        wT 1 2 2 2 1 (kernels3dreg.ContractTranspose wU wT 1 1 1 2 1 (fun _ => 5))
        (1 + 2 * 0 + 2 ^ 2 * 0)
      ≠ ∑ q0 in Finset.range 1, ∑ q1 in Finset.range 1, ∑ q2 in Finset.range 1,
          wT (q0 * 2 + 1) * wT (q1 * 2 + 0) * wT (q2 * 2 + 0) * wU (q0 + 1 * q1 + 1 ^ 2 * q2) :=
  ⟨(C30_contract_chains 2 1 wT wU (fun _ => 5) 0 0 0).1 (by decide) (by decide) (by decide),
    by decide⟩

/-! ### The guard of the register kernel -/

theorem gridsize3dreg_le {nelem bid : Nat} (hbid : bid < gridsize3dreg nelem) : bid < nelem := by
  unfold gridsize3dreg at hbid
  split_ifs at hbid <;> omega

/-- C31: the guard of the register kernel `interp` tests the block number.
With `gridsize = ceil(nelem/32)` blocks of 32 threads, every launched block
`bid < gridsize` passes the guard `bid < nelem`, whatever the thread number
`tid < 32`. A thread whose element number `32*bid + tid` is `nelem` or more
therefore runs like the others: it loads
`r_V[i] = d_U[bid*32*P1D^3 + 32*i + tid]` and stores
`d_V[bid*32*P1D^3 + i*32 + tid] = r_t[i]` for every `i < P1D^3`, and for
`i = P1D^3 - 1` this address is `nelem*P1D^3` or more, past the entries of the
`nelem` elements. Such a thread exists in the last block whenever `nelem` is not
a multiple of 32. -/
theorem C31_register_launch_guard {R : Type} [CommRing R] (m : KernelDefs) (nelem : Nat)
    (transpose : Int) (c_B d_U r_V0 r_t0 d_V : Nat → R) (bid tid : Nat)
    (hbid : bid < gridsize3dreg nelem) (htid : tid < 32)
    (hP : 0 < m.P1D) (hpast : nelem ≤ 32 * bid + tid) :
    bid < nelem ∧
    (∀ i, i < m.P1D * m.P1D * m.P1D →
      kernels3dreg.interpThread m nelem transpose c_B d_U r_V0 r_t0 bid tid d_V
          (bid * 32 * m.P1D * m.P1D * m.P1D + i * 32 + tid)
        = kernels3dreg.contractChain m transpose c_B
            (forLoop (fun i r_V =>
              store r_V i (d_U (bid * 32 * m.P1D * m.P1D * m.P1D + 32 * i + tid)))
              (m.P1D * m.P1D * m.P1D) r_V0) r_t0 i) ∧
    nelem * (m.P1D * m.P1D * m.P1D)
      ≤ bid * 32 * m.P1D * m.P1D * m.P1D + (m.P1D * m.P1D * m.P1D - 1) * 32 + tid ∧
    (nelem % 32 ≠ 0 → nelem / 32 < gridsize3dreg nelem) := by
  have hlt := gridsize3dreg_le hbid
  refine ⟨hlt, ?_, ?_, ?_⟩
  · intro i hi
    have hinj : ∀ i j, i < m.P1D * m.P1D * m.P1D → j < m.P1D * m.P1D * m.P1D →
        bid * 32 * m.P1D * m.P1D * m.P1D + i * 32 + tid
          = bid * 32 * m.P1D * m.P1D * m.P1D + j * 32 + tid → i = j := by
      intro i j _ _ h
      omega
    unfold kernels3dreg.interpThread
    rw [if_pos hlt]
    exact (forLoop_store_at
      (fun i => bid * 32 * m.P1D * m.P1D * m.P1D + i * 32 + tid)
      (fun i => kernels3dreg.contractChain m transpose c_B
        (forLoop (fun i r_V =>
          store r_V i (d_U (bid * 32 * m.P1D * m.P1D * m.P1D + 32 * i + tid)))
          (m.P1D * m.P1D * m.P1D) r_V0) r_t0 i)
      (m.P1D * m.P1D * m.P1D) hinj d_V).1 i hi
  · have hc : 0 < m.P1D * m.P1D * m.P1D := Nat.mul_pos (Nat.mul_pos hP hP) hP
    have e : bid * 32 * m.P1D * m.P1D * m.P1D = 32 * bid * (m.P1D * m.P1D * m.P1D) := by ring
    rw [e]
    generalize m.P1D * m.P1D * m.P1D = c at *
    have h1 : nelem * c ≤ (32 * bid + tid) * c := Nat.mul_le_mul_right _ hpast
    have h2 : tid * c + (32 - tid) * c = 32 * c := by
      rw [← Nat.add_mul]; congr 1; omega
    have h3 : (32 - tid) * 1 ≤ (32 - tid) * c := Nat.mul_le_mul_left _ hc
    have h4 : (c - 1) * 32 = 32 * c - 32 := by omega
    rw [Nat.add_mul] at h1
    omega
  · intro h
    unfold gridsize3dreg
    have : nelem / 32 * 32 < nelem := by omega
    rw [if_pos this]
    omega

/-- Witness of C31 with one element and `P1D = Q1D = 1`: one block of 32
threads is launched; thread 1 of block 0 has element number 1, which is not
below `nelem = 1`, passes the guard, reads `d_U[1]` and overwrites `d_V[1]` with
`c_B[0]^3 * d_U[1]`, although the one element owns only entry 0 of `d_U` and
of `d_V`. -/
theorem C31_register_launch_guard_witness :
    (0 < gridsize3dreg 1 ∧ 1 < 32 ∧ 0 < (kernelDefs 3 1 1 1).P1D ∧ 1 ≤ 32 * 0 + 1) ∧
    0 < 1 ∧
    kernels3dreg.interpThread (kernelDefs 3 1 1 1) 1 0 wT wU (fun _ => 0) (fun _ => 0) 0 1 wV
        (0 * 32 * 1 * 1 * 1 + 0 * 32 + 1)
      = kernels3dreg.contractChain (kernelDefs 3 1 1 1) 0 wT
          (forLoop (fun i r_V => store r_V i (wU (0 * 32 * 1 * 1 * 1 + 32 * i + 1))) (1 * 1 * 1)
            (fun _ => 0)) (fun _ => 0) 0 ∧
    1 * (1 * 1 * 1) ≤ 0 * 32 * 1 * 1 * 1 + (1 * 1 * 1 - 1) * 32 + 1 ∧
    kernels3dreg.interpThread (kernelDefs 3 1 1 1) 1 0 wT wU (fun _ => 0) (fun _ => 0) 0 1 wV 1
      = wT 0 * wT 0 * wT 0 * wU 1 ∧
    kernels3dreg.interpThread (kernelDefs 3 1 1 1) 1 0 wT wU (fun _ => 0) (fun _ => 0) 0 1 wV 1
      ≠ wV 1 :=
  ⟨⟨by decide, by decide, by decide, by decide⟩,
    (C31_register_launch_guard (kernelDefs 3 1 1 1) 1 0 wT wU (fun _ => 0) (fun _ => 0) wV 0 1
      (by decide) (by decide) (by decide) (by decide)).1,
    (C31_register_launch_guard (kernelDefs 3 1 1 1) 1 0 wT wU (fun _ => 0) (fun _ => 0) wV 0 1
      (by decide) (by decide) (by decide) (by decide)).2.1 0 (by decide),
    (C31_register_launch_guard (kernelDefs 3 1 1 1) 1 0 wT wU (fun _ => 0) (fun _ => 0) wV 0 1
      (by decide) (by decide) (by decide) (by decide)).2.2.1,
    by decide, by decide⟩

/-! ### The scratch arrays of GRAD in the SIMD backend -/

theorem applyGrad_Opt_eq_gradSecond {R : Type} [CommRing R] (basis : CeedBasis R) (nelem : Nat)
    (tmode : CeedTransposeMode) (add : Int) (u : Nat → R) (s : OptState R) :
    applyGrad_Opt basis nelem tmode add u s = gradSecond basis nelem tmode add u s basis.dim :=
  rfl

/-- A loop of contraction steps with fixed `P` and `Q`: while the status is 0,
`pre` has been divided by `P` and `post` multiplied by `Q` once per step. -/
theorem optLoop_inv {R : Type} [CommRing R] (P Q : Nat) (t : Nat → R)
    (tmode : CeedTransposeMode) (Add : Nat → Int) (inp : Nat → OptState R → Nat → R)
    (out : Nat → OptBuf) (s0 : OptState R) (n : Nat)
    (h : (forLoop (fun d s => optStep P Q t tmode (Add d) (inp d s) (out d) s) n s0).ierr = 0) :
    s0.ierr = 0 ∧
    (forLoop (fun d s => optStep P Q t tmode (Add d) (inp d s) (out d) s) n s0).pre
      = s0.pre / P ^ n ∧
    (forLoop (fun d s => optStep P Q t tmode (Add d) (inp d s) (out d) s) n s0).post
      = s0.post * Q ^ n := by
  induction n with
  | zero =>
    refine ⟨h, ?_, ?_⟩
    · show s0.pre = _
      simp
    · show s0.post = _
      simp
  | succ n ih =>
    rw [forLoop_succ] at h ⊢
    generalize forLoop (fun d s => optStep P Q t tmode (Add d) (inp d s) (out d) s) n s0 = s
      at h ih ⊢
    have hs : s.ierr = 0 := by
      by_contra hne
      rw [optStep_skip _ _ _ _ _ _ _ _ hne] at h
      exact hne h
    obtain ⟨i0, ipre, ipost⟩ := ih hs
    have hst := optStep_status P Q t tmode (Add n) (inp n s) (out n) s hs
    obtain ⟨hC, hQ⟩ := hst.1.1 h
    rw [optStep_ok _ _ _ _ _ _ _ _ hs hC hQ]
    refine ⟨i0, ?_, ?_⟩
    · show s.pre / P = _
      rw [ipre, Nat.div_div_eq_div_mul, pow_succ]
    · show s.post * Q = _
      rw [ipost, pow_succ, Nat.mul_assoc]

/-- A loop of contraction steps entered without error, with `post` a multiple
of 8 and `Q` a multiple of 4, ends without error. -/
theorem optLoop_ok {R : Type} [CommRing R] (P Q : Nat) (t : Nat → R)
    (tmode : CeedTransposeMode) (Add : Nat → Int) (inp : Nat → OptState R → Nat → R)
    (out : Nat → OptBuf) (s0 : OptState R) (h0 : s0.ierr = 0) (hE : s0.post % 8 = 0)
    (hQ : Q % 4 = 0) (n : Nat) :
    (forLoop (fun d s => optStep P Q t tmode (Add d) (inp d s) (out d) s) n s0).ierr = 0 := by
  induction n with
  | zero => exact h0
  | succ n ih =>
    obtain ⟨_, _, ipost⟩ := optLoop_inv P Q t tmode Add inp out s0 n ih
    rw [forLoop_succ]
    generalize forLoop (fun d s => optStep P Q t tmode (Add d) (inp d s) (out d) s) n s0 = s
      at ih ipost ⊢
    have hst := optStep_status P Q t tmode (Add n) (inp n s) (out n) s ih
    apply hst.1.2
    refine ⟨?_, hQ⟩
    rw [ipost, Nat.mul_mod, hE]
    simp

theorem gradFirst_inv {R : Type} [CommRing R] (basis : CeedBasis R) (nelem : Nat)
    (tmode : CeedTransposeMode) (add : Int) (u : Nat → R) (s : OptState R) (n : Nat)
    (h : (gradFirst basis nelem tmode add u s n).ierr = 0) :
    s.ierr = 0 ∧
    (gradFirst basis nelem tmode add u s n).pre
      = basis.ncomp * (if tmode = CEED_TRANSPOSE then basis.Q1d else basis.P1d) ^ (basis.dim - 1)
          / (if tmode = CEED_TRANSPOSE then basis.Q1d else basis.P1d) ^ n ∧
    (gradFirst basis nelem tmode add u s n).post = nelem * basis.Q1d ^ n := by
  unfold gradFirst CeedPowInt at h ⊢
  exact optLoop_inv _ _ _ _ (fun d => if add ≠ 0 ∧ 0 < d then 1 else 0)
    (fun d s => if tmode = CEED_NOTRANSPOSE then (if d = 0 then u else s.tmp (d % 2))
       else fun i => u (d * basis.Q1d ^ basis.dim * basis.ncomp * nelem + i))
    (fun d => if tmode = CEED_NOTRANSPOSE then
         (if d = basis.dim - 1 then OptBuf.interp else OptBuf.tmp ((d + 1) % 2))
       else OptBuf.interp) _ n h

theorem gradFirst_ok {R : Type} [CommRing R] (basis : CeedBasis R) (nelem : Nat)
    (tmode : CeedTransposeMode) (add : Int) (u : Nat → R) (s : OptState R) (n : Nat)
    (h0 : s.ierr = 0) (hE : nelem % 8 = 0) (hQ : basis.Q1d % 4 = 0) :
    (gradFirst basis nelem tmode add u s n).ierr = 0 := by
  unfold gradFirst CeedPowInt
  exact optLoop_ok _ _ _ _ (fun d => if add ≠ 0 ∧ 0 < d then 1 else 0)
    (fun d s => if tmode = CEED_NOTRANSPOSE then (if d = 0 then u else s.tmp (d % 2))
       else fun i => u (d * basis.Q1d ^ basis.dim * basis.ncomp * nelem + i))
    (fun d => if tmode = CEED_NOTRANSPOSE then
         (if d = basis.dim - 1 then OptBuf.interp else OptBuf.tmp ((d + 1) % 2))
       else OptBuf.interp)
    (OptState.mk s.ierr
      (basis.ncomp * (if tmode = CEED_TRANSPOSE then basis.Q1d else basis.P1d) ^ (basis.dim - 1))
      nelem s.tmp s.interp s.v) h0 hE hQ n

theorem gradSecond_inv {R : Type} [CommRing R] (basis : CeedBasis R) (nelem : Nat)
    (tmode : CeedTransposeMode) (add : Int) (u : Nat → R) (s : OptState R) (n : Nat)
    (h : (gradSecond basis nelem tmode add u s n).ierr = 0) :
    (gradFirst basis nelem tmode add u s basis.dim).ierr = 0 ∧
    (gradSecond basis nelem tmode add u s n).pre
      = basis.ncomp * basis.Q1d ^ (basis.dim - 1) / basis.Q1d ^ n ∧
    (gradSecond basis nelem tmode add u s n).post
      = nelem * (if tmode = CEED_TRANSPOSE then basis.P1d else basis.Q1d) ^ n := by
  unfold gradSecond CeedPowInt at h ⊢
  exact optLoop_inv _ _ _ _ (fun d => if add ≠ 0 ∧ d = basis.dim - 1 then 1 else 0)
    (fun d s => if tmode = CEED_NOTRANSPOSE then s.interp
       else (if d = 0 then s.interp else s.tmp (d % 2)))
    (fun d => if tmode = CEED_NOTRANSPOSE then
        OptBuf.v (d * basis.Q1d ^ basis.dim * basis.ncomp * nelem)
       else (if d = basis.dim - 1 then OptBuf.v 0 else OptBuf.tmp ((d + 1) % 2))) _ n h

theorem gradSecond_ok {R : Type} [CommRing R] (basis : CeedBasis R) (nelem : Nat)
    (tmode : CeedTransposeMode) (add : Int) (u : Nat → R) (s : OptState R) (n : Nat)
    (h0 : s.ierr = 0) (hE : nelem % 8 = 0) (hQ : basis.Q1d % 4 = 0)
    (hQ2 : (if tmode = CEED_TRANSPOSE then basis.P1d else basis.Q1d) % 4 = 0) :
    (gradSecond basis nelem tmode add u s n).ierr = 0 := by
  have h1 := gradFirst_ok basis nelem tmode add u s basis.dim h0 hE hQ
  unfold gradSecond CeedPowInt
  exact optLoop_ok _ _ _ _ (fun d => if add ≠ 0 ∧ d = basis.dim - 1 then 1 else 0)
    (fun d s => if tmode = CEED_NOTRANSPOSE then s.interp
       else (if d = 0 then s.interp else s.tmp (d % 2)))
    (fun d => if tmode = CEED_NOTRANSPOSE then
        OptBuf.v (d * basis.Q1d ^ basis.dim * basis.ncomp * nelem)
       else (if d = basis.dim - 1 then OptBuf.v 0 else OptBuf.tmp ((d + 1) % 2)))
    (OptState.mk (gradFirst basis nelem tmode add u s basis.dim).ierr
      (basis.ncomp * basis.Q1d ^ (basis.dim - 1)) nelem
      (gradFirst basis nelem tmode add u s basis.dim).tmp
      (gradFirst basis nelem tmode add u s basis.dim).interp
      (gradFirst basis nelem tmode add u s basis.dim).v) h1 hE hQ2 n

theorem gradSecond_succ {R : Type} [CommRing R] (basis : CeedBasis R) (nelem : Nat)
    (tmode : CeedTransposeMode) (add : Int) (u : Nat → R) (s : OptState R) (d : Nat) :
    gradSecond basis nelem tmode add u s (d + 1)
      = optStep basis.Q1d (if tmode = CEED_TRANSPOSE then basis.P1d else basis.Q1d)
          (if tmode = CEED_NOTRANSPOSE then basis.colograd1d else basis.interp1d)
          tmode (if add ≠ 0 ∧ d = basis.dim - 1 then 1 else 0)
          (if tmode = CEED_NOTRANSPOSE then (gradSecond basis nelem tmode add u s d).interp
           else (if d = 0 then (gradSecond basis nelem tmode add u s d).interp
             else (gradSecond basis nelem tmode add u s d).tmp (d % 2)))
          (if tmode = CEED_NOTRANSPOSE then
            OptBuf.v (d * CeedPowInt basis.Q1d basis.dim * basis.ncomp * nelem)
           else (if d = basis.dim - 1 then OptBuf.v 0 else OptBuf.tmp ((d + 1) % 2)))
          (gradSecond basis nelem tmode add u s d) := rfl

/-- The size of the output of contraction `d` of a chain against the scratch
length, `M` being at least `P` and `Q`. -/
theorem chain_size_le {N P Q E M dim d : Nat} (hd : d < dim) (hP : 0 < P) (hPM : P ≤ M)
    (hQM : Q ≤ M) :
    N * P ^ (dim - 1) / P ^ d * Q * (E * Q ^ d) ≤ E * N * Q * M ^ (dim - 1) := by
  rw [pre_div hP hd]
  have e : dim - 1 = (dim - 1 - d) + d := by omega
  have h1 : P ^ (dim - 1 - d) * Q ^ d ≤ M ^ (dim - 1) := by
    conv_rhs => rw [e, pow_add]
    exact Nat.mul_le_mul (Nat.pow_le_pow_left hPM _) (Nat.pow_le_pow_left hQM _)
  calc N * P ^ (dim - 1 - d) * Q * (E * Q ^ d)
      = E * N * Q * (P ^ (dim - 1 - d) * Q ^ d) := by ring
    _ ≤ E * N * Q * M ^ (dim - 1) := Nat.mul_le_mul_left _ h1

theorem chain_size_eq {N P Q E dim d : Nat} (hd : d < dim) (hP : 0 < P) :
    N * P ^ (dim - 1) / P ^ d * Q * (E * Q ^ d) = E * N * (Q ^ (d + 1) * P ^ (dim - 1 - d)) := by
  rw [pre_div hP hd, pow_succ]
  ring

theorem pow_mix_le_iff {P Q dim d : Nat} (hd : d < dim) (hQ : 0 < Q) :
    P ^ (d + 1) * Q ^ (dim - 1 - d) ≤ Q ^ dim ↔ P ≤ Q := by
  have e : dim = (d + 1) + (dim - 1 - d) := by omega
  have hpos : 0 < Q ^ (dim - 1 - d) := Nat.pow_pos hQ
  constructor
  · intro h
    by_contra hlt
    have hlt : Q < P := by omega
    have h1 : Q ^ (d + 1) < P ^ (d + 1) := Nat.pow_lt_pow_left hlt (by omega)
    have h2 : Q ^ (d + 1) * Q ^ (dim - 1 - d) < P ^ (d + 1) * Q ^ (dim - 1 - d) :=
      Nat.mul_lt_mul_of_pos_right h1 hpos
    rw [← pow_add, ← e] at h2
    omega
  · intro h
    conv_rhs => rw [e, pow_add]
    exact Nat.mul_le_mul_right _ (Nat.pow_le_pow_left h _)

theorem gradScratchLen_transpose {R : Type} (basis : CeedBasis R) (nelem : Nat)
    (hdim : 0 < basis.dim) :
    gradScratchLen basis nelem CEED_TRANSPOSE = nelem * basis.ncomp * basis.Q1d ^ basis.dim := by
  unfold gradScratchLen CeedPowInt
  have e : basis.dim = (basis.dim - 1) + 1 := by omega
  simp only [if_true, gt_iff_lt, lt_self_iff_false, if_false]
  conv_rhs => rw [e, pow_succ]
  ring

/-- C32: the sizes of the contractions of the GRAD branch of
`CeedBasisApply_Opt` against the declared length
`nelem*ncomp*Q*max(P,Q)^(dim-1)` of `interp` and of each half of `tmp`, for
`P1d, Q1d, ncomp, nelem >= 1` and every `d < dim`. `applyGrad_Opt` is its first
loop followed by its second loop. Contraction `d` of the first loop, when it
is issued (the status is still 0), writes `A*J*C = pre*Q1d*post` values, which
is at most the declared length, in both transpose modes. In transpose mode the
arrays are declared with `P = Q = Q1d`, so their length is
`nelem*ncomp*Q1d^dim`, while contraction `d` of the second loop, when issued,
writes `pre*P1d*post = nelem*ncomp*P1d^(d+1)*Q1d^(dim-1-d)` values: this is at
most the declared length exactly when `P1d <= Q1d`. When `nelem` is a multiple
of 8 and `P1d`, `Q1d` are multiples of 4, contraction `d` of the second loop is
issued, and for `d + 1 < dim` it leaves in `tmp[(d+1)%2]`, at every `k` below
`pre*P1d*post`, the contraction sum of its input, whatever that entry held. -/
theorem C32_grad_scratch_sizes {R : Type} [CommRing R] (basis : CeedBasis R) (nelem : Nat)
    (tmode : CeedTransposeMode) (add : Int) (u : Nat → R) (s : OptState R) (d : Nat)
    (hd : d < basis.dim) (hP : 0 < basis.P1d) (hQ : 0 < basis.Q1d) (hc : 0 < basis.ncomp)
    (hn : 0 < nelem) :
    applyGrad_Opt basis nelem tmode add u s = gradSecond basis nelem tmode add u s basis.dim ∧
    ((gradFirst basis nelem tmode add u s d).ierr = 0 →
      (gradFirst basis nelem tmode add u s d).pre * basis.Q1d
          * (gradFirst basis nelem tmode add u s d).post
        ≤ gradScratchLen basis nelem tmode) ∧
    (tmode = CEED_TRANSPOSE → (gradSecond basis nelem tmode add u s d).ierr = 0 →
      gradScratchLen basis nelem tmode = nelem * basis.ncomp * basis.Q1d ^ basis.dim ∧
      (gradSecond basis nelem tmode add u s d).pre * basis.P1d
          * (gradSecond basis nelem tmode add u s d).post
        = nelem * basis.ncomp * (basis.P1d ^ (d + 1) * basis.Q1d ^ (basis.dim - 1 - d)) ∧
      ((gradSecond basis nelem tmode add u s d).pre * basis.P1d
          * (gradSecond basis nelem tmode add u s d).post
        ≤ gradScratchLen basis nelem tmode ↔ basis.P1d ≤ basis.Q1d)) ∧
    (tmode = CEED_TRANSPOSE → s.ierr = 0 → nelem % 8 = 0 → basis.Q1d % 4 = 0 →
      basis.P1d % 4 = 0 → d + 1 < basis.dim →
      (gradSecond basis nelem tmode add u s d).ierr = 0 ∧
      ∀ k, k < (gradSecond basis nelem tmode add u s d).pre * basis.P1d
            * (gradSecond basis nelem tmode add u s d).post →
        (gradSecond basis nelem tmode add u s (d + 1)).tmp ((d + 1) % 2) k
          = contrSum basis.Q1d (gradSecond basis nelem tmode add u s d).post basis.P1d 1
              basis.P1d basis.interp1d
              (if d = 0 then (gradSecond basis nelem tmode add u s d).interp
               else (gradSecond basis nelem tmode add u s d).tmp (d % 2)) k) := by
  refine ⟨rfl, ?_, ?_, ?_⟩
  · intro h
    obtain ⟨_, hpre, hpost⟩ := gradFirst_inv basis nelem tmode add u s d h
    rw [hpre, hpost]
    unfold gradScratchLen CeedPowInt
    have hP' : 0 < (if tmode = CEED_TRANSPOSE then basis.Q1d else basis.P1d) := by
      cases tmode
      · exact hP
      · exact hQ
    apply chain_size_le hd hP'
    · split_ifs <;> omega
    · split_ifs <;> omega
  · intro ht h
    subst ht
    obtain ⟨_, hpre, hpost⟩ := gradSecond_inv basis nelem CEED_TRANSPOSE add u s d h
    have hlen := gradScratchLen_transpose basis nelem (by omega)
    have hsz : (gradSecond basis nelem CEED_TRANSPOSE add u s d).pre * basis.P1d
          * (gradSecond basis nelem CEED_TRANSPOSE add u s d).post
        = nelem * basis.ncomp * (basis.P1d ^ (d + 1) * basis.Q1d ^ (basis.dim - 1 - d)) := by
      rw [hpre, hpost]
      simp only [if_true]
      exact chain_size_eq hd hQ
    refine ⟨hlen, hsz, ?_⟩
    rw [hsz, hlen]
    have hpos : 0 < nelem * basis.ncomp := Nat.mul_pos hn hc
    rw [mul_le_mul_left hpos]
    exact pow_mix_le_iff hd hQ
  · intro ht h0 hE hQ4 hP4 hd1
    subst ht
    have hok := gradSecond_ok basis nelem CEED_TRANSPOSE add u s d h0 hE hQ4 hP4
    refine ⟨hok, ?_⟩
    intro k hk
    obtain ⟨_, _, hpost⟩ := gradSecond_inv basis nelem CEED_TRANSPOSE add u s d hok
    have hC8 : (gradSecond basis nelem CEED_TRANSPOSE add u s d).post % 8 = 0 := by
      rw [hpost]; exact mul_pow_mod8 hE
    rw [gradSecond_succ]
    generalize gradSecond basis nelem CEED_TRANSPOSE add u s d = g at *
    have hlast : d ≠ basis.dim - 1 := by omega
    simp only [if_true, reduceCtorEq, if_false, hlast, and_false]
    rw [optStep_ok _ _ _ _ _ _ _ _ hok hC8 hP4]
    show ((g.set (OptBuf.tmp ((d + 1) % 2)) _).tmp ((d + 1) % 2)) k = _
    simp only [OptState.set, if_true]
    rw [contract_flat _ _ _ _ _ _ _ _ _ hC8 hP4 k hk]
    simp

/-- Witness of C32 in transpose mode with `dim = 2`, `P1d = 8`, `Q1d = 4`,
`ncomp = 1` and `nelem = 8`: the halves of `tmp` are declared with
`8*1*4*4 = 128` entries, the first contraction of the second loop is issued
with `A*J*C = 4*8*8 = 256` and destination `tmp[1]`, and it overwrites
`tmp[1][255]`, which held `-248`, with 0 (the interpolation matrix is zero). -/
theorem C32_grad_scratch_sizes_witness :
    (0 < wGradBasis.dim ∧ 0 < wGradBasis.P1d ∧ 0 < wGradBasis.Q1d ∧ 0 < wGradBasis.ncomp
      ∧ 0 < 8) ∧
    (gradSecond wGradBasis 8 CEED_TRANSPOSE 0 wU wGradState 0).ierr = 0 ∧
    gradScratchLen wGradBasis 8 CEED_TRANSPOSE = 128 ∧
    (gradSecond wGradBasis 8 CEED_TRANSPOSE 0 wU wGradState 0).pre * 8
        * (gradSecond wGradBasis 8 CEED_TRANSPOSE 0 wU wGradState 0).post = 256 ∧
    (gradSecond wGradBasis 8 CEED_TRANSPOSE 0 wU wGradState 1).tmp 1 255 = 0 ∧
    wGradState.tmp 1 255 = -248 := by
  obtain ⟨_, _, h3, h4⟩ := C32_grad_scratch_sizes wGradBasis 8 CEED_TRANSPOSE 0 wU wGradState 0
    (by decide) (by decide) (by decide) (by decide) (by decide)
  obtain ⟨hok, hw⟩ := h4 rfl rfl (by decide) (by decide) (by decide) (by decide)
  obtain ⟨hlen, hsz, _⟩ := h3 rfl hok
  refine ⟨⟨by decide, by decide, by decide, by decide, by decide⟩, hok, hlen, hsz, ?_,
    by decide⟩
  have hk : 255 < (gradSecond wGradBasis 8 CEED_TRANSPOSE 0 wU wGradState 0).pre * wGradBasis.P1d
      * (gradSecond wGradBasis 8 CEED_TRANSPOSE 0 wU wGradState 0).post := by
    rw [hsz]
    decide
  have hv := hw 255 hk
  rw [show (0 + 1) % 2 = 1 from rfl] at hv
  rw [hv]
  simp [contrSum, wGradBasis]

/-! ### Bounds of the indexed gather -/

theorem flat_recompose {nelem ES NC i : Nat} (hi : i < nelem * ES * NC) :
    i = (i / (NC * ES) * NC + i / ES % NC) * ES + i % ES := by
  obtain ⟨_, _, _, _, _, he, _⟩ := flat_triple hi
  rw [he]
  have h1 := Nat.div_add_mod (i / ES) NC
  have h2 := Nat.div_add_mod i ES
  rw [Nat.mul_comm (i / ES / NC) NC, h1, Nat.mul_comm (i / ES) ES, h2]

/-- C33: the indexed gather stays in bounds. When every entry of the index
array (of length `nelem*elemsize`) is below `ndof`, then for every flat index
`i < nelem*elemsize*ncomp` the triple `e = i / (ncomp*elemsize)`,
`d = (i / elemsize) % ncomp`, `s = i % elemsize` of the kernels satisfies
`e < nelem`, `d < ncomp`, `s < elemsize` and `i = (e*ncomp + d)*elemsize + s`;
the position `s + elemsize*e` read in the index array is below
`nelem*elemsize`; and the address read in `u`, which is
`indices[s + elemsize*e] + ndof*d` in `noTrNoTr` and
`ncomp*indices[s + elemsize*e] + d` in `noTrTr`, is below `ndof*ncomp`. -/
theorem C33_indexed_gather_in_bounds (m : RestrictionDefs) (nelem : Nat) (indices : Nat → Nat)
    (i : Nat)
    (hind : ∀ k, k < nelem * m.RESTRICTION_ELEMSIZE → indices k < m.RESTRICTION_NDOF)
    (hi : i < nelem * m.RESTRICTION_ELEMSIZE * m.RESTRICTION_NCOMP) :
    i / (m.RESTRICTION_NCOMP * m.RESTRICTION_ELEMSIZE) < nelem ∧
    i / m.RESTRICTION_ELEMSIZE % m.RESTRICTION_NCOMP < m.RESTRICTION_NCOMP ∧
    i % m.RESTRICTION_ELEMSIZE < m.RESTRICTION_ELEMSIZE ∧
    i = (i / (m.RESTRICTION_NCOMP * m.RESTRICTION_ELEMSIZE) * m.RESTRICTION_NCOMP
          + i / m.RESTRICTION_ELEMSIZE % m.RESTRICTION_NCOMP) * m.RESTRICTION_ELEMSIZE
        + i % m.RESTRICTION_ELEMSIZE ∧
    i % m.RESTRICTION_ELEMSIZE
        + m.RESTRICTION_ELEMSIZE * (i / (m.RESTRICTION_NCOMP * m.RESTRICTION_ELEMSIZE))
      < nelem * m.RESTRICTION_ELEMSIZE ∧
    addrNoTr m indices i
      = indices (i % m.RESTRICTION_ELEMSIZE
            + m.RESTRICTION_ELEMSIZE * (i / (m.RESTRICTION_NCOMP * m.RESTRICTION_ELEMSIZE)))
          + m.RESTRICTION_NDOF * (i / m.RESTRICTION_ELEMSIZE % m.RESTRICTION_NCOMP) ∧
    addrNoTr m indices i < m.RESTRICTION_NDOF * m.RESTRICTION_NCOMP ∧
    addrTr m indices i
      = m.RESTRICTION_NCOMP * indices (i % m.RESTRICTION_ELEMSIZE
            + m.RESTRICTION_ELEMSIZE * (i / (m.RESTRICTION_NCOMP * m.RESTRICTION_ELEMSIZE)))
          + i / m.RESTRICTION_ELEMSIZE % m.RESTRICTION_NCOMP ∧
    addrTr m indices i < m.RESTRICTION_NDOF * m.RESTRICTION_NCOMP := by
  obtain ⟨_, _, he, hd, hs, _, hpos⟩ := flat_triple hi
  exact ⟨he, hd, hs, flat_recompose hi, hpos, rfl, addrNoTr_lt hind hi, rfl,
    addrTr_lt hind hi⟩

/-- Witness of C33 on two elements of two nodes with two components and three
global nodes, at the flat index 5. -/
theorem C33_indexed_gather_in_bounds_witness :
    ((∀ k, k < 2 * wRestr.RESTRICTION_ELEMSIZE → wIndices k < wRestr.RESTRICTION_NDOF) ∧
      5 < 2 * wRestr.RESTRICTION_ELEMSIZE * wRestr.RESTRICTION_NCOMP) ∧
    5 / (wRestr.RESTRICTION_NCOMP * wRestr.RESTRICTION_ELEMSIZE) < 2 ∧
    5 / wRestr.RESTRICTION_ELEMSIZE % wRestr.RESTRICTION_NCOMP < wRestr.RESTRICTION_NCOMP ∧
    5 % wRestr.RESTRICTION_ELEMSIZE < wRestr.RESTRICTION_ELEMSIZE ∧
    5 = (5 / (wRestr.RESTRICTION_NCOMP * wRestr.RESTRICTION_ELEMSIZE) * wRestr.RESTRICTION_NCOMP
          + 5 / wRestr.RESTRICTION_ELEMSIZE % wRestr.RESTRICTION_NCOMP)
            * wRestr.RESTRICTION_ELEMSIZE
        + 5 % wRestr.RESTRICTION_ELEMSIZE ∧
    5 % wRestr.RESTRICTION_ELEMSIZE
        + wRestr.RESTRICTION_ELEMSIZE
          * (5 / (wRestr.RESTRICTION_NCOMP * wRestr.RESTRICTION_ELEMSIZE))
      < 2 * wRestr.RESTRICTION_ELEMSIZE ∧
    addrNoTr wRestr wIndices 5
      = wIndices (5 % wRestr.RESTRICTION_ELEMSIZE
            + wRestr.RESTRICTION_ELEMSIZE
              * (5 / (wRestr.RESTRICTION_NCOMP * wRestr.RESTRICTION_ELEMSIZE)))
          + wRestr.RESTRICTION_NDOF * (5 / wRestr.RESTRICTION_ELEMSIZE % wRestr.RESTRICTION_NCOMP) ∧
    addrNoTr wRestr wIndices 5 < wRestr.RESTRICTION_NDOF * wRestr.RESTRICTION_NCOMP ∧
    addrTr wRestr wIndices 5
      = wRestr.RESTRICTION_NCOMP * wIndices (5 % wRestr.RESTRICTION_ELEMSIZE
            + wRestr.RESTRICTION_ELEMSIZE
              * (5 / (wRestr.RESTRICTION_NCOMP * wRestr.RESTRICTION_ELEMSIZE)))
          + 5 / wRestr.RESTRICTION_ELEMSIZE % wRestr.RESTRICTION_NCOMP ∧
    addrTr wRestr wIndices 5 < wRestr.RESTRICTION_NDOF * wRestr.RESTRICTION_NCOMP :=
  ⟨⟨by decide, by decide⟩,
    C33_indexed_gather_in_bounds wRestr 2 wIndices 5 (by decide) (by decide)⟩

/-! ### The density flux of `NS` -/

theorem store_ne {R : Type} (p : Nat → R) (k j : Nat) (x : R) (h : j ≠ k) :
    store p k x j = p j := by
  unfold store
  rw [if_neg h]

theorem store_same {R : Type} (p : Nat → R) (k : Nat) (x : R) : store p k x k = x := by
  unfold store
  rw [if_pos rfl]

theorem subAssign_ne {F : Type} [Field F] (p : Nat → F) (k j : Nat) (x : F) (h : j ≠ k) :
    subAssign p k x j = p j := by
  unfold subAssign
  rw [if_neg h]

theorem subAssign_same {F : Type} [Field F] (p : Nat → F) (k : Nat) (x : F) :
    subAssign p k x k = p k - x := by
  unfold subAssign
  rw [if_pos rfl]

/-- The density entries of `vg` written at point `i`. -/
theorem NS_point_density {F : Type} [Field F] (context : Nat → F) (Q : Nat)
    (q dq qdata x : Nat → F) (i : Nat) (out : (Nat → F) × (Nat → F)) (hi : i < Q)
    (k : Nat) (hk : k < 3) :
    (NS_point context Q q dq qdata x i out).2 (i + (0 + 5 * k) * Q)
      = q i * (q (i + 1 * Q) / q i) * qdata (i + (3 * k + 1) * Q)
        + q i * (q (i + 2 * Q) / q i) * qdata (i + (3 * k + 2) * Q)
        + q i * (q (i + 2 * Q) / q i) * qdata (i + (3 * k + 3) * Q) := by
  unfold NS_point
  interval_cases k <;>
  simp (disch := omega) only [store_ne, subAssign_ne, store_same, cArray, List.getD_cons_zero,
    List.getD_cons_succ, Nat.zero_mul, Nat.add_zero, Nat.mul_zero, Nat.zero_add, Nat.mul_one]

/-- Point `j` writes no entry `i + m*Q` of `vg` with `i < Q` different from `j`. -/
theorem NS_point_frame {F : Type} [Field F] (context : Nat → F) (Q : Nat)
    (q dq qdata x : Nat → F) (j : Nat) (out : (Nat → F) × (Nat → F)) (hj : j < Q)
    (i : Nat) (hi : i < Q) (hne : i ≠ j) (c : Nat) :
    (NS_point context Q q dq qdata x j out).2 (i + c * Q) = out.2 (i + c * Q) := by
  have key : ∀ b : Nat, i + c * Q ≠ j + b * Q := by
    intro b h
    have h1 := congrArg (fun n => n % Q) h
    simp only [Nat.add_mul_mod_self_right, Nat.mod_eq_of_lt hi, Nat.mod_eq_of_lt hj] at h1
    exact hne h1
  unfold NS_point
  simp only [store_ne _ _ _ _ (key _), subAssign_ne _ _ _ _ (key _)]

/-- The energy entries of `vg` written at point `i`, before the viscous part is
subtracted, and what is subtracted. -/
theorem NS_point_energy {F : Type} [Field F] (context : Nat → F) (Q : Nat)
    (q dq qdata x : Nat → F) (i : Nat) (out : (Nat → F) × (Nat → F)) (hi : i < Q)
    (hmu : context 1 = 0) (k : Nat) (hk : k < 3) :
    (NS_point context Q q dq qdata x i out).2 (i + (4 + 5 * k) * Q)
      = (q (i + 4 * Q)
          + (q (i + 4 * Q)
              - ((q (i + 1 * Q) / q i) * (q (i + 1 * Q) / q i)
                  + (q (i + 2 * Q) / q i) * (q (i + 2 * Q) / q i)
                  + (q (i + 3 * Q) / q i) * (q (i + 3 * Q) / q i)) * q i / 2
              - q i * context 5 * x (i + Q * 2)) * (context 3 / context 4 - 1))
        * ((q (i + 1 * Q) / q i) * qdata (i + (3 * k + 1) * Q)
          + (q (i + 2 * Q) / q i) * qdata (i + (3 * k + 2) * Q)
          + (q (i + 3 * Q) / q i) * qdata (i + (3 * k + 3) * Q)) := by
  unfold NS_point
  interval_cases k <;>
  simp (disch := omega) only [store_ne, subAssign_ne, store_same, subAssign_same, cArray,
    List.getD_cons_zero, List.getD_cons_succ, Nat.zero_mul, Nat.add_zero, Nat.mul_zero,
    Nat.zero_add, Nat.mul_one, hmu, zero_mul, mul_zero, zero_div, add_zero, sub_zero]

theorem NS_loop {F : Type} [Field F] (context : Nat → F) (Q : Nat)
    (q dq qdata x : Nat → F) (out : (Nat → F) × (Nat → F)) (i : Nat) (hi : i < Q) (c : Nat)
    (n : Nat) (hn : n ≤ Q) :
    (forLoop (NS_point context Q q dq qdata x) n out).2 (i + c * Q)
      = if i < n then
          (NS_point context Q q dq qdata x i
            (forLoop (NS_point context Q q dq qdata x) i out)).2 (i + c * Q)
        else out.2 (i + c * Q) := by
  induction n with
  | zero => rfl
  | succ n ih =>
    rw [forLoop_succ]
    by_cases h : i = n
    · subst h
      rw [if_pos (Nat.lt_succ_self _)]
    · rw [NS_point_frame context Q q dq qdata x n _ (by omega) i hi h c, ih (by omega)]
      by_cases h2 : i < n
      · rw [if_pos h2, if_pos (by omega)]
      · rw [if_neg h2, if_neg (by omega)]

/-- C34: the density flux that `NS` writes. `NS` returns 0 and, for every
quadrature point `i < Q` and every `k < 3`, leaves
`vg[i+(0+5k)*Q] = rho*u0*BJ[3k] + rho*u1*BJ[3k+1] + rho*u1*BJ[3k+2]` with
`rho = q[i]`, `u_j = q[i+(j+1)*Q]/rho` and `BJ[m] = qdata[i+(m+1)*Q]`: the third
term carries `u1`, not `u2` (lines 186-188). The energy flux of lines 225-227
contracts with `u0, u1, u2`: when the viscosity `mu = context[1]` is zero, so
that the viscous part subtracted in lines 229-231 vanishes,
`vg[i+(4+5k)*Q] = (E + P)*(u0*BJ[3k] + u1*BJ[3k+1] + u2*BJ[3k+2])` with
`E = q[i+4*Q]` and
`P = (E - (u0*u0 + u1*u1 + u2*u2)*rho/2 - rho*g*x[i+Q*2]) * (cp/cv - 1)`. -/
theorem C34_density_flux {F : Type} [Field F] (context : Nat → F) (Q : Nat)
    (q dq qdata x v vg : Nat → F) (i k : Nat) (hi : i < Q) (hk : k < 3) :
    (NS context Q q dq qdata x v vg).1 = 0 ∧
    (NS context Q q dq qdata x v vg).2.2 (i + (0 + 5 * k) * Q)
      = q i * (q (i + 1 * Q) / q i) * qdata (i + (3 * k + 1) * Q)
        + q i * (q (i + 2 * Q) / q i) * qdata (i + (3 * k + 2) * Q)
        + q i * (q (i + 2 * Q) / q i) * qdata (i + (3 * k + 3) * Q) ∧
    (context 1 = 0 →
      (NS context Q q dq qdata x v vg).2.2 (i + (4 + 5 * k) * Q)
        = (q (i + 4 * Q)
            + (q (i + 4 * Q)
                - ((q (i + 1 * Q) / q i) * (q (i + 1 * Q) / q i)
                    + (q (i + 2 * Q) / q i) * (q (i + 2 * Q) / q i)
                    + (q (i + 3 * Q) / q i) * (q (i + 3 * Q) / q i)) * q i / 2
                - q i * context 5 * x (i + Q * 2)) * (context 3 / context 4 - 1))
          * ((q (i + 1 * Q) / q i) * qdata (i + (3 * k + 1) * Q)
            + (q (i + 2 * Q) / q i) * qdata (i + (3 * k + 2) * Q)
            + (q (i + 3 * Q) / q i) * qdata (i + (3 * k + 3) * Q))) := by
  refine ⟨rfl, ?_, ?_⟩
  · show (forLoop (NS_point context Q q dq qdata x) Q (v, vg)).2 (i + (0 + 5 * k) * Q) = _
    rw [NS_loop context Q q dq qdata x (v, vg) i hi (0 + 5 * k) Q (le_refl _), if_pos hi]
    exact NS_point_density context Q q dq qdata x i _ hi k hk
  · intro hmu
    show (forLoop (NS_point context Q q dq qdata x) Q (v, vg)).2 (i + (4 + 5 * k) * Q) = _
    rw [NS_loop context Q q dq qdata x (v, vg) i hi (4 + 5 * k) Q (le_refl _), if_pos hi]
    exact NS_point_energy context Q q dq qdata x i _ hi hmu k hk

/-- Witness of C34 with two quadrature points, at point 1 and `k = 2`:
`rho = 2`, `u = (2, 3, 4)` and `BJ[6] = BJ[7] = BJ[8] = 1`. `NS` leaves
`vg[1 + 10*2] = 2*2 + 2*3 + 2*3 = 16`, and the momentum density contracted with
row 2 of `BJ` is `2*(2*1 + 3*1 + 4*1) = 18`. -/
theorem C34_density_flux_witness :
    (1 < 2 ∧ 2 < 3) ∧
    (NS wNSone 2 wNSq wNSone wNSone wNSone wNSone wNSone).1 = 0 ∧
    (NS wNSone 2 wNSq wNSone wNSone wNSone wNSone wNSone).2.2 (1 + (0 + 5 * 2) * 2) = 16 ∧
    wNSq 1 * ((wNSq (1 + 1 * 2) / wNSq 1) * wNSone (1 + (3 * 2 + 1) * 2)
        + (wNSq (1 + 2 * 2) / wNSq 1) * wNSone (1 + (3 * 2 + 2) * 2)
        + (wNSq (1 + 3 * 2) / wNSq 1) * wNSone (1 + (3 * 2 + 3) * 2)) = 18 :=
  ⟨⟨by decide, by decide⟩,
    (C34_density_flux wNSone 2 wNSq wNSone wNSone wNSone wNSone wNSone 1 2
      (by decide) (by decide)).1,
    ((C34_density_flux wNSone 2 wNSq wNSone wNSone wNSone wNSone wNSone 1 2
      (by decide) (by decide)).2.1).trans (by norm_num [wNSq, wNSone]),
    by norm_num [wNSq, wNSone]⟩

end Ceed
